import Mathlib

/-!
# Yori shell command-line grammar engine (`sh/parse.c`)

A shallow embedding of the tokenizer, the command-line rebuilder, the
single-program exec-context builder, the execution-plan builder and the
backquote substring scan of `sh/parse.c`, followed by theorems about them.

Conventions of the embedding:

* a `YORI_STRING` is the list of its `LengthInChars` characters; reading
  `StartOfString[i]` at or past the length of a NUL terminated argument
  yields the NUL character;
* the `DWORD` counters of the tokenizer are natural numbers: they are bounded
  by twice the length of the line plus one, and the length of a line is
  itself a `DWORD`; the one place where a conversion changes a value, the
  cast of the cursor offset to `LONG`, is modelled explicitly;
* the `while` loops are run with a fuel bound and return `none` when the
  fuel runs out; the entry points pass enough fuel, and every theorem states
  that a result is produced;
* in the backquote scan the `DWORD` subtractions and the sum of an offset
  and a length are taken modulo `2 ^ 32`; the counters `CurrentDepth` and
  `MatchCount` are at most the number of characters read, and the loop
  over the string is a recursion on the text that is still unread;
* collaborators that live outside `parse.c` (environment expansion, path
  resolution, device-name test) are parameters.
-/

namespace Yori

/-! ## Characters and strings -/

/-- The NUL character that terminates every argument in the output buffer. -/
def NUL : Char := Char.ofNat 0

/-- Modelled from the spec: `YoriLibIsEscapeChar` is declared in the library
header, which is not part of the sources at hand; the escape character is the
caret. -/
def YoriLibIsEscapeChar (c : Char) : Bool := c == '^'

/-- Result of `YoriShIsArgumentSeperator`: the two out parameters.  The
function's `BOOL` result is `CharsToConsume > 0`. -/
structure SeperatorResult where
  CharsToConsume : Nat
  TerminateArg : Bool
deriving DecidableEq, Repr

/-- `YoriShIsArgumentSeperator` (parse.c 58-130).  `Str[i]? = some c` renders
`LengthInChars >= i + 1 && StartOfString[i] == c`. -/
def YoriShIsArgumentSeperator (Str : List Char) : SeperatorResult :=
  match Str with
  | [] => ⟨0, false⟩
  | c0 :: _ =>
    if c0 = '|' then
      if Str[1]? = some '|' then ⟨2, true⟩ else ⟨1, true⟩
    else if c0 = '&' then
      if Str[1]? = some '&' then ⟨2, true⟩
      else if Str[1]? = some '!' then
        if Str[2]? = some '!' then ⟨3, true⟩ else ⟨2, true⟩
      else ⟨1, true⟩
    else if c0 = '\n' then ⟨1, true⟩
    else if c0 = '>' then
      if Str[1]? = some '>' then ⟨2, false⟩
      else if Str[1]? = some '&' ∧ Str[2]? = some '2' then ⟨3, true⟩
      else ⟨1, false⟩
    else if c0 = '<' then ⟨1, false⟩
    else if c0 = '1' then
      if Str[1]? = some '>' then
        if Str[2]? = some '>' then ⟨3, false⟩
        else if Str[2]? = some '&' ∧ Str[3]? = some '2' then ⟨4, true⟩
        else ⟨2, false⟩
      else ⟨0, false⟩
    else if c0 = '2' then
      if Str[1]? = some '>' then
        if Str[2]? = some '>' then ⟨3, false⟩
        else if Str[2]? = some '&' ∧ Str[3]? = some '1' then ⟨4, true⟩
        else ⟨2, false⟩
      else ⟨0, false⟩
    else ⟨0, false⟩

/-- `YoriShTrimSpacesFromBeginning` (parse.c 139-152). -/
def YoriShTrimSpacesFromBeginning : List Char → List Char
  | [] => []
  | c :: cs => if c = ' ' then YoriShTrimSpacesFromBeginning cs else c :: cs

/-- The conversion `(LONG)CurrentOffset` of a `DWORD`. -/
def castLONG (x : Nat) : Int :=
  if x % 2 ^ 32 < 2 ^ 31 then ((x % 2 ^ 32 : Nat) : Int)
  else ((x % 2 ^ 32 : Nat) : Int) - 2 ^ 32

/-! ## The tokenizer: sizing pass -/

/-- Local variables of `YoriShParseCmdlineToCmdContext` during its first
loop (parse.c 180-210), with the two `CmdContext` fields it writes.  `Char`
is the unread remainder of the line. -/
structure SizingState where
  Char : List Char
  ArgCount : Nat
  RequiredCharCount : Nat
  CharsToConsume : Nat
  TerminateNextArg : Bool
  QuoteOpen : Bool
  LookingForFirstQuote : Bool
  CurrentArgFound : Bool
  CurrentArg : Nat
  TrailingChars : Bool
deriving DecidableEq, Repr

/-- The statement `if (!CurrentArgFound) { CurrentArgFound = TRUE;
CmdContext->CurrentArg = ArgCount; }`. -/
def SizingState.markCurrent (s : SizingState) : SizingState :=
  if s.CurrentArgFound then s
  else { s with CurrentArgFound := true, CurrentArg := s.ArgCount }

/-- The statement guarded by `!CurrentArgFound && (Char.StartOfString -
CmdLine->StartOfString > (LONG)CurrentOffset)` (parse.c 306-311, 355-360). -/
def SizingState.markCurrentIfPast (CmdLineLen CurrentOffset : Nat)
    (s : SizingState) : SizingState :=
  if s.CurrentArgFound = false ∧
      castLONG CurrentOffset < ((CmdLineLen - s.Char.length : Nat) : Int) then
    { s with CurrentArgFound := true, CurrentArg := s.ArgCount }
  else s

/-- End of string reached inside an argument: record the current argument
if still unknown and count the argument (parse.c 244-250, 264-270, 385-391). -/
def SizingState.countLast (s : SizingState) : SizingState :=
  let s1 := s.markCurrent
  { s1 with ArgCount := s1.ArgCount + 1 }

/-- The `if (TerminateArg)` branch of the sizing loop (parse.c 297-369).
The flag returned is `true` when the branch leaves the loop by `break`. -/
def sizingTerminate (CmdLineLen CurrentOffset : Nat) (s : SizingState) :
    SizingState × Bool :=
  let trimmed := YoriShTrimSpacesFromBeginning s.Char
  let s1 : SizingState :=
    { s with Char := trimmed,
             TrailingChars := if trimmed = [] then true else s.TrailingChars }
  let s2 := s1.markCurrentIfPast CmdLineLen CurrentOffset
  let s3 : SizingState := { s2 with ArgCount := s2.ArgCount + 1 }
  if s3.Char = [] then (s3, true)
  else
    let s4 : SizingState :=
      if s3.CharsToConsume = 0 then
        let r := YoriShIsArgumentSeperator s3.Char
        { s3 with CharsToConsume := r.CharsToConsume, TerminateNextArg := r.TerminateArg }
      else s3
    let s5 : SizingState :=
      { s4 with RequiredCharCount := s4.RequiredCharCount + s4.CharsToConsume,
                Char := s4.Char.drop s4.CharsToConsume }
    if s5.Char = [] then (s5.countLast, true)
    else
      let s6 : SizingState :=
        if s5.TerminateNextArg then
          let t : SizingState :=
            { s5 with RequiredCharCount := s5.RequiredCharCount + 1,
                      Char := YoriShTrimSpacesFromBeginning s5.Char }
          let t1 := t.markCurrentIfPast CmdLineLen CurrentOffset
          { t1 with ArgCount := t1.ArgCount + 1 }
        else s5
      ({ s6 with LookingForFirstQuote := decide (s6.Char.head? = some '"') }, false)

/-- The `else` branch of `if (TerminateArg)` in the sizing loop (parse.c
372-392): the character `c` is counted and consumed. -/
def sizingLiteral (rest : List Char) (s : SizingState) : SizingState × Bool :=
  let s3 : SizingState :=
    { s with RequiredCharCount := s.RequiredCharCount + 1, Char := rest }
  (if rest = [] then s3.countLast else s3, false)

/-- One iteration of the sizing loop (parse.c 210-393).  The flag returned
is `true` when the iteration leaves the loop by `break`.  The local
`TerminateArg` (parse.c 285-295) is true exactly on the paths that end in
`sizingTerminate`. -/
def sizingStep (CmdLineLen CurrentOffset : Nat) (s : SizingState) :
    SizingState × Bool :=
  match s.Char with
  | [] => (s, true)
  | c :: rest =>
    if YoriLibIsEscapeChar c = true then
      match rest with
      | [] =>
        ({ s with Char := [], RequiredCharCount := s.RequiredCharCount + 1,
                  ArgCount := s.ArgCount + 1 }, false)
      | _ :: rest2 =>
        ({ s with Char := rest2, RequiredCharCount := s.RequiredCharCount + 2,
                  ArgCount := if rest2 = [] then s.ArgCount + 1 else s.ArgCount }, false)
    else if c = '"' ∧ s.QuoteOpen = true ∧ s.LookingForFirstQuote = true then
      let s1 : SizingState :=
        { s with QuoteOpen := false, LookingForFirstQuote := false, Char := rest }
      (if rest = [] then s1.countLast else s1, false)
    else
      let s1 : SizingState := if c = '"' then { s with QuoteOpen := !s.QuoteOpen } else s
      if c = '"' ∧ s1.LookingForFirstQuote = true then
        let s2 : SizingState := { s1 with Char := rest }
        (if rest = [] then s2.countLast else s2, false)
      else if s1.QuoteOpen = true then sizingLiteral rest s1
      else if c = ' ' then
        sizingTerminate CmdLineLen CurrentOffset
          { s1 with TerminateNextArg := false, CharsToConsume := 0 }
      else if 0 < s1.ArgCount ∨ 0 < s1.RequiredCharCount then
        let r := YoriShIsArgumentSeperator s1.Char
        let s2 : SizingState :=
          { s1 with CharsToConsume := r.CharsToConsume, TerminateNextArg := r.TerminateArg }
        if 0 < r.CharsToConsume then sizingTerminate CmdLineLen CurrentOffset s2
        else sizingLiteral rest s2
      else sizingLiteral rest s1

/-- The sizing loop `while (Char.LengthInChars > 0)` (parse.c 210-393). -/
def sizingLoop (CmdLineLen CurrentOffset : Nat) : Nat → SizingState → Option SizingState
  | fuel, s =>
    if s.Char = [] then some s
    else match fuel with
      | 0 => none
      | fuel + 1 =>
        match sizingStep CmdLineLen CurrentOffset s with
        | (s1, true) => some s1
        | (s1, false) => sizingLoop CmdLineLen CurrentOffset fuel s1

/-- The state at the head of the sizing loop (parse.c 180-208). -/
def sizingInit (CmdLine : List Char) : SizingState :=
  { Char := YoriShTrimSpacesFromBeginning CmdLine,
    ArgCount := 0, RequiredCharCount := 0, CharsToConsume := 0,
    TerminateNextArg := false, QuoteOpen := false,
    LookingForFirstQuote := decide ((YoriShTrimSpacesFromBeginning CmdLine).head? = some '"'),
    CurrentArgFound := false, CurrentArg := 0, TrailingChars := false }

/-- The sizing pass: initialisation, the loop, and the statements after it
(parse.c 395-402). -/
def sizingPass (CmdLine : List Char) (CurrentOffset : Nat) : Option SizingState :=
  match sizingLoop CmdLine.length CurrentOffset (CmdLine.length + 1) (sizingInit CmdLine) with
  | none => none
  | some s =>
    let s1 : SizingState := { s with RequiredCharCount := s.RequiredCharCount + 1 }
    some s1.markCurrent

/-- The state in which the sizing loop ends when started in `s` (the loop
consumes at least one character per iteration, so the length of the unread
text is enough fuel). -/
def sizingRun (CmdLineLen CurrentOffset : Nat) (s : SizingState) : SizingState :=
  (sizingLoop CmdLineLen CurrentOffset s.Char.length s).getD s

/-! ## The tokenizer: fill pass -/

/-- One argument of a command context: `ArgV[i]` together with
`ArgContexts[i].Quoted`. -/
structure Arg where
  Text : List Char
  Quoted : Bool
deriving DecidableEq, Repr

/-- Local variables of `YoriShParseCmdlineToCmdContext` during its second
loop (parse.c 422-450).  `ArgV` holds the entries `0 .. ArgCount - 1`, so
`ArgCount` is `ArgV.length`; `CurOut` is the buffer content from
`ArgV[ArgCount].StartOfString` up to `OutputString`; `CurLen` and `CurQuoted`
are `ArgV[ArgCount].LengthInChars` and `ArgContexts[ArgCount].Quoted`. -/
structure FillState where
  CurOut : List Char
  Char : List Char
  ArgV : List Arg
  CurLen : Nat
  CurQuoted : Bool
  CharsToConsume : Nat
  TerminateNextArg : Bool
  QuoteOpen : Bool
  LookingForFirstQuote : Bool
deriving DecidableEq, Repr

/-- The statements `*OutputString = 0; ArgV[ArgCount].LengthInChars =
OutputString - ArgV[ArgCount].StartOfString; OutputString++`
(parse.c 524-527, 577-580). -/
def FillState.terminateArg (s : FillState) : FillState :=
  { s with CurLen := s.CurOut.length, CurOut := s.CurOut ++ [NUL] }

/-- The statements `ArgCount++; YoriLibInitEmptyString(&ArgV[ArgCount]);
ArgV[ArgCount].StartOfString = OutputString;` and the setting of `Quoted` and
`LookingForFirstQuote` from the next character (parse.c 530-541, 582-593).
The entry left behind is the text `StartOfString[0 .. LengthInChars)`. -/
def FillState.beginArg (s : FillState) : FillState :=
  { s with ArgV := s.ArgV ++ [⟨s.CurOut.take s.CurLen, s.CurQuoted⟩],
           CurOut := [], CurLen := 0,
           CurQuoted := decide (s.Char.head? = some '"'),
           LookingForFirstQuote := decide (s.Char.head? = some '"') }

/-- The `if (TerminateArg)` branch of the fill loop (parse.c 520-596). -/
def fillTerminate (s : FillState) : FillState :=
  let s1 : FillState := { s with Char := YoriShTrimSpacesFromBeginning s.Char }
  let s2 := s1.terminateArg
  if s2.Char = [] then s2
  else
    let s3 := s2.beginArg
    let s4 : FillState :=
      if s3.CharsToConsume = 0 then
        let r := YoriShIsArgumentSeperator s3.Char
        { s3 with CharsToConsume := r.CharsToConsume, TerminateNextArg := r.TerminateArg }
      else s3
    let s5 : FillState :=
      if 0 < s4.CharsToConsume then
        let t : FillState :=
          { s4 with CurOut := s4.CurOut ++ s4.Char.take s4.CharsToConsume,
                    Char := s4.Char.drop s4.CharsToConsume }
        if t.TerminateNextArg = false ∧ t.Char.head? = some '"' then
          { t with LookingForFirstQuote := true }
        else t
      else s4
    if s5.TerminateNextArg = true then
      let s6 : FillState := { s5 with Char := YoriShTrimSpacesFromBeginning s5.Char }
      let s7 := s6.terminateArg
      if s7.Char = [] then s7 else s7.beginArg
    else s5

/-- The `else` branch of `if (TerminateArg)` in the fill loop (parse.c
597-603): the character `c` is copied and consumed. -/
def fillLiteral (c : Char) (rest : List Char) (s : FillState) : FillState :=
  { s with CurOut := s.CurOut ++ [c], Char := rest }

/-- One iteration of the fill loop (parse.c 450-604).  The local
`TerminateArg` (parse.c 508-518) is true exactly on the paths that end in
`fillTerminate`. -/
def fillStep (s : FillState) : FillState :=
  match s.Char with
  | [] => s
  | c :: rest =>
    if YoriLibIsEscapeChar c = true then
      match rest with
      | [] => { s with CurOut := s.CurOut ++ [c], Char := [] }
      | c1 :: rest2 => { s with CurOut := s.CurOut ++ [c, c1], Char := rest2 }
    else if c = '"' ∧ s.QuoteOpen = true ∧ s.LookingForFirstQuote = true then
      { s with QuoteOpen := false, LookingForFirstQuote := false, Char := rest }
    else
      let s1 : FillState := if c = '"' then { s with QuoteOpen := !s.QuoteOpen } else s
      if c = '"' ∧ s1.LookingForFirstQuote = true then
        { s1 with Char := rest }
      else if s1.QuoteOpen = true then fillLiteral c rest s1
      else if c = ' ' then
        fillTerminate { s1 with TerminateNextArg := false, CharsToConsume := 0 }
      else if 0 < s1.ArgV.length ∨ 0 < s1.CurOut.length then
        let r := YoriShIsArgumentSeperator s1.Char
        let s2 : FillState :=
          { s1 with CharsToConsume := r.CharsToConsume, TerminateNextArg := r.TerminateArg }
        if 0 < r.CharsToConsume then fillTerminate s2 else fillLiteral c rest s2
      else fillLiteral c rest s1

/-- The fill loop `while (Char.LengthInChars > 0)` (parse.c 450-604). -/
def fillLoop : Nat → FillState → Option FillState
  | fuel, s =>
    if s.Char = [] then some s
    else match fuel with
      | 0 => none
      | fuel + 1 => fillLoop fuel (fillStep s)

/-- The statement after the fill loop (parse.c 610-614): an entry whose
`LengthInChars` is still zero is given the length `OutputString -
StartOfString`.  The result is the completed argument array. -/
def FillState.finish (s : FillState) : List Arg :=
  let len := if s.CurLen = 0 then s.CurOut.length else s.CurLen
  s.ArgV ++ [⟨s.CurOut.take len, s.CurQuoted⟩]

/-- The state at the head of the fill loop (parse.c 422-448). -/
def fillInit (CmdLine : List Char) (CharsToConsume : Nat) (TerminateNextArg : Bool) :
    FillState :=
  { Char := YoriShTrimSpacesFromBeginning CmdLine, ArgV := [], CurOut := [], CurLen := 0,
    CurQuoted := decide ((YoriShTrimSpacesFromBeginning CmdLine).head? = some '"'),
    CharsToConsume := CharsToConsume, TerminateNextArg := TerminateNextArg,
    QuoteOpen := false,
    LookingForFirstQuote := decide ((YoriShTrimSpacesFromBeginning CmdLine).head? = some '"') }

/-- The fill pass: initialisation, the loop and the final
termination.  `CharsToConsume` and `TerminateNextArg` are not reset between
the passes, so their values at the end of the sizing pass are passed in. -/
def fillPass (CmdLine : List Char) (CharsToConsume : Nat) (TerminateNextArg : Bool) :
    Option (List Arg) :=
  (fillLoop (CmdLine.length + 1) (fillInit CmdLine CharsToConsume TerminateNextArg)).map
    FillState.finish

/-- The state in which the fill loop ends when started in `s` (the loop
consumes at least one character per iteration, so the length of the unread
text is enough fuel). -/
def fillRun (s : FillState) : FillState :=
  (fillLoop s.Char.length s).getD s

/-- The argument array written by the fill pass for a line, the loop run to
its end: empty for a line without arguments, for which the fill pass is
skipped (parse.c 404-409). -/
def tokenize (CmdLine : List Char) (CharsToConsume : Nat) (TerminateNextArg : Bool) :
    List Arg :=
  if YoriShTrimSpacesFromBeginning CmdLine = [] then []
  else (fillRun (fillInit CmdLine CharsToConsume TerminateNextArg)).finish

/-- A command context (`YORI_SH_CMD_CONTEXT`): `ArgC`, the argument array,
`CurrentArg` and `TrailingChars`. -/
structure YORI_SH_CMD_CONTEXT where
  ArgC : Nat
  ArgV : List Arg
  CurrentArg : Nat
  TrailingChars : Bool
deriving DecidableEq, Repr

/-- The loop over `ArgCount < CmdContext->ArgC` that replaces each argument
by its environment expansion (parse.c 620-630).  `Expand` stands for
`YoriShExpandEnvironmentVariables`, returning the argument itself when
nothing is substituted. -/
def expandArguments (Expand : List Char → List Char) (ArgC : Nat) (ArgV : List Arg) :
    List Arg :=
  (ArgV.take ArgC).map (fun a => { a with Text := Expand a.Text }) ++ ArgV.drop ArgC

/-- `YoriShParseCmdlineToCmdContext` (parse.c 173-633), allocation taken to
succeed.  `ArgC` is the count of the sizing pass, `ArgV` the array written by
the fill pass. -/
def YoriShParseCmdlineToCmdContext (Expand : List Char → List Char)
    (CmdLine : List Char) (CurrentOffset : Nat) : Option YORI_SH_CMD_CONTEXT :=
  match sizingPass CmdLine CurrentOffset with
  | none => none
  | some sz =>
    if sz.ArgCount = 0 then
      some { ArgC := 0, ArgV := [], CurrentArg := sz.CurrentArg,
             TrailingChars := sz.TrailingChars }
    else
      match fillPass CmdLine sz.CharsToConsume sz.TerminateNextArg with
      | none => none
      | some args =>
        some { ArgC := sz.ArgCount, ArgV := expandArguments Expand sz.ArgCount args,
               CurrentArg := sz.CurrentArg, TrailingChars := sz.TrailingChars }

/-! ## Rebuilding a command line -/

/-- The character copy loop of `YoriShBuildCmdlineFromCmdContext`
(parse.c 699-711): with `RemoveEscapes` an escape character is skipped and
the character after it is copied; an escape with nothing after it ends the
copy. -/
def copyArgChars (RemoveEscapes : Bool) : List Char → List Char
  | [] => []
  | c :: cs =>
    if RemoveEscapes = true ∧ YoriLibIsEscapeChar c = true then
      match cs with
      | [] => []
      | c1 :: cs1 => c1 :: copyArgChars RemoveEscapes cs1
    else c :: copyArgChars RemoveEscapes cs

/-- The main loop of `YoriShBuildCmdlineFromCmdContext` (parse.c 684-720)
from index `count` on: the characters stored into `CmdLine`. -/
def buildLoop (RemoveEscapes : Bool) : Nat → List Arg → List Char
  | _, [] => []
  | count, ThisArg :: rest =>
    (if count ≠ 0 then [' '] else []) ++
    (if ThisArg.Quoted = true then ['"'] else []) ++
    copyArgChars RemoveEscapes ThisArg.Text ++
    (if ThisArg.Quoted = true then ['"'] else []) ++
    buildLoop RemoveEscapes (count + 1) rest

/-- The string denoted by a NUL terminated character buffer. -/
def cString (buffer : List Char) : List Char :=
  buffer.takeWhile (fun c => c ≠ NUL)

/-- `YoriShBuildCmdlineFromCmdContext` (parse.c 655-725), allocation taken
to succeed and the optional offset out-parameters not requested.  The
function stores the characters of `buildLoop` followed by a NUL and returns
the buffer as an `LPTSTR`; the value is the string that pointer denotes. -/
def YoriShBuildCmdlineFromCmdContext (CmdContext : YORI_SH_CMD_CONTEXT)
    (RemoveEscapes : Bool) : List Char :=
  cString (buildLoop RemoveEscapes 0 (CmdContext.ArgV.take CmdContext.ArgC) ++ [NUL])

/-! ## Single-program exec contexts -/

/-- Modelled from the spec: the `StdInType` enumeration of
`YORI_SH_SINGLE_EXEC_CONTEXT` is declared in `yori.h`, which is not part of
the sources at hand; the enumerators are those `parse.c` uses.  `Zero` is
the value left by `ZeroMemory`. -/
inductive StdInType
  | Zero | Default | File | Null | Pipe
deriving DecidableEq, Repr

/-- Modelled from the spec: the `StdOutType` enumeration of `yori.h` (not at
hand), with the enumerators `parse.c` uses; `Zero` is the value left by
`ZeroMemory`. -/
inductive StdOutType
  | Zero | Default | Overwrite | Append | Null | Pipe | Buffer | StdErr
deriving DecidableEq, Repr

/-- Modelled from the spec: the `StdErrType` enumeration of `yori.h` (not at
hand), with the enumerators `parse.c` uses; `Zero` is the value left by
`ZeroMemory`.  `Buffer` is the value stored by the assignment
`StdErrType = StdOutTypeBuffer` (parse.c 1503, 1510), the spec's "retained
in-memory buffer" target of stderr. -/
inductive StdErrType
  | Zero | Default | Overwrite | Append | StdOut | Null | Buffer
deriving DecidableEq, Repr

/-- Modelled from the spec: the `NextProgramType` enumeration of `yori.h`
(not at hand): the spec's TransitionKind.  `Zero` is the value left by
`ZeroMemory` in a node that has not been linked to a successor. -/
inductive NextProgramType
  | Zero | ExecUnconditionally | ExecOnSuccess | ExecOnFailure | ExecConcurrently
deriving DecidableEq, Repr

/-- The fields of `YORI_SH_SINGLE_EXEC_CONTEXT` that `parse.c` assigns.
`CmdToExec` is the argument array of the program (`CmdToExec.ArgC` is its
length); the file names are the `FileName` members of the `StdIn`, `StdOut`
and `StdErr` unions. -/
structure YORI_SH_SINGLE_EXEC_CONTEXT where
  CmdToExec : List Arg
  StdInType : StdInType
  StdInFileName : List Char
  StdOutType : StdOutType
  StdOutFileName : List Char
  StdOutRetainBufferData : Bool
  StdErrType : StdErrType
  StdErrFileName : List Char
  StdErrRetainBufferData : Bool
  NextProgramType : NextProgramType
  WaitForCompletion : Bool
  RunOnSecondConsole : Bool
deriving DecidableEq, Repr

/-- The result of `ZeroMemory` on an exec context. -/
def zeroExecContext : YORI_SH_SINGLE_EXEC_CONTEXT :=
  { CmdToExec := [], StdInType := .Zero, StdInFileName := [],
    StdOutType := .Zero, StdOutFileName := [], StdOutRetainBufferData := false,
    StdErrType := .Zero, StdErrFileName := [], StdErrRetainBufferData := false,
    NextProgramType := .Zero, WaitForCompletion := false, RunOnSecondConsole := false }

/-- `YoriShExecContextCleanupStdIn` (parse.c 918-935). -/
def YoriShExecContextCleanupStdIn (e : YORI_SH_SINGLE_EXEC_CONTEXT) :
    YORI_SH_SINGLE_EXEC_CONTEXT :=
  { e with StdInType := .Default,
           StdInFileName := if e.StdInType = .File then [] else e.StdInFileName }

/-- `YoriShExecContextCleanupStdOut` (parse.c 942-966). -/
def YoriShExecContextCleanupStdOut (e : YORI_SH_SINGLE_EXEC_CONTEXT) :
    YORI_SH_SINGLE_EXEC_CONTEXT :=
  { e with StdOutType := .Default,
           StdOutFileName :=
             if e.StdOutType = .Overwrite ∨ e.StdOutType = .Append then []
             else e.StdOutFileName }

/-- `YoriShExecContextCleanupStdErr` (parse.c 973-987). -/
def YoriShExecContextCleanupStdErr (e : YORI_SH_SINGLE_EXEC_CONTEXT) :
    YORI_SH_SINGLE_EXEC_CONTEXT :=
  { e with StdErrType := .Default,
           StdErrFileName :=
             if e.StdErrType = .Overwrite ∨ e.StdErrType = .Append then []
             else e.StdErrFileName }

/-- Modelled from the spec: `YoriLibUpcaseChar`, used by the case
insensitive comparisons of the library (not part of the sources at hand). -/
def YoriLibUpcaseChar (c : Char) : Char :=
  if 'a'.toNat ≤ c.toNat ∧ c.toNat ≤ 'z'.toNat then Char.ofNat (c.toNat - 32) else c

/-- Modelled from the spec: `YoriLibCompareStringWithLiteralInsensitive(Str,
Literal) == 0`, the case insensitive equality of a counted string and a
literal (library function, not part of the sources at hand). -/
def compareInsensitiveEq (Str Literal : List Char) : Bool :=
  decide (Str.map YoriLibUpcaseChar = Literal.map YoriLibUpcaseChar)

/-- `YoriShIsArgumentProgramSeperator` (parse.c 1001-1024). -/
def YoriShIsArgumentProgramSeperator (Arg : List Char) (EndOfExpression : Bool) : Bool :=
  if compareInsensitiveEq Arg ['&'] = true ∨
     compareInsensitiveEq Arg ['&', '&'] = true ∨
     compareInsensitiveEq Arg ['\n'] = true ∨
     compareInsensitiveEq Arg ['|'] = true ∨
     compareInsensitiveEq Arg ['|', '|'] = true then true
  else if EndOfExpression = true then
    if compareInsensitiveEq Arg ['&', '!'] = true ∨
       compareInsensitiveEq Arg ['&', '!', '!'] = true then true
    else false
  else false

/-- The two library collaborators of `YoriShCheckForDeviceNameAndDuplicate`:
the reserved device name test and the resolution of a user string to a full
path (neither is part of `parse.c`). -/
structure PathLibrary where
  YoriLibIsFileNameDeviceName : List Char → Bool
  YoriLibUserStringToSingleFilePath : List Char → List Char

/-- `YoriShCheckForDeviceNameAndDuplicate` (parse.c 1044-1079): the value
stored in `ResolvedName`. -/
def YoriShCheckForDeviceNameAndDuplicate (Lib : PathLibrary) (UserString : List Char)
    (UserStringOffset : Nat) : List Char :=
  let UserName := UserString.drop UserStringOffset
  if UserName.length = 0 ∨ Lib.YoriLibIsFileNameDeviceName UserName = true then UserName
  else Lib.YoriLibUserStringToSingleFilePath UserName

/-- The character `StartOfString[i]` of a NUL terminated argument. -/
def charAt (Str : List Char) (i : Nat) : Char := Str.getD i NUL

/-- The file name member that `ExecContextRedirectString` points to. -/
inductive RedirectString
  | StdInFile | StdOutFile | StdErrFile
deriving DecidableEq, Repr

/-- What the redirection tests of one loop iteration leave behind
(parse.c 1165-1256): the exec context, `RemoveThisArg`, `CharOffset` and
`ExecContextRedirectString` (`none` for `NULL`). -/
structure RedirectScan where
  ExecContext : YORI_SH_SINGLE_EXEC_CONTEXT
  RemoveThisArg : Bool
  CharOffset : Nat
  ExecContextRedirectString : Option RedirectString

/-- The test `ThisArg->StartOfString[0] == '<'` (parse.c 1180-1187). -/
def scanStdIn (ThisArg : List Char) (r : RedirectScan) : RedirectScan :=
  if charAt ThisArg 0 = '<' then
    { ExecContext :=
        { YoriShExecContextCleanupStdIn r.ExecContext with
            StdInType := .File, StdInFileName := [] },
      RemoveThisArg := true, CharOffset := 1,
      ExecContextRedirectString := some .StdInFile }
  else r

/-- The stdout redirections shared by the `>` and `1>` forms, the operator
proper ending at index `k` (parse.c 1190-1207, 1212-1229). -/
def scanStdOutAt (ThisArg : List Char) (k : Nat) (r : RedirectScan) : RedirectScan :=
  let e := YoriShExecContextCleanupStdOut r.ExecContext
  if charAt ThisArg k = '>' then
    { ExecContext := { e with StdOutType := .Append }, RemoveThisArg := true,
      CharOffset := k + 1, ExecContextRedirectString := some .StdOutFile }
  else if charAt ThisArg k = '&' then
    if charAt ThisArg (k + 1) = '2' then
      { r with
          ExecContext :=
            { e with StdOutType := .StdErr,
                     StdErrType := if e.StdErrType = .StdOut then .Default else e.StdErrType },
          RemoveThisArg := true }
    else { r with ExecContext := e, RemoveThisArg := true }
  else
    { ExecContext := { e with StdOutType := .Overwrite }, RemoveThisArg := true,
      CharOffset := k, ExecContextRedirectString := some .StdOutFile }

/-- The tests `StartOfString[0] == '>'` and `StartOfString[0] == '1'`
(parse.c 1189-1231). -/
def scanStdOut (ThisArg : List Char) (r : RedirectScan) : RedirectScan :=
  let r1 := if charAt ThisArg 0 = '>' then scanStdOutAt ThisArg 1 r else r
  if charAt ThisArg 0 = '1' ∧ charAt ThisArg 1 = '>' then scanStdOutAt ThisArg 2 r1 else r1

/-- The test `StartOfString[0] == '2'` (parse.c 1233-1255). -/
def scanStdErr (ThisArg : List Char) (r : RedirectScan) : RedirectScan :=
  if charAt ThisArg 0 = '2' ∧ charAt ThisArg 1 = '>' then
    let e := YoriShExecContextCleanupStdErr r.ExecContext
    if charAt ThisArg 2 = '>' then
      { ExecContext := { e with StdErrType := .Append }, RemoveThisArg := true,
        CharOffset := 3, ExecContextRedirectString := some .StdErrFile }
    else if charAt ThisArg 2 = '&' then
      if charAt ThisArg 3 = '1' then
        { r with
            ExecContext :=
              { e with StdErrType := .StdOut,
                       StdOutType := if e.StdOutType = .StdErr then .Default else e.StdOutType },
            RemoveThisArg := true }
      else { r with ExecContext := e, RemoveThisArg := true }
    else
      { ExecContext := { e with StdErrType := .Overwrite }, RemoveThisArg := true,
        CharOffset := 2, ExecContextRedirectString := some .StdErrFile }
  else r

/-- The redirection tests applied to `ThisArg` (parse.c 1165-1256). -/
def scanRedirect (ThisArg : Arg) (e : YORI_SH_SINGLE_EXEC_CONTEXT) : RedirectScan :=
  let r0 : RedirectScan :=
    { ExecContext := e, RemoveThisArg := false, CharOffset := 0,
      ExecContextRedirectString := none }
  if ThisArg.Quoted = false then
    scanStdErr ThisArg.Text (scanStdOut ThisArg.Text (scanStdIn ThisArg.Text r0))
  else r0

/-- Store a resolved name through `ExecContextRedirectString`. -/
def storeRedirectString (slot : RedirectString) (Name : List Char)
    (e : YORI_SH_SINGLE_EXEC_CONTEXT) : YORI_SH_SINGLE_EXEC_CONTEXT :=
  match slot with
  | .StdInFile => { e with StdInFileName := Name }
  | .StdOutFile => { e with StdOutFileName := Name }
  | .StdErrFile => { e with StdErrFileName := Name }

/-- The statement `if (!RemoveThisArg) { YoriShCopyArg(...); CmdToExec->ArgC++; }`
(parse.c 1279-1289; the optional cursor out-parameters are not requested). -/
def copyArgUnlessRemoved (RemoveThisArg : Bool) (ThisArg : Arg)
    (e : YORI_SH_SINGLE_EXEC_CONTEXT) : YORI_SH_SINGLE_EXEC_CONTEXT :=
  if RemoveThisArg = true then e else { e with CmdToExec := e.CmdToExec ++ [ThisArg] }

/-- The second loop of `YoriShParseCmdContextToExecContext` (parse.c
1163-1290) over the consumed arguments `ArgV[Count ..
InitialArgument + ArgumentsConsumed)`.

The first parameter is `none` at the top of an iteration.  It is `some slot`
while the inner `while` loop (parse.c 1266-1272) is advancing `Count` in
search of the redirection target: `ThisArg` is then the argument just
stepped to and `CharOffset` is zero.  Every test that sets
`ExecContextRedirectString` also sets `RemoveThisArg`, so no argument is
copied in that case. -/
def execLoop (Lib : PathLibrary) :
    Option RedirectString → List Arg → YORI_SH_SINGLE_EXEC_CONTEXT →
      YORI_SH_SINGLE_EXEC_CONTEXT
  | _, [], e => e
  | none, ThisArg :: rest, e =>
    let r := scanRedirect ThisArg e
    match r.ExecContextRedirectString with
    | some slot =>
      if ThisArg.Text.length = r.CharOffset ∧ rest ≠ [] then
        execLoop Lib (some slot) rest r.ExecContext
      else
        execLoop Lib none rest
          (copyArgUnlessRemoved r.RemoveThisArg ThisArg
            (storeRedirectString slot
              (YoriShCheckForDeviceNameAndDuplicate Lib ThisArg.Text r.CharOffset)
              r.ExecContext))
    | none =>
      execLoop Lib none rest (copyArgUnlessRemoved r.RemoveThisArg ThisArg r.ExecContext)
  | some slot, ThisArg :: rest, e =>
    if ThisArg.Text.length = 0 ∧ rest ≠ [] then execLoop Lib (some slot) rest e
    else
      execLoop Lib none rest
        (storeRedirectString slot (YoriShCheckForDeviceNameAndDuplicate Lib ThisArg.Text 0) e)

/-- The first loop of `YoriShParseCmdContextToExecContext` (parse.c
1142-1151): the value of `Count` when the loop ends.  The list is
`ArgV[Count ..]`. -/
def boundaryLoop (ArgC : Nat) : Nat → List Arg → Nat
  | Count, [] => Count
  | Count, a :: rest =>
    if Count < ArgC then
      if a.Quoted = false ∧
          YoriShIsArgumentProgramSeperator a.Text (decide (Count = ArgC - 1)) = true then Count
      else boundaryLoop ArgC (Count + 1) rest
    else Count

/-- The exec context after the initialisation of parse.c 1127-1135. -/
def initialExecContext : YORI_SH_SINGLE_EXEC_CONTEXT :=
  { zeroExecContext with
      StdInType := .Default, StdOutType := .Default, StdErrType := .Default,
      WaitForCompletion := true, RunOnSecondConsole := false }

/-- `YoriShParseCmdContextToExecContext` (parse.c 1110-1293), allocation
taken to succeed: the number of arguments consumed and the exec context. -/
def YoriShParseCmdContextToExecContext (Lib : PathLibrary)
    (CmdContext : YORI_SH_CMD_CONTEXT) (InitialArgument : Nat) :
    Nat × YORI_SH_SINGLE_EXEC_CONTEXT :=
  let Count := boundaryLoop CmdContext.ArgC InitialArgument
    (CmdContext.ArgV.drop InitialArgument)
  let ArgumentsConsumed := Count - InitialArgument
  (ArgumentsConsumed,
    execLoop Lib none ((CmdContext.ArgV.drop InitialArgument).take ArgumentsConsumed)
      initialExecContext)

/-! ## Execution plans -/

/-- `YORI_SH_EXEC_PLAN`.  `FirstCmd` is the chain of nodes reached from
`FirstCmd` through `NextProgram`, in order; `EntireCmdArgC` and
`EntireCmd.CmdToExec` are `EntireCmd.CmdToExec.ArgC` and its array. -/
structure YORI_SH_EXEC_PLAN where
  FirstCmd : List YORI_SH_SINGLE_EXEC_CONTEXT
  NumberCommands : Nat
  EntireCmd : YORI_SH_SINGLE_EXEC_CONTEXT
  EntireCmdArgC : Nat
  WaitForCompletion : Bool
deriving DecidableEq, Repr

/-- The argument `CmdContext->ArgV[i]`. -/
def YORI_SH_CMD_CONTEXT.arg (CmdContext : YORI_SH_CMD_CONTEXT) (i : Nat) : Arg :=
  CmdContext.ArgV.getD i ⟨[], false⟩

/-- Local variables of the main loop of `YoriShParseCmdContextToExecPlan`.
`PreviousProgram` is the last node of `Plan.FirstCmd` (`NULL` when the chain
is empty). -/
structure PlanState where
  Plan : YORI_SH_EXEC_PLAN
  CurrentArg : Nat
  ArgOfLastOperatorIndex : Nat
deriving DecidableEq, Repr

/-- The handling of a trailing `&`, `&!` or `&!!` (parse.c 1481-1530):
the plan, `ThisProgram` and `ArgsConsumed` afterwards. -/
def trailingBackground (CmdContext : YORI_SH_CMD_CONTEXT) (CurrentArg : Nat)
    (Plan : YORI_SH_EXEC_PLAN) (ThisProgram : YORI_SH_SINGLE_EXEC_CONTEXT)
    (ArgsConsumed : Nat) : YORI_SH_EXEC_PLAN × YORI_SH_SINGLE_EXEC_CONTEXT × Nat :=
  if CurrentArg + ArgsConsumed = CmdContext.ArgC - 1 then
    let ThisArg := CmdContext.arg (CurrentArg + ArgsConsumed)
    if ThisArg.Quoted = false ∧ charAt ThisArg.Text 0 = '&' then
      if ThisArg.Text = ['&'] then
        ({ Plan with WaitForCompletion := false,
                     EntireCmd := { Plan.EntireCmd with WaitForCompletion := false },
                     EntireCmdArgC := Plan.EntireCmdArgC - 1 },
         { ThisProgram with WaitForCompletion := false },
         ArgsConsumed + 1)
      else if ThisArg.Text = ['&', '!'] then
        ({ Plan with WaitForCompletion := false,
                     EntireCmd :=
                       { Plan.EntireCmd with
                           WaitForCompletion := false, StdInType := .Null,
                           StdOutType := .Buffer, StdOutRetainBufferData := true,
                           StdErrType := .Buffer, StdErrRetainBufferData := true },
                     EntireCmdArgC := Plan.EntireCmdArgC - 1 },
         { ThisProgram with
             WaitForCompletion := false, StdInType := .Null,
             StdOutType := .Buffer, StdOutRetainBufferData := true,
             StdErrType := .Buffer, StdErrRetainBufferData := true },
         ArgsConsumed + 1)
      else if ThisArg.Text = ['&', '!', '!'] then
        ({ Plan with WaitForCompletion := false,
                     EntireCmd :=
                       { Plan.EntireCmd with
                           WaitForCompletion := false, RunOnSecondConsole := true },
                     EntireCmdArgC := Plan.EntireCmdArgC - 1 },
         { ThisProgram with WaitForCompletion := false, RunOnSecondConsole := true },
         ArgsConsumed + 1)
      else (Plan, ThisProgram, ArgsConsumed)
    else (Plan, ThisProgram, ArgsConsumed)
  else (Plan, ThisProgram, ArgsConsumed)

/-- The linking of `ThisProgram` behind `PreviousProgram` (parse.c
1560-1585): the two nodes afterwards. -/
def linkPrograms (ArgOfLastOperator : List Char)
    (PreviousProgram ThisProgram : YORI_SH_SINGLE_EXEC_CONTEXT) :
    YORI_SH_SINGLE_EXEC_CONTEXT × YORI_SH_SINGLE_EXEC_CONTEXT :=
  if compareInsensitiveEq ArgOfLastOperator ['&'] = true ∨
     compareInsensitiveEq ArgOfLastOperator ['\n'] = true then
    ({ PreviousProgram with NextProgramType := .ExecUnconditionally }, ThisProgram)
  else if compareInsensitiveEq ArgOfLastOperator ['&', '&'] = true then
    ({ PreviousProgram with NextProgramType := .ExecOnSuccess }, ThisProgram)
  else if compareInsensitiveEq ArgOfLastOperator ['|', '|'] = true then
    ({ PreviousProgram with NextProgramType := .ExecOnFailure }, ThisProgram)
  else if compareInsensitiveEq ArgOfLastOperator ['|'] = true then
    ({ PreviousProgram with
         NextProgramType := .ExecConcurrently,
         StdOutType :=
           if PreviousProgram.StdOutType = .Default then .Pipe
           else PreviousProgram.StdOutType,
         WaitForCompletion := false },
     { ThisProgram with
         StdInType :=
           if ThisProgram.StdInType = .Default then .Pipe else ThisProgram.StdInType })
  else
    ({ PreviousProgram with NextProgramType := .ExecUnconditionally }, ThisProgram)

/-- The loop that steps over separator arguments (parse.c 1594-1599): the
values of `CurrentArg` and `ArgOfLastOperatorIndex` when it ends.  The list
is `ArgV[CurrentArg ..]`. -/
def skipSeperators (ArgC : Nat) : Nat → Nat → List Arg → Nat × Nat
  | CurrentArg, ArgOfLastOperatorIndex, [] => (CurrentArg, ArgOfLastOperatorIndex)
  | CurrentArg, ArgOfLastOperatorIndex, a :: rest =>
    if CurrentArg < ArgC ∧ YoriShIsArgumentProgramSeperator a.Text false = true then
      skipSeperators ArgC (CurrentArg + 1) CurrentArg rest
    else (CurrentArg, ArgOfLastOperatorIndex)

/-- One iteration of the main loop of `YoriShParseCmdContextToExecPlan`
(parse.c 1463-1600); `none` when the iteration ends in `return FALSE`
because no argument was consumed.  The optional cursor out-parameters are
not requested. -/
def planStep (Lib : PathLibrary) (CmdContext : YORI_SH_CMD_CONTEXT) (s : PlanState) :
    Option PlanState :=
  let (ArgsConsumed0, ThisProgram0) :=
    YoriShParseCmdContextToExecContext Lib CmdContext s.CurrentArg
  if ArgsConsumed0 = 0 then none
  else
    let (Plan1, ThisProgram1, ArgsConsumed) :=
      trailingBackground CmdContext s.CurrentArg s.Plan ThisProgram0 ArgsConsumed0
    let chain : List YORI_SH_SINGLE_EXEC_CONTEXT :=
      match Plan1.FirstCmd.getLast? with
      | some PreviousProgram =>
        let (p, t) := linkPrograms (CmdContext.arg s.ArgOfLastOperatorIndex).Text
          PreviousProgram ThisProgram1
        Plan1.FirstCmd.dropLast ++ [p, t]
      | none => [ThisProgram1]
    let CurrentArg := s.CurrentArg + ArgsConsumed
    let (CurrentArg1, ArgOfLastOperatorIndex1) :=
      skipSeperators CmdContext.ArgC CurrentArg s.ArgOfLastOperatorIndex
        (CmdContext.ArgV.drop CurrentArg)
    some { Plan := { Plan1 with FirstCmd := chain,
                                NumberCommands := Plan1.NumberCommands + 1 },
           CurrentArg := CurrentArg1,
           ArgOfLastOperatorIndex := ArgOfLastOperatorIndex1 }

/-- The main loop `while (CurrentArg < CmdContext->ArgC)` (parse.c
1463-1600).  The outer `none` means the fuel ran out; `some none` is
`return FALSE`. -/
def planLoop (Lib : PathLibrary) (CmdContext : YORI_SH_CMD_CONTEXT) :
    Nat → PlanState → Option (Option PlanState)
  | fuel, s =>
    if s.CurrentArg < CmdContext.ArgC then
      match fuel with
      | 0 => none
      | fuel + 1 =>
        match planStep Lib CmdContext s with
        | none => some none
        | some s1 => planLoop Lib CmdContext fuel s1
    else some (some s)

/-- `YoriShParseCmdContextToExecPlan` (parse.c 1430-1620), allocation taken
to succeed and the optional cursor out-parameters not requested.  The outer
`none` means the fuel ran out, `some none` is the result `FALSE`, and
`some (some plan)` is the result `TRUE` with the plan built. -/
def YoriShParseCmdContextToExecPlan (Lib : PathLibrary)
    (CmdContext : YORI_SH_CMD_CONTEXT) : Option (Option YORI_SH_EXEC_PLAN) :=
  let Plan0 : YORI_SH_EXEC_PLAN :=
    { FirstCmd := [], NumberCommands := 0,
      EntireCmd :=
        { zeroExecContext with
            CmdToExec := CmdContext.ArgV.take CmdContext.ArgC, WaitForCompletion := true },
      EntireCmdArgC := CmdContext.ArgC,
      WaitForCompletion := true }
  match planLoop Lib CmdContext (CmdContext.ArgC + 1)
      { Plan := Plan0, CurrentArg := 0, ArgOfLastOperatorIndex := 0 } with
  | none => none
  | some none => some none
  | some (some s) => some (some s.Plan)

/-! ## Auxiliary definitions used in the proofs -/

/-- The value of `CharsToConsume` that the terminate branch works with once
it has looked at the text after the trimmed spaces: the value it was entered
with, or the result of `YoriShIsArgumentSeperator` when that was zero. -/
def effC (cs : List Char) (ctc : Nat) : Nat :=
  if ctc = 0 then (YoriShIsArgumentSeperator (YoriShTrimSpacesFromBeginning cs)).CharsToConsume
  else ctc

/-- The value of `TerminateNextArg` that the terminate branch works with,
as for `effC`. -/
def effT (cs : List Char) (ctc : Nat) (tna : Bool) : Bool :=
  if ctc = 0 then (YoriShIsArgumentSeperator (YoriShTrimSpacesFromBeginning cs)).TerminateArg
  else tna

/-- The unread text left by the terminate branch of either pass. -/
def terminateRest (cs : List Char) (ctc : Nat) (tna : Bool) : List Char :=
  if effT cs ctc tna = true then
    YoriShTrimSpacesFromBeginning ((YoriShTrimSpacesFromBeginning cs).drop (effC cs ctc))
  else (YoriShTrimSpacesFromBeginning cs).drop (effC cs ctc)

/-- The relation kept between the states of the two passes at the head of
their loops. -/
def PassRel (sz : SizingState) (fl : FillState) : Prop :=
  sz.Char = fl.Char ∧ sz.QuoteOpen = fl.QuoteOpen ∧
  sz.LookingForFirstQuote = fl.LookingForFirstQuote ∧
  sz.ArgCount = fl.ArgV.length ∧ (fl.ArgV = [] → sz.RequiredCharCount = fl.CurOut.length)

/-- The relation between the results of one iteration of the two loops. -/
def StepRel (r : SizingState × Bool) (fl : FillState) : Prop :=
  r.1.Char = fl.Char ∧ (fl.Char ≠ [] → r.2 = false ∧ PassRel r.1 fl) ∧
  (fl.Char = [] → r.1.ArgCount = fl.ArgV.length + 1)

/-- A fill state with the two scratch variables `CharsToConsume` and
`TerminateNextArg` reset: the loop writes both before it reads them, so they
do not influence the result. -/
def FillState.core (s : FillState) : FillState :=
  { s with CharsToConsume := 0, TerminateNextArg := false }

/-- The argument array produced by running the fill loop from a state to
the end of the line. -/
def tokensFrom (s : FillState) : List Arg := (fillRun s).finish

/-- explicit fill state with the scratch variables reset -/
def mkFill (out cs : List Char) (av : List Arg) (len : Nat) (q o l : Bool) : FillState :=
  ⟨out, cs, av, len, q, 0, false, o, l⟩

/-- The characters that begin an operator of the argument separator table
(`1` and `2` do so only when `>` follows). -/
def isOperatorChar (c : Char) : Bool :=
  decide (c = '|' ∨ c = '&' ∨ c = '\n' ∨ c = '>' ∨ c = '<')

/-- Spec words of C1, "splitting the line on runs of unquoted spaces": the
pieces of a line, a double quote toggling the quoted state.  The first
argument is the quoted state, the second the piece in progress. -/
def splitUnquoted : Bool → Option (List Char) → List Char → List (List Char)
  | _, cur, [] => cur.toList
  | o, cur, c :: cs =>
    if c = ' ' ∧ o = false then cur.toList ++ splitUnquoted false none cs
    else splitUnquoted (if c = '"' then !o else o) (some (cur.getD [] ++ [c])) cs

/-- Spec words of C1, "stripping the quote characters". -/
def stripQuotes (p : List Char) : List Char := p.filter (fun c => c ≠ '"')

/-- What the tokenizer strips from a piece: when the piece begins with a
double quote, that quote and the next one (the quote that closes it). -/
def stripFirstQuotePair (p : List Char) : List Char :=
  match p with
  | [] => []
  | c :: rest => if c = '"' then rest.erase '"' else c :: rest

/-- The argument the tokenizer makes of a piece. -/
def pieceArg (p : List Char) : Arg :=
  ⟨stripFirstQuotePair p, decide (p.head? = some '"')⟩

/-- The relation kept, inside an argument, between the piece read so far
(`p`), the unread text and the variables of the fill loop. -/
def ArgInv (p cs out : List Char) (q o l : Bool) : Prop :=
  out = stripFirstQuotePair p ∧ q = decide ((p ++ cs).head? = some '"') ∧
  o = decide (p.count '"' % 2 = 1) ∧ l = (q && decide (p.count '"' ≤ 1)) ∧
  (p = [] → cs.head? ≠ none ∧ cs.head? ≠ some ' ')

/-- The line does not end in an empty quoted argument followed by spaces. -/
def NoEmptyQuotedEnd (o : Bool) (cur : Option (List Char)) (cs : List Char) : Prop :=
  (splitUnquoted o cur cs).getLast? = some ['"', '"'] → cs.getLast? ≠ some ' '

/-- A character of a plain word: not a space, not a double quote, not the
escape character and not a character that begins an operator. -/
def isPlainChar (c : Char) : Bool :=
  !isOperatorChar c && !YoriLibIsEscapeChar c && decide (c ≠ '"') && decide (c ≠ ' ')

/-- The characters `YoriShBuildCmdlineFromCmdContext` writes for one
argument when escapes are retained: the text, inside double quotes when the
argument is flagged quoted. -/
def renderArg (a : Arg) : List Char :=
  (if a.Quoted = true then ['"'] else []) ++ a.Text ++ (if a.Quoted = true then ['"'] else [])

/-- Pieces joined by single spaces. -/
def joinSpaces : List (List Char) → List Char
  | [] => []
  | [x] => x
  | x :: y :: r => x ++ ' ' :: joinSpaces (y :: r)

/-- The chain of nodes after `ThisProgram` has been linked behind the last
node of `chain`, the separator text being `ArgOfLastOperator` (parse.c
1560-1589). -/
def linkChain (chain : List YORI_SH_SINGLE_EXEC_CONTEXT) (ArgOfLastOperator : List Char)
    (ThisProgram : YORI_SH_SINGLE_EXEC_CONTEXT) : List YORI_SH_SINGLE_EXEC_CONTEXT :=
  match chain.getLast? with
  | some PreviousProgram =>
    chain.dropLast ++ [(linkPrograms ArgOfLastOperator PreviousProgram ThisProgram).1,
      (linkPrograms ArgOfLastOperator PreviousProgram ThisProgram).2]
  | none => [ThisProgram]

/-- An argument at which the boundary scan of
`YoriShParseCmdContextToExecContext` does not stop, whatever its index. -/
def NotBoundary (a : Arg) : Prop :=
  a.Quoted = true ∨ YoriShIsArgumentProgramSeperator a.Text true = false

/-- The text of the last argument of a block of separators. -/
def lastText (blk : List Arg) : List Char := (blk.getLastD ⟨[], false⟩).Text

/-- The chain and the separator text in force after the programs of `segs`
have been linked in turn, each element of `segs` being the arguments of a
program and the block of separator arguments that follows it. -/
def midNodes (Lib : PathLibrary) :
    List YORI_SH_SINGLE_EXEC_CONTEXT → List Char → List (List Arg × List Arg) →
      List YORI_SH_SINGLE_EXEC_CONTEXT × List Char
  | chain, sep, [] => (chain, sep)
  | chain, sep, sg :: more =>
    midNodes Lib (linkChain chain sep (execLoop Lib none sg.1 initialExecContext))
      (lastText sg.2) more

/-- The chain of a plan whose programs are those of `segs` followed by a
last program, `node` being the exec context of the last program. -/
def planChain (Lib : PathLibrary) (segs : List (List Arg × List Arg))
    (node : YORI_SH_SINGLE_EXEC_CONTEXT) : List YORI_SH_SINGLE_EXEC_CONTEXT :=
  linkChain (midNodes Lib [] [] segs).1 (midNodes Lib [] [] segs).2 node

/-- The plan before the main loop of `YoriShParseCmdContextToExecPlan`
(parse.c 1448-1461). -/
def initialPlan (CmdContext : YORI_SH_CMD_CONTEXT) : YORI_SH_EXEC_PLAN :=
  { FirstCmd := [], NumberCommands := 0,
    EntireCmd :=
      { zeroExecContext with
          CmdToExec := CmdContext.ArgV.take CmdContext.ArgC, WaitForCompletion := true },
    EntireCmdArgC := CmdContext.ArgC,
    WaitForCompletion := true }

/-- The arguments of a list of programs with their separator blocks. -/
def segArgs (segs : List (List Arg × List Arg)) : List Arg :=
  (segs.map (fun sg => sg.1 ++ sg.2)).flatten

/-- The arguments of a program: not empty, none of them a boundary, and the
first one not taken for a separator by the loop that steps over
separators. -/
def RunOK (run : List Arg) : Prop :=
  (∃ a r, run = a :: r ∧ YoriShIsArgumentProgramSeperator a.Text false = false) ∧
  ∀ a ∈ run, NotBoundary a

/-- A block of separator arguments between two programs: the first one is
not quoted, and every one has the text of a separator. -/
def BlockOK (blk : List Arg) : Prop :=
  (∃ b r, blk = b :: r ∧ b.Quoted = false) ∧
  ∀ a ∈ blk, YoriShIsArgumentProgramSeperator a.Text false = true

/-- A plain word: not empty and made of plain characters. -/
def isPlainWord (w : List Char) : Bool := !w.isEmpty && w.all isPlainChar

/-- Operators that end the argument in progress and are an argument of
their own (`TerminateArg` set by `YoriShIsArgumentSeperator`). -/
def terminatingOperators : List (List Char) :=
  [['|'], ['|', '|'], ['&'], ['&', '&'], ['&', '!'], ['&', '!', '!'], ['\n']]

/-- Operators that begin an argument which continues with the text that
follows them. -/
def redirectOperators : List (List Char) := [['>'], ['>', '>'], ['<']]

/-- A list of tokens, to be written with one space before each: plain words
and operators, each terminating operator being the last token or followed
by a plain word. -/
def opTokensOK : List (List Char) → Bool
  | [] => true
  | [t] => isPlainWord t || decide (t ∈ redirectOperators) || decide (t ∈ terminatingOperators)
  | t :: t2 :: rest =>
    if t ∈ terminatingOperators then isPlainWord t2 && opTokensOK (t2 :: rest)
    else (isPlainWord t || decide (t ∈ redirectOperators)) && opTokensOK (t2 :: rest)

/-- The text of a list of tokens, one space before each. -/
def spaced (toks : List (List Char)) : List Char := (toks.map (fun t => ' ' :: t)).flatten

/-- An argument text that none of the redirection tests matches. -/
def NoRedirect (t : List Char) : Prop :=
  charAt t 0 ≠ '<' ∧ charAt t 0 ≠ '>' ∧ charAt t 1 ≠ '>'

/-- The separator argument `|`. -/
def barArg : Arg := ⟨['|'], false⟩

/-- The node of a program of a pipeline made of the single word `p`:
`first` and `last` tell its place in the pipeline. -/
def pipeNode (first last : Bool) (p : List Char) : YORI_SH_SINGLE_EXEC_CONTEXT :=
  { initialExecContext with
      CmdToExec := [⟨p, false⟩],
      StdInType := if first = true then .Default else .Pipe,
      StdOutType := if last = true then .Default else .Pipe,
      WaitForCompletion := last,
      NextProgramType := if last = true then .Zero else .ExecConcurrently }

/-- The nodes of the pipeline of the words `ps`. -/
def pipeNodes : Bool → List (List Char) → List YORI_SH_SINGLE_EXEC_CONTEXT
  | _, [] => []
  | first, [p] => [pipeNode first true p]
  | first, p :: q :: r => pipeNode first false p :: pipeNodes false (q :: r)

/-- The program made of the word `p`, followed by the separator `|`. -/
def pipeSeg (p : List Char) : List Arg × List Arg := ([⟨p, false⟩], [barArg])

/-- Spec words of C8: the transition kind that a separator argument gives to
the node before it (`Zero`, the value of a node without successor, for any
other text). -/
def transitionOf (sep : List Char) : NextProgramType :=
  if sep = ['&'] ∨ sep = ['\n'] then .ExecUnconditionally
  else if sep = ['&', '&'] then .ExecOnSuccess
  else if sep = ['|', '|'] then .ExecOnFailure
  else if sep = ['|'] then .ExecConcurrently
  else .Zero

/-- The chain has one node more than there are separators, and the node
before each separator carries the transition kind of that separator. -/
def ChainKinds (chain : List YORI_SH_SINGLE_EXEC_CONTEXT) (seps : List (List Char)) : Prop :=
  chain.length = seps.length + 1 ∧
  ∀ (i : Nat) (s : List Char), seps[i]? = some s →
    ∃ node, chain[i]? = some node ∧ node.NextProgramType = transitionOf s

/-- The last node of the chain made by `linkChain`: `ThisProgram` after the
linking. -/
def lastLink (chain : List YORI_SH_SINGLE_EXEC_CONTEXT) (sep : List Char)
    (node : YORI_SH_SINGLE_EXEC_CONTEXT) : YORI_SH_SINGLE_EXEC_CONTEXT :=
  match chain.getLast? with
  | some prev => (linkPrograms sep prev node).2
  | none => node

/-- The command line without its last argument. -/
def withoutLastArg (CmdContext : YORI_SH_CMD_CONTEXT) : YORI_SH_CMD_CONTEXT :=
  { CmdContext with ArgC := CmdContext.ArgC - 1, ArgV := CmdContext.ArgV.dropLast }

/-- The argument at index `j` of the command line has the text of a
separator. -/
def SepAt (CmdContext : YORI_SH_CMD_CONTEXT) (j : Nat) : Prop :=
  j < CmdContext.ArgC ∧
  YoriShIsArgumentProgramSeperator (CmdContext.arg j).Text false = true

/-- Separator table in the specification's words, with `&!` and `&!!` as
ordinary entries: every operator with its terminate flag. -/
def specSeparatorTable : List (List Char × Bool) :=
  [(['|'], true), (['|', '|'], true), (['&'], true), (['&', '&'], true),
   (['&', '!'], true), (['&', '!', '!'], true), (['\n'], true),
   (['>'], false), (['>', '>'], false), (['>', '&', '2'], true), (['<'], false),
   (['1', '>'], false), (['1', '>', '>'], false), (['1', '>', '&', '2'], true),
   (['2', '>'], false), (['2', '>', '>'], false), (['2', '>', '&', '1'], true)]

/-- The cursor invariant of the sizing loop: once the current argument is
recorded, it is at most the number of arguments counted. -/
def CursorOK (s : SizingState) : Prop :=
  s.CurrentArgFound = true → s.CurrentArg ≤ s.ArgCount

/-- The state of the cursor search when the cursor is at the end of the
line: the current argument is not recorded yet, or it was recorded as the
last argument counted and the whole line is read. -/
def EndOK (s : SizingState) : Prop :=
  s.CurrentArgFound = false ∨ (s.CurrentArg + 1 = s.ArgCount ∧ s.Char = [])

/-- A state of the sizing loop inside a line of plain characters and
spaces, cursor not found yet. -/
def PlainState (s : SizingState) : Prop :=
  s.QuoteOpen = false ∧ s.LookingForFirstQuote = false ∧ s.CurrentArgFound = false ∧
  ∀ c ∈ s.Char, isPlainChar c = true ∨ c = ' '

/-- The test of parse.c 1147 at index `i`: the argument is unquoted and is
a program separator, `&!` and `&!!` counting only at the last index. -/
def isBoundaryAt (CmdContext : YORI_SH_CMD_CONTEXT) (i : Nat) : Bool :=
  !(CmdContext.arg i).Quoted &&
    YoriShIsArgumentProgramSeperator (CmdContext.arg i).Text (decide (i = CmdContext.ArgC - 1))

/-- The command line has a first argument and it is an unquoted program
separator. -/
def firstIsSeparator (CmdContext : YORI_SH_CMD_CONTEXT) : Bool :=
  decide (0 < CmdContext.ArgC) && isBoundaryAt CmdContext 0

/-- The last argument is an unquoted `&!` or `&!!` and the argument before
it has the text of a separator. -/
def backgroundAfterSeparator (CmdContext : YORI_SH_CMD_CONTEXT) : Bool :=
  decide (2 ≤ CmdContext.ArgC) && !(CmdContext.arg (CmdContext.ArgC - 1)).Quoted &&
    (decide ((CmdContext.arg (CmdContext.ArgC - 1)).Text = ['&', '!']) ||
      decide ((CmdContext.arg (CmdContext.ArgC - 1)).Text = ['&', '!', '!'])) &&
    YoriShIsArgumentProgramSeperator (CmdContext.arg (CmdContext.ArgC - 2)).Text false

/-! ## Backquote substrings -/

/-- The `DWORD` subtraction `a - b`. -/
def dwordSub (a b : Nat) : Nat := (a + 2 ^ 32 - b) % 2 ^ 32

/-- The `DWORD` addition `a + b`. -/
def dwordAdd (a b : Nat) : Nat := (a + b) % 2 ^ 32

/-- `YORI_SH_BACKQUOTE_ENTRY` (parse.c 1700-1747).  The member `String`
points into the master string at `StartingOffset` (parse.c 1851, 1854), so
it is given by `StartingOffset` and its `LengthInChars`. -/
structure YORI_SH_BACKQUOTE_ENTRY where
  LengthInChars : Nat
  StartingOffset : Nat
  TreeDepth : Nat
  NewStyleMatch : Bool
  Terminated : Bool
  Abandoned : Bool
deriving DecidableEq, Repr

/-- `YORI_SH_BACKQUOTE_CONTEXT` (parse.c 1757-1778); `MatchList` holds the
entries from the first to the last. -/
structure YORI_SH_BACKQUOTE_CONTEXT where
  MatchList : List YORI_SH_BACKQUOTE_ENTRY
  MatchCount : Nat
  MaxDepth : Nat
  CurrentDepth : Nat
deriving DecidableEq, Repr

/-- `YoriShAllocateBackquoteEntry` (parse.c 1832-1866), allocation taken to
succeed; `CompleteLength` is `CompleteString->LengthInChars`.  The counters
`CurrentDepth` and `MatchCount` are at most the number of characters read,
so their increments are exact. -/
def YoriShAllocateBackquoteEntry (BackquoteContext : YORI_SH_BACKQUOTE_CONTEXT)
    (CompleteLength Offset : Nat) (NewStyleMatch : Bool) : YORI_SH_BACKQUOTE_CONTEXT :=
  let CurrentDepth := BackquoteContext.CurrentDepth + 1
  { MatchList := BackquoteContext.MatchList ++
      [{ LengthInChars := dwordSub CompleteLength Offset,
         StartingOffset := Offset,
         TreeDepth := CurrentDepth,
         NewStyleMatch := NewStyleMatch,
         Terminated := false,
         Abandoned := false }],
    MatchCount := BackquoteContext.MatchCount + 1,
    MaxDepth := if CurrentDepth > BackquoteContext.MaxDepth then CurrentDepth
                else BackquoteContext.MaxDepth,
    CurrentDepth := CurrentDepth }

/-- The loop of `YoriShTerminateMatchingBackquoteEntry` (parse.c 1908-1953)
over the entries from the last to the first: the entries afterwards (in the
same order), `CurrentDepth` afterwards, and whether an entry was returned. -/
def terminateWalk (Offset : Nat) (NewStyleMatch : Bool) :
    List YORI_SH_BACKQUOTE_ENTRY → Nat → List YORI_SH_BACKQUOTE_ENTRY × Nat × Bool
  | [], CurrentDepth => ([], CurrentDepth, false)
  | Entry :: rest, CurrentDepth =>
    if Entry.Terminated = false ∧ Entry.Abandoned = false then
      if NewStyleMatch = Entry.NewStyleMatch then
        ({ Entry with Terminated := true,
                      LengthInChars := dwordSub Offset Entry.StartingOffset } :: rest,
         dwordSub CurrentDepth 1, true)
      else if NewStyleMatch = false then (Entry :: rest, CurrentDepth, false)
      else
        let r := terminateWalk Offset NewStyleMatch rest (dwordSub CurrentDepth 1)
        ({ Entry with Abandoned := true,
                      LengthInChars := dwordSub Offset Entry.StartingOffset } :: r.1,
         r.2.1, r.2.2)
    else
      let r := terminateWalk Offset NewStyleMatch rest CurrentDepth
      (Entry :: r.1, r.2.1, r.2.2)

/-- `YoriShTerminateMatchingBackquoteEntry` (parse.c 1888-1956): the context
afterwards and whether the result is an entry (not `NULL`). -/
def YoriShTerminateMatchingBackquoteEntry (BackquoteContext : YORI_SH_BACKQUOTE_CONTEXT)
    (Offset : Nat) (NewStyleMatch : Bool) : YORI_SH_BACKQUOTE_CONTEXT × Bool :=
  let r := terminateWalk Offset NewStyleMatch BackquoteContext.MatchList.reverse
    BackquoteContext.CurrentDepth
  ({ BackquoteContext with MatchList := r.1.reverse, CurrentDepth := r.2.1 }, r.2.2)

/-- The `for` loop of `YoriShParseBackquoteSubstrings` (parse.c 1986-2022),
allocation taken to succeed.  The list is the text from `String[Index]` on,
`Length` is `String->LengthInChars`; the result is `Index` and the context
when the loop ends. -/
def backquoteLoop (Length : Nat) :
    List Char → Nat → YORI_SH_BACKQUOTE_CONTEXT → Nat × YORI_SH_BACKQUOTE_CONTEXT
  | [], Index, ctx => (Index, ctx)
  | c :: rest, Index, ctx =>
    if YoriLibIsEscapeChar c = true then
      match rest with
      | [] => (Index + 1, ctx)
      | _ :: rest2 => backquoteLoop Length rest2 (Index + 2) ctx
    else if c = '`' then
      let t := YoriShTerminateMatchingBackquoteEntry ctx Index false
      if t.2 = false then
        backquoteLoop Length rest (Index + 1)
          (YoriShAllocateBackquoteEntry t.1 Length (Index + 1) false)
      else backquoteLoop Length rest (Index + 1) t.1
    else if c = ')' then
      backquoteLoop Length rest (Index + 1)
        (YoriShTerminateMatchingBackquoteEntry ctx Index true).1
    else if c = '$' ∧ rest.head? = some '(' then
      backquoteLoop Length rest (Index + 1)
        (YoriShAllocateBackquoteEntry ctx Length (Index + 2) true)
    else backquoteLoop Length rest (Index + 1) ctx

/-- `YoriShParseBackquoteSubstrings` (parse.c 1972-2030), allocation taken
to succeed: `none` is the result `FALSE`. -/
def YoriShParseBackquoteSubstrings (Str : List Char) : Option YORI_SH_BACKQUOTE_CONTEXT :=
  let r := backquoteLoop Str.length Str 0
    { MatchList := [], MatchCount := 0, MaxDepth := 0, CurrentDepth := 0 }
  if r.1 = Str.length then some r.2 else none

/-- A string that shares the allocation of a master string: the offset of
its first character in the master string and its length. -/
structure SubsetString where
  StartOffset : Nat
  LengthInChars : Nat
deriving DecidableEq, Repr

/-- The characters of a subset string of `Str`. -/
def SubsetString.text (Str : List Char) (s : SubsetString) : List Char :=
  (Str.drop s.StartOffset).take s.LengthInChars

/-- The two nested loops shared by `YoriShFindNextBackquoteSubstring` and
`YoriShFindBestBackquoteSubstringAtOffset` (parse.c 2065-2082, 2118-2142):
for `SeekingDepth` from the given depth down to 1, the first entry of the
list at that depth that passes the test. -/
def seekEntry (test : YORI_SH_BACKQUOTE_ENTRY → Bool) (l : List YORI_SH_BACKQUOTE_ENTRY) :
    Nat → Option YORI_SH_BACKQUOTE_ENTRY
  | 0 => none
  | SeekingDepth + 1 =>
    match l.find? (fun e => test e && decide (e.TreeDepth = SeekingDepth + 1)) with
    | some e => some e
    | none => seekEntry test l SeekingDepth

/-- `YoriShFindNextBackquoteSubstring` (parse.c 2050-2086): `none` is the
result `FALSE`, otherwise `CurrentSubset` and `CharsInPrefix`. -/
def YoriShFindNextBackquoteSubstring (Str : List Char) : Option (SubsetString × Nat) :=
  match YoriShParseBackquoteSubstrings Str with
  | none => none
  | some BackquoteContext =>
    match seekEntry (fun e => e.Terminated) BackquoteContext.MatchList
        BackquoteContext.MaxDepth with
    | some e => some (⟨e.StartingOffset, e.LengthInChars⟩, if e.NewStyleMatch then 2 else 1)
    | none => none

/-- `YoriShFindBestBackquoteSubstringAtOffset` (parse.c 2103-2146): `none`
is the result `FALSE`, otherwise `CurrentSubset`. -/
def YoriShFindBestBackquoteSubstringAtOffset (Str : List Char) (StringOffset : Nat) :
    Option SubsetString :=
  match YoriShParseBackquoteSubstrings Str with
  | none => none
  | some BackquoteContext =>
    match seekEntry
        (fun e => decide (StringOffset ≥ e.StartingOffset) &&
          decide (StringOffset ≤ dwordAdd e.StartingOffset e.LengthInChars))
        BackquoteContext.MatchList BackquoteContext.MaxDepth with
    | some e => some ⟨e.StartingOffset, e.LengthInChars⟩
    | none => none

/-- An entry that is neither terminated nor abandoned. -/
def YORI_SH_BACKQUOTE_ENTRY.isOpen (e : YORI_SH_BACKQUOTE_ENTRY) : Bool :=
  !e.Terminated && !e.Abandoned

/-- The number of open entries of a list. -/
def openCount (l : List YORI_SH_BACKQUOTE_ENTRY) : Nat := l.countP (fun e => e.isOpen)

/-- The effect of `YoriShTerminateMatchingBackquoteEntry` at `Offset` on one
entry: it is left as it was, or it was open and is closed with the length
`Offset - StartingOffset`. -/
def Closes (Offset : Nat) (e e1 : YORI_SH_BACKQUOTE_ENTRY) : Prop :=
  e1.StartingOffset = e.StartingOffset ∧ e1.TreeDepth = e.TreeDepth ∧
  e1.NewStyleMatch = e.NewStyleMatch ∧
  (e1 = e ∨ (e.isOpen = true ∧ e1.isOpen = false ∧
    e1.LengthInChars = dwordSub Offset e.StartingOffset))

/-- The invariant of the loop of `YoriShParseBackquoteSubstrings` at the
head of the iteration for `Index`, the unread text being `rest`. -/
structure ScanInv (Str : List Char) (Index : Nat) (rest : List Char)
    (ctx : YORI_SH_BACKQUOTE_CONTEXT) : Prop where
  depth : ∀ e ∈ ctx.MatchList, 1 ≤ e.TreeDepth ∧ e.TreeDepth ≤ ctx.MaxDepth
  pos : ∀ e ∈ ctx.MatchList, e.StartingOffset ≤ Index ∨
    (e.StartingOffset = Index + 1 ∧ rest.head? = some '(')
  range : ∀ e ∈ ctx.MatchList, e.StartingOffset + e.LengthInChars ≤ Str.length ∧
    (e.isOpen = true → e.StartingOffset + e.LengthInChars = Str.length)
  opener : ∀ e ∈ ctx.MatchList,
    (e.NewStyleMatch = false →
      1 ≤ e.StartingOffset ∧ Str[e.StartingOffset - 1]? = some '`') ∧
    (e.NewStyleMatch = true →
      2 ≤ e.StartingOffset ∧ Str[e.StartingOffset - 2]? = some '$' ∧
        Str[e.StartingOffset - 1]? = some '(')
  sorted : ctx.MatchList.Pairwise (fun a b => a.StartingOffset < b.StartingOffset)
  count : ctx.CurrentDepth = openCount ctx.MatchList ∧
    ctx.MatchList.length ≤ Index

/-- The characters the scan of `YoriShParseBackquoteSubstrings` acts on: the
escape character, the backtick, `)` and `$`. -/
def isSubstitutionChar (c : Char) : Bool :=
  YoriLibIsEscapeChar c || c == '`' || c == ')' || c == '$'

/-- The text `echo $(echo` followed by a backquoted `echo x` and `)`. -/
def nestedSample : List Char :=
  ['e', 'c', 'h', 'o', ' ', '$', '(', 'e', 'c', 'h', 'o', ' ', '`', 'e', 'c', 'h', 'o', ' ',
   'x', '`', ')']

/-- Spec words of C21: the argument at index `j` ends a program: it is
unquoted and equals `&`, `&&`, `|`, `||` or newline, or it equals `&!` or
`&!!` and is the last argument of the command line. -/
def specEndsProgram (CmdContext : YORI_SH_CMD_CONTEXT) (j : Nat) : Bool :=
  !(CmdContext.arg j).Quoted &&
    (decide ((CmdContext.arg j).Text ∈ [['&'], ['&', '&'], ['\n'], ['|'], ['|', '|']]) ||
      (decide (j = CmdContext.ArgC - 1) &&
        decide ((CmdContext.arg j).Text ∈ [['&', '!'], ['&', '!', '!']])))

/-- Spec words of C22: the text begins with `<`, `>`, `1>` or `2>`. -/
def beginsRedirection (t : List Char) : Bool :=
  decide (t.head? = some '<' ∨ t.head? = some '>' ∨
    ((t.head? = some '1' ∨ t.head? = some '2') ∧ t[1]? = some '>'))

/-- Spec words of C23: the redirection operators that take a file name,
standing alone. -/
def redirectionAlone : List (List Char) :=
  [['<'], ['>'], ['>', '>'], ['1', '>'], ['1', '>', '>'], ['2', '>'], ['2', '>', '>']]

/-- The stream a redirection operator with a file name redirects. -/
def redirectSlot (t : List Char) : RedirectString :=
  if t.head? = some '<' then .StdInFile
  else if t.head? = some '2' then .StdErrFile
  else .StdOutFile

/-- The test of parse.c 1266 at its first evaluation, with more arguments
left in the run: the redirection has a file name member and the argument
ends right after the operator. -/
def seeksTarget (r : RedirectScan) (ThisArg : Arg) : Bool :=
  r.ExecContextRedirectString.isSome && decide (ThisArg.Text.length = r.CharOffset)

/-- The part an argument of a consumed run plays. -/
inductive ArgRole
  | Program | Redirection | Target
deriving DecidableEq, Repr

/-- Spec words of C22 and C23: the role of each argument of a consumed run.
The flag is true while the file name of a redirection whose operator stood
alone is still to be taken from the arguments that follow: such an
argument is a target whatever its text and quoted flag, and the search goes
on behind an argument of length zero while arguments are left.  Otherwise
an unquoted argument that begins with `<`, `>`, `1>` or `2>` is a
redirection and any other argument belongs to the program. -/
def argRoles : Bool → List Arg → List ArgRole
  | _, [] => []
  | true, a :: rest => .Target :: argRoles (decide (a.Text.length = 0 ∧ rest ≠ [])) rest
  | false, a :: rest =>
    if a.Quoted = false ∧ beginsRedirection a.Text = true then
      .Redirection :: argRoles (decide (a.Text ∈ redirectionAlone ∧ rest ≠ [])) rest
    else .Program :: argRoles false rest

/-- The arguments of a run that have the role `Program`, in order. -/
def programArgs (seeking : Bool) (run : List Arg) : List Arg :=
  ((run.zip (argRoles seeking run)).filter (fun p => decide (p.2 = .Program))).map
    (fun p => p.1)

/-- Whether the file name of a redirection is still to be found after the
arguments of the list, more arguments following. -/
def seekingAfter : Bool → List Arg → Bool
  | s, [] => s
  | true, a :: rest => seekingAfter (decide (a.Text.length = 0)) rest
  | false, a :: rest =>
    seekingAfter (decide (a.Quoted = false ∧ a.Text ∈ redirectionAlone)) rest

/-- The state excluded by C24: stdout is sent to stderr while stderr is
sent to stdout. -/
def mergesBothWays (e : YORI_SH_SINGLE_EXEC_CONTEXT) : Bool :=
  decide (e.StdOutType = .StdErr ∧ e.StdErrType = .StdOut)

/-- The entry after a `)` at `Offset` abandoned it: an open entry gets
`Abandoned` and the length `Offset - StartingOffset`, any other entry is
left as it is. -/
def abandonAt (Offset : Nat) (e : YORI_SH_BACKQUOTE_ENTRY) : YORI_SH_BACKQUOTE_ENTRY :=
  if e.isOpen = true then
    { e with Abandoned := true, LengthInChars := dwordSub Offset e.StartingOffset }
  else e

/-- The entry after the terminator at `Offset` closed it. -/
def terminateAt (Offset : Nat) (e : YORI_SH_BACKQUOTE_ENTRY) : YORI_SH_BACKQUOTE_ENTRY :=
  { e with Terminated := true, LengthInChars := dwordSub Offset e.StartingOffset }

/-- The loop of `YoriShParseBackquoteSubstrings` (`backquoteLoop`, parse.c
1986-2022) with a history variable: `Opened` records, for each call of
`YoriShAllocateBackquoteEntry`, the number of entries of the list that are
open when the call is made.  The code has no such variable; the index and
the context are computed as in `backquoteLoop`. -/
def backquoteLoopOpened (Length : Nat) :
    List Char → Nat → YORI_SH_BACKQUOTE_CONTEXT → List Nat →
      Nat × YORI_SH_BACKQUOTE_CONTEXT × List Nat
  | [], Index, ctx, Opened => (Index, ctx, Opened)
  | c :: rest, Index, ctx, Opened =>
    if YoriLibIsEscapeChar c = true then
      match rest with
      | [] => (Index + 1, ctx, Opened)
      | _ :: rest2 => backquoteLoopOpened Length rest2 (Index + 2) ctx Opened
    else if c = '`' then
      let t := YoriShTerminateMatchingBackquoteEntry ctx Index false
      if t.2 = false then
        backquoteLoopOpened Length rest (Index + 1)
          (YoriShAllocateBackquoteEntry t.1 Length (Index + 1) false)
          (Opened ++ [openCount t.1.MatchList])
      else backquoteLoopOpened Length rest (Index + 1) t.1 Opened
    else if c = ')' then
      backquoteLoopOpened Length rest (Index + 1)
        (YoriShTerminateMatchingBackquoteEntry ctx Index true).1 Opened
    else if c = '$' ∧ rest.head? = some '(' then
      backquoteLoopOpened Length rest (Index + 1)
        (YoriShAllocateBackquoteEntry ctx Length (Index + 2) true)
        (Opened ++ [openCount ctx.MatchList])
    else backquoteLoopOpened Length rest (Index + 1) ctx Opened

/-- The largest `TreeDepth` of a list of entries, 0 for the empty list. -/
def maxTreeDepth (l : List YORI_SH_BACKQUOTE_ENTRY) : Nat :=
  (l.map (fun e => e.TreeDepth)).foldr max 0

/-- The open entries of a list given from the newest to the oldest form a
stack below the depth `d`: the newest open entry has the depth `d`, the
next one `d - 1`, and so on. -/
def OpenStack : List YORI_SH_BACKQUOTE_ENTRY → Nat → Prop
  | [], _ => True
  | e :: rest, d =>
    if e.isOpen = true then e.TreeDepth = d ∧ 1 ≤ d ∧ OpenStack rest (d - 1)
    else OpenStack rest d

/-- The relation kept between an entry and a later entry of the list: if
they have the same depth, the earlier one is closed and ends before the
later one starts. -/
def EndsBefore (a b : YORI_SH_BACKQUOTE_ENTRY) : Prop :=
  a.TreeDepth = b.TreeDepth →
    a.isOpen = false ∧ a.StartingOffset + a.LengthInChars < b.StartingOffset

/-- The loop that builds `NewArg` in `YoriShRemoveEscapesFromCmdContext`
(parse.c 775-784): an escape character is skipped and the character after
it is stored; an escape with nothing after it ends the loop. -/
def removeEscapesLoop : List Char → List Char
  | [] => []
  | c :: cs =>
    if YoriLibIsEscapeChar c = true then
      match cs with
      | [] => []
      | c1 :: cs1 => c1 :: removeEscapesLoop cs1
    else c :: removeEscapesLoop cs

/-- The body of the loop over the arguments in
`YoriShRemoveEscapesFromCmdContext` (parse.c 753-791): the argument is
replaced only when the search loop finds an escape character. -/
def removeEscapesFromArg (ThisArg : Arg) : Arg :=
  if ThisArg.Text.any YoriLibIsEscapeChar = true then
    { ThisArg with Text := removeEscapesLoop ThisArg.Text }
  else ThisArg

/-- `YoriShRemoveEscapesFromCmdContext` (parse.c 738-795), allocation taken
to succeed (the result `TRUE`): the command context afterwards. -/
def YoriShRemoveEscapesFromCmdContext (CmdContext : YORI_SH_CMD_CONTEXT) :
    YORI_SH_CMD_CONTEXT :=
  { CmdContext with
      ArgV := (CmdContext.ArgV.take CmdContext.ArgC).map removeEscapesFromArg ++
        CmdContext.ArgV.drop CmdContext.ArgC }

/-- The earlier node after it has been linked to the next one by `|`
(parse.c 1573-1581). -/
def pipeSource (PreviousProgram : YORI_SH_SINGLE_EXEC_CONTEXT) : YORI_SH_SINGLE_EXEC_CONTEXT :=
  { PreviousProgram with
      NextProgramType := .ExecConcurrently,
      StdOutType :=
        if PreviousProgram.StdOutType = .Default then .Pipe else PreviousProgram.StdOutType,
      WaitForCompletion := false }

/-- The later node after it has been linked to the earlier one by `|`
(parse.c 1573-1581). -/
def pipeTarget (ThisProgram : YORI_SH_SINGLE_EXEC_CONTEXT) : YORI_SH_SINGLE_EXEC_CONTEXT :=
  { ThisProgram with
      StdInType := if ThisProgram.StdInType = .Default then .Pipe else ThisProgram.StdInType }

/-- The state of the sizing loop without the record of the cursor. -/
def SizingState.noCursor (s : SizingState) : SizingState :=
  { s with CurrentArgFound := false, CurrentArg := 0 }

/-- The effect of `YoriShTerminateMatchingBackquoteEntry` at `Offset` with
the style `b` on one entry: it is left as it was, or it was open with the
style `b` and is terminated, or it was open and is abandoned. -/
def ClosesAs (Offset : Nat) (b : Bool) (e e1 : YORI_SH_BACKQUOTE_ENTRY) : Prop :=
  e1 = e ∨ (e.isOpen = true ∧ e.NewStyleMatch = b ∧ e1 = terminateAt Offset e) ∨
    (e.isOpen = true ∧ e1 = abandonAt Offset e)

/-- The program arguments `args` are those of the consumed run of `count`
arguments that begins at index `start`: the run is not empty and lies
inside the command line. -/
def ProgramRun (CmdContext : YORI_SH_CMD_CONTEXT) (args : List Arg) (r : Nat × Nat) : Prop :=
  0 < r.2 ∧ r.1 + r.2 ≤ CmdContext.ArgC ∧
  args = programArgs false ((CmdContext.ArgV.drop r.1).take r.2)

/-- The invariant of the main loop of `YoriShParseCmdContextToExecPlan` for
the arguments given to the programs: each node has the program arguments of
a non-empty consumed run, the runs follow each other without overlap before
`CurrentArg`, and the argument lists of the nodes, one after the other, are
a sublist of the arguments before `CurrentArg`. -/
def PlanRuns (CmdContext : YORI_SH_CMD_CONTEXT) (s : PlanState) : Prop :=
  s.Plan.NumberCommands = s.Plan.FirstCmd.length ∧ s.CurrentArg ≤ CmdContext.ArgC ∧
  (∃ runs : List (Nat × Nat),
    List.Forall₂ (ProgramRun CmdContext) (s.Plan.FirstCmd.map (fun n => n.CmdToExec)) runs ∧
    (∀ r ∈ runs, r.1 + r.2 ≤ s.CurrentArg) ∧
    runs.Pairwise (fun a b => a.1 + a.2 ≤ b.1)) ∧
  (s.Plan.FirstCmd.map (fun n => n.CmdToExec)).flatten.Sublist
    (CmdContext.ArgV.take s.CurrentArg)

/-- The number of characters the fill pass has stored so far, `OutputString`
minus the start of the character buffer: the arguments completed, each with
its terminating NUL, and the characters of the argument in progress. -/
def FillState.written (s : FillState) : Nat :=
  (s.ArgV.map (fun a => a.Text.length + 1)).sum + s.CurOut.length

/-- The number of characters stored when the fill pass has ended: the final
termination (parse.c 610-614) stores one more NUL when the length of the
last argument is still zero. -/
def FillState.charsWritten (s : FillState) : Nat :=
  s.written + (if s.CurLen = 0 then 1 else 0)

/-- The terminating operators of the separator table that stand between
two words: the pipe, the conditionals, the background mark, the newline and
the three stream merges. -/
def wordTerminators : List (List Char) :=
  [['|'], ['|', '|'], ['&'], ['&', '&'], ['\n'], ['>', '&', '2'], ['1', '>', '&', '2'],
    ['2', '>', '&', '1']]

/-- The operators of the separator table that do not terminate the
argument: the redirections. -/
def nonTerminatingOperators : List (List Char) :=
  [['>'], ['>', '>'], ['1', '>'], ['1', '>', '>'], ['2', '>'], ['2', '>', '>'], ['<']]

/-- The text of a list of quoted sections, each followed by plain text:
`"s1"p1"s2"p2...`. -/
def quotedSections (segs : List (List Char × List Char)) : List Char :=
  (segs.map (fun s => '"' :: (s.1 ++ '"' :: s.2))).flatten

/-- The check made on a state of the fill loop that reads an argument of the
kind `>"file name"` (parse.c 555-573), one for which
`LookingForFirstQuote` is set while the `Quoted` flag is clear.  At the
opening quote: the quote is not directly followed by two more double quotes.
Between the quotes: the character about to be read is an escape character,
the closing quote, or a character that is neither a space nor the first
character of an operator.  Every other state passes. -/
def redirectQuoteStateOK (s : FillState) : Bool :=
  if s.LookingForFirstQuote = true ∧ s.CurQuoted = false then
    match s.Char with
    | [] => true
    | c :: r =>
      if s.QuoteOpen = true then
        YoriLibIsEscapeChar c || decide (c = '"') ||
          (!(decide (c = ' ')) && !(isOperatorChar c))
      else !(decide (r.head? = some '"' ∧ (r.drop 1).head? = some '"'))
  else true

/-- The fill loop, run from a state for at most `fuel` iterations, passes
`redirectQuoteStateOK` at the head of every iteration. -/
def redirectQuoteRunOK : Nat → FillState → Bool
  | 0, _ => true
  | fuel + 1, s =>
    if s.Char = [] then true
    else redirectQuoteStateOK s && redirectQuoteRunOK fuel (fillStep s)

/-- The fill loop run from the state passes `redirectQuoteStateOK` at the
head of every iteration, whatever their number. -/
def RedirectQuoteSafe (s : FillState) : Prop :=
  ∀ fuel, redirectQuoteRunOK fuel s = true

/-- The text of a quoted argument is read back from between double quotes:
read from the left, each escape character taking the character after it, the
text holds no escape character left without a character after it, and no
double quote outside such a pair other than a run of double quotes that ends
the text; the run has an even length unless the argument is the last one of
the line (`last`). -/
def quotedTextOK (last : Bool) : List Char → Bool
  | [] => true
  | [c] =>
    if YoriLibIsEscapeChar c = true then false
    else if c = '"' then last
    else true
  | c :: d :: r =>
    if YoriLibIsEscapeChar c = true then quotedTextOK last r
    else if c = '"' then
      (d :: r).all (fun x => decide (x = '"')) && (last || decide ((d :: r).length % 2 = 1))
    else quotedTextOK last (d :: r)

/-- An argument that `YoriShBuildCmdlineFromCmdContext` writes in a form the
tokenizer reads back: its text holds no NUL, and when it is flagged quoted
its text is one that is read back from between double quotes. -/
def readBackOK (last : Bool) (a : Arg) : Bool :=
  decide (NUL ∉ a.Text) && (!a.Quoted || quotedTextOK last a.Text)

/-- Every argument of the list is written in a form the tokenizer reads
back, the last one as the last argument of a line. -/
def argsReadBack : List Arg → Bool
  | [] => true
  | a :: rest => readBackOK rest.isEmpty a && argsReadBack rest

/-- The characters `YoriShBuildCmdlineFromCmdContext` writes for the
arguments after the first: each argument after one space. -/
def spacedArgs (rest : List Arg) : List Char :=
  (rest.map (fun a => ' ' :: renderArg a)).flatten

/-- The relation between a state of the fill loop and the line built from
the arguments it produces: the state produces the argument in progress,
its text continued by `t`, and the arguments `rest`; and when these are
written by `YoriShBuildCmdlineFromCmdContext` in a form the tokenizer reads
back, the fill loop run on the built characters gives the same arguments.
The last part is for an argument of the kind `>"file name"`, whose quotes
are not written back. -/
def SimOK (out cs : List Char) (av : List Arg) (q o l : Bool) : Prop :=
  ∃ t rest,
    tokensFrom (mkFill out cs av 0 q o l) = av ++ ⟨out ++ t, q⟩ :: rest ∧
    (argsReadBack rest = true → NUL ∉ t →
      tokensFrom (mkFill (out ++ t) (spacedArgs rest) av 0 q false false) =
        av ++ ⟨out ++ t, q⟩ :: rest ∧
      (l = false →
        tokensFrom (mkFill out (t ++ spacedArgs rest) av 0 q o false) =
          av ++ ⟨out ++ t, q⟩ :: rest ∧
        (∀ c, t.head? = some c → cs.head? = some c ∧
          (o = false → (0 < av.length ∨ 0 < out.length) → isOperatorChar c = false)) ∧
        (o = false → (YoriShIsArgumentSeperator cs).CharsToConsume = 0 →
          cs.head? ≠ some ' ' → cs ≠ [] →
          t ≠ [] ∧ (YoriShIsArgumentSeperator (t ++ spacedArgs rest)).CharsToConsume = 0) ∧
        (o = false → av = [] → out = [] → cs ≠ [] → cs.head? ≠ some ' ' → t ≠ []) ∧
        (o = false → out = [] → t = [] → cs ≠ [] → cs.head? ≠ some ' ' →
          ∃ a2 rest2, rest = a2 :: rest2 ∧ a2.Quoted = false ∧
            0 < (YoriShIsArgumentSeperator (a2.Text ++ spacedArgs rest2)).CharsToConsume)) ∧
      (l = true → q = false →
        tokensFrom (mkFill out (t ++ spacedArgs rest) av 0 q false false) =
          av ++ ⟨out ++ t, q⟩ :: rest ∧
        (∀ c, t.head? = some c → isOperatorChar c = false ∧
          (c = '"' → o = true ∧ cs.head? = some '"' ∧ (cs.drop 1).head? = some '"'))))

/-- The node `node`, built from the consumed run `r`, is linked to the
program built from the run `r1`: at least one argument stands between the
two runs, the first of them is unquoted, each of them has the text of a
separator, and the node carries the transition kind of the last of them. -/
def EdgeOK (CmdContext : YORI_SH_CMD_CONTEXT) (node : YORI_SH_SINGLE_EXEC_CONTEXT)
    (r r1 : Nat × Nat) : Prop :=
  r.1 + r.2 < r1.1 ∧
  (CmdContext.arg (r.1 + r.2)).Quoted = false ∧
  (∀ j, r.1 + r.2 ≤ j → j < r1.1 → SepAt CmdContext j) ∧
  node.NextProgramType = transitionOf (CmdContext.arg (r1.1 - 1)).Text

/-- The invariant of the main loop of `YoriShParseCmdContextToExecPlan` for
the links of the chain: each node has the program arguments of a consumed
run, each node with a successor is linked to it as `EdgeOK` says, and while
arguments remain the arguments stepped over since the last run are
separators, the first of them unquoted, `ArgOfLastOperatorIndex` being the
index of the last of them. -/
def PlanEdges (CmdContext : YORI_SH_CMD_CONTEXT) (s : PlanState) : Prop :=
  ∃ runs : List (Nat × Nat),
    List.Forall₂ (ProgramRun CmdContext) (s.Plan.FirstCmd.map (fun n => n.CmdToExec)) runs ∧
    (∀ (i : Nat) (node : YORI_SH_SINGLE_EXEC_CONTEXT) (r r1 : Nat × Nat),
      s.Plan.FirstCmd[i]? = some node → runs[i]? = some r → runs[i + 1]? = some r1 →
      EdgeOK CmdContext node r r1) ∧
    (∀ r, runs.getLast? = some r → s.CurrentArg < CmdContext.ArgC →
      r.1 + r.2 < s.CurrentArg ∧ (CmdContext.arg (r.1 + r.2)).Quoted = false ∧
      (∀ j, r.1 + r.2 ≤ j → j < s.CurrentArg → SepAt CmdContext j) ∧
      s.ArgOfLastOperatorIndex + 1 = s.CurrentArg)

/-! # Theorems -/

/-! ## The two passes of the tokenizer -/

theorem trim_length_le (l : List Char) :
    (YoriShTrimSpacesFromBeginning l).length ≤ l.length := by
  induction l with
  | nil => simp [YoriShTrimSpacesFromBeginning]
  | cons c cs ih =>
    simp only [YoriShTrimSpacesFromBeginning]
    split
    · simp; omega
    · simp

theorem trim_cons_space (cs : List Char) :
    YoriShTrimSpacesFromBeginning (' ' :: cs) = YoriShTrimSpacesFromBeginning cs := by
  simp [YoriShTrimSpacesFromBeginning]

theorem trim_cons_of_ne (c : Char) (cs : List Char) (h : c ≠ ' ') :
    YoriShTrimSpacesFromBeginning (c :: cs) = c :: cs := by
  simp [YoriShTrimSpacesFromBeginning, h]


@[simp]
theorem trim_nil : YoriShTrimSpacesFromBeginning [] = [] := rfl

@[simp]
theorem markCurrent_proj (s : SizingState) :
    s.markCurrent.Char = s.Char ∧ s.markCurrent.ArgCount = s.ArgCount ∧
    s.markCurrent.RequiredCharCount = s.RequiredCharCount ∧
    s.markCurrent.CharsToConsume = s.CharsToConsume ∧
    s.markCurrent.TerminateNextArg = s.TerminateNextArg ∧
    s.markCurrent.QuoteOpen = s.QuoteOpen ∧
    s.markCurrent.LookingForFirstQuote = s.LookingForFirstQuote ∧
    s.markCurrent.TrailingChars = s.TrailingChars := by
  unfold SizingState.markCurrent
  split <;> simp

@[simp]
theorem markCurrentIfPast_proj (len off : Nat) (s : SizingState) :
    (s.markCurrentIfPast len off).Char = s.Char ∧
    (s.markCurrentIfPast len off).ArgCount = s.ArgCount ∧
    (s.markCurrentIfPast len off).RequiredCharCount = s.RequiredCharCount ∧
    (s.markCurrentIfPast len off).CharsToConsume = s.CharsToConsume ∧
    (s.markCurrentIfPast len off).TerminateNextArg = s.TerminateNextArg ∧
    (s.markCurrentIfPast len off).QuoteOpen = s.QuoteOpen ∧
    (s.markCurrentIfPast len off).LookingForFirstQuote = s.LookingForFirstQuote ∧
    (s.markCurrentIfPast len off).TrailingChars = s.TrailingChars := by
  unfold SizingState.markCurrentIfPast
  split <;> simp

theorem fillTerminate_char (s : FillState) :
    (fillTerminate s).Char = terminateRest s.Char s.CharsToConsume s.TerminateNextArg := by
  unfold fillTerminate terminateRest effT effC
  simp only [FillState.terminateArg, FillState.beginArg]
  split_ifs <;> simp_all

theorem sizingTerminate_char (len off : Nat) (s : SizingState) :
    (sizingTerminate len off s).1.Char =
      terminateRest s.Char s.CharsToConsume s.TerminateNextArg := by
  unfold sizingTerminate terminateRest effT effC
  simp only [SizingState.countLast]
  split_ifs <;> simp_all <;> (rw [List.drop_eq_nil_of_le (by assumption)]; rfl)

theorem sizingTerminate_flag (len off : Nat) (s : SizingState)
    (h : (sizingTerminate len off s).2 = true) :
    terminateRest s.Char s.CharsToConsume s.TerminateNextArg = [] := by
  rw [← sizingTerminate_char len off s]
  revert h
  unfold sizingTerminate
  simp only [SizingState.countLast]
  split_ifs <;> simp_all

theorem sizingTerminate_quoteOpen (len off : Nat) (s : SizingState) :
    (sizingTerminate len off s).1.QuoteOpen = s.QuoteOpen := by
  unfold sizingTerminate
  simp only [SizingState.countLast]
  split_ifs <;> simp_all

theorem fillTerminate_quoteOpen (s : FillState) :
    (fillTerminate s).QuoteOpen = s.QuoteOpen := by
  unfold fillTerminate
  simp only [FillState.terminateArg, FillState.beginArg]
  split_ifs <;> simp_all

theorem sizingTerminate_argCount (len off : Nat) (s : SizingState) :
    (sizingTerminate len off s).1.ArgCount =
      s.ArgCount +
        (if YoriShTrimSpacesFromBeginning s.Char = [] then 1
         else if (YoriShTrimSpacesFromBeginning s.Char).drop (effC s.Char s.CharsToConsume) = []
           then 2
         else if effT s.Char s.CharsToConsume s.TerminateNextArg = true then 2 else 1) := by
  unfold sizingTerminate effT effC
  simp only [SizingState.countLast]
  split_ifs <;> simp_all

theorem fillTerminate_argV_length (s : FillState) :
    (fillTerminate s).ArgV.length =
      s.ArgV.length +
        (if YoriShTrimSpacesFromBeginning s.Char = [] then 0
         else if effT s.Char s.CharsToConsume s.TerminateNextArg = true ∧
             terminateRest s.Char s.CharsToConsume s.TerminateNextArg ≠ [] then 2 else 1) := by
  unfold fillTerminate terminateRest effT effC
  simp only [FillState.terminateArg, FillState.beginArg]
  split_ifs <;> simp_all

theorem sizingTerminate_lffq (len off : Nat) (s : SizingState)
    (h : terminateRest s.Char s.CharsToConsume s.TerminateNextArg ≠ []) :
    (sizingTerminate len off s).1.LookingForFirstQuote =
      decide ((terminateRest s.Char s.CharsToConsume s.TerminateNextArg).head? = some '"') := by
  revert h
  unfold sizingTerminate terminateRest effT effC
  simp only [SizingState.countLast]
  split_ifs <;> simp_all <;>
    (intro h; exfalso; apply h; rw [List.drop_eq_nil_of_le (by assumption)]; rfl)

theorem fillTerminate_lffq (s : FillState)
    (h : terminateRest s.Char s.CharsToConsume s.TerminateNextArg ≠ [])
    (h5 : 0 < effC s.Char s.CharsToConsume →
      (YoriShTrimSpacesFromBeginning s.Char).head? ≠ some '"') :
    (fillTerminate s).LookingForFirstQuote =
      decide ((terminateRest s.Char s.CharsToConsume s.TerminateNextArg).head? = some '"') := by
  revert h h5
  unfold fillTerminate terminateRest effT effC
  simp only [FillState.terminateArg, FillState.beginArg]
  split_ifs <;> simp_all <;>
    (intro h _ hq; rename_i hn _; apply hn; rw [List.getElem?_eq_getElem h, hq])



theorem trim_of_head_ne_space (l : List Char) (h : l.head? ≠ some ' ') :
    YoriShTrimSpacesFromBeginning l = l := by
  cases l with
  | nil => rfl
  | cons c cs =>
    have : c ≠ ' ' := by simpa using h
    simp [YoriShTrimSpacesFromBeginning, this]

theorem sep_pos_head (l : List Char) (h : 0 < (YoriShIsArgumentSeperator l).CharsToConsume) :
    l.head? ≠ some '"' ∧ l.head? ≠ some ' ' := by
  cases l with
  | nil => simp [YoriShIsArgumentSeperator] at h
  | cons c cs =>
    simp only [List.head?_cons, ne_eq, Option.some.injEq]
    constructor
    · rintro rfl
      simp [YoriShIsArgumentSeperator] at h
    · rintro rfl
      simp [YoriShIsArgumentSeperator] at h

theorem terminate_sim (len off : Nat) (sz : SizingState) (fl : FillState)
    (h1 : sz.Char = fl.Char) (h2 : sz.CharsToConsume = fl.CharsToConsume)
    (h3 : sz.TerminateNextArg = fl.TerminateNextArg) (h4 : sz.ArgCount = fl.ArgV.length)
    (hq : sz.QuoteOpen = fl.QuoteOpen)
    (h5 : fl.CharsToConsume ≠ 0 → 0 < (YoriShIsArgumentSeperator fl.Char).CharsToConsume) :
    StepRel (sizingTerminate len off sz) (fillTerminate fl) := by
  have hchar : (sizingTerminate len off sz).1.Char = (fillTerminate fl).Char := by
    rw [sizingTerminate_char, fillTerminate_char, h1, h2, h3]
  have hhead : 0 < effC fl.Char fl.CharsToConsume →
      (YoriShTrimSpacesFromBeginning fl.Char).head? ≠ some '"' := by
    intro hpos
    unfold effC at hpos
    split_ifs at hpos with h0
    · exact (sep_pos_head _ hpos).1
    · have h6 := sep_pos_head _ (h5 h0)
      rw [trim_of_head_ne_space _ h6.2]
      exact h6.1
  refine ⟨hchar, ?_, ?_⟩
  · intro hne
    rw [fillTerminate_char] at hne
    have hflag : (sizingTerminate len off sz).2 = false := by
      by_contra hf
      have := sizingTerminate_flag len off sz (by simpa using hf)
      rw [h1, h2, h3] at this
      exact hne this
    refine ⟨hflag, hchar, ?_, ?_, ?_, ?_⟩
    · rw [sizingTerminate_quoteOpen, fillTerminate_quoteOpen, hq]
    · rw [sizingTerminate_lffq len off sz (by rw [h1, h2, h3]; exact hne),
        fillTerminate_lffq fl hne hhead, h1, h2, h3]
    · rw [sizingTerminate_argCount, fillTerminate_argV_length, h1, h2, h3, h4]
      revert hne
      unfold terminateRest
      split_ifs <;> simp_all
    · intro h0
      have h00 := congrArg List.length h0
      rw [fillTerminate_argV_length] at h00
      revert hne
      unfold terminateRest
      split_ifs at h00 ⊢ <;> simp_all
  · intro hnil
    rw [fillTerminate_char] at hnil
    rw [sizingTerminate_argCount, fillTerminate_argV_length, h1, h2, h3, h4]
    revert hnil
    unfold terminateRest
    split_ifs <;> simp_all


theorem sep_cons_other (c : Char) (cs : List Char)
    (h1 : c ≠ '|') (h2 : c ≠ '&') (h3 : c ≠ '\n') (h4 : c ≠ '>') (h5 : c ≠ '<')
    (h6 : c ≠ '1') (h7 : c ≠ '2') :
    YoriShIsArgumentSeperator (c :: cs) = ⟨0, false⟩ := by
  simp only [YoriShIsArgumentSeperator, h1, h2, h3, h4, h5, h6, h7, if_false]

theorem literal_sim (c : Char) (rest : List Char) (sz : SizingState) (fl : FillState)
    (hq : sz.QuoteOpen = fl.QuoteOpen) (hl : sz.LookingForFirstQuote = fl.LookingForFirstQuote)
    (ha : sz.ArgCount = fl.ArgV.length)
    (hr : fl.ArgV = [] → sz.RequiredCharCount = fl.CurOut.length) :
    StepRel (sizingLiteral rest sz) (fillLiteral c rest fl) := by
  unfold StepRel PassRel sizingLiteral fillLiteral SizingState.countLast
  by_cases h : rest = []
  · simp [h, ha]
  · simp [h, ha, hq, hl]
    intro h0
    rw [hr h0]

theorem step_sim (len off : Nat) (sz : SizingState) (fl : FillState)
    (hR : PassRel sz fl) (hne : fl.Char ≠ []) :
    StepRel (sizingStep len off sz) (fillStep fl) := by
  obtain ⟨hc, hq, hl, ha, hr⟩ := hR
  cases hch : fl.Char with
  | nil => exact absurd hch hne
  | cons c rest =>
    have hsz : sz.Char = c :: rest := hc.trans hch
    have hfirst : (0 < fl.ArgV.length ∨ 0 < sz.RequiredCharCount) ↔
        (0 < fl.ArgV.length ∨ 0 < fl.CurOut.length) := by
      by_cases h0 : fl.ArgV = []
      · rw [hr h0]
      · have : 0 < fl.ArgV.length := List.length_pos.mpr h0
        constructor <;> intro _ <;> left <;> exact this
    unfold sizingStep fillStep
    simp only [hsz, hch, hq, hl, ha]
    by_cases hesc : YoriLibIsEscapeChar c = true
    · simp only [hesc, if_true]
      cases rest with
      | nil => simp [StepRel, ha]
      | cons c1 r2 =>
        by_cases h2 : r2 = []
        · simp [StepRel, ha, h2]
        · simp [StepRel, PassRel, ha, h2, hq, hl]
          intro h0
          rw [hr h0]
    · simp only [hesc, Bool.false_eq_true, if_false]
      by_cases hcq : c = '"'
      · subst hcq
        simp only [true_and, if_true]
        by_cases hcl : fl.QuoteOpen = true ∧ fl.LookingForFirstQuote = true
        · simp only [hcl, and_self, if_true]
          by_cases h : rest = []
          · simp [h, StepRel, SizingState.countLast, ha]
          · simp [h, StepRel, PassRel, ha]
            exact hr
        · simp only [hcl, if_false, hl]
          by_cases hlf : fl.LookingForFirstQuote = true
          · simp only [hlf, if_true]
            by_cases h : rest = []
            · simp [h, StepRel, SizingState.countLast, ha]
            · simp [h, StepRel, PassRel, ha, hq, hlf, hl]
              exact hr
          · simp only [hlf, if_false, hq]
            have hsep : YoriShIsArgumentSeperator ('"' :: rest) = ⟨0, false⟩ :=
              sep_cons_other _ _ (by decide) (by decide) (by decide) (by decide)
                (by decide) (by decide) (by decide)
            by_cases hqo : fl.QuoteOpen = true
            · have hnq : (!fl.QuoteOpen) = false := by simp [hqo]
              simp only [hnq, Bool.false_eq_true, if_false, hfirst, ha, hsep,
                show ('"' : Char) ≠ ' ' by decide, lt_irrefl]
              split_ifs <;> apply literal_sim <;> first | assumption | simp [*]
            · have hnq : (!fl.QuoteOpen) = true := by simpa using hqo
              simp only [hnq, if_true]
              apply literal_sim <;> first | assumption | simp [*]
      · have hs1 : (if c = '"' then { sz with QuoteOpen := !sz.QuoteOpen } else sz) = sz := by
          simp [hcq]
        have hf1 : (if c = '"' then { fl with QuoteOpen := !fl.QuoteOpen } else fl) = fl := by
          simp [hcq]
        simp only [hs1, hf1, hcq, false_and, if_false, hfirst, ha, hq]
        by_cases hqo : fl.QuoteOpen = true
        · simp only [hqo, if_true]
          apply literal_sim <;> first | assumption | simp [*]
        · simp only [hqo, Bool.false_eq_true, if_false]
          by_cases hsp : c = ' '
          · simp only [hsp, if_true]
            apply terminate_sim <;> first | assumption | simp [*]
          · simp only [hsp, if_false, hsz, hch]
            split_ifs with hf hs
            · apply terminate_sim <;> first | assumption | simp [*]
            · apply literal_sim <;> first | assumption | simp [*]
            · apply literal_sim <;> first | assumption | simp [*]


theorem terminateRest_le (cs : List Char) (ctc : Nat) (tna : Bool) :
    (terminateRest cs ctc tna).length ≤ (YoriShTrimSpacesFromBeginning cs).length := by
  unfold terminateRest
  split_ifs
  · exact le_trans (trim_length_le _) (by simp)
  · simp

theorem terminateRest_lt (cs : List Char) (ctc : Nat) (tna : Bool) (h : cs ≠ [])
    (h2 : cs.head? = some ' ' ∨ 0 < ctc) :
    (terminateRest cs ctc tna).length < cs.length := by
  rcases h2 with h2 | h2
  · cases cs with
    | nil => exact absurd rfl h
    | cons c rest =>
      simp at h2
      subst h2
      have h3 := terminateRest_le (' ' :: rest) ctc tna
      rw [trim_cons_space] at h3
      have h4 := trim_length_le rest
      simp
      omega
  · have hc : cs.length ≠ 0 := by simpa using h
    have hne : ctc ≠ 0 := by omega
    have hT := trim_length_le cs
    have hD := trim_length_le (List.drop ctc (YoriShTrimSpacesFromBeginning cs))
    simp only [List.length_drop] at hD
    unfold terminateRest effC
    simp only [hne, if_false]
    split_ifs
    · omega
    · simp only [List.length_drop]
      omega

theorem fillStep_length (s : FillState) (h : s.Char ≠ []) :
    (fillStep s).Char.length < s.Char.length := by
  unfold fillStep
  split
  · rename_i h1; exact absurd h1 h
  · rename_i c rest h1
    rw [h1]
    simp only [fillLiteral]
    split_ifs
    · split <;> simp <;> omega
    all_goals first
      | (simp; done)
      | (rw [fillTerminate_char]
         refine lt_of_lt_of_le (terminateRest_lt _ _ _ ?_ ?_) ?_ <;> simp_all)

theorem fillLoop_eq_run (fuel : Nat) (s : FillState) (h : s.Char.length ≤ fuel) :
    fillLoop fuel s = some (fillRun s) := by
  induction fuel using Nat.strong_induction_on generalizing s with
  | _ n ih =>
    by_cases hc : s.Char = []
    · cases n <;> simp [fillRun, fillLoop, hc]
    · have hlt := fillStep_length s hc
      obtain ⟨m, hm⟩ : ∃ m, s.Char.length = m + 1 := by
        cases hs : s.Char with
        | nil => exact absurd hs hc
        | cons a b => exact ⟨b.length, by simp⟩
      obtain ⟨k, hk⟩ : ∃ k, n = k + 1 := ⟨n - 1, by omega⟩
      subst hk
      have h1 : fillLoop (k + 1) s = fillLoop k (fillStep s) := by
        simp [fillLoop, hc]
      have h2 : fillLoop (m + 1) s = fillLoop m (fillStep s) := by
        simp [fillLoop, hc]
      rw [h1, ih k (by omega) (fillStep s) (by omega)]
      unfold fillRun
      rw [hm, h2, ih m (by omega) (fillStep s) (by omega),
        ih _ (by omega) (fillStep s) (le_refl _)]
      simp [fillRun]

theorem fillRun_nil (s : FillState) (h : s.Char = []) : fillRun s = s := by
  simp [fillRun, fillLoop, h]

theorem fillRun_step (s : FillState) (h : s.Char ≠ []) : fillRun s = fillRun (fillStep s) := by
  have h1 := fillLoop_eq_run (s.Char.length) s (le_refl _)
  have h2 := fillLoop_eq_run (s.Char.length - 1) (fillStep s)
    (by have := fillStep_length s h; omega)
  obtain ⟨m, hm⟩ : ∃ m, s.Char.length = m + 1 := by
    cases hs : s.Char with
    | nil => exact absurd hs h
    | cons a b => exact ⟨b.length, by simp⟩
  rw [hm] at h1 h2
  have h3 : fillLoop (m + 1) s = fillLoop m (fillStep s) := by
    simp [fillLoop, h]
  rw [h3] at h1
  simp at h2
  rw [h2] at h1
  exact (Option.some.inj h1).symm


theorem loop_sim (len off : Nat) (n : Nat) (sz : SizingState) (fl : FillState)
    (hR : PassRel sz fl) (hne : fl.Char ≠ []) (hn : fl.Char.length ≤ n) :
    ∃ sz1, sizingLoop len off n sz = some sz1 ∧ sz1.Char = [] ∧
      sz1.ArgCount = (fillRun fl).ArgV.length + 1 := by
  induction n using Nat.strong_induction_on generalizing sz fl with
  | _ n ih =>
    have hszne : sz.Char ≠ [] := by rw [hR.1]; exact hne
    obtain ⟨k, hk⟩ : ∃ k, n = k + 1 := by
      cases n with
      | zero => simp at hn; exact absurd hn hne
      | succ k => exact ⟨k, rfl⟩
    subst hk
    have hstep := step_sim len off sz fl hR hne
    have hlt := fillStep_length fl hne
    obtain ⟨hchar, hcont, hfin⟩ := hstep
    rw [fillRun_step fl hne]
    rcases hs : sizingStep len off sz with ⟨s1, b⟩
    rw [hs] at hchar hcont hfin
    simp only at hchar hcont hfin
    by_cases hnil : (fillStep fl).Char = []
    · rw [fillRun_nil _ hnil]
      have hz : s1.Char = [] := by rw [hchar, hnil]
      cases b with
      | true => exact ⟨s1, by simp [sizingLoop, hszne, hs], hz, hfin hnil⟩
      | false =>
        refine ⟨s1, ?_, hz, hfin hnil⟩
        cases k <;> simp [sizingLoop, hszne, hs, hz]
    · obtain ⟨hflag, hR1⟩ := hcont hnil
      subst hflag
      obtain ⟨sz1, h1, h2, h3⟩ := ih k (by omega) s1 (fillStep fl) hR1 hnil (by omega)
      exact ⟨sz1, by simp [sizingLoop, hszne, hs, h1], h2, h3⟩


theorem finish_length (s : FillState) : s.finish.length = s.ArgV.length + 1 := by
  simp [FillState.finish]

theorem expandArguments_length (Expand : List Char → List Char) (args : List Arg) :
    expandArguments Expand args.length args =
      args.map (fun a => { a with Text := Expand a.Text }) := by
  simp [expandArguments]

/-- The tokenizer always produces a command context: `ArgC` is the number
of entries of the argument array, and the array is the one the fill pass
writes, each text expanded. -/
theorem parse_eq (Expand : List Char → List Char) (CmdLine : List Char) (CurrentOffset : Nat) :
    ∃ sz, sizingPass CmdLine CurrentOffset = some sz ∧
      sz.ArgCount = (tokenize CmdLine sz.CharsToConsume sz.TerminateNextArg).length ∧
      YoriShParseCmdlineToCmdContext Expand CmdLine CurrentOffset =
        some { ArgC := sz.ArgCount,
               ArgV := (tokenize CmdLine sz.CharsToConsume sz.TerminateNextArg).map
                 (fun a => { a with Text := Expand a.Text }),
               CurrentArg := sz.CurrentArg, TrailingChars := sz.TrailingChars } := by
  by_cases hT : YoriShTrimSpacesFromBeginning CmdLine = []
  · have h1 : sizingLoop CmdLine.length CurrentOffset (CmdLine.length + 1) (sizingInit CmdLine)
        = some (sizingInit CmdLine) := by
      simp [sizingLoop, sizingInit, hT]
    have hsz : sizingPass CmdLine CurrentOffset =
        some ({ sizingInit CmdLine with
          RequiredCharCount := (sizingInit CmdLine).RequiredCharCount + 1 } :
            SizingState).markCurrent := by
      simp only [sizingPass, h1]
    refine ⟨_, hsz, ?_, ?_⟩
    · simp [tokenize, hT, sizingInit]
    · simp [YoriShParseCmdlineToCmdContext, hsz, tokenize, hT, sizingInit]
  · have hlen : (fillInit CmdLine 0 false).Char.length ≤ CmdLine.length + 1 := by
      have := trim_length_le CmdLine
      simp only [fillInit]
      omega
    have hR : ∀ c t, PassRel (sizingInit CmdLine) (fillInit CmdLine c t) := by
      intro c t
      simp [PassRel, sizingInit, fillInit]
    obtain ⟨sz1, h1, h2, h3⟩ := loop_sim CmdLine.length CurrentOffset (CmdLine.length + 1)
      (sizingInit CmdLine) (fillInit CmdLine 0 false) (hR 0 false) (by simpa [fillInit] using hT) hlen
    have hsz : sizingPass CmdLine CurrentOffset =
        some ({ sz1 with RequiredCharCount := sz1.RequiredCharCount + 1 } : SizingState).markCurrent := by
      simp only [sizingPass, h1]
    refine ⟨_, hsz, ?_, ?_⟩
    · obtain ⟨sz2, h4, _, h6⟩ := loop_sim CmdLine.length CurrentOffset (CmdLine.length + 1)
        (sizingInit CmdLine) (fillInit CmdLine sz1.CharsToConsume sz1.TerminateNextArg)
        (hR _ _) (by simpa [fillInit] using hT) (by simpa [fillInit] using hlen)
      rw [h1] at h4
      cases h4
      simp [tokenize, hT, finish_length, h6]
    · obtain ⟨sz2, h4, _, h6⟩ := loop_sim CmdLine.length CurrentOffset (CmdLine.length + 1)
        (sizingInit CmdLine) (fillInit CmdLine sz1.CharsToConsume sz1.TerminateNextArg)
        (hR _ _) (by simpa [fillInit] using hT) (by simpa [fillInit] using hlen)
      rw [h1] at h4
      cases h4
      have hfill : fillPass CmdLine sz1.CharsToConsume sz1.TerminateNextArg =
          some (fillRun (fillInit CmdLine sz1.CharsToConsume sz1.TerminateNextArg)).finish := by
        simp only [fillPass]
        rw [fillLoop_eq_run _ _ (by simpa [fillInit] using hlen)]
        rfl
      have hlen2 : sz1.ArgCount =
          (fillRun (fillInit CmdLine sz1.CharsToConsume sz1.TerminateNextArg)).finish.length := by
        rw [finish_length, h6]
      simp only [YoriShParseCmdlineToCmdContext, hsz]
      simp [h6, hfill, tokenize, hT]
      rw [← h6, hlen2, expandArguments_length]

theorem fillStep_core (s : FillState) : (fillStep s.core).core = (fillStep s).core := by
  unfold fillStep
  cases hch : s.Char with
  | nil => simp [FillState.core, hch]
  | cons c rest =>
    have hc : s.core.Char = c :: rest := by simp [FillState.core, hch]
    simp only [hc]
    by_cases hesc : YoriLibIsEscapeChar c = true
    · simp only [hesc, if_true]
      cases rest <;> simp [FillState.core]
    · simp only [hesc, Bool.false_eq_true, if_false]
      simp only [FillState.core, fillLiteral, hch]
      split_ifs <;> simp_all

theorem fillRun_core_aux (n : Nat) (s : FillState) (hn : s.Char.length = n) :
    (fillRun s.core).core = (fillRun s).core := by
  induction n using Nat.strong_induction_on generalizing s with
  | _ n ih =>
    by_cases hc : s.Char = []
    · rw [fillRun_nil _ hc, fillRun_nil _ (by simpa [FillState.core] using hc)]
      simp [FillState.core]
    · have hc2 : s.core.Char ≠ [] := by simpa [FillState.core] using hc
      rw [fillRun_step _ hc, fillRun_step _ hc2]
      have hlt := fillStep_length s hc
      rw [← ih _ (by omega) (fillStep s) rfl, ← ih _ ?_ (fillStep s.core) rfl]
      · rw [fillStep_core]
      · have := fillStep_length s.core hc2
        simp only [FillState.core] at this hn ⊢
        omega

theorem fillRun_core (s : FillState) : (fillRun s.core).core = (fillRun s).core :=
  fillRun_core_aux _ s rfl

theorem finish_core (s : FillState) : s.core.finish = s.finish := by
  simp [FillState.finish, FillState.core]

theorem tokensFrom_congr (s1 s2 : FillState) (h : s1.core = s2.core) :
    tokensFrom s1 = tokensFrom s2 := by
  unfold tokensFrom
  rw [← finish_core (fillRun s1), ← finish_core (fillRun s2), ← fillRun_core s1,
    ← fillRun_core s2, h]

theorem tokensFrom_nil (s : FillState) (h : s.Char = []) : tokensFrom s = s.finish := by
  simp [tokensFrom, fillRun_nil _ h]

theorem tokensFrom_step (s : FillState) (h : s.Char ≠ []) :
    tokensFrom s = tokensFrom (fillStep s) := by
  simp [tokensFrom, fillRun_step _ h]

theorem tokensFrom_mk (out cs : List Char) (av : List Arg) (len : Nat) (q : Bool)
    (c : Nat) (t o l : Bool) :
    tokensFrom ⟨out, cs, av, len, q, c, t, o, l⟩ = tokensFrom (mkFill out cs av len q o l) :=
  tokensFrom_congr _ _ rfl

theorem tokens_open_quote (out r : List Char) (av : List Arg) (len : Nat) (q : Bool) :
    tokensFrom (mkFill out ('"' :: r) av len q false true) =
      tokensFrom (mkFill out r av len q true true) := by
  rw [tokensFrom_step _ (by simp [mkFill])]
  apply tokensFrom_congr
  simp [fillStep, mkFill, YoriLibIsEscapeChar, FillState.core]

theorem tokens_close_quote (out r : List Char) (av : List Arg) (len : Nat) (q : Bool) :
    tokensFrom (mkFill out ('"' :: r) av len q true true) =
      tokensFrom (mkFill out r av len q false false) := by
  rw [tokensFrom_step _ (by simp [mkFill])]
  apply tokensFrom_congr
  simp [fillStep, mkFill, YoriLibIsEscapeChar, FillState.core]

theorem tokens_inquote (c : Char) (out r : List Char) (av : List Arg) (len : Nat) (q l : Bool)
    (hesc : YoriLibIsEscapeChar c = false) (hq : c ≠ '"') :
    tokensFrom (mkFill out (c :: r) av len q true l) =
      tokensFrom (mkFill (out ++ [c]) r av len q true l) := by
  rw [tokensFrom_step _ (by simp [mkFill])]
  apply tokensFrom_congr
  simp [fillStep, mkFill, hesc, hq, fillLiteral, FillState.core]

theorem tokens_inquote_run (body : List Char) (out r : List Char) (av : List Arg) (len : Nat)
    (q l : Bool) (h : ∀ c ∈ body, YoriLibIsEscapeChar c = false ∧ c ≠ '"') :
    tokensFrom (mkFill out (body ++ r) av len q true l) =
      tokensFrom (mkFill (out ++ body) r av len q true l) := by
  induction body generalizing out with
  | nil => simp
  | cons c body ih =>
    have hc := h c (by simp)
    rw [List.cons_append, tokens_inquote c out _ av len q l hc.1 hc.2,
      ih _ (fun c hc => h c (by simp [hc]))]
    simp

theorem tokens_end (out : List Char) (av : List Arg) (q o l : Bool) :
    tokensFrom (mkFill out [] av 0 q o l) = av ++ [⟨out, q⟩] := by
  rw [tokensFrom_nil _ (by simp [mkFill])]
  simp [FillState.finish, mkFill]

theorem tokenize_quoted (s : List Char) (c : Nat) (t : Bool)
    (h : ∀ c ∈ s, YoriLibIsEscapeChar c = false ∧ c ≠ '"') :
    tokenize ('"' :: (s ++ ['"'])) c t = [⟨s, true⟩] := by
  have hT : YoriShTrimSpacesFromBeginning ('"' :: (s ++ ['"'])) = '"' :: (s ++ ['"']) :=
    trim_cons_of_ne _ _ (by decide)
  unfold tokenize
  rw [hT]
  simp only [reduceCtorEq, if_false]
  change tokensFrom _ = _
  unfold fillInit
  rw [hT, tokensFrom_mk]
  simp only [List.head?_cons, decide_True]
  rw [tokens_open_quote, tokens_inquote_run s [] _ _ _ _ _ h, tokens_close_quote, tokens_end]
  simp

/-- C2: for every text `s` without double quote and escape character (that
environment expansion leaves unchanged), tokenizing the line made of a double
quote, `s` and a closing double quote produces a command context with
`ArgC = 1` whose single argument has the text `s` and the quoted flag set,
whatever the cursor offset. -/
theorem C2_quoted_line_one_argument (Expand : List Char → List Char) (s : List Char)
    (CurrentOffset : Nat)
    (hs : ∀ c ∈ s, YoriLibIsEscapeChar c = false ∧ c ≠ '"') (hE : Expand s = s) :
    ∃ ctx, YoriShParseCmdlineToCmdContext Expand ('"' :: (s ++ ['"'])) CurrentOffset = some ctx ∧
      ctx.ArgC = 1 ∧ ctx.ArgV = [⟨s, true⟩] := by
  obtain ⟨sz, _, h2, h3⟩ := parse_eq Expand ('"' :: (s ++ ['"'])) CurrentOffset
  rw [tokenize_quoted s _ _ hs] at h2 h3
  exact ⟨_, h3, by simpa using h2, by simp [hE]⟩

/-- C2 witness: the line `"abc"` gives one argument `abc` with the quoted
flag set. -/
theorem C2_quoted_line_one_argument_witness :
    ∃ ctx, YoriShParseCmdlineToCmdContext id ['"', 'a', 'b', 'c', '"'] 0 = some ctx ∧
      ctx.ArgC = 1 ∧ ctx.ArgV = [⟨['a', 'b', 'c'], true⟩] :=
  C2_quoted_line_one_argument id ['a', 'b', 'c'] 0 (by decide) rfl

theorem sep_zero_term (l : List Char) (h : (YoriShIsArgumentSeperator l).CharsToConsume = 0) :
    (YoriShIsArgumentSeperator l).TerminateArg = false := by
  cases l with
  | nil => simp [YoriShIsArgumentSeperator]
  | cons c cs =>
    by_cases h1 : c = '|'
    · subst h1; revert h; simp [YoriShIsArgumentSeperator]; split_ifs <;> simp
    by_cases h2 : c = '&'
    · subst h2; revert h; simp [YoriShIsArgumentSeperator]; split_ifs <;> simp
    by_cases h3 : c = '\n'
    · subst h3; revert h; simp [YoriShIsArgumentSeperator]
    by_cases h4 : c = '>'
    · subst h4; revert h; simp [YoriShIsArgumentSeperator]; split_ifs <;> simp
    by_cases h5 : c = '<'
    · subst h5; revert h; simp [YoriShIsArgumentSeperator]
    by_cases h6 : c = '1'
    · subst h6; revert h; simp [YoriShIsArgumentSeperator]; split_ifs <;> simp
    by_cases h7 : c = '2'
    · subst h7; revert h; simp [YoriShIsArgumentSeperator]; split_ifs <;> simp
    rw [sep_cons_other c cs h1 h2 h3 h4 h5 h6 h7]

theorem fillTerminate_nil (s : FillState) (hT : YoriShTrimSpacesFromBeginning s.Char = []) :
    fillTerminate s =
      { s with Char := [], CurLen := s.CurOut.length, CurOut := s.CurOut ++ [NUL] } := by
  unfold fillTerminate
  simp [FillState.terminateArg, hT]

theorem fillTerminate_cont (s : FillState) (hT : YoriShTrimSpacesFromBeginning s.Char ≠ [])
    (ht : effT s.Char s.CharsToConsume s.TerminateNextArg = false) :
    fillTerminate s =
      { CurOut := (YoriShTrimSpacesFromBeginning s.Char).take (effC s.Char s.CharsToConsume),
        Char := (YoriShTrimSpacesFromBeginning s.Char).drop (effC s.Char s.CharsToConsume),
        ArgV := s.ArgV ++ [⟨s.CurOut, s.CurQuoted⟩],
        CurLen := 0,
        CurQuoted := decide ((YoriShTrimSpacesFromBeginning s.Char).head? = some '"'),
        CharsToConsume := effC s.Char s.CharsToConsume,
        TerminateNextArg := false,
        QuoteOpen := s.QuoteOpen,
        LookingForFirstQuote :=
          decide ((YoriShTrimSpacesFromBeginning s.Char).head? = some '"') ||
          (decide (0 < effC s.Char s.CharsToConsume) &&
            decide (((YoriShTrimSpacesFromBeginning s.Char).drop
              (effC s.Char s.CharsToConsume)).head? = some '"')) } := by
  unfold fillTerminate
  unfold effT at ht
  unfold effC
  simp only [FillState.terminateArg, FillState.beginArg]
  split_ifs at ht ⊢ <;> simp_all

theorem fillTerminate_sep_more (s : FillState) (hT : YoriShTrimSpacesFromBeginning s.Char ≠ [])
    (ht : effT s.Char s.CharsToConsume s.TerminateNextArg = true)
    (hpos : 0 < effC s.Char s.CharsToConsume)
    (hmore : YoriShTrimSpacesFromBeginning ((YoriShTrimSpacesFromBeginning s.Char).drop
      (effC s.Char s.CharsToConsume)) ≠ []) :
    fillTerminate s =
      { CurOut := [],
        Char := YoriShTrimSpacesFromBeginning ((YoriShTrimSpacesFromBeginning s.Char).drop
          (effC s.Char s.CharsToConsume)),
        ArgV := s.ArgV ++ [⟨s.CurOut, s.CurQuoted⟩,
          ⟨(YoriShTrimSpacesFromBeginning s.Char).take (effC s.Char s.CharsToConsume),
            decide ((YoriShTrimSpacesFromBeginning s.Char).head? = some '"')⟩],
        CurLen := 0,
        CurQuoted := decide ((YoriShTrimSpacesFromBeginning
          ((YoriShTrimSpacesFromBeginning s.Char).drop
            (effC s.Char s.CharsToConsume))).head? = some '"'),
        CharsToConsume := effC s.Char s.CharsToConsume,
        TerminateNextArg := true,
        QuoteOpen := s.QuoteOpen,
        LookingForFirstQuote := decide ((YoriShTrimSpacesFromBeginning
          ((YoriShTrimSpacesFromBeginning s.Char).drop
            (effC s.Char s.CharsToConsume))).head? = some '"') } := by
  revert hmore
  unfold fillTerminate
  unfold effT at ht
  unfold effC at hpos ⊢
  simp only [FillState.terminateArg, FillState.beginArg]
  split_ifs at ht hpos ⊢ <;> simp_all

theorem fillTerminate_sep_end (s : FillState) (hT : YoriShTrimSpacesFromBeginning s.Char ≠ [])
    (ht : effT s.Char s.CharsToConsume s.TerminateNextArg = true)
    (hpos : 0 < effC s.Char s.CharsToConsume)
    (hend : YoriShTrimSpacesFromBeginning ((YoriShTrimSpacesFromBeginning s.Char).drop
      (effC s.Char s.CharsToConsume)) = []) :
    fillTerminate s =
      { CurOut := (YoriShTrimSpacesFromBeginning s.Char).take (effC s.Char s.CharsToConsume)
          ++ [NUL],
        Char := [],
        ArgV := s.ArgV ++ [⟨s.CurOut, s.CurQuoted⟩],
        CurLen := ((YoriShTrimSpacesFromBeginning s.Char).take
          (effC s.Char s.CharsToConsume)).length,
        CurQuoted := decide ((YoriShTrimSpacesFromBeginning s.Char).head? = some '"'),
        CharsToConsume := effC s.Char s.CharsToConsume,
        TerminateNextArg := true,
        QuoteOpen := s.QuoteOpen,
        LookingForFirstQuote := decide ((YoriShTrimSpacesFromBeginning s.Char).head? = some '"') } := by
  revert hend
  unfold fillTerminate
  unfold effT at ht
  unfold effC at hpos ⊢
  simp only [FillState.terminateArg, FillState.beginArg]
  split_ifs at ht hpos ⊢ <;> simp_all

theorem tokens_quote_literal (out r : List Char) (av : List Arg) (len : Nat) (q o : Bool) :
    tokensFrom (mkFill out ('"' :: r) av len q o false) =
      tokensFrom (mkFill (out ++ ['"']) r av len q (!o) false) := by
  rw [tokensFrom_step _ (by simp [mkFill])]
  apply tokensFrom_congr
  have hsep : YoriShIsArgumentSeperator ('"' :: r) = ⟨0, false⟩ :=
    sep_cons_other _ _ (by decide) (by decide) (by decide) (by decide)
      (by decide) (by decide) (by decide)
  cases o <;> simp [fillStep, mkFill, YoriLibIsEscapeChar, fillLiteral, FillState.core, hsep]

theorem tokens_plain (c : Char) (out r : List Char) (av : List Arg) (len : Nat) (q l : Bool)
    (hesc : YoriLibIsEscapeChar c = false) (hq : c ≠ '"') (hs : c ≠ ' ')
    (hsep : (YoriShIsArgumentSeperator (c :: r)).CharsToConsume = 0) :
    tokensFrom (mkFill out (c :: r) av len q false l) =
      tokensFrom (mkFill (out ++ [c]) r av len q false l) := by
  rw [tokensFrom_step _ (by simp [mkFill])]
  apply tokensFrom_congr
  have h0 : ¬ 0 < (YoriShIsArgumentSeperator (c :: r)).CharsToConsume := by omega
  simp only [fillStep, mkFill, hesc, hq, hs, fillLiteral, FillState.core, h0,
    Bool.false_eq_true, false_and, if_false]
  split_ifs <;> simp

theorem tokens_space (out r : List Char) (av : List Arg) (len : Nat) (q l : Bool) :
    tokensFrom (mkFill out (' ' :: r) av len q false l) =
      tokensFrom (fillTerminate (mkFill out (' ' :: r) av len q false l)) := by
  rw [tokensFrom_step _ (by simp [mkFill])]
  simp [fillStep, mkFill, YoriLibIsEscapeChar]

theorem tokens_space_end (out r : List Char) (av : List Arg) (len : Nat) (q l : Bool)
    (hT : YoriShTrimSpacesFromBeginning r = []) (hout : out ≠ []) :
    tokensFrom (mkFill out (' ' :: r) av len q false l) = av ++ [⟨out, q⟩] := by
  rw [tokens_space, fillTerminate_nil _ (by simpa [mkFill, trim_cons_space] using hT),
    tokensFrom_nil _ rfl]
  have : out.length ≠ 0 := by simpa using hout
  simp [FillState.finish, mkFill, this]

theorem tokens_space_next (out r : List Char) (av : List Arg) (len : Nat) (q l : Bool)
    (hT : YoriShTrimSpacesFromBeginning r ≠ [])
    (hsep : (YoriShIsArgumentSeperator (YoriShTrimSpacesFromBeginning r)).CharsToConsume = 0) :
    tokensFrom (mkFill out (' ' :: r) av len q false l) =
      tokensFrom (mkFill [] (YoriShTrimSpacesFromBeginning r) (av ++ [⟨out, q⟩]) 0
        (decide ((YoriShTrimSpacesFromBeginning r).head? = some '"')) false
        (decide ((YoriShTrimSpacesFromBeginning r).head? = some '"'))) := by
  rw [tokens_space]
  have h1 : (mkFill out (' ' :: r) av len q false l).Char = ' ' :: r := rfl
  have h2 : (mkFill out (' ' :: r) av len q false l).CharsToConsume = 0 := rfl
  have hsepT := sep_zero_term _ hsep
  rw [fillTerminate_cont _ (by rw [h1, trim_cons_space]; exact hT)
    (by rw [h1, h2]; simp [effT, trim_cons_space, hsepT])]
  apply tokensFrom_congr
  simp [mkFill, effC, trim_cons_space, hsep, FillState.core]

theorem sep_no_operator (l : List Char) (h : ∀ c ∈ l, isOperatorChar c = false) :
    YoriShIsArgumentSeperator l = ⟨0, false⟩ := by
  cases l with
  | nil => rfl
  | cons c cs =>
    have hc := h c (by simp)
    simp only [isOperatorChar, decide_eq_false_iff_not, not_or] at hc
    obtain ⟨h1, h2, h3, h4, h5⟩ := hc
    have hgt : cs.head? ≠ some '>' := by
      cases cs with
      | nil => simp
      | cons d ds =>
        have hd := h d (by simp)
        simp only [isOperatorChar, decide_eq_false_iff_not, not_or] at hd
        simpa using hd.2.2.2.1
    have hgt1 : (c :: cs)[1]? ≠ some '>' := by
      cases cs <;> simp at hgt ⊢
      exact hgt
    simp only [YoriShIsArgumentSeperator, h1, h2, h3, h4, h5, hgt1, if_false]
    split_ifs <;> rfl

theorem split_some_ne_nil (o : Bool) (p cs : List Char) :
    splitUnquoted o (some p) cs ≠ [] := by
  induction cs generalizing o p with
  | nil => simp [splitUnquoted]
  | cons c cs ih =>
    simp only [splitUnquoted]
    split
    · simp
    · exact ih _ _

theorem split_none_trim (cs : List Char) :
    splitUnquoted false none cs = splitUnquoted false none (YoriShTrimSpacesFromBeginning cs) := by
  induction cs with
  | nil => rfl
  | cons c cs ih =>
    by_cases hc : c = ' '
    · subst hc
      rw [trim_cons_space, ← ih]
      simp [splitUnquoted]
    · rw [trim_cons_of_ne _ _ hc]

theorem split_none_eq_some (c : Char) (cs : List Char) (hc : c ≠ ' ') :
    splitUnquoted false none (c :: cs) = splitUnquoted false (some []) (c :: cs) := by
  simp [splitUnquoted, hc]

theorem split_none_nil_of_trim (cs : List Char) (h : YoriShTrimSpacesFromBeginning cs = []) :
    splitUnquoted false none cs = [] := by
  rw [split_none_trim, h]
  rfl

theorem trim_head_ne_space (cs : List Char) :
    (YoriShTrimSpacesFromBeginning cs).head? ≠ some ' ' := by
  induction cs with
  | nil => simp
  | cons c cs ih =>
    by_cases hc : c = ' '
    · subst hc; rw [trim_cons_space]; exact ih
    · rw [trim_cons_of_ne _ _ hc]; simpa using hc

theorem trim_getLast (cs : List Char) (h : YoriShTrimSpacesFromBeginning cs ≠ []) :
    (YoriShTrimSpacesFromBeginning cs).getLast? = cs.getLast? := by
  induction cs with
  | nil => rfl
  | cons c cs ih =>
    by_cases hc : c = ' '
    · subst hc
      rw [trim_cons_space] at h ⊢
      rw [ih h]
      have : cs ≠ [] := by
        rintro rfl
        exact h rfl
      cases cs with
      | nil => exact absurd rfl this
      | cons d ds => simp [List.getLast?_cons_cons]
    · rw [trim_cons_of_ne _ _ hc]

theorem trim_mem (cs : List Char) (c : Char) (h : c ∈ YoriShTrimSpacesFromBeginning cs) :
    c ∈ cs := by
  induction cs with
  | nil => simp at h
  | cons d ds ih =>
    by_cases hd : d = ' '
    · subst hd
      rw [trim_cons_space] at h
      exact List.mem_cons_of_mem _ (ih h)
    · rwa [trim_cons_of_ne _ _ hd] at h

theorem strip_append_ne (p : List Char) (c : Char) (hc : c ≠ '"') :
    stripFirstQuotePair (p ++ [c]) = stripFirstQuotePair p ++ [c] := by
  cases p with
  | nil => simp [stripFirstQuotePair, hc]
  | cons d rest =>
    simp only [stripFirstQuotePair, List.cons_append]
    split_ifs
    · by_cases hm : '"' ∈ rest
      · rw [List.erase_append_left _ hm]
      · rw [List.erase_of_not_mem hm, List.erase_of_not_mem]
        simp [hm, hc.symm]
    · rfl

theorem strip_append_quote_lit (p : List Char) (h : p ≠ [])
    (h2 : p.head? ≠ some '"' ∨ 2 ≤ p.count '"') :
    stripFirstQuotePair (p ++ ['"']) = stripFirstQuotePair p ++ ['"'] := by
  cases p with
  | nil => exact absurd rfl h
  | cons d rest =>
    simp only [stripFirstQuotePair, List.cons_append]
    split_ifs with hd
    · subst hd
      have hm : '"' ∈ rest := by
        rcases h2 with h2 | h2
        · simp at h2
        · rw [List.count_cons_self] at h2
          exact List.count_pos_iff.mp (by omega)
      rw [List.erase_append_left _ hm]
    · rfl

theorem strip_append_quote_close (rest : List Char) (h : '"' ∉ rest) :
    stripFirstQuotePair ('"' :: rest ++ ['"']) = stripFirstQuotePair ('"' :: rest) := by
  simp only [stripFirstQuotePair, List.cons_append, if_true]
  rw [List.erase_of_not_mem h, List.erase_append_right _ h]
  simp

theorem strip_eq_nil (p : List Char) (h : p ≠ []) (hcount : p.count '"' % 2 = 0)
    (hs : stripFirstQuotePair p = []) : p = ['"', '"'] := by
  cases p with
  | nil => exact absurd rfl h
  | cons d rest =>
    simp only [stripFirstQuotePair] at hs
    split_ifs at hs with hd
    · subst hd
      rw [List.count_cons_self] at hcount
      have hm : '"' ∈ rest := List.count_pos_iff.mp (by omega)
      cases rest with
      | nil => simp at hm
      | cons e rest2 =>
        by_cases he : e = '"'
        · subst he
          simp at hs
          subst hs
          rfl
        · rw [List.erase_cons_tail (by simpa using he)] at hs
          simp at hs

theorem getLast_cons_ne_nil {α : Type} (c : α) (cs : List α) (h : cs ≠ []) :
    (c :: cs).getLast? = cs.getLast? := by
  cases cs with
  | nil => exact absurd rfl h
  | cons d ds => simp [List.getLast?_cons_cons]

theorem getLast_spaces (cs : List Char) (h : YoriShTrimSpacesFromBeginning cs = []) :
    (' ' :: cs).getLast? = some ' ' := by
  induction cs with
  | nil => rfl
  | cons c cs ih =>
    by_cases hc : c = ' '
    · subst hc
      rw [trim_cons_space] at h
      rw [List.getLast?_cons_cons]
      exact ih h
    · rw [trim_cons_of_ne _ _ hc] at h
      simp at h

theorem noEmptyQuotedEnd_step (o o1 : Bool) (p p1 : List Char) (c : Char) (cs : List Char)
    (h : NoEmptyQuotedEnd o (some p) (c :: cs))
    (hs : splitUnquoted o (some p) (c :: cs) = splitUnquoted o1 (some p1) cs) :
    NoEmptyQuotedEnd o1 (some p1) cs := by
  unfold NoEmptyQuotedEnd at h ⊢
  intro hl
  by_cases hcs : cs = []
  · simp [hcs]
  · rw [← getLast_cons_ne_nil c cs hcs]
    exact h (by rw [hs]; exact hl)

theorem tokens_spec (n : Nat) : ∀ cs : List Char, cs.length ≤ n →
    (∀ c ∈ cs, isOperatorChar c = false ∧ YoriLibIsEscapeChar c = false) →
    ∀ (p out : List Char) (av : List Arg) (q o l : Bool),
      ArgInv p cs out q o l → NoEmptyQuotedEnd o (some p) cs →
      tokensFrom (mkFill out cs av 0 q o l) =
        av ++ (splitUnquoted o (some p) cs).map pieceArg := by
  induction n using Nat.strong_induction_on with
  | _ n ih =>
    intro cs hn hcs p out av q o l hinv hns
    obtain ⟨hout, hq, ho, hl, hp⟩ := hinv
    cases cs with
    | nil =>
      have hpne : p ≠ [] := by
        intro h0
        have := (hp h0).1
        simp at this
      rw [tokens_end]
      simp only [splitUnquoted, Option.toList, List.map_cons, List.map_nil, pieceArg]
      simp only [List.append_nil] at hq
      rw [hout, hq]
    | cons c cs1 =>
      have hc := hcs c (by simp)
      have hcs1 : ∀ d ∈ cs1, isOperatorChar d = false ∧ YoriLibIsEscapeChar d = false :=
        fun d hd => hcs d (by simp [hd])
      have hn1 : cs1.length ≤ n - 1 := by simp at hn; omega
      have hlt : n - 1 < n := by simp at hn; omega
      by_cases hcq : c = '"'
      · subst hcq
        have hsplit : splitUnquoted o (some p) ('"' :: cs1) =
            splitUnquoted (!o) (some (p ++ ['"'])) cs1 := by
          simp [splitUnquoted]
        have hns1 := noEmptyQuotedEnd_step _ _ _ _ _ _ hns hsplit
        rw [hsplit]
        cases l with
        | true =>
          have hl2 : q = true ∧ p.count '"' ≤ 1 := by
            have := hl.symm
            simpa using this
          obtain ⟨hq1, hcnt⟩ := hl2
          subst hq1
          cases o with
          | false =>
            have hcnt0 : p.count '"' = 0 := by
              have : ¬ (p.count '"' % 2 = 1) := by simpa using ho.symm
              omega
            have hp0 : p = [] := by
              cases p with
              | nil => rfl
              | cons d rest =>
                simp at hq
                subst hq
                simp at hcnt0
            subst hp0
            rw [tokens_open_quote]
            refine ih (n - 1) hlt cs1 hn1 hcs1 _ _ _ _ _ _ ?_ (by simpa using hns1)
            refine ⟨?_, ?_, ?_, ?_, ?_⟩
            · rw [hout]; simp [stripFirstQuotePair]
            · simp
            · simp
            · simp
            · simp
          | true =>
            have hcnt1 : p.count '"' = 1 := by
              have : p.count '"' % 2 = 1 := by simpa using ho.symm
              omega
            have hpne : p ≠ [] := by
              rintro rfl
              simp at hcnt1
            obtain ⟨rest, hrest, hnm⟩ : ∃ rest, p = '"' :: rest ∧ '"' ∉ rest := by
              cases p with
              | nil => exact absurd rfl hpne
              | cons d rest =>
                simp at hq
                subst hq
                refine ⟨rest, rfl, ?_⟩
                rw [List.count_cons_self] at hcnt1
                intro hm
                have := List.count_pos_iff.mpr hm
                omega
            subst hrest
            rw [tokens_close_quote]
            refine ih (n - 1) hlt cs1 hn1 hcs1 _ _ _ _ _ _ ?_ (by simpa using hns1)
            have hc0 : List.count '"' rest = 0 := List.count_eq_zero.mpr hnm
            refine ⟨?_, ?_, ?_, ?_, ?_⟩
            · rw [hout, strip_append_quote_close rest hnm]
            · simp
            · simp [List.count_cons_self, List.count_append, hc0]
            · simp [List.count_append, hc0]
            · simp
        | false =>
          have hpne : p ≠ [] := by
            rintro rfl
            simp at hq
            rw [hq] at hl
            simp at hl
          have hqp : q = decide (p.head? = some '"') := by
            rw [hq]
            cases p with
            | nil => exact absurd rfl hpne
            | cons d rest => simp
          have h2 : p.head? ≠ some '"' ∨ 2 ≤ p.count '"' := by
            cases q with
            | false =>
              left
              simpa using hqp.symm
            | true =>
              right
              have : ¬ p.count '"' ≤ 1 := by simpa using hl.symm
              omega
          rw [tokens_quote_literal]
          refine ih (n - 1) hlt cs1 hn1 hcs1 _ _ _ _ _ _ ?_ hns1
          refine ⟨?_, ?_, ?_, ?_, ?_⟩
          · rw [hout, strip_append_quote_lit p hpne h2]
          · rw [hq]; simp
          · rw [ho]
            simp only [List.count_append, List.count_singleton_self]
            by_cases hd : p.count '"' % 2 = 1
            · have : ¬ ((p.count '"' + 1) % 2 = 1) := by omega
              simp [hd, this]
            · have : (p.count '"' + 1) % 2 = 1 := by omega
              simp [hd, this]
          · rcases h2 with h2 | h2
            · have : q = false := by rw [hqp]; simpa using h2
              simp [this]
            · simp only [List.count_append, List.count_singleton_self]
              have : ¬ (p.count '"' + 1 ≤ 1) := by omega
              simp [this]
          · simp
      · have hstrip := strip_append_ne p c hcq
        have hcnt : (p ++ [c]).count '"' = p.count '"' := by
          simp [List.count_append, List.count_singleton, hcq]
        have hinv1 : ∀ o1 : Bool, o1 = o → ArgInv (p ++ [c]) cs1 (out ++ [c]) q o1 l := by
          intro o1 ho1
          refine ⟨?_, ?_, ?_, ?_, ?_⟩
          · rw [hout, hstrip]
          · rw [hq]; simp
          · rw [ho1, ho, hcnt]
          · rw [hl, hcnt]
          · simp
        by_cases hsp : c = ' '
        · subst hsp
          cases o with
          | true =>
            have hsplit : splitUnquoted true (some p) (' ' :: cs1) =
                splitUnquoted true (some (p ++ [' '])) cs1 := by
              simp [splitUnquoted]
            rw [hsplit, tokens_inquote ' ' _ _ _ _ _ _ hc.2 hcq]
            exact ih (n - 1) hlt cs1 hn1 hcs1 _ _ _ _ _ _ (hinv1 true rfl)
              (noEmptyQuotedEnd_step _ _ _ _ _ _ hns hsplit)
          | false =>
            have hpne : p ≠ [] := by
              intro h0
              have := (hp h0).2
              simp at this
            have hqp : q = decide (p.head? = some '"') := by
              rw [hq]
              cases p with
              | nil => exact absurd rfl hpne
              | cons d rest => simp
            have hsplit : splitUnquoted false (some p) (' ' :: cs1) =
                p :: splitUnquoted false none cs1 := by
              simp [splitUnquoted]
            rw [hsplit]
            by_cases hT : YoriShTrimSpacesFromBeginning cs1 = []
            · have hX : splitUnquoted false none cs1 = [] := split_none_nil_of_trim _ hT
              have hne : out ≠ [] := by
                intro h0
                rw [hout] at h0
                have hcount : p.count '"' % 2 = 0 := by
                  have : ¬ (p.count '"' % 2 = 1) := by simpa using ho.symm
                  omega
                have hpq := strip_eq_nil p hpne hcount h0
                unfold NoEmptyQuotedEnd at hns
                rw [hsplit, hX] at hns
                exact hns (by simp [hpq]) (getLast_spaces cs1 hT)
              rw [tokens_space_end _ _ _ _ _ _ hT hne, hX]
              simp [pieceArg, hout, hqp]
            · have hTsep : YoriShIsArgumentSeperator (YoriShTrimSpacesFromBeginning cs1)
                  = ⟨0, false⟩ :=
                sep_no_operator _ (fun d hd => (hcs1 d (trim_mem _ _ hd)).1)
              rw [tokens_space_next _ _ _ _ _ _ hT (by rw [hTsep])]
              have hhead := trim_head_ne_space cs1
              obtain ⟨d, T1, hTd⟩ : ∃ d T1, YoriShTrimSpacesFromBeginning cs1 = d :: T1 := by
                cases hTT : YoriShTrimSpacesFromBeginning cs1 with
                | nil => exact absurd hTT hT
                | cons d T1 => exact ⟨d, T1, rfl⟩
              have hd : d ≠ ' ' := by
                rw [hTd] at hhead
                simpa using hhead
              have hX : splitUnquoted false none cs1 =
                  splitUnquoted false (some []) (YoriShTrimSpacesFromBeginning cs1) := by
                rw [split_none_trim, hTd, split_none_eq_some d T1 hd]
              have hlenT : (YoriShTrimSpacesFromBeginning cs1).length ≤ n - 1 :=
                le_trans (trim_length_le cs1) hn1
              rw [ih (n - 1) hlt _ hlenT
                (fun e he => hcs1 e (trim_mem _ _ he)) [] [] _ _ false _ ?_ ?_, hX]
              · simp [pieceArg, hout, hqp]
              · refine ⟨rfl, by simp, by simp, by simp, ?_⟩
                intro _
                rw [hTd]
                simp [hd]
              · unfold NoEmptyQuotedEnd at hns ⊢
                intro hlast
                have hcs1ne : cs1 ≠ [] := by
                  rintro rfl
                  exact hT rfl
                rw [trim_getLast cs1 hT, ← getLast_cons_ne_nil ' ' cs1 hcs1ne]
                apply hns
                rw [hsplit, hX]
                rw [getLast_cons_ne_nil p _ (split_some_ne_nil _ _ _)]
                exact hlast
        · have hsplit : splitUnquoted o (some p) (c :: cs1) =
              splitUnquoted o (some (p ++ [c])) cs1 := by
            simp [splitUnquoted, hsp, hcq]
          rw [hsplit]
          have hstep : tokensFrom (mkFill out (c :: cs1) av 0 q o l) =
              tokensFrom (mkFill (out ++ [c]) cs1 av 0 q o l) := by
            cases o with
            | true => exact tokens_inquote c _ _ _ _ _ _ hc.2 hcq
            | false =>
              refine tokens_plain c _ _ _ _ _ _ hc.2 hcq hsp ?_
              rw [sep_no_operator _ (fun d hd => (hcs d hd).1)]
          rw [hstep]
          exact ih (n - 1) hlt cs1 hn1 hcs1 _ _ _ _ _ _ (hinv1 o rfl)
            (noEmptyQuotedEnd_step _ _ _ _ _ _ hns hsplit)

theorem tokenize_spec (s : List Char) (c : Nat) (t : Bool)
    (hs : ∀ c ∈ s, isOperatorChar c = false ∧ YoriLibIsEscapeChar c = false)
    (hns : NoEmptyQuotedEnd false none s) :
    tokenize s c t = (splitUnquoted false none s).map pieceArg := by
  unfold tokenize
  by_cases hT : YoriShTrimSpacesFromBeginning s = []
  · simp [hT, split_none_nil_of_trim s hT]
  · simp only [hT, if_false]
    obtain ⟨d, T1, hTd⟩ : ∃ d T1, YoriShTrimSpacesFromBeginning s = d :: T1 := by
      cases hTT : YoriShTrimSpacesFromBeginning s with
      | nil => exact absurd hTT hT
      | cons d T1 => exact ⟨d, T1, rfl⟩
    have hd : d ≠ ' ' := by
      have := trim_head_ne_space s
      rw [hTd] at this
      simpa using this
    have hX : splitUnquoted false none s =
        splitUnquoted false (some []) (YoriShTrimSpacesFromBeginning s) := by
      rw [split_none_trim, hTd, split_none_eq_some d T1 hd]
    change tokensFrom _ = _
    unfold fillInit
    rw [tokensFrom_mk, tokens_spec _ _ (le_refl _)
      (fun e he => hs e (trim_mem _ _ he)) [] [] [] _ false _ ?_ ?_, hX]
    · simp
    · refine ⟨rfl, by simp, by simp, by simp, ?_⟩
      intro _
      rw [hTd]
      simp [hd]
    · unfold NoEmptyQuotedEnd at hns ⊢
      intro hlast
      rw [trim_getLast s hT]
      exact hns (by rw [hX]; exact hlast)

/-- Tokenizing a line without operator and escape characters whose last
piece is not an empty quoted argument followed by spaces: the arguments are
the pieces between runs of unquoted spaces, the first quote pair of a piece
that begins with a quote removed. -/
theorem parse_no_operator (s : List Char) (CurrentOffset : Nat)
    (hs : ∀ c ∈ s, isOperatorChar c = false ∧ YoriLibIsEscapeChar c = false)
    (hns : NoEmptyQuotedEnd false none s) :
    ∃ ctx, YoriShParseCmdlineToCmdContext id s CurrentOffset = some ctx ∧
      ctx.ArgC = (splitUnquoted false none s).length ∧
      ctx.ArgV = (splitUnquoted false none s).map pieceArg := by
  obtain ⟨sz, _, h2, h3⟩ := parse_eq id s CurrentOffset
  rw [tokenize_spec s _ _ hs hns] at h2 h3
  refine ⟨_, h3, by simpa using h2, ?_⟩
  simp

theorem plain_iff (c : Char) : isPlainChar c = true ↔
    isOperatorChar c = false ∧ YoriLibIsEscapeChar c = false ∧ c ≠ '"' ∧ c ≠ ' ' := by
  simp [isPlainChar, and_assoc]

theorem sep_plain (c : Char) (r : List Char) (hc : isOperatorChar c = false)
    (hr : r.head? ≠ some '>') : YoriShIsArgumentSeperator (c :: r) = ⟨0, false⟩ := by
  simp only [isOperatorChar, decide_eq_false_iff_not, not_or] at hc
  obtain ⟨h1, h2, h3, h4, h5⟩ := hc
  have hgt1 : (c :: r)[1]? ≠ some '>' := by
    cases r <;> simp at hr ⊢
    exact hr
  simp only [YoriShIsArgumentSeperator, h1, h2, h3, h4, h5, hgt1, if_false]
  split_ifs <;> rfl

theorem tokens_plain_run (body : List Char) (out r : List Char) (av : List Arg) (len : Nat)
    (q l : Bool) (h : ∀ c ∈ body, isPlainChar c = true) (hr : r.head? ≠ some '>') :
    tokensFrom (mkFill out (body ++ r) av len q false l) =
      tokensFrom (mkFill (out ++ body) r av len q false l) := by
  induction body generalizing out with
  | nil => simp
  | cons c body ih =>
    have hc := (plain_iff c).mp (h c (by simp))
    have hnext : (body ++ r).head? ≠ some '>' := by
      cases body with
      | nil => simpa using hr
      | cons d ds =>
        have hd := (plain_iff d).mp (h d (by simp))
        simp only [List.cons_append, List.head?_cons, ne_eq, Option.some.injEq]
        rintro rfl
        simp [isOperatorChar] at hd
    rw [List.cons_append, tokens_plain c out _ av len q l hc.2.1 hc.2.2.1 hc.2.2.2
      (by rw [sep_plain c _ hc.1 hnext]),
      ih _ (fun c hc => h c (by simp [hc]))]
    simp

theorem tokenize_quoted_middle (pre mid post : List Char) (c : Nat) (t : Bool)
    (hpre : pre ≠ []) (hp : ∀ c ∈ pre, isPlainChar c = true)
    (hm : ∀ c ∈ mid, YoriLibIsEscapeChar c = false ∧ c ≠ '"')
    (hpost : ∀ c ∈ post, isPlainChar c = true) :
    tokenize (pre ++ '"' :: (mid ++ '"' :: post)) c t =
      [⟨pre ++ '"' :: (mid ++ '"' :: post), false⟩] := by
  obtain ⟨d, pre1, hd⟩ : ∃ d pre1, pre = d :: pre1 := by
    cases pre with
    | nil => exact absurd rfl hpre
    | cons d pre1 => exact ⟨d, pre1, rfl⟩
  have hdp := (plain_iff d).mp (hp d (by simp [hd]))
  have hT : YoriShTrimSpacesFromBeginning (pre ++ '"' :: (mid ++ '"' :: post)) =
      pre ++ '"' :: (mid ++ '"' :: post) := by
    rw [hd, List.cons_append, trim_cons_of_ne _ _ hdp.2.2.2]
  have hne : pre ++ '"' :: (mid ++ '"' :: post) ≠ [] := by simp
  have hhead : (pre ++ '"' :: (mid ++ '"' :: post)).head? ≠ some '"' := by
    rw [hd]
    simpa using hdp.2.2.1
  unfold tokenize
  rw [hT]
  simp only [hne, if_false]
  change tokensFrom _ = _
  unfold fillInit
  rw [hT, tokensFrom_mk]
  simp only [hhead, decide_False]
  rw [tokens_plain_run pre [] _ _ _ _ _ hp (by simp), tokens_quote_literal]
  simp only [Bool.not_false]
  rw [tokens_inquote_run mid _ _ _ _ _ _ hm, tokens_quote_literal]
  simp only [Bool.not_true]
  have := tokens_plain_run post ([] ++ pre ++ ['"'] ++ mid ++ ['"']) [] [] 0 false false hpost
    (by simp)
  simp only [List.append_nil] at this
  rw [this, tokens_end]
  simp

theorem parse_quoted_middle (Expand : List Char → List Char) (pre mid post : List Char)
    (CurrentOffset : Nat)
    (hpre : pre ≠ []) (hp : ∀ c ∈ pre, isPlainChar c = true)
    (hm : ∀ c ∈ mid, YoriLibIsEscapeChar c = false ∧ c ≠ '"')
    (hpost : ∀ c ∈ post, isPlainChar c = true)
    (hE : Expand (pre ++ '"' :: (mid ++ '"' :: post)) = pre ++ '"' :: (mid ++ '"' :: post)) :
    ∃ ctx, YoriShParseCmdlineToCmdContext Expand (pre ++ '"' :: (mid ++ '"' :: post))
        CurrentOffset = some ctx ∧
      ctx.ArgC = 1 ∧ ctx.ArgV = [⟨pre ++ '"' :: (mid ++ '"' :: post), false⟩] := by
  obtain ⟨sz, _, h2, h3⟩ := parse_eq Expand (pre ++ '"' :: (mid ++ '"' :: post)) CurrentOffset
  rw [tokenize_quoted_middle pre mid post _ _ hpre hp hm hpost] at h2 h3
  exact ⟨_, h3, by simpa using h2, by simp [hE]⟩

/-- C1 (amended): for every input line that contains no operator character
and no escape character, and that does not end in an empty quoted argument
followed by spaces, the tokenizer produces a command context whose arguments
are the pieces of the line between runs of unquoted spaces; from a piece
that begins with a double quote that quote and the next one are removed and
the argument is flagged quoted, every other quote character stays in the
text (environment expansion taken as the identity). -/
theorem C1_operator_free_line_tokens (s : List Char) (CurrentOffset : Nat)
    (hs : ∀ c ∈ s, isOperatorChar c = false ∧ YoriLibIsEscapeChar c = false)
    (hend : (splitUnquoted false none s).getLast? = some ['"', '"'] →
      s.getLast? ≠ some ' ') :
    ∃ ctx, YoriShParseCmdlineToCmdContext id s CurrentOffset = some ctx ∧
      ctx.ArgC = (splitUnquoted false none s).length ∧
      ctx.ArgV.map Arg.Text = (splitUnquoted false none s).map stripFirstQuotePair ∧
      ctx.ArgV.map Arg.Quoted =
        (splitUnquoted false none s).map (fun p => decide (p.head? = some '"')) := by
  obtain ⟨ctx, h1, h2, h3⟩ := parse_no_operator s CurrentOffset hs hend
  refine ⟨ctx, h1, h2, ?_, ?_⟩ <;> simp [h3, pieceArg]

/-- C1 witness: the line `"a b" c"d"` gives the two arguments `a b`
(quoted) and `c"d"` (not quoted, quotes kept). -/
theorem C1_operator_free_line_tokens_witness :
    (∀ c ∈ ("\"a b\" c\"d\"".toList), isOperatorChar c = false ∧ YoriLibIsEscapeChar c = false) ∧
    ((splitUnquoted false none "\"a b\" c\"d\"".toList).getLast? = some ['"', '"'] →
      ("\"a b\" c\"d\"".toList).getLast? ≠ some ' ') ∧
    ∃ ctx, YoriShParseCmdlineToCmdContext id "\"a b\" c\"d\"".toList 0 = some ctx ∧
      ctx.ArgC = 2 ∧
      ctx.ArgV.map Arg.Text = ["a b".toList, "c\"d\"".toList] ∧
      ctx.ArgV.map Arg.Quoted = [true, false] := by
  have hs : ∀ c ∈ ("\"a b\" c\"d\"".toList),
      isOperatorChar c = false ∧ YoriLibIsEscapeChar c = false := by decide
  have hend : (splitUnquoted false none "\"a b\" c\"d\"".toList).getLast? = some ['"', '"'] →
      ("\"a b\" c\"d\"".toList).getLast? ≠ some ' ' := by decide
  have hsplit : splitUnquoted false none "\"a b\" c\"d\"".toList =
      ["\"a b\"".toList, "c\"d\"".toList] := by decide
  obtain ⟨ctx, h1, h2, h3, h4⟩ :=
    C1_operator_free_line_tokens "\"a b\" c\"d\"".toList 0 hs hend
  rw [hsplit] at h2 h3 h4
  exact ⟨hs, hend, ctx, h1, h2, h3, h4⟩

/-- C1 counterexample: the line `a"b"` has balanced quotes, no operator and
no escape character, yet its argument is not the piece with the quote
characters stripped (`ab`): the tokenizer keeps the text `a"b"`. -/
theorem C1_counterexample_quotes_kept :
    ("a\"b\"".toList.count '"' % 2 = 0) ∧
    (∀ c ∈ "a\"b\"".toList, isOperatorChar c = false ∧ YoriLibIsEscapeChar c = false) ∧
    ¬ ∃ ctx, YoriShParseCmdlineToCmdContext id "a\"b\"".toList 0 = some ctx ∧
      ctx.ArgV.map Arg.Text = (splitUnquoted false none "a\"b\"".toList).map stripQuotes := by
  refine ⟨by decide, by decide, ?_⟩
  rintro ⟨ctx, h1, h2⟩
  obtain ⟨ctx1, h3, _, h5⟩ := parse_no_operator "a\"b\"".toList 0 (by decide) (by
    unfold NoEmptyQuotedEnd
    decide)
  rw [h3] at h1
  cases h1
  rw [h5] at h2
  revert h2
  decide

/-- C3 (amended): an argument that starts with a plain character and has a
quoted section in its middle is one argument with the quoted flag clear
whose text is the input unchanged, the two quote characters included. -/
theorem C3_quoted_section_keeps_quotes (Expand : List Char → List Char)
    (pre mid post : List Char) (CurrentOffset : Nat)
    (hpre : pre ≠ []) (hp : ∀ c ∈ pre, isPlainChar c = true)
    (hm : ∀ c ∈ mid, YoriLibIsEscapeChar c = false ∧ c ≠ '"')
    (hpost : ∀ c ∈ post, isPlainChar c = true)
    (hE : Expand (pre ++ '"' :: (mid ++ '"' :: post)) = pre ++ '"' :: (mid ++ '"' :: post)) :
    ∃ ctx, YoriShParseCmdlineToCmdContext Expand (pre ++ '"' :: (mid ++ '"' :: post))
        CurrentOffset = some ctx ∧
      ctx.ArgC = 1 ∧ ctx.ArgV = [⟨pre ++ '"' :: (mid ++ '"' :: post), false⟩] :=
  parse_quoted_middle Expand pre mid post CurrentOffset hpre hp hm hpost hE

/-- C3 witness: the line `ab"c d"ef` gives the one argument `ab"c d"ef`,
not quoted. -/
theorem C3_quoted_section_keeps_quotes_witness :
    ∃ ctx, YoriShParseCmdlineToCmdContext id "ab\"c d\"ef".toList 0 = some ctx ∧
      ctx.ArgC = 1 ∧ ctx.ArgV = [⟨"ab\"c d\"ef".toList, false⟩] :=
  C3_quoted_section_keeps_quotes id "ab".toList "c d".toList "ef".toList 0
    (by decide) (by decide) (by decide) (by decide) rfl

/-- C3 counterexample: tokenizing `ab"c d"ef` does not give the argument
text `abc def`. -/
theorem C3_counterexample_text_not_stripped :
    ¬ ∃ ctx, YoriShParseCmdlineToCmdContext id "ab\"c d\"ef".toList 0 = some ctx ∧
      ctx.ArgV = [⟨"abc def".toList, false⟩] := by
  rintro ⟨ctx, h1, h2⟩
  obtain ⟨ctx1, h3, _, h5⟩ := parse_quoted_middle id "ab".toList "c d".toList "ef".toList 0
    (by decide) (by decide) (by decide) (by decide) rfl
  have h6 : ("ab".toList ++ '"' :: ("c d".toList ++ '"' :: "ef".toList)) =
      "ab\"c d\"ef".toList := by decide
  rw [h6] at h3 h5
  rw [h3] at h1
  cases h1
  rw [h5] at h2
  revert h2
  decide

theorem copyArgChars_false (t : List Char) : copyArgChars false t = t := by
  induction t with
  | nil => rfl
  | cons c cs ih =>
    unfold copyArgChars
    simp [ih]

theorem buildLoop_succ (k : Nat) (args : List Arg) :
    buildLoop false (k + 1) args = (args.map (fun a => ' ' :: renderArg a)).flatten := by
  induction args generalizing k with
  | nil => rfl
  | cons a rest ih =>
    simp [buildLoop, copyArgChars_false, renderArg, ih]

theorem joinSpaces_cons (x : List Char) (l : List (List Char)) :
    joinSpaces (x :: l) = x ++ (l.map (fun y => ' ' :: y)).flatten := by
  induction l generalizing x with
  | nil => simp [joinSpaces]
  | cons y r ih => simp [joinSpaces, ih]

theorem buildLoop_zero (args : List Arg) :
    buildLoop false 0 args = joinSpaces (args.map renderArg) := by
  cases args with
  | nil => rfl
  | cons a rest =>
    rw [List.map_cons, joinSpaces_cons]
    simp [buildLoop, copyArgChars_false, renderArg, buildLoop_succ, List.map_map,
      Function.comp_def]

theorem cString_append_nul (r : List Char) (h : NUL ∉ r) : cString (r ++ [NUL]) = r := by
  unfold cString
  induction r with
  | nil => simp [List.takeWhile]
  | cons c cs ih =>
    have hc : c ≠ NUL := fun e => h (by simp [e])
    have ih2 := ih (fun hm => h (by simp [hm]))
    simp only [List.cons_append, List.takeWhile_cons, ne_eq, hc, not_false_eq_true,
      decide_True, if_true]
    simpa using ih2

theorem progSep_mono (t : List Char) (e : Bool)
    (h : YoriShIsArgumentProgramSeperator t e = true) :
    YoriShIsArgumentProgramSeperator t true = true := by
  unfold YoriShIsArgumentProgramSeperator at h ⊢
  split_ifs at h ⊢ <;> simp_all

theorem progSep_of_false (t : List Char) (e : Bool)
    (h : YoriShIsArgumentProgramSeperator t false = true) :
    YoriShIsArgumentProgramSeperator t e = true := by
  unfold YoriShIsArgumentProgramSeperator at h ⊢
  split_ifs at h ⊢ <;> simp_all

theorem boundaryLoop_run (n : Nat) (run tail : List Arg) (k : Nat)
    (hn : k + (run ++ tail).length = n)
    (hrun : ∀ a ∈ run, NotBoundary a)
    (htail : tail = [] ∨ ∃ b rest, tail = b :: rest ∧ b.Quoted = false ∧
      (YoriShIsArgumentProgramSeperator b.Text false = true ∨
        (rest = [] ∧ YoriShIsArgumentProgramSeperator b.Text true = true))) :
    boundaryLoop n k (run ++ tail) = k + run.length := by
  induction run generalizing k with
  | nil =>
    rcases htail with h | ⟨b, rest, h, hq, hs⟩
    · subst h
      rfl
    · subst h
      have hk : k < n := by
        simp at hn
        omega
      have hsep : YoriShIsArgumentProgramSeperator b.Text (decide (k = n - 1)) = true := by
        rcases hs with h1 | ⟨h1, h2⟩
        · exact progSep_of_false _ _ h1
        · subst h1
          have : k = n - 1 := by
            simp at hn
            omega
          simpa [this] using h2
      simp [boundaryLoop, hk, hq, hsep]
  | cons a run ih =>
    have hk : k < n := by
      simp at hn
      omega
    have ha : ¬ (a.Quoted = false ∧
        YoriShIsArgumentProgramSeperator a.Text (decide (k = n - 1)) = true) := by
      rintro ⟨h1, h2⟩
      rcases hrun a (by simp) with h3 | h3
      · rw [h1] at h3
        exact absurd h3 (by decide)
      · rw [progSep_mono _ _ h2] at h3
        exact absurd h3 (by decide)
    have := ih (k + 1) (by simp at hn ⊢; omega) (fun x hx => hrun x (List.mem_cons_of_mem _ hx))
    rw [List.cons_append, boundaryLoop]
    simp only [hk, if_true, ha, if_false]
    rw [this, List.length_cons]
    omega

theorem skipSeperators_block (n : Nat) (blk rest : List Arg) (j aol : Nat)
    (hn : j + (blk ++ rest).length ≤ n)
    (hblk : ∀ a ∈ blk, YoriShIsArgumentProgramSeperator a.Text false = true)
    (hrest : rest = [] ∨ ∃ a r, rest = a :: r ∧
      YoriShIsArgumentProgramSeperator a.Text false = false) :
    skipSeperators n j aol (blk ++ rest) =
      (j + blk.length, if blk = [] then aol else j + blk.length - 1) := by
  induction blk generalizing j aol with
  | nil =>
    rcases hrest with h | ⟨a, r, h, hs⟩
    · subst h
      rfl
    · subst h
      simp [skipSeperators, hs]
  | cons b blk ih =>
    have hj : j < n := by
      simp at hn
      omega
    have hb := hblk b (by simp)
    have := ih (j + 1) j (by simp at hn ⊢; omega)
      (fun x hx => hblk x (List.mem_cons_of_mem _ hx))
    rw [List.cons_append, skipSeperators]
    simp only [hj, hb, and_self, if_true]
    rw [this]
    by_cases hbl : blk = []
    · subst hbl
      simp
    · have : 0 < blk.length := List.length_pos.mpr hbl
      simp only [hbl, if_false, reduceCtorEq, List.length_cons]
      refine Prod.ext ?_ ?_ <;> simp <;> omega

theorem planStep_eq (Lib : PathLibrary) (ctx : YORI_SH_CMD_CONTEXT) (s : PlanState)
    (c0 : Nat) (node : YORI_SH_SINGLE_EXEC_CONTEXT)
    (hexec : YoriShParseCmdContextToExecContext Lib ctx s.CurrentArg = (c0, node))
    (hc0 : c0 ≠ 0) :
    planStep Lib ctx s =
      some
        { Plan :=
            { (trailingBackground ctx s.CurrentArg s.Plan node c0).1 with
                FirstCmd :=
                  linkChain (trailingBackground ctx s.CurrentArg s.Plan node c0).1.FirstCmd
                    (ctx.arg s.ArgOfLastOperatorIndex).Text
                    (trailingBackground ctx s.CurrentArg s.Plan node c0).2.1,
                NumberCommands :=
                  (trailingBackground ctx s.CurrentArg s.Plan node c0).1.NumberCommands + 1 },
          CurrentArg :=
            (skipSeperators ctx.ArgC
              (s.CurrentArg + (trailingBackground ctx s.CurrentArg s.Plan node c0).2.2)
              s.ArgOfLastOperatorIndex
              (ctx.ArgV.drop
                (s.CurrentArg + (trailingBackground ctx s.CurrentArg s.Plan node c0).2.2))).1,
          ArgOfLastOperatorIndex :=
            (skipSeperators ctx.ArgC
              (s.CurrentArg + (trailingBackground ctx s.CurrentArg s.Plan node c0).2.2)
              s.ArgOfLastOperatorIndex
              (ctx.ArgV.drop
                (s.CurrentArg + (trailingBackground ctx s.CurrentArg s.Plan node c0).2.2))).2 } := by
  unfold planStep
  rw [hexec]
  simp only [hc0, if_false]
  rcases trailingBackground ctx s.CurrentArg s.Plan node c0 with ⟨P1, T1, A1⟩
  simp only [linkChain]

theorem exec_at (Lib : PathLibrary) (ctx : YORI_SH_CMD_CONTEXT) (pre run tail : List Arg)
    (hC : ctx.ArgC = ctx.ArgV.length) (hV : ctx.ArgV = pre ++ (run ++ tail))
    (hrun : ∀ a ∈ run, NotBoundary a)
    (htail : tail = [] ∨ ∃ b rest, tail = b :: rest ∧ b.Quoted = false ∧
      (YoriShIsArgumentProgramSeperator b.Text false = true ∨
        (rest = [] ∧ YoriShIsArgumentProgramSeperator b.Text true = true))) :
    YoriShParseCmdContextToExecContext Lib ctx pre.length =
      (run.length, execLoop Lib none run initialExecContext) := by
  have hd : ctx.ArgV.drop pre.length = run ++ tail := by
    rw [hV]
    exact List.drop_left' rfl
  have hb := boundaryLoop_run ctx.ArgC run tail pre.length (by rw [hC, hV]; simp) hrun htail
  unfold YoriShParseCmdContextToExecContext
  simp only [hd, hb, Nat.add_sub_cancel_left, List.take_left']

theorem trailingBackground_skip (ctx : YORI_SH_CMD_CONTEXT) (cur c : Nat)
    (Plan : YORI_SH_EXEC_PLAN) (node : YORI_SH_SINGLE_EXEC_CONTEXT)
    (h : cur + c ≠ ctx.ArgC - 1) :
    trailingBackground ctx cur Plan node c = (Plan, node, c) := by
  simp [trailingBackground, h]

theorem arg_at (ctx : YORI_SH_CMD_CONTEXT) (A R : List Arg) (b : Arg)
    (hV : ctx.ArgV = A ++ (b :: R)) : ctx.arg A.length = b := by
  simp only [YORI_SH_CMD_CONTEXT.arg, hV, List.getD_eq_getElem?_getD]
  rw [List.getElem?_append_right (le_refl _)]
  simp

theorem arg_at_last (ctx : YORI_SH_CMD_CONTEXT) (A blk R : List Arg) (hb : blk ≠ [])
    (hV : ctx.ArgV = A ++ (blk ++ R)) :
    (ctx.arg (A.length + blk.length - 1)).Text = lastText blk := by
  obtain ⟨front, b, rfl⟩ : ∃ front b, blk = front ++ [b] :=
    ⟨blk.dropLast, blk.getLast hb, (List.dropLast_append_getLast hb).symm⟩
  have hV2 : ctx.ArgV = (A ++ front) ++ (b :: R) := by
    rw [hV]
    simp
  have := arg_at ctx (A ++ front) R b hV2
  simp only [List.length_append, List.length_singleton] at this ⊢
  rw [show A.length + (front.length + 1) - 1 = A.length + front.length by omega, this]
  simp [lastText]

theorem planStep_mid (Lib : PathLibrary) (ctx : YORI_SH_CMD_CONTEXT) (s : PlanState)
    (pre run blk rest : List Arg)
    (hC : ctx.ArgC = ctx.ArgV.length) (hV : ctx.ArgV = pre ++ (run ++ (blk ++ rest)))
    (hcur : s.CurrentArg = pre.length)
    (hrun : RunOK run) (hblk : BlockOK blk)
    (hrest : ∃ a r, rest = a :: r ∧ YoriShIsArgumentProgramSeperator a.Text false = false) :
    planStep Lib ctx s =
      some
        { Plan :=
            { s.Plan with
                FirstCmd :=
                  linkChain s.Plan.FirstCmd (ctx.arg s.ArgOfLastOperatorIndex).Text
                    (execLoop Lib none run initialExecContext),
                NumberCommands := s.Plan.NumberCommands + 1 },
          CurrentArg := pre.length + run.length + blk.length,
          ArgOfLastOperatorIndex := pre.length + run.length + blk.length - 1 } := by
  obtain ⟨⟨b, br, hb, hbq⟩, hball⟩ := hblk
  obtain ⟨⟨a0, r0, ha0, _⟩, hrunall⟩ := hrun
  have hexec := exec_at Lib ctx pre run (blk ++ rest) hC hV hrunall
    (Or.inr ⟨b, br ++ rest, by rw [hb]; rfl, hbq, Or.inl (hball b (by rw [hb]; simp))⟩)
  rw [← hcur] at hexec
  have hlen : ctx.ArgC = pre.length + run.length + blk.length + rest.length := by
    rw [hC, hV]
    simp
    omega
  obtain ⟨a, r, hr, har⟩ := hrest
  have hr1 : rest.length = r.length + 1 := by rw [hr]; rfl
  have hb1 : blk.length = br.length + 1 := by rw [hb]; rfl
  have hr0 : run.length = r0.length + 1 := by rw [ha0]; rfl
  rw [planStep_eq Lib ctx s _ _ hexec (by omega),
    trailingBackground_skip ctx _ _ _ _ (by rw [hcur]; omega)]
  have hd : ctx.ArgV.drop (s.CurrentArg + run.length) = blk ++ rest := by
    rw [hV, hcur, ← List.append_assoc]
    exact List.drop_left' (by simp)
  have hsk := skipSeperators_block ctx.ArgC blk rest (s.CurrentArg + run.length)
    s.ArgOfLastOperatorIndex (by rw [hcur, hlen]; simp; omega) hball (Or.inr ⟨a, r, hr, har⟩)
  simp only [hd, hsk]
  have hne : blk ≠ [] := by rw [hb]; simp
  simp [hne, hcur]

theorem planLoop_step (Lib : PathLibrary) (ctx : YORI_SH_CMD_CONTEXT) (fuel : Nat)
    (s s1 : PlanState) (h : s.CurrentArg < ctx.ArgC) (hs : planStep Lib ctx s = some s1) :
    planLoop Lib ctx (fuel + 1) s = planLoop Lib ctx fuel s1 := by
  rw [planLoop.eq_def]
  simp [h, hs]

theorem planLoop_done (Lib : PathLibrary) (ctx : YORI_SH_CMD_CONTEXT) (fuel : Nat)
    (s : PlanState) (h : ¬ s.CurrentArg < ctx.ArgC) :
    planLoop Lib ctx fuel s = some (some s) := by
  rw [planLoop.eq_def]
  simp [h]

theorem segArgs_cons (sg : List Arg × List Arg) (more : List (List Arg × List Arg)) :
    segArgs (sg :: more) = sg.1 ++ (sg.2 ++ segArgs more) := by
  simp [segArgs]

theorem segArgs_head (segs : List (List Arg × List Arg)) (fin : List Arg)
    (hsegs : ∀ sg ∈ segs, RunOK sg.1 ∧ BlockOK sg.2)
    (hfin : ∃ a r, fin = a :: r ∧ YoriShIsArgumentProgramSeperator a.Text false = false) :
    ∃ a r, segArgs segs ++ fin = a :: r ∧
      YoriShIsArgumentProgramSeperator a.Text false = false := by
  cases segs with
  | nil => simpa [segArgs] using hfin
  | cons sg more =>
    obtain ⟨⟨⟨a, r, hr, ha⟩, _⟩, _⟩ := hsegs sg (by simp)
    refine ⟨a, r ++ (sg.2 ++ segArgs more) ++ fin, ?_, ha⟩
    rw [segArgs_cons, hr]
    simp

theorem planLoop_mid (Lib : PathLibrary) (ctx : YORI_SH_CMD_CONTEXT)
    (hC : ctx.ArgC = ctx.ArgV.length) (fuel : Nat) (fin : List Arg)
    (hfin : ∃ a r, fin = a :: r ∧ YoriShIsArgumentProgramSeperator a.Text false = false)
    (segs : List (List Arg × List Arg)) :
    ∀ (pre : List Arg) (s : PlanState) (sep : List Char),
      ctx.ArgV = pre ++ (segArgs segs ++ fin) → s.CurrentArg = pre.length →
      (ctx.arg s.ArgOfLastOperatorIndex).Text = sep →
      (∀ sg ∈ segs, RunOK sg.1 ∧ BlockOK sg.2) →
      ∃ s2, planLoop Lib ctx (fuel + segs.length) s = planLoop Lib ctx fuel s2 ∧
        s2.Plan = { s.Plan with
                      FirstCmd := (midNodes Lib s.Plan.FirstCmd sep segs).1,
                      NumberCommands := s.Plan.NumberCommands + segs.length } ∧
        s2.CurrentArg = pre.length + (segArgs segs).length ∧
        (ctx.arg s2.ArgOfLastOperatorIndex).Text = (midNodes Lib s.Plan.FirstCmd sep segs).2 := by
  induction segs with
  | nil =>
    intro pre s sep _ hcur hsep _
    exact ⟨s, rfl, by simp [midNodes], by simp [segArgs, hcur], by simp [midNodes, hsep]⟩
  | cons sg more ih =>
    intro pre s sep hV hcur hsep hsegs
    obtain ⟨hrun, hblk⟩ := hsegs sg (by simp)
    have hmore : ∀ x ∈ more, RunOK x.1 ∧ BlockOK x.2 :=
      fun x hx => hsegs x (List.mem_cons_of_mem _ hx)
    have hV1 : ctx.ArgV = pre ++ (sg.1 ++ (sg.2 ++ (segArgs more ++ fin))) := by
      rw [hV, segArgs_cons]
      simp
    have hstep := planStep_mid Lib ctx s pre sg.1 sg.2 (segArgs more ++ fin) hC hV1 hcur
      hrun hblk (segArgs_head more fin hmore hfin)
    obtain ⟨⟨a0, r0, ha0, _⟩, _⟩ := hrun
    have hlt : s.CurrentArg < ctx.ArgC := by
      rw [hC, hV1, hcur, ha0]
      simp
    obtain ⟨⟨b, br, hb, _⟩, _⟩ := hblk
    have hbne : sg.2 ≠ [] := by rw [hb]; simp
    have hV2 : ctx.ArgV = (pre ++ sg.1 ++ sg.2) ++ (segArgs more ++ fin) := by
      rw [hV1]
      simp
    obtain ⟨s1, hs1, hp, hc, ha⟩ : ∃ s1, planStep Lib ctx s = some s1 ∧
        s1.Plan = { s.Plan with
          FirstCmd := linkChain s.Plan.FirstCmd (ctx.arg s.ArgOfLastOperatorIndex).Text
            (execLoop Lib none sg.1 initialExecContext),
          NumberCommands := s.Plan.NumberCommands + 1 } ∧
        s1.CurrentArg = pre.length + sg.1.length + sg.2.length ∧
        s1.ArgOfLastOperatorIndex = pre.length + sg.1.length + sg.2.length - 1 :=
      ⟨_, hstep, rfl, rfl, rfl⟩
    obtain ⟨s2, h1, h2, h3, h4⟩ := ih (pre ++ sg.1 ++ sg.2) s1 (lastText sg.2) hV2
      (by rw [hc]; simp; omega) (by
        have := arg_at_last ctx (pre ++ sg.1) sg.2 (segArgs more ++ fin) hbne (by
          rw [hV1]
          simp)
        rw [ha]
        simpa using this) hmore
    refine ⟨s2, ?_, ?_, ?_, ?_⟩
    · have hf : fuel + (sg :: more).length = (fuel + more.length) + 1 := by
        simp only [List.length_cons]
        omega
      rw [hf, planLoop_step Lib ctx _ s _ hlt hs1]
      exact h1
    · rw [h2, hp]
      simp only [midNodes, hsep, List.length_cons]
      congr 1
      omega
    · rw [h3, segArgs_cons]
      simp
      omega
    · rw [h4, hp]
      simp [midNodes, hsep]

theorem planStep_end (Lib : PathLibrary) (ctx : YORI_SH_CMD_CONTEXT) (s : PlanState)
    (pre run : List Arg)
    (hC : ctx.ArgC = ctx.ArgV.length) (hV : ctx.ArgV = pre ++ run)
    (hcur : s.CurrentArg = pre.length) (hne : run ≠ [])
    (hrun : ∀ a ∈ run, NotBoundary a) :
    planStep Lib ctx s =
      some
        { Plan :=
            { s.Plan with
                FirstCmd :=
                  linkChain s.Plan.FirstCmd (ctx.arg s.ArgOfLastOperatorIndex).Text
                    (execLoop Lib none run initialExecContext),
                NumberCommands := s.Plan.NumberCommands + 1 },
          CurrentArg := ctx.ArgC,
          ArgOfLastOperatorIndex := s.ArgOfLastOperatorIndex } := by
  have hexec := exec_at Lib ctx pre run [] hC (by simpa using hV) hrun (Or.inl rfl)
  rw [← hcur] at hexec
  have hpos : 0 < run.length := List.length_pos.mpr hne
  have hlen : ctx.ArgC = pre.length + run.length := by
    rw [hC, hV]
    simp
  rw [planStep_eq Lib ctx s _ _ hexec (by omega),
    trailingBackground_skip ctx _ _ _ _ (by rw [hcur]; omega)]
  have hd : ctx.ArgV.drop (s.CurrentArg + run.length) = [] := by
    rw [hV, hcur]
    simp
  simp only [hd, skipSeperators]
  rw [hcur, ← hlen]

theorem planStep_bg (Lib : PathLibrary) (ctx : YORI_SH_CMD_CONTEXT) (s : PlanState)
    (pre run : List Arg) (bg : Arg)
    (hC : ctx.ArgC = ctx.ArgV.length) (hV : ctx.ArgV = pre ++ (run ++ [bg]))
    (hcur : s.CurrentArg = pre.length) (hne : run ≠ [])
    (hrun : ∀ a ∈ run, NotBoundary a)
    (hq : bg.Quoted = false) (hbg : YoriShIsArgumentProgramSeperator bg.Text true = true)
    (htb : (trailingBackground ctx pre.length s.Plan
      (execLoop Lib none run initialExecContext) run.length).2.2 = run.length + 1) :
    planStep Lib ctx s =
      some
        { Plan :=
            { (trailingBackground ctx pre.length s.Plan
                (execLoop Lib none run initialExecContext) run.length).1 with
                FirstCmd :=
                  linkChain (trailingBackground ctx pre.length s.Plan
                      (execLoop Lib none run initialExecContext) run.length).1.FirstCmd
                    (ctx.arg s.ArgOfLastOperatorIndex).Text
                    (trailingBackground ctx pre.length s.Plan
                      (execLoop Lib none run initialExecContext) run.length).2.1,
                NumberCommands :=
                  (trailingBackground ctx pre.length s.Plan
                    (execLoop Lib none run initialExecContext) run.length).1.NumberCommands
                    + 1 },
          CurrentArg := ctx.ArgC,
          ArgOfLastOperatorIndex := s.ArgOfLastOperatorIndex } := by
  have hexec := exec_at Lib ctx pre run [bg] hC hV hrun
    (Or.inr ⟨bg, [], rfl, hq, Or.inr ⟨rfl, hbg⟩⟩)
  rw [← hcur] at hexec htb ⊢
  have hpos : 0 < run.length := List.length_pos.mpr hne
  have hlen : ctx.ArgC = pre.length + run.length + 1 := by
    rw [hC, hV]
    simp
    omega
  rw [planStep_eq Lib ctx s _ _ hexec (by omega), htb]
  have hd : ctx.ArgV.drop (s.CurrentArg + (run.length + 1)) = [] := by
    rw [hV, hcur]
    simp
  simp only [hd, skipSeperators]
  rw [hcur, show pre.length + (run.length + 1) = ctx.ArgC by omega]

theorem trailingBackground_amp (ctx : YORI_SH_CMD_CONTEXT) (A : List Arg) (cur c : Nat)
    (Plan : YORI_SH_EXEC_PLAN) (node : YORI_SH_SINGLE_EXEC_CONTEXT)
    (hC : ctx.ArgC = ctx.ArgV.length) (hV : ctx.ArgV = A ++ [⟨['&'], false⟩])
    (hA : A.length = cur + c) :
    trailingBackground ctx cur Plan node c =
      ({ Plan with WaitForCompletion := false,
                   EntireCmd := { Plan.EntireCmd with WaitForCompletion := false },
                   EntireCmdArgC := Plan.EntireCmdArgC - 1 },
       { node with WaitForCompletion := false }, c + 1) := by
  have hlen : cur + c = ctx.ArgC - 1 := by
    rw [hC, hV]
    simp [hA]
  have harg : ctx.arg (cur + c) = ⟨['&'], false⟩ := by
    rw [← hA]
    exact arg_at ctx A [] _ hV
  rw [hlen] at harg
  simp [trailingBackground, hlen, harg, charAt]

theorem trailingBackground_amp_bang (ctx : YORI_SH_CMD_CONTEXT) (A : List Arg) (cur c : Nat)
    (Plan : YORI_SH_EXEC_PLAN) (node : YORI_SH_SINGLE_EXEC_CONTEXT)
    (hC : ctx.ArgC = ctx.ArgV.length) (hV : ctx.ArgV = A ++ [⟨['&', '!'], false⟩])
    (hA : A.length = cur + c) :
    trailingBackground ctx cur Plan node c =
      ({ Plan with WaitForCompletion := false,
                   EntireCmd :=
                     { Plan.EntireCmd with
                         WaitForCompletion := false, StdInType := .Null,
                         StdOutType := .Buffer, StdOutRetainBufferData := true,
                         StdErrType := .Buffer, StdErrRetainBufferData := true },
                   EntireCmdArgC := Plan.EntireCmdArgC - 1 },
       { node with
           WaitForCompletion := false, StdInType := .Null,
           StdOutType := .Buffer, StdOutRetainBufferData := true,
           StdErrType := .Buffer, StdErrRetainBufferData := true }, c + 1) := by
  have hlen : cur + c = ctx.ArgC - 1 := by
    rw [hC, hV]
    simp [hA]
  have harg : ctx.arg (cur + c) = ⟨['&', '!'], false⟩ := by
    rw [← hA]
    exact arg_at ctx A [] _ hV
  rw [hlen] at harg
  simp [trailingBackground, hlen, harg, charAt]

theorem planChain_eq (Lib : PathLibrary) (segs : List (List Arg × List Arg)) (sep : List Char)
    (node : YORI_SH_SINGLE_EXEC_CONTEXT) :
    linkChain (midNodes Lib [] sep segs).1 (midNodes Lib [] sep segs).2 node =
      planChain Lib segs node := by
  cases segs with
  | nil => simp [planChain, midNodes, linkChain]
  | cons sg more => simp [planChain, midNodes, linkChain]

theorem segArgs_length (segs : List (List Arg × List Arg))
    (hsegs : ∀ sg ∈ segs, RunOK sg.1 ∧ BlockOK sg.2) :
    segs.length ≤ (segArgs segs).length := by
  induction segs with
  | nil => simp
  | cons sg more ih =>
    obtain ⟨⟨⟨a, r, hr, _⟩, _⟩, _⟩ := hsegs sg (by simp)
    have := ih (fun x hx => hsegs x (List.mem_cons_of_mem _ hx))
    rw [segArgs_cons, hr]
    simp
    omega

theorem plan_mid (Lib : PathLibrary) (ctx : YORI_SH_CMD_CONTEXT)
    (segs : List (List Arg × List Arg)) (fin : List Arg)
    (hC : ctx.ArgC = ctx.ArgV.length) (hV : ctx.ArgV = segArgs segs ++ fin)
    (hsegs : ∀ sg ∈ segs, RunOK sg.1 ∧ BlockOK sg.2)
    (hfin : ∃ a r, fin = a :: r ∧ YoriShIsArgumentProgramSeperator a.Text false = false) :
    ∃ s2 fuel,
      planLoop Lib ctx (ctx.ArgC + 1)
        { Plan := initialPlan ctx, CurrentArg := 0, ArgOfLastOperatorIndex := 0 } =
        planLoop Lib ctx (fuel + 1) s2 ∧
      s2.Plan = { initialPlan ctx with
                    FirstCmd := (midNodes Lib [] (ctx.arg 0).Text segs).1,
                    NumberCommands := segs.length } ∧
      s2.CurrentArg = (segArgs segs).length ∧
      (ctx.arg s2.ArgOfLastOperatorIndex).Text = (midNodes Lib [] (ctx.arg 0).Text segs).2 := by
  have hl := segArgs_length segs hsegs
  have hlen : ctx.ArgC = (segArgs segs).length + fin.length := by
    rw [hC, hV]
    simp
  obtain ⟨s2, h1, h2, h3, h4⟩ := planLoop_mid Lib ctx hC (ctx.ArgC - segs.length + 1) fin hfin
    segs [] { Plan := initialPlan ctx, CurrentArg := 0, ArgOfLastOperatorIndex := 0 }
    (ctx.arg 0).Text (by simpa using hV) rfl rfl hsegs
  refine ⟨s2, ctx.ArgC - segs.length, ?_, ?_, ?_, ?_⟩
  · rw [← h1]
    congr 1
    omega
  · rw [h2]
    simp [initialPlan]
  · simpa using h3
  · exact h4

theorem plan_unfold (Lib : PathLibrary) (ctx : YORI_SH_CMD_CONTEXT) (s : PlanState)
    (h : planLoop Lib ctx (ctx.ArgC + 1)
      { Plan := initialPlan ctx, CurrentArg := 0, ArgOfLastOperatorIndex := 0 } =
        some (some s)) :
    YoriShParseCmdContextToExecPlan Lib ctx = some (some s.Plan) := by
  unfold YoriShParseCmdContextToExecPlan
  simp only [initialPlan] at h
  simp only [h]

/-- The plan of a command line made of programs separated by blocks of
separator arguments. -/
theorem plan_shape (Lib : PathLibrary) (ctx : YORI_SH_CMD_CONTEXT)
    (segs : List (List Arg × List Arg)) (fin : List Arg)
    (hC : ctx.ArgC = ctx.ArgV.length) (hV : ctx.ArgV = segArgs segs ++ fin)
    (hsegs : ∀ sg ∈ segs, RunOK sg.1 ∧ BlockOK sg.2) (hfin : RunOK fin) :
    YoriShParseCmdContextToExecPlan Lib ctx =
      some (some
        { initialPlan ctx with
            FirstCmd := planChain Lib segs (execLoop Lib none fin initialExecContext),
            NumberCommands := segs.length + 1 }) := by
  obtain ⟨s2, fuel, h1, h2, h3, h4⟩ := plan_mid Lib ctx segs fin hC hV hsegs hfin.1
  obtain ⟨a, r, hr, _⟩ := hfin.1
  have hne : fin ≠ [] := by rw [hr]; simp
  have hstep := planStep_end Lib ctx s2 (segArgs segs) fin hC hV h3 hne hfin.2
  have hlt : s2.CurrentArg < ctx.ArgC := by
    rw [hC, hV, h3, hr]
    simp
  rw [planLoop_step Lib ctx fuel s2 _ hlt hstep, planLoop_done Lib ctx fuel _ (by simp)] at h1
  rw [plan_unfold Lib ctx _ h1, h2, h4]
  simp [planChain_eq]

/-- The plan of a command line made of programs separated by blocks of
separator arguments and followed by a last argument `&`. -/
theorem plan_shape_amp (Lib : PathLibrary) (ctx : YORI_SH_CMD_CONTEXT)
    (segs : List (List Arg × List Arg)) (fin : List Arg)
    (hC : ctx.ArgC = ctx.ArgV.length)
    (hV : ctx.ArgV = segArgs segs ++ (fin ++ [⟨['&'], false⟩]))
    (hsegs : ∀ sg ∈ segs, RunOK sg.1 ∧ BlockOK sg.2) (hfin : RunOK fin) :
    YoriShParseCmdContextToExecPlan Lib ctx =
      some (some
        { FirstCmd := planChain Lib segs
            { execLoop Lib none fin initialExecContext with WaitForCompletion := false },
          NumberCommands := segs.length + 1,
          EntireCmd := { (initialPlan ctx).EntireCmd with WaitForCompletion := false },
          EntireCmdArgC := ctx.ArgC - 1,
          WaitForCompletion := false }) := by
  obtain ⟨a, r, hr, har⟩ := hfin.1
  obtain ⟨s2, fuel, h1, h2, h3, h4⟩ := plan_mid Lib ctx segs (fin ++ [⟨['&'], false⟩]) hC hV
    hsegs ⟨a, r ++ [⟨['&'], false⟩], by rw [hr]; rfl, har⟩
  have hne : fin ≠ [] := by rw [hr]; simp
  have htb := trailingBackground_amp ctx (segArgs segs ++ fin) (segArgs segs).length fin.length
    s2.Plan (execLoop Lib none fin initialExecContext) hC (by rw [hV]; simp) (by simp)
  have hstep := planStep_bg Lib ctx s2 (segArgs segs) fin ⟨['&'], false⟩ hC hV h3 hne hfin.2
    rfl (by decide) (by rw [htb])
  have hlt : s2.CurrentArg < ctx.ArgC := by
    rw [hC, hV, h3, hr]
    simp
  rw [planLoop_step Lib ctx fuel s2 _ hlt hstep, planLoop_done Lib ctx fuel _ (by simp)] at h1
  rw [plan_unfold Lib ctx _ h1, htb, h2, h4]
  simp [planChain_eq, initialPlan]

/-- The plan of a command line made of programs separated by blocks of
separator arguments and followed by a last argument `&!`. -/
theorem plan_shape_amp_bang (Lib : PathLibrary) (ctx : YORI_SH_CMD_CONTEXT)
    (segs : List (List Arg × List Arg)) (fin : List Arg)
    (hC : ctx.ArgC = ctx.ArgV.length)
    (hV : ctx.ArgV = segArgs segs ++ (fin ++ [⟨['&', '!'], false⟩]))
    (hsegs : ∀ sg ∈ segs, RunOK sg.1 ∧ BlockOK sg.2) (hfin : RunOK fin) :
    YoriShParseCmdContextToExecPlan Lib ctx =
      some (some
        { FirstCmd := planChain Lib segs
            { execLoop Lib none fin initialExecContext with
                WaitForCompletion := false, StdInType := .Null,
                StdOutType := .Buffer, StdOutRetainBufferData := true,
                StdErrType := .Buffer, StdErrRetainBufferData := true },
          NumberCommands := segs.length + 1,
          EntireCmd :=
            { (initialPlan ctx).EntireCmd with
                WaitForCompletion := false, StdInType := .Null,
                StdOutType := .Buffer, StdOutRetainBufferData := true,
                StdErrType := .Buffer, StdErrRetainBufferData := true },
          EntireCmdArgC := ctx.ArgC - 1,
          WaitForCompletion := false }) := by
  obtain ⟨a, r, hr, har⟩ := hfin.1
  obtain ⟨s2, fuel, h1, h2, h3, h4⟩ := plan_mid Lib ctx segs (fin ++ [⟨['&', '!'], false⟩]) hC
    hV hsegs ⟨a, r ++ [⟨['&', '!'], false⟩], by rw [hr]; rfl, har⟩
  have hne : fin ≠ [] := by rw [hr]; simp
  have htb := trailingBackground_amp_bang ctx (segArgs segs ++ fin) (segArgs segs).length
    fin.length s2.Plan (execLoop Lib none fin initialExecContext) hC (by rw [hV]; simp)
    (by simp)
  have hstep := planStep_bg Lib ctx s2 (segArgs segs) fin ⟨['&', '!'], false⟩ hC hV h3 hne
    hfin.2 rfl (by decide) (by rw [htb])
  have hlt : s2.CurrentArg < ctx.ArgC := by
    rw [hC, hV, h3, hr]
    simp
  rw [planLoop_step Lib ctx fuel s2 _ hlt hstep, planLoop_done Lib ctx fuel _ (by simp)] at h1
  rw [plan_unfold Lib ctx _ h1, htb, h2, h4]
  simp [planChain_eq, initialPlan]

theorem spaced_head (toks : List (List Char)) :
    spaced toks = [] ∨ (spaced toks).head? = some ' ' := by
  cases toks with
  | nil => exact Or.inl rfl
  | cons t rest => exact Or.inr (by simp [spaced])

theorem sep_termOp (op R : List Char) (h : op ∈ terminatingOperators)
    (hR : R = [] ∨ R.head? = some ' ') :
    YoriShIsArgumentSeperator (op ++ R) = ⟨op.length, true⟩ := by
  simp only [terminatingOperators, List.mem_cons, List.mem_singleton, List.not_mem_nil,
    or_false] at h
  cases R with
  | nil => rcases h with rfl | rfl | rfl | rfl | rfl | rfl | rfl <;> rfl
  | cons c R1 =>
    have hc : c = ' ' := by simpa using hR
    subst hc
    rcases h with rfl | rfl | rfl | rfl | rfl | rfl | rfl <;>
      simp [YoriShIsArgumentSeperator]

theorem sep_redirOp (op R : List Char) (h : op ∈ redirectOperators)
    (hR : R = [] ∨ R.head? = some ' ') :
    YoriShIsArgumentSeperator (op ++ R) = ⟨op.length, false⟩ := by
  simp only [redirectOperators, List.mem_cons, List.mem_singleton, List.not_mem_nil,
    or_false] at h
  cases R with
  | nil => rcases h with rfl | rfl | rfl <;> rfl
  | cons c R1 =>
    have hc : c = ' ' := by simpa using hR
    subst hc
    rcases h with rfl | rfl | rfl <;> simp [YoriShIsArgumentSeperator]

theorem op_head (op : List Char) (h : op ∈ terminatingOperators ∨ op ∈ redirectOperators) :
    op ≠ [] ∧ op.head? ≠ some ' ' ∧ op.head? ≠ some '"' := by
  simp only [terminatingOperators, redirectOperators, List.mem_cons, List.mem_singleton,
    List.not_mem_nil, or_false] at h
  rcases h with (rfl | rfl | rfl | rfl | rfl | rfl | rfl) | (rfl | rfl | rfl) <;> decide

theorem tokens_space_redir (out op R : List Char) (av : List Arg) (len : Nat) (q l : Bool)
    (hop : op ∈ redirectOperators) (hR : R = [] ∨ R.head? = some ' ') :
    tokensFrom (mkFill out (' ' :: (op ++ R)) av len q false l) =
      tokensFrom (mkFill op R (av ++ [⟨out, q⟩]) 0 false false false) := by
  obtain ⟨hne, hsp, hqu⟩ := op_head op (Or.inr hop)
  have hsep := sep_redirOp op R hop hR
  have hT : YoriShTrimSpacesFromBeginning (op ++ R) = op ++ R := by
    apply trim_of_head_ne_space
    cases op with
    | nil => exact absurd rfl hne
    | cons c r => simpa using hsp
  have hne2 : op ++ R ≠ [] := by simp [hne]
  rw [tokens_space]
  have h1 : (mkFill out (' ' :: (op ++ R)) av len q false l).Char = ' ' :: (op ++ R) := rfl
  have h2 : (mkFill out (' ' :: (op ++ R)) av len q false l).CharsToConsume = 0 := rfl
  rw [fillTerminate_cont _ (by rw [h1, trim_cons_space, hT]; exact hne2)
    (by rw [h1, h2]; simp [effT, trim_cons_space, hT, hsep])]
  apply tokensFrom_congr
  have hhead : (op ++ R).head? ≠ some '"' := by
    cases op with
    | nil => exact absurd rfl hne
    | cons c r => simpa using hqu
  have hRq : R.head? ≠ some '"' := by
    rcases hR with h | h
    · simp [h]
    · rw [h]
      simp
  simp [mkFill, effC, trim_cons_space, hT, hsep, FillState.core, hhead, hRq, hqu, hne]

theorem tokens_space_term_more (out op R : List Char) (av : List Arg) (len : Nat) (q l : Bool)
    (hop : op ∈ terminatingOperators) (hR : R = [] ∨ R.head? = some ' ')
    (hmore : YoriShTrimSpacesFromBeginning R ≠ []) :
    tokensFrom (mkFill out (' ' :: (op ++ R)) av len q false l) =
      tokensFrom (mkFill [] (YoriShTrimSpacesFromBeginning R)
        (av ++ [⟨out, q⟩, ⟨op, false⟩]) 0
        (decide ((YoriShTrimSpacesFromBeginning R).head? = some '"')) false
        (decide ((YoriShTrimSpacesFromBeginning R).head? = some '"'))) := by
  obtain ⟨hne, hsp, hqu⟩ := op_head op (Or.inl hop)
  have hsep := sep_termOp op R hop hR
  have hT : YoriShTrimSpacesFromBeginning (op ++ R) = op ++ R := by
    apply trim_of_head_ne_space
    cases op with
    | nil => exact absurd rfl hne
    | cons c r => simpa using hsp
  have hne2 : op ++ R ≠ [] := by simp [hne]
  have hpos : 0 < op.length := List.length_pos.mpr hne
  rw [tokens_space]
  have h1 : (mkFill out (' ' :: (op ++ R)) av len q false l).Char = ' ' :: (op ++ R) := rfl
  have h2 : (mkFill out (' ' :: (op ++ R)) av len q false l).CharsToConsume = 0 := rfl
  rw [fillTerminate_sep_more _ (by rw [h1, trim_cons_space, hT]; exact hne2)
    (by rw [h1, h2]; simp [effT, trim_cons_space, hT, hsep])
    (by rw [h1, h2]; simpa [effC, trim_cons_space, hT, hsep] using hpos)
    (by rw [h1, h2]; simpa [effC, trim_cons_space, hT, hsep] using hmore)]
  apply tokensFrom_congr
  have hhead : (op ++ R).head? ≠ some '"' := by
    cases op with
    | nil => exact absurd rfl hne
    | cons c r => simpa using hqu
  simp [mkFill, effC, trim_cons_space, hT, hsep, FillState.core, hhead, hqu, hne]

theorem tokens_space_term_end (out op R : List Char) (av : List Arg) (len : Nat) (q l : Bool)
    (hop : op ∈ terminatingOperators) (hR : R = [] ∨ R.head? = some ' ')
    (hend : YoriShTrimSpacesFromBeginning R = []) :
    tokensFrom (mkFill out (' ' :: (op ++ R)) av len q false l) =
      av ++ [⟨out, q⟩, ⟨op, false⟩] := by
  obtain ⟨hne, hsp, hqu⟩ := op_head op (Or.inl hop)
  have hsep := sep_termOp op R hop hR
  have hT : YoriShTrimSpacesFromBeginning (op ++ R) = op ++ R := by
    apply trim_of_head_ne_space
    cases op with
    | nil => exact absurd rfl hne
    | cons c r => simpa using hsp
  have hne2 : op ++ R ≠ [] := by simp [hne]
  have hpos : 0 < op.length := List.length_pos.mpr hne
  rw [tokens_space]
  have h1 : (mkFill out (' ' :: (op ++ R)) av len q false l).Char = ' ' :: (op ++ R) := rfl
  have h2 : (mkFill out (' ' :: (op ++ R)) av len q false l).CharsToConsume = 0 := rfl
  rw [fillTerminate_sep_end _ (by rw [h1, trim_cons_space, hT]; exact hne2)
    (by rw [h1, h2]; simp [effT, trim_cons_space, hT, hsep])
    (by rw [h1, h2]; simpa [effC, trim_cons_space, hT, hsep] using hpos)
    (by rw [h1, h2]; simpa [effC, trim_cons_space, hT, hsep] using hend),
    tokensFrom_nil _ rfl]
  have hhead : (op ++ R).head? ≠ some '"' := by
    cases op with
    | nil => exact absurd rfl hne
    | cons c r => simpa using hqu
  have hl : op.length ≠ 0 := by omega
  simp [FillState.finish, mkFill, effC, trim_cons_space, hT, hsep, hhead, hl, hqu, hne]

theorem plainWord_iff (w : List Char) :
    isPlainWord w = true ↔ w ≠ [] ∧ ∀ c ∈ w, isPlainChar c = true := by
  cases w <;> simp [isPlainWord]

theorem plainWord_not_term (w : List Char) (h : isPlainWord w = true) :
    w ∉ terminatingOperators := by
  obtain ⟨_, h2⟩ := (plainWord_iff w).mp h
  intro hm
  simp only [terminatingOperators, List.mem_cons, List.mem_singleton, List.not_mem_nil,
    or_false] at hm
  rcases hm with rfl | rfl | rfl | rfl | rfl | rfl | rfl
  · exact absurd (h2 '|' (by simp)) (by decide)
  · exact absurd (h2 '|' (by simp)) (by decide)
  · exact absurd (h2 '&' (by simp)) (by decide)
  · exact absurd (h2 '&' (by simp)) (by decide)
  · exact absurd (h2 '&' (by simp)) (by decide)
  · exact absurd (h2 '&' (by simp)) (by decide)
  · exact absurd (h2 '\n' (by simp)) (by decide)

theorem opTokensOK_tail (t : List Char) (rest : List (List Char))
    (h : opTokensOK (t :: rest) = true) (ht : t ∉ terminatingOperators) :
    (isPlainWord t = true ∨ t ∈ redirectOperators) ∧ opTokensOK rest = true := by
  cases rest with
  | nil =>
    simp only [opTokensOK, ht, decide_False, Bool.or_false, Bool.or_eq_true,
      decide_eq_true_eq] at h
    exact ⟨h, rfl⟩
  | cons t2 rest2 =>
    simp only [opTokensOK, ht, if_false, Bool.and_eq_true, Bool.or_eq_true,
      decide_eq_true_eq] at h
    exact h

theorem opTokensOK_term (t t2 : List Char) (rest : List (List Char))
    (h : opTokensOK (t :: t2 :: rest) = true) (ht : t ∈ terminatingOperators) :
    isPlainWord t2 = true ∧ opTokensOK rest = true := by
  simp only [opTokensOK, ht, if_true, Bool.and_eq_true] at h
  exact ⟨h.1, (opTokensOK_tail t2 rest h.2 (plainWord_not_term t2 h.1)).2⟩

/-- The fill pass at the start of a plain word that is followed by the end of
the line or by a space. -/
theorem tokens_word (w R : List Char) (av : List Arg) (l : Bool)
    (hw : isPlainWord w = true) (hR : R = [] ∨ R.head? = some ' ') :
    tokensFrom (mkFill [] (w ++ R) av 0 false false l) =
      tokensFrom (mkFill w R av 0 false false l) := by
  obtain ⟨_, h2⟩ := (plainWord_iff w).mp hw
  have := tokens_plain_run w [] R av 0 false l h2 (by
    rcases hR with h | h
    · simp [h]
    · rw [h]
      simp)
  simpa using this

theorem plainWord_append (w R : List Char) (hw : isPlainWord w = true)
    (hR : R = [] ∨ R.head? = some ' ') :
    YoriShTrimSpacesFromBeginning (w ++ R) = w ++ R ∧ w ++ R ≠ [] ∧
    (w ++ R).head? ≠ some '"' ∧
    (YoriShIsArgumentSeperator (w ++ R)).CharsToConsume = 0 := by
  obtain ⟨h1, h2⟩ := (plainWord_iff w).mp hw
  cases w with
  | nil => exact absurd rfl h1
  | cons c w1 =>
    have hc := (plain_iff c).mp (h2 c (by simp))
    refine ⟨trim_cons_of_ne _ _ hc.2.2.2, by simp, by simpa using hc.2.2.1, ?_⟩
    have hr : (w1 ++ R).head? ≠ some '>' := by
      cases w1 with
      | nil =>
        rcases hR with h | h
        · simp [h]
        · simp [h]
      | cons d w2 =>
        have hd := (plain_iff d).mp (h2 d (by simp))
        simp only [isOperatorChar, decide_eq_false_iff_not, not_or] at hd
        simpa using hd.1.2.2.2.1
    rw [List.cons_append, sep_plain c _ hc.1 hr]

theorem tokens_joined (n : Nat) :
    ∀ (toks : List (List Char)) (out : List Char) (av : List Arg) (l : Bool),
      toks.length ≤ n → opTokensOK toks = true →
      tokensFrom (mkFill out (spaced toks) av 0 false false l) =
        av ++ ⟨out, false⟩ :: toks.map (fun t => ⟨t, false⟩) := by
  induction n with
  | zero =>
    intro toks out av l hlen _
    have : toks = [] := List.length_eq_zero.mp (by omega)
    subst this
    exact tokens_end out av false false l
  | succ n ih =>
    intro toks out av l hlen hok
    cases toks with
    | nil => exact tokens_end out av false false l
    | cons t rest =>
      have hsp : spaced (t :: rest) = ' ' :: (t ++ spaced rest) := by simp [spaced]
      rw [hsp]
      by_cases ht : t ∈ terminatingOperators
      · cases rest with
        | nil =>
          rw [tokens_space_term_end out t (spaced []) av 0 false l ht (spaced_head [])
            (by simp [spaced])]
          simp
        | cons t2 rest2 =>
          obtain ⟨hp2, hok2⟩ := opTokensOK_term t t2 rest2 hok ht
          obtain ⟨hT, hne, hq, _⟩ := plainWord_append t2 (spaced rest2) hp2 (spaced_head rest2)
          have hsp2 : spaced (t2 :: rest2) = ' ' :: (t2 ++ spaced rest2) := by simp [spaced]
          have hT2 : YoriShTrimSpacesFromBeginning (spaced (t2 :: rest2)) =
              t2 ++ spaced rest2 := by
            rw [hsp2, trim_cons_space, hT]
          rw [tokens_space_term_more out t (spaced (t2 :: rest2)) av 0 false l ht
            (spaced_head _) (by rw [hT2]; exact hne), hT2]
          simp only [hq, decide_False]
          rw [tokens_word t2 (spaced rest2) _ _ hp2 (spaced_head rest2),
            ih rest2 t2 _ _ (by simp at hlen; omega) hok2]
          simp
      · obtain ⟨hkind, hok2⟩ := opTokensOK_tail t rest hok ht
        rcases hkind with hp | hr
        · obtain ⟨hT, hne, hq, hsep⟩ := plainWord_append t (spaced rest) hp (spaced_head rest)
          rw [tokens_space_next out (t ++ spaced rest) av 0 false l (by rw [hT]; exact hne)
            (by rw [hT]; exact hsep), hT]
          simp only [hq, decide_False]
          rw [tokens_word t (spaced rest) _ _ hp (spaced_head rest),
            ih rest t _ _ (by simp at hlen; omega) hok2]
          simp
        · rw [tokens_space_redir out t (spaced rest) av 0 false l hr (spaced_head rest),
            ih rest t _ _ (by simp at hlen; omega) hok2]
          simp

/-- The arguments of a line made of a plain word followed by tokens, each
after one space. -/
theorem tokenize_tokens (w : List Char) (toks : List (List Char)) (c : Nat) (t : Bool)
    (hw : isPlainWord w = true) (hok : opTokensOK toks = true) :
    tokenize (w ++ spaced toks) c t = (w :: toks).map (fun t => ⟨t, false⟩) := by
  obtain ⟨hT, hne, hq, _⟩ := plainWord_append w (spaced toks) hw (spaced_head toks)
  unfold tokenize
  rw [hT]
  simp only [hne, if_false]
  change tokensFrom _ = _
  unfold fillInit
  rw [hT, tokensFrom_mk]
  simp only [hq, decide_False]
  rw [tokens_word w (spaced toks) _ _ hw (spaced_head toks),
    tokens_joined toks.length toks w [] false (le_refl _) hok]
  simp

theorem parse_tokens (w : List Char) (toks : List (List Char)) (CurrentOffset : Nat)
    (hw : isPlainWord w = true) (hok : opTokensOK toks = true) :
    ∃ ctx, YoriShParseCmdlineToCmdContext id (w ++ spaced toks) CurrentOffset = some ctx ∧
      ctx.ArgC = toks.length + 1 ∧
      ctx.ArgV = (w :: toks).map (fun t => ⟨t, false⟩) := by
  obtain ⟨sz, _, h2, h3⟩ := parse_eq id (w ++ spaced toks) CurrentOffset
  rw [tokenize_tokens w toks _ _ hw hok] at h2 h3
  exact ⟨_, h3, by simpa using h2, by simp⟩

theorem upcase_eq (c d : Char) (h : YoriLibUpcaseChar c = d)
    (hd : d.toNat < 65 ∨ 90 < d.toNat) : c = d := by
  unfold YoriLibUpcaseChar at h
  split at h
  · rename_i hr
    exfalso
    have h1 : 97 ≤ c.toNat := hr.1
    have h2 : c.toNat ≤ 122 := hr.2
    rw [← h] at hd
    generalize c.toNat = n at h1 h2 hd
    interval_cases n <;> revert hd <;> decide
  · exact h

theorem compare_head (t lit : List Char) (d : Char) (r : List Char)
    (hlit : lit.map YoriLibUpcaseChar = d :: r) (hd : d.toNat < 65 ∨ 90 < d.toNat)
    (h : compareInsensitiveEq t lit = true) : t.head? = some d := by
  simp only [compareInsensitiveEq, decide_eq_true_eq] at h
  rw [hlit] at h
  cases t with
  | nil => simp at h
  | cons c cs =>
    simp only [List.map_cons, List.cons.injEq] at h
    rw [upcase_eq c d h.1 hd]
    rfl

theorem progSep_head (t : List Char) (e : Bool)
    (h : t.head? ≠ some '&' ∧ t.head? ≠ some '|' ∧ t.head? ≠ some '\n') :
    YoriShIsArgumentProgramSeperator t e = false := by
  have h1 : compareInsensitiveEq t ['&'] = false := by
    by_contra hc
    exact h.1 (compare_head t ['&'] '&' [] (by decide) (by decide) (by simpa using hc))
  have h2 : compareInsensitiveEq t ['&', '&'] = false := by
    by_contra hc
    exact h.1 (compare_head t ['&', '&'] '&' ['&'] (by decide) (by decide) (by simpa using hc))
  have h3 : compareInsensitiveEq t ['\n'] = false := by
    by_contra hc
    exact h.2.2 (compare_head t ['\n'] '\n' [] (by decide) (by decide) (by simpa using hc))
  have h4 : compareInsensitiveEq t ['|'] = false := by
    by_contra hc
    exact h.2.1 (compare_head t ['|'] '|' [] (by decide) (by decide) (by simpa using hc))
  have h5 : compareInsensitiveEq t ['|', '|'] = false := by
    by_contra hc
    exact h.2.1 (compare_head t ['|', '|'] '|' ['|'] (by decide) (by decide) (by simpa using hc))
  have h6 : compareInsensitiveEq t ['&', '!'] = false := by
    by_contra hc
    exact h.1 (compare_head t ['&', '!'] '&' ['!'] (by decide) (by decide) (by simpa using hc))
  have h7 : compareInsensitiveEq t ['&', '!', '!'] = false := by
    by_contra hc
    exact h.1 (compare_head t ['&', '!', '!'] '&' ['!', '!'] (by decide) (by decide) (by simpa using hc))
  simp [YoriShIsArgumentProgramSeperator, h1, h2, h3, h4, h5, h6, h7]

theorem plainWord_head (w : List Char) (hw : isPlainWord w = true) :
    ∃ c r, w = c :: r ∧ isPlainChar c = true ∧ ∀ d ∈ r, isPlainChar d = true := by
  obtain ⟨h1, h2⟩ := (plainWord_iff w).mp hw
  cases w with
  | nil => exact absurd rfl h1
  | cons c r => exact ⟨c, r, rfl, h2 c (by simp), fun d hd => h2 d (by simp [hd])⟩

theorem progSep_plainWord (w : List Char) (e : Bool) (hw : isPlainWord w = true) :
    YoriShIsArgumentProgramSeperator w e = false := by
  obtain ⟨c, r, rfl, hc, _⟩ := plainWord_head w hw
  have := (plain_iff c).mp hc
  simp only [isOperatorChar, decide_eq_false_iff_not, not_or] at this
  apply progSep_head
  simp only [List.head?_cons, ne_eq, Option.some.injEq]
  exact ⟨this.1.2.1, this.1.1, this.1.2.2.1⟩

theorem scanRedirect_none (a : Arg) (e : YORI_SH_SINGLE_EXEC_CONTEXT)
    (h : a.Quoted = true ∨ NoRedirect a.Text) :
    scanRedirect a e = ⟨e, false, 0, none⟩ := by
  unfold scanRedirect
  rcases h with h | ⟨h1, h2, h3⟩
  · simp [h]
  · simp [scanStdErr, scanStdOut, scanStdIn, h1, h2, h3]

theorem noRedirect_plainWord (w : List Char) (hw : isPlainWord w = true) : NoRedirect w := by
  obtain ⟨c, r, rfl, hc, hr⟩ := plainWord_head w hw
  have := (plain_iff c).mp hc
  simp only [isOperatorChar, decide_eq_false_iff_not, not_or] at this
  refine ⟨by simpa [charAt] using this.1.2.2.2.2, by simpa [charAt] using this.1.2.2.2.1, ?_⟩
  cases r with
  | nil => simp [charAt, NUL]
  | cons d r2 =>
    have hd := (plain_iff d).mp (hr d (by simp))
    simp only [isOperatorChar, decide_eq_false_iff_not, not_or] at hd
    simpa [charAt] using hd.1.2.2.2.1

theorem execLoop_copy (Lib : PathLibrary) (args rest : List Arg)
    (e : YORI_SH_SINGLE_EXEC_CONTEXT)
    (h : ∀ a ∈ args, a.Quoted = true ∨ NoRedirect a.Text) :
    execLoop Lib none (args ++ rest) e =
      execLoop Lib none rest { e with CmdToExec := e.CmdToExec ++ args } := by
  induction args generalizing e with
  | nil => simp
  | cons a more ih =>
    rw [List.cons_append, execLoop, scanRedirect_none a e (h a (by simp))]
    simp only [copyArgUnlessRemoved, Bool.false_eq_true, if_false]
    rw [ih _ (fun x hx => h x (List.mem_cons_of_mem _ hx))]
    simp

theorem execLoop_overwrite (Lib : PathLibrary) (f : List Char)
    (e : YORI_SH_SINGLE_EXEC_CONTEXT) (hf : f ≠ []) :
    execLoop Lib none [⟨['>'], false⟩, ⟨f, false⟩] e =
      { YoriShExecContextCleanupStdOut e with
          StdOutType := .Overwrite,
          StdOutFileName := YoriShCheckForDeviceNameAndDuplicate Lib f 0 } := by
  have hl : f.length ≠ 0 := by simpa using hf
  simp [execLoop, scanRedirect, scanStdErr, scanStdOut, scanStdOutAt, scanStdIn, charAt, NUL,
    storeRedirectString, hl]

theorem opTokensOK_cons_plain (w : List Char) (rest : List (List Char))
    (hw : isPlainWord w = true) (h : opTokensOK rest = true) :
    opTokensOK (w :: rest) = true := by
  have hn := plainWord_not_term w hw
  cases rest with
  | nil => simp [opTokensOK, hw]
  | cons t r => simp [opTokensOK, hn, hw, h]

theorem opTokensOK_cons_redir (t : List Char) (rest : List (List Char))
    (ht : t ∈ redirectOperators) (h : opTokensOK rest = true) :
    opTokensOK (t :: rest) = true := by
  have hn : t ∉ terminatingOperators := by
    simp only [redirectOperators, List.mem_cons, List.mem_singleton, List.not_mem_nil,
      or_false] at ht
    rcases ht with rfl | rfl | rfl <;> decide
  cases rest with
  | nil => simp [opTokensOK, ht]
  | cons t2 r => simp [opTokensOK, hn, ht, h]

theorem opTokensOK_cons_term (t w : List Char) (rest : List (List Char))
    (ht : t ∈ terminatingOperators) (hw : isPlainWord w = true)
    (h : opTokensOK rest = true) : opTokensOK (t :: w :: rest) = true := by
  simp [opTokensOK, ht, hw, opTokensOK_cons_plain w rest hw h]

theorem opTokensOK_words (ws rest : List (List Char))
    (hws : ∀ x ∈ ws, isPlainWord x = true) (h : opTokensOK rest = true) :
    opTokensOK (ws ++ rest) = true := by
  induction ws with
  | nil => exact h
  | cons w more ih =>
    exact opTokensOK_cons_plain w _ (hws w (by simp))
      (ih (fun x hx => hws x (List.mem_cons_of_mem _ hx)))

theorem joinSpaces_spaced (w : List Char) (toks : List (List Char)) :
    joinSpaces (w :: toks) = w ++ spaced toks := by
  rw [joinSpaces_cons]
  rfl

theorem planChain_nil (Lib : PathLibrary) (node : YORI_SH_SINGLE_EXEC_CONTEXT) :
    planChain Lib [] node = [node] := rfl

/-- C6: for plain words `w1 .. wn` (n >= 1) and a plain file name `f`,
tokenizing `w1 ... wn > f` and building the execution plan gives exactly
one node; its argument array is `[w1 .. wn]`, its stdout is Overwrite with
the file name that `YoriShCheckForDeviceNameAndDuplicate` makes of `f` (the
full path of `f`, or `f` itself for a device name), and its stdin and stderr
are Default. -/
theorem C6_redirect_overwrite_plan (Lib : PathLibrary) (w : List Char)
    (ws : List (List Char)) (f : List Char) (CurrentOffset : Nat)
    (hw : isPlainWord w = true) (hws : ∀ x ∈ ws, isPlainWord x = true)
    (hf : isPlainWord f = true) :
    ∃ ctx plan node,
      YoriShParseCmdlineToCmdContext id (joinSpaces (w :: ws ++ [['>'], f])) CurrentOffset =
        some ctx ∧
      YoriShParseCmdContextToExecPlan Lib ctx = some (some plan) ∧
      plan.FirstCmd = [node] ∧ plan.NumberCommands = 1 ∧
      node.CmdToExec = (w :: ws).map (fun t => ⟨t, false⟩) ∧
      node.StdOutType = .Overwrite ∧
      node.StdOutFileName = YoriShCheckForDeviceNameAndDuplicate Lib f 0 ∧
      node.StdInType = .Default ∧ node.StdErrType = .Default := by
  have hok : opTokensOK (ws ++ [['>'], f]) = true :=
    opTokensOK_words ws _ hws (opTokensOK_cons_redir _ _ (by decide)
      (opTokensOK_cons_plain f [] hf rfl))
  obtain ⟨ctx, h1, h2, h3⟩ := parse_tokens w (ws ++ [['>'], f]) CurrentOffset hw hok
  have hV : ctx.ArgV = (w :: ws).map (fun t => (⟨t, false⟩ : Arg)) ++
      [⟨['>'], false⟩, ⟨f, false⟩] := by
    rw [h3]
    simp
  have hC : ctx.ArgC = ctx.ArgV.length := by
    rw [h2, h3]
    simp
  have hfne : f ≠ [] := ((plainWord_iff f).mp hf).1
  have hrun : RunOK ctx.ArgV := by
    constructor
    · exact ⟨⟨w, false⟩, _, by rw [h3]; rfl, progSep_plainWord w false hw⟩
    · intro a ha
      rw [hV] at ha
      simp only [List.map_cons, List.cons_append, List.mem_cons, List.mem_append, List.mem_map,
        List.mem_singleton, List.not_mem_nil, or_false] at ha
      rcases ha with rfl | ⟨x, hx, rfl⟩ | rfl | rfl
      · exact Or.inr (progSep_plainWord w true hw)
      · exact Or.inr (progSep_plainWord x true (hws x hx))
      · exact Or.inr (by decide)
      · exact Or.inr (progSep_plainWord f true hf)
  have hplan := plan_shape Lib ctx [] ctx.ArgV hC (by simp [segArgs]) (by simp) hrun
  have hexec : execLoop Lib none ctx.ArgV initialExecContext =
      { initialExecContext with
          CmdToExec := (w :: ws).map (fun t => (⟨t, false⟩ : Arg)),
          StdOutType := .Overwrite,
          StdOutFileName := YoriShCheckForDeviceNameAndDuplicate Lib f 0 } := by
    rw [hV, execLoop_copy Lib _ _ _ (by
      intro a ha
      simp only [List.map_cons, List.mem_cons, List.mem_map] at ha
      rcases ha with rfl | ⟨x, hx, rfl⟩
      · exact Or.inr (noRedirect_plainWord w hw)
      · exact Or.inr (noRedirect_plainWord x (hws x hx))),
      execLoop_overwrite Lib f _ hfne]
    simp [YoriShExecContextCleanupStdOut, initialExecContext, zeroExecContext]
  rw [List.cons_append, joinSpaces_spaced]
  refine ⟨ctx, _, execLoop Lib none ctx.ArgV initialExecContext, h1, hplan, ?_, rfl,
    ?_, ?_, ?_, ?_, ?_⟩
  · exact planChain_nil Lib _
  all_goals rw [hexec]
  all_goals rfl

/-- C6 witness: `echo hi > out.txt`, the library resolving `out.txt` to
`/out.txt`. -/
theorem C6_redirect_overwrite_plan_witness :
    isPlainWord "echo".toList = true ∧ (∀ x ∈ ["hi".toList], isPlainWord x = true) ∧
    isPlainWord "out.txt".toList = true ∧
    ∃ ctx plan node,
      YoriShParseCmdlineToCmdContext id "echo hi > out.txt".toList 0 = some ctx ∧
      YoriShParseCmdContextToExecPlan ⟨fun _ => false, fun s => '/' :: s⟩ ctx =
        some (some plan) ∧
      plan.FirstCmd = [node] ∧ plan.NumberCommands = 1 ∧
      node.CmdToExec = [⟨"echo".toList, false⟩, ⟨"hi".toList, false⟩] ∧
      node.StdOutType = .Overwrite ∧
      node.StdOutFileName = "/out.txt".toList ∧
      node.StdInType = .Default ∧ node.StdErrType = .Default :=
  ⟨by decide, by decide, by decide,
   C6_redirect_overwrite_plan ⟨fun _ => false, fun s => '/' :: s⟩ "echo".toList
     ["hi".toList] "out.txt".toList 0 (by decide) (by decide) (by decide)⟩

theorem execLoop_word (Lib : PathLibrary) (p : List Char) (hp : isPlainWord p = true) :
    execLoop Lib none [⟨p, false⟩] initialExecContext = pipeNode true true p := by
  have := execLoop_copy Lib [⟨p, false⟩] [] initialExecContext (by
    intro a ha
    simp only [List.mem_singleton] at ha
    subst ha
    exact Or.inr (noRedirect_plainWord p hp))
  simp only [List.append_nil] at this
  rw [this]
  simp [execLoop, pipeNode, initialExecContext, zeroExecContext]

theorem linkChain_bar (done : List YORI_SH_SINGLE_EXEC_CONTEXT) (first : Bool)
    (p q : List Char) :
    linkChain (done ++ [pipeNode first true p]) ['|'] (pipeNode true true q) =
      (done ++ [pipeNode first false p]) ++ [pipeNode false true q] := by
  have u1 : YoriLibUpcaseChar '|' = '|' := by decide
  have u2 : YoriLibUpcaseChar '&' = '&' := by decide
  have u3 : YoriLibUpcaseChar '\n' = '\n' := by decide
  simp [linkChain, linkPrograms, compareInsensitiveEq, pipeNode, initialExecContext,
    zeroExecContext, u1, u2, u3]

theorem midNodes_pipe (Lib : PathLibrary) (mids : List (List Char)) (last : List Char)
    (hm : ∀ x ∈ mids, isPlainWord x = true) :
    ∀ (done : List YORI_SH_SINGLE_EXEC_CONTEXT) (first : Bool) (p : List Char),
      linkChain (midNodes Lib (done ++ [pipeNode first true p]) ['|'] (mids.map pipeSeg)).1
          (midNodes Lib (done ++ [pipeNode first true p]) ['|'] (mids.map pipeSeg)).2
          (pipeNode true true last) =
        done ++ pipeNodes first (p :: (mids ++ [last])) := by
  induction mids with
  | nil =>
    intro done first p
    simp only [List.map_nil, midNodes, List.nil_append, pipeNodes]
    rw [linkChain_bar]
    simp
  | cons q more ih =>
    intro done first p
    have hq := hm q (by simp)
    simp only [List.map_cons, midNodes, pipeSeg, lastText, barArg, List.getLastD_cons,
      List.getLastD_nil]
    rw [execLoop_word Lib q hq, linkChain_bar]
    have := ih (fun x hx => hm x (List.mem_cons_of_mem _ hx)) (done ++ [pipeNode first false p])
      false q
    simp only [pipeSeg, barArg] at this
    rw [this]
    simp [pipeNodes]

theorem planChain_pipe (Lib : PathLibrary) (p : List Char) (mids : List (List Char))
    (last : List Char) (hp : isPlainWord p = true) (hm : ∀ x ∈ mids, isPlainWord x = true) :
    planChain Lib ((p :: mids).map pipeSeg) (pipeNode true true last) =
      pipeNodes true (p :: (mids ++ [last])) := by
  have := midNodes_pipe Lib mids last hm [] true p
  simp only [List.nil_append] at this
  rw [← this]
  simp only [planChain, List.map_cons, midNodes, pipeSeg, lastText, barArg, List.getLastD_cons,
    List.getLastD_nil]
  rw [execLoop_word Lib p hp]
  rfl

theorem pipe_tokens (mids : List (List Char)) (last : List Char)
    (hm : ∀ x ∈ mids, isPlainWord x = true) (hl : isPlainWord last = true) :
    ∀ p : List Char,
      opTokensOK ((p :: (mids ++ [last])).intersperse ['|']).tail = true ∧
      ((p :: (mids ++ [last])).intersperse ['|']).map (fun t => (⟨t, false⟩ : Arg)) =
        segArgs ((p :: mids).map pipeSeg) ++ [⟨last, false⟩] := by
  induction mids with
  | nil =>
    intro p
    constructor
    · simpa [List.intersperse] using opTokensOK_cons_term ['|'] last [] (by decide) hl rfl
    · simp [List.intersperse, segArgs, pipeSeg, barArg]
  | cons q more ih =>
    intro p
    obtain ⟨h1, h2⟩ := ih (fun x hx => hm x (List.mem_cons_of_mem _ hx)) q
    have hq := hm q (by simp)
    have e : (p :: (q :: more ++ [last])).intersperse ['|'] =
        p :: ['|'] :: ((q :: (more ++ [last])).intersperse ['|']) := by
      simp [List.intersperse]
    have e2 : (q :: (more ++ [last])).intersperse ['|'] =
        q :: ((q :: (more ++ [last])).intersperse ['|']).tail := by
      cases hml : more ++ [last] with
      | nil => simp at hml
      | cons a b => simp [List.intersperse]
    constructor
    · rw [e, List.tail_cons, e2]
      exact opTokensOK_cons_term ['|'] q _ (by decide) hq h1
    · rw [e, List.map_cons, List.map_cons, h2, List.map_cons, segArgs_cons]
      simp [pipeSeg, barArg, segArgs_cons]

theorem pipeNodes_get (ps : List (List Char)) :
    ∀ (first : Bool) (i : Nat) (p : List Char), ps[i]? = some p →
      (pipeNodes first ps)[i]? =
        some (pipeNode (first && decide (i = 0)) (decide (i + 1 = ps.length)) p) := by
  induction ps with
  | nil =>
    intro first i p h
    simp at h
  | cons a rest ih =>
    intro first i p h
    cases rest with
    | nil =>
      cases i with
      | zero =>
        simp only [List.getElem?_cons_zero, Option.some.injEq] at h
        subst h
        simp [pipeNodes]
      | succ j => simp at h
    | cons b r =>
      cases i with
      | zero =>
        simp only [List.getElem?_cons_zero, Option.some.injEq] at h
        subst h
        simp [pipeNodes]
      | succ j =>
        rw [List.getElem?_cons_succ] at h
        have := ih false j p h
        simp only [pipeNodes, List.getElem?_cons_succ, this]
        simp

theorem pipeNodes_length (ps : List (List Char)) :
    ∀ first : Bool, (pipeNodes first ps).length = ps.length := by
  induction ps with
  | nil => intro first; rfl
  | cons a rest ih =>
    intro first
    cases rest with
    | nil => rfl
    | cons b r =>
      have := ih false
      simp only [pipeNodes, List.length_cons] at this ⊢
      omega

/-- The plan of the pipeline of the plain words `ps`. -/
theorem pipeline_plan (Lib : PathLibrary) (ps : List (List Char)) (CurrentOffset : Nat)
    (hn : 2 ≤ ps.length) (hps : ∀ p ∈ ps, isPlainWord p = true) :
    ∃ ctx plan,
      YoriShParseCmdlineToCmdContext id (joinSpaces (ps.intersperse ['|'])) CurrentOffset =
        some ctx ∧
      YoriShParseCmdContextToExecPlan Lib ctx = some (some plan) ∧
      plan.FirstCmd = pipeNodes true ps ∧ plan.NumberCommands = ps.length := by
  obtain ⟨p, mids, last, rfl⟩ : ∃ p mids last, ps = p :: (mids ++ [last]) := by
    cases ps with
    | nil => simp at hn
    | cons p rest =>
      have hne : rest ≠ [] := by
        intro h
        subst h
        simp at hn
      exact ⟨p, rest.dropLast, rest.getLast hne, by rw [List.dropLast_append_getLast hne]⟩
  have hp : isPlainWord p = true := hps p (by simp)
  have hm : ∀ x ∈ mids, isPlainWord x = true := fun x hx => hps x (by simp [hx])
  have hl : isPlainWord last = true := hps last (by simp)
  obtain ⟨hok, hmap⟩ := pipe_tokens mids last hm hl p
  have e : (p :: (mids ++ [last])).intersperse ['|'] =
      p :: ((p :: (mids ++ [last])).intersperse ['|']).tail := by
    cases hml : mids ++ [last] with
    | nil => simp at hml
    | cons a b => simp [List.intersperse]
  obtain ⟨ctx, h1, h2, h3⟩ := parse_tokens p _ CurrentOffset hp hok
  rw [← joinSpaces_spaced, ← e] at h1
  rw [← e, hmap] at h3
  have hC : ctx.ArgC = ctx.ArgV.length := by
    rw [h2, h3, ← hmap]
    conv_rhs => rw [e]
    simp
  have hsegs : ∀ sg ∈ (p :: mids).map pipeSeg, RunOK sg.1 ∧ BlockOK sg.2 := by
    intro sg hsg
    obtain ⟨x, hx, rfl⟩ := List.mem_map.mp hsg
    have hxp : isPlainWord x = true := hps x (by
      rcases List.mem_cons.mp hx with h | h
      · simp [h]
      · simp [h])
    refine ⟨⟨⟨⟨x, false⟩, [], rfl, progSep_plainWord x false hxp⟩, ?_⟩, ⟨⟨barArg, [], rfl, rfl⟩, ?_⟩⟩
    · intro a ha
      simp only [pipeSeg, List.mem_singleton] at ha
      subst ha
      exact Or.inr (progSep_plainWord x true hxp)
    · intro a ha
      simp only [pipeSeg, List.mem_singleton] at ha
      subst ha
      decide
  have hfin : RunOK [(⟨last, false⟩ : Arg)] := by
    refine ⟨⟨⟨last, false⟩, [], rfl, progSep_plainWord last false hl⟩, ?_⟩
    intro a ha
    simp only [List.mem_singleton] at ha
    subst ha
    exact Or.inr (progSep_plainWord last true hl)
  have hplan := plan_shape Lib ctx _ _ hC h3 hsegs hfin
  rw [execLoop_word Lib last hl, planChain_pipe Lib p mids last hp hm] at hplan
  exact ⟨ctx, _, h1, hplan, rfl, by simp⟩

/-- C7: for n >= 2 plain words `p1 .. pn`, the plan built from the line
`p1 | p2 | ... | pn` has exactly n nodes; node i has the argument array
`[pi]`; every node but the last has the transition ExecConcurrently, stdout
Pipe and WaitForCompletion false; every node but the first has stdin Pipe;
the stdin of the first node and the stdout of the last node are Default. -/
theorem C7_pipeline_plan (Lib : PathLibrary) (ps : List (List Char)) (CurrentOffset : Nat)
    (hn : 2 ≤ ps.length) (hps : ∀ p ∈ ps, isPlainWord p = true) :
    ∃ ctx plan,
      YoriShParseCmdlineToCmdContext id (joinSpaces (ps.intersperse ['|'])) CurrentOffset =
        some ctx ∧
      YoriShParseCmdContextToExecPlan Lib ctx = some (some plan) ∧
      plan.FirstCmd.length = ps.length ∧ plan.NumberCommands = ps.length ∧
      ∀ (i : Nat) (p : List Char), ps[i]? = some p →
        ∃ node, plan.FirstCmd[i]? = some node ∧
          node.CmdToExec = [⟨p, false⟩] ∧
          (i + 1 < ps.length →
            node.NextProgramType = .ExecConcurrently ∧ node.StdOutType = .Pipe ∧
            node.WaitForCompletion = false) ∧
          (0 < i → node.StdInType = .Pipe) ∧
          (i = 0 → node.StdInType = .Default) ∧
          (i + 1 = ps.length → node.StdOutType = .Default) := by
  obtain ⟨ctx, plan, h1, h2, h3, h4⟩ := pipeline_plan Lib ps CurrentOffset hn hps
  refine ⟨ctx, plan, h1, h2, by rw [h3, pipeNodes_length], h4, ?_⟩
  intro i p hi
  refine ⟨_, by rw [h3]; exact pipeNodes_get ps true i p hi, rfl, ?_, ?_, ?_, ?_⟩
  · intro hlt
    have : ¬ (i + 1 = ps.length) := by omega
    simp [pipeNode, this]
  · intro hpos
    have : ¬ (i = 0) := by omega
    simp [pipeNode, this]
  · intro h0
    simp [pipeNode, h0]
  · intro hlast
    simp [pipeNode, hlast]

/-- C7 witness: `dir | sort | more`. -/
theorem C7_pipeline_plan_witness :
    2 ≤ ["dir".toList, "sort".toList, "more".toList].length ∧
    (∀ p ∈ ["dir".toList, "sort".toList, "more".toList], isPlainWord p = true) ∧
    ∃ ctx plan,
      YoriShParseCmdlineToCmdContext id "dir | sort | more".toList 0 = some ctx ∧
      YoriShParseCmdContextToExecPlan ⟨fun _ => false, fun s => '/' :: s⟩ ctx =
        some (some plan) ∧
      plan.FirstCmd.length = 3 ∧ plan.NumberCommands = 3 ∧
      ∀ (i : Nat) (p : List Char),
        ["dir".toList, "sort".toList, "more".toList][i]? = some p →
        ∃ node, plan.FirstCmd[i]? = some node ∧
          node.CmdToExec = [⟨p, false⟩] ∧
          (i + 1 < 3 →
            node.NextProgramType = .ExecConcurrently ∧ node.StdOutType = .Pipe ∧
            node.WaitForCompletion = false) ∧
          (0 < i → node.StdInType = .Pipe) ∧
          (i = 0 → node.StdInType = .Default) ∧
          (i + 1 = 3 → node.StdOutType = .Default) :=
  ⟨by decide, by decide,
   C7_pipeline_plan ⟨fun _ => false, fun s => '/' :: s⟩
     ["dir".toList, "sort".toList, "more".toList] 0 (by decide) (by decide)⟩

theorem compare_exact (lit : List Char)
    (hlit : ∀ d ∈ lit, YoriLibUpcaseChar d = d ∧ (d.toNat < 65 ∨ 90 < d.toNat)) :
    ∀ s : List Char, compareInsensitiveEq s lit = decide (s = lit) := by
  induction lit with
  | nil =>
    intro s
    cases s <;> simp [compareInsensitiveEq]
  | cons d r ih =>
    intro s
    obtain ⟨hd1, hd2⟩ := hlit d (by simp)
    have ihr := ih (fun x hx => hlit x (List.mem_cons_of_mem _ hx))
    cases s with
    | nil => simp [compareInsensitiveEq]
    | cons c cs =>
      have h := ihr cs
      simp only [compareInsensitiveEq, List.map_cons, List.cons.injEq, hd1] at h ⊢
      by_cases hc : YoriLibUpcaseChar c = d
      · have := upcase_eq c d hc hd2
        subst this
        simp only [hd1, true_and]
        exact h
      · have hne : c ≠ d := by
          rintro rfl
          exact hc hd1
        simp [hc, hne]

theorem progSep_exact (s : List Char) :
    YoriShIsArgumentProgramSeperator s false =
      decide (s ∈ [['&'], ['&', '&'], ['\n'], ['|'], ['|', '|']]) := by
  unfold YoriShIsArgumentProgramSeperator
  rw [compare_exact ['&'] (by decide), compare_exact ['&', '&'] (by decide),
    compare_exact ['\n'] (by decide), compare_exact ['|'] (by decide),
    compare_exact ['|', '|'] (by decide)]
  simp

theorem linkPrograms_kind (s : List Char) (prev node : YORI_SH_SINGLE_EXEC_CONTEXT)
    (hs : YoriShIsArgumentProgramSeperator s false = true) :
    (linkPrograms s prev node).1.NextProgramType = transitionOf s := by
  rw [progSep_exact] at hs
  simp only [List.mem_cons, List.mem_singleton, List.not_mem_nil, or_false,
    decide_eq_true_eq] at hs
  unfold linkPrograms
  rw [compare_exact ['&'] (by decide), compare_exact ['&', '&'] (by decide),
    compare_exact ['\n'] (by decide), compare_exact ['|'] (by decide),
    compare_exact ['|', '|'] (by decide)]
  rcases hs with rfl | rfl | rfl | rfl | rfl <;> simp [transitionOf]

theorem chainKinds_link (chain : List YORI_SH_SINGLE_EXEC_CONTEXT) (seps : List (List Char))
    (s : List Char) (node : YORI_SH_SINGLE_EXEC_CONTEXT)
    (h : ChainKinds chain seps) (hs : YoriShIsArgumentProgramSeperator s false = true) :
    ChainKinds (linkChain chain s node) (seps ++ [s]) := by
  obtain ⟨hlen, hk⟩ := h
  have hne : chain ≠ [] := by
    intro e
    rw [e] at hlen
    simp at hlen
  obtain ⟨front, last, rfl⟩ : ∃ front last, chain = front ++ [last] :=
    ⟨chain.dropLast, chain.getLast hne, (List.dropLast_append_getLast hne).symm⟩
  have hfl : front.length = seps.length := by simpa using hlen
  have hlc : linkChain (front ++ [last]) s node =
      front ++ [(linkPrograms s last node).1, (linkPrograms s last node).2] := by
    simp [linkChain]
  rw [hlc]
  refine ⟨by simp [hfl], ?_⟩
  intro i t hi
  by_cases hlt : i < seps.length
  · rw [List.getElem?_append_left hlt] at hi
    obtain ⟨nd, h1, h2⟩ := hk i t hi
    refine ⟨nd, ?_, h2⟩
    rw [List.getElem?_append_left (by omega)] at h1 ⊢
    exact h1
  · have hi2 : i = seps.length := by
      have := (List.getElem?_eq_some_iff.mp hi).1
      simp at this
      omega
    subst hi2
    rw [List.getElem?_append_right (le_refl _)] at hi
    simp only [Nat.sub_self, List.getElem?_cons_zero, Option.some.injEq] at hi
    subst hi
    refine ⟨(linkPrograms s last node).1, ?_, linkPrograms_kind s last node hs⟩
    rw [List.getElem?_append_right (by omega), hfl]
    simp

theorem lastText_sep (blk : List Arg) (h : BlockOK blk) :
    YoriShIsArgumentProgramSeperator (lastText blk) false = true := by
  obtain ⟨⟨b, r, hb, _⟩, hall⟩ := h
  have hne : blk ≠ [] := by rw [hb]; simp
  have : lastText blk = (blk.getLast hne).Text := by
    unfold lastText
    rw [List.getLastD_eq_getLast?, List.getLast?_eq_getLast _ hne]
    rfl
  rw [this]
  exact hall _ (List.getLast_mem hne)

theorem chainKinds_mid (Lib : PathLibrary) (node : YORI_SH_SINGLE_EXEC_CONTEXT)
    (segs : List (List Arg × List Arg)) :
    ∀ (chain : List YORI_SH_SINGLE_EXEC_CONTEXT) (sep : List Char) (seps : List (List Char)),
      ChainKinds chain seps → YoriShIsArgumentProgramSeperator sep false = true →
      (∀ sg ∈ segs, BlockOK sg.2) →
      ChainKinds
        (linkChain (midNodes Lib chain sep segs).1 (midNodes Lib chain sep segs).2 node)
        (seps ++ [sep] ++ segs.map (fun sg => lastText sg.2)) := by
  induction segs with
  | nil =>
    intro chain sep seps h hs _
    simpa [midNodes] using chainKinds_link chain seps sep node h hs
  | cons sg more ih =>
    intro chain sep seps h hs hb
    have := ih (linkChain chain sep (execLoop Lib none sg.1 initialExecContext)) (lastText sg.2)
      (seps ++ [sep]) (chainKinds_link chain seps sep _ h hs)
      (lastText_sep sg.2 (hb sg (by simp))) (fun x hx => hb x (List.mem_cons_of_mem _ hx))
    simpa [midNodes] using this

theorem chainKinds_plan (Lib : PathLibrary) (node : YORI_SH_SINGLE_EXEC_CONTEXT)
    (segs : List (List Arg × List Arg)) (hb : ∀ sg ∈ segs, BlockOK sg.2) :
    ChainKinds (planChain Lib segs node) (segs.map (fun sg => lastText sg.2)) := by
  cases segs with
  | nil =>
    refine ⟨rfl, ?_⟩
    intro i s hi
    simp at hi
  | cons sg more =>
    have h0 : ChainKinds [execLoop Lib none sg.1 initialExecContext] [] := by
      refine ⟨rfl, ?_⟩
      intro i s hi
      simp at hi
    have := chainKinds_mid Lib node more _ (lastText sg.2) [] h0
      (lastText_sep sg.2 (hb sg (by simp))) (fun x hx => hb x (List.mem_cons_of_mem _ hx))
    simpa [planChain, midNodes, linkChain] using this

theorem runOK_words (w : List Char) (ws : List (List Char)) (hw : isPlainWord w = true)
    (hws : ∀ x ∈ ws, isPlainWord x = true) :
    RunOK ((w :: ws).map (fun t => (⟨t, false⟩ : Arg))) := by
  refine ⟨⟨⟨w, false⟩, _, rfl, progSep_plainWord w false hw⟩, ?_⟩
  intro a ha
  simp only [List.map_cons, List.mem_cons, List.mem_map] at ha
  rcases ha with rfl | ⟨x, hx, rfl⟩
  · exact Or.inr (progSep_plainWord w true hw)
  · exact Or.inr (progSep_plainWord x true (hws x hx))

theorem blockOK_single (t : List Char)
    (ht : YoriShIsArgumentProgramSeperator t false = true) : BlockOK [⟨t, false⟩] := by
  refine ⟨⟨⟨t, false⟩, [], rfl, rfl⟩, ?_⟩
  intro a ha
  simp only [List.mem_singleton] at ha
  subst ha
  exact ht

/-- The transition kinds of the plan of a command line made of programs
separated by blocks of separator arguments, with or without a last argument
`&` or `&!`. -/
theorem transition_kinds (Lib : PathLibrary) (ctx : YORI_SH_CMD_CONTEXT)
    (segs : List (List Arg × List Arg)) (fin tail : List Arg)
    (hC : ctx.ArgC = ctx.ArgV.length) (hV : ctx.ArgV = segArgs segs ++ (fin ++ tail))
    (htail : tail = [] ∨ tail = [⟨['&'], false⟩] ∨ tail = [⟨['&', '!'], false⟩])
    (hsegs : ∀ sg ∈ segs, RunOK sg.1 ∧ BlockOK sg.2) (hfin : RunOK fin) :
    ∃ plan, YoriShParseCmdContextToExecPlan Lib ctx = some (some plan) ∧
      plan.FirstCmd.length = segs.length + 1 ∧
      ∀ (i : Nat) (sg : List Arg × List Arg), segs[i]? = some sg →
        lastText sg.2 ∈ [['&'], ['&', '&'], ['\n'], ['|'], ['|', '|']] ∧
        ∃ node, plan.FirstCmd[i]? = some node ∧
          node.NextProgramType = transitionOf (lastText sg.2) := by
  have hb : ∀ sg ∈ segs, BlockOK sg.2 := fun sg h => (hsegs sg h).2
  have key : ∀ node : YORI_SH_SINGLE_EXEC_CONTEXT,
      (planChain Lib segs node).length = segs.length + 1 ∧
      ∀ (i : Nat) (sg : List Arg × List Arg), segs[i]? = some sg →
        lastText sg.2 ∈ [['&'], ['&', '&'], ['\n'], ['|'], ['|', '|']] ∧
        ∃ nd, (planChain Lib segs node)[i]? = some nd ∧
          nd.NextProgramType = transitionOf (lastText sg.2) := by
    intro node
    obtain ⟨h1, h2⟩ := chainKinds_plan Lib node segs hb
    refine ⟨by simpa using h1, ?_⟩
    intro i sg hi
    have hmem : sg ∈ segs := List.mem_iff_getElem?.mpr ⟨i, hi⟩
    have hsep := lastText_sep sg.2 (hb sg hmem)
    rw [progSep_exact] at hsep
    refine ⟨by simpa using hsep, h2 i (lastText sg.2) ?_⟩
    simp [hi]
  rcases htail with rfl | rfl | rfl
  · rw [List.append_nil] at hV
    exact ⟨_, plan_shape Lib ctx segs fin hC hV hsegs hfin, key _⟩
  · exact ⟨_, plan_shape_amp Lib ctx segs fin hC hV hsegs hfin, key _⟩
  · exact ⟨_, plan_shape_amp_bang Lib ctx segs fin hC hV hsegs hfin, key _⟩

theorem linkPrograms_fst (s : List Char) (prev node node2 : YORI_SH_SINGLE_EXEC_CONTEXT) :
    (linkPrograms s prev node).1 = (linkPrograms s prev node2).1 := by
  unfold linkPrograms
  split_ifs <;> rfl

theorem linkPrograms_snd (s : List Char) (prev node : YORI_SH_SINGLE_EXEC_CONTEXT) :
    (linkPrograms s prev node).2 = node ∨
    (linkPrograms s prev node).2 =
      { node with StdInType := if node.StdInType = .Default then .Pipe else node.StdInType } := by
  unfold linkPrograms
  split_ifs <;> simp

theorem linkPrograms_fst_cmd (s : List Char) (prev node : YORI_SH_SINGLE_EXEC_CONTEXT) :
    (linkPrograms s prev node).1.CmdToExec = prev.CmdToExec := by
  unfold linkPrograms
  split_ifs <;> rfl

theorem linkChain_split (chain : List YORI_SH_SINGLE_EXEC_CONTEXT) (sep : List Char) :
    ∃ front, ∀ node, linkChain chain sep node = front ++ [lastLink chain sep node] := by
  cases h : chain.getLast? with
  | none =>
    refine ⟨[], fun node => ?_⟩
    simp [linkChain, lastLink, h]
  | some prev =>
    refine ⟨chain.dropLast ++ [(linkPrograms sep prev prev).1], fun node => ?_⟩
    simp only [linkChain, lastLink, h]
    rw [linkPrograms_fst sep prev node prev]
    simp

theorem lastLink_cases (chain : List YORI_SH_SINGLE_EXEC_CONTEXT) (sep : List Char)
    (node : YORI_SH_SINGLE_EXEC_CONTEXT) :
    lastLink chain sep node = node ∨
    lastLink chain sep node =
      { node with StdInType := if node.StdInType = .Default then .Pipe else node.StdInType } := by
  unfold lastLink
  cases chain.getLast? with
  | none => exact Or.inl rfl
  | some prev => exact linkPrograms_snd sep prev node

/-- The last node of the chain of a plan, as a function of the exec context
of the last program. -/
theorem planChain_split (Lib : PathLibrary) (segs : List (List Arg × List Arg)) :
    ∃ front chain sep, ∀ node, planChain Lib segs node = front ++ [lastLink chain sep node] := by
  obtain ⟨front, h⟩ := linkChain_split (midNodes Lib [] [] segs).1 (midNodes Lib [] [] segs).2
  exact ⟨front, _, _, h⟩

theorem lastLink_wait (chain : List YORI_SH_SINGLE_EXEC_CONTEXT) (sep : List Char)
    (node : YORI_SH_SINGLE_EXEC_CONTEXT) :
    lastLink chain sep { node with WaitForCompletion := false } =
      { lastLink chain sep node with WaitForCompletion := false } := by
  unfold lastLink
  cases chain.getLast? with
  | none => rfl
  | some prev =>
    simp only [linkPrograms]
    split_ifs <;> rfl

theorem scanStdIn_cmd (t : List Char) (r : RedirectScan) :
    (scanStdIn t r).ExecContext.CmdToExec = r.ExecContext.CmdToExec := by
  unfold scanStdIn
  split_ifs <;> rfl

theorem scanStdOutAt_cmd (t : List Char) (k : Nat) (r : RedirectScan) :
    (scanStdOutAt t k r).ExecContext.CmdToExec = r.ExecContext.CmdToExec := by
  unfold scanStdOutAt
  simp only [YoriShExecContextCleanupStdOut]
  split_ifs <;> rfl

theorem scanStdOut_cmd (t : List Char) (r : RedirectScan) :
    (scanStdOut t r).ExecContext.CmdToExec = r.ExecContext.CmdToExec := by
  unfold scanStdOut
  simp only
  split_ifs <;> simp [scanStdOutAt_cmd]

theorem scanStdErr_cmd (t : List Char) (r : RedirectScan) :
    (scanStdErr t r).ExecContext.CmdToExec = r.ExecContext.CmdToExec := by
  unfold scanStdErr
  simp only [YoriShExecContextCleanupStdErr]
  split_ifs <;> rfl

theorem scanRedirect_cmd (a : Arg) (e : YORI_SH_SINGLE_EXEC_CONTEXT) :
    (scanRedirect a e).ExecContext.CmdToExec = e.CmdToExec := by
  unfold scanRedirect
  simp only
  split_ifs
  · rw [scanStdErr_cmd, scanStdOut_cmd, scanStdIn_cmd]
  · rfl

theorem storeRedirectString_cmd (slot : RedirectString) (n : List Char)
    (e : YORI_SH_SINGLE_EXEC_CONTEXT) :
    (storeRedirectString slot n e).CmdToExec = e.CmdToExec := by
  cases slot <;> rfl

theorem execLoop_subset (Lib : PathLibrary) (args : List Arg) :
    ∀ (m : Option RedirectString) (e : YORI_SH_SINGLE_EXEC_CONTEXT) (a : Arg),
      a ∈ (execLoop Lib m args e).CmdToExec → a ∈ e.CmdToExec ∨ a ∈ args := by
  induction args with
  | nil =>
    intro m e a h
    cases m <;> exact Or.inl (by simpa [execLoop] using h)
  | cons t rest ih =>
    intro m e a h
    have lift : ∀ (m2 : Option RedirectString) (e2 : YORI_SH_SINGLE_EXEC_CONTEXT),
        (∀ x ∈ e2.CmdToExec, x ∈ e.CmdToExec ∨ x = t) →
        a ∈ (execLoop Lib m2 rest e2).CmdToExec → a ∈ e.CmdToExec ∨ a ∈ t :: rest := by
      intro m2 e2 he2 ha
      rcases ih m2 e2 a ha with h1 | h1
      · rcases he2 a h1 with h2 | h2
        · exact Or.inl h2
        · exact Or.inr (by simp [h2])
      · exact Or.inr (List.mem_cons_of_mem _ h1)
    have hcopy : ∀ (b : Bool) (e2 : YORI_SH_SINGLE_EXEC_CONTEXT),
        e2.CmdToExec = e.CmdToExec →
        ∀ x ∈ (copyArgUnlessRemoved b t e2).CmdToExec, x ∈ e.CmdToExec ∨ x = t := by
      intro b e2 he2 x hx
      unfold copyArgUnlessRemoved at hx
      split at hx
      · exact Or.inl (he2 ▸ hx)
      · simp only [List.mem_append, List.mem_singleton] at hx
        rcases hx with h1 | h1
        · exact Or.inl (he2 ▸ h1)
        · exact Or.inr h1
    cases m with
    | none =>
      rw [execLoop] at h
      split at h
      · split at h
        · exact lift _ _ (fun x hx => Or.inl (by rwa [scanRedirect_cmd] at hx)) h
        · exact lift _ _ (hcopy _ _ (by rw [storeRedirectString_cmd, scanRedirect_cmd])) h
      · exact lift _ _ (hcopy _ _ (scanRedirect_cmd t e)) h
    | some slot =>
      rw [execLoop] at h
      split at h
      · exact lift _ _ (fun x hx => Or.inl hx) h
      · exact lift _ _ (fun x hx => Or.inl (by rwa [storeRedirectString_cmd] at hx)) h

theorem linkChain_cmd (P : List Arg → Prop) (chain : List YORI_SH_SINGLE_EXEC_CONTEXT)
    (sep : List Char) (node : YORI_SH_SINGLE_EXEC_CONTEXT)
    (hc : ∀ nd ∈ chain, P nd.CmdToExec) (hn : P node.CmdToExec) :
    ∀ nd ∈ linkChain chain sep node, P nd.CmdToExec := by
  intro nd hnd
  unfold linkChain at hnd
  cases h : chain.getLast? with
  | none =>
    simp only [h, List.mem_singleton] at hnd
    subst hnd
    exact hn
  | some prev =>
    have hprev : prev ∈ chain := by
      obtain ⟨ys, hys⟩ := List.getLast?_eq_some_iff.mp h
      rw [hys]
      simp
    simp only [h, List.mem_append, List.mem_cons, List.mem_singleton, List.not_mem_nil,
      or_false] at hnd
    rcases hnd with h1 | h1 | h1
    · exact hc nd (List.dropLast_subset _ h1)
    · rw [h1, linkPrograms_fst_cmd]
      exact hc prev hprev
    · rw [h1]
      rcases linkPrograms_snd sep prev node with h2 | h2 <;> rw [h2] <;> exact hn

theorem midNodes_cmd (Lib : PathLibrary) (P : List Arg → Prop)
    (segs : List (List Arg × List Arg))
    (hs : ∀ sg ∈ segs, P (execLoop Lib none sg.1 initialExecContext).CmdToExec) :
    ∀ (chain : List YORI_SH_SINGLE_EXEC_CONTEXT) (sep : List Char),
      (∀ nd ∈ chain, P nd.CmdToExec) →
      ∀ nd ∈ (midNodes Lib chain sep segs).1, P nd.CmdToExec := by
  induction segs with
  | nil =>
    intro chain sep hc
    simpa [midNodes] using hc
  | cons sg more ih =>
    intro chain sep hc
    simp only [midNodes]
    exact ih (fun x hx => hs x (List.mem_cons_of_mem _ hx)) _ _
      (linkChain_cmd P chain sep _ hc (hs sg (by simp)))

theorem planChain_cmd (Lib : PathLibrary) (P : List Arg → Prop)
    (segs : List (List Arg × List Arg)) (node : YORI_SH_SINGLE_EXEC_CONTEXT)
    (hs : ∀ sg ∈ segs, P (execLoop Lib none sg.1 initialExecContext).CmdToExec)
    (hn : P node.CmdToExec) :
    ∀ nd ∈ planChain Lib segs node, P nd.CmdToExec := by
  unfold planChain
  exact linkChain_cmd P _ _ node (midNodes_cmd Lib P segs hs [] [] (by simp)) hn

theorem exec_notBoundary (Lib : PathLibrary) (run : List Arg) (h : ∀ a ∈ run, NotBoundary a) :
    ∀ a ∈ (execLoop Lib none run initialExecContext).CmdToExec, NotBoundary a := by
  intro a ha
  rcases execLoop_subset Lib run none initialExecContext a ha with h1 | h1
  · simp [initialExecContext, zeroExecContext] at h1
  · exact h a h1

theorem withoutLastArg_shape (ctx : YORI_SH_CMD_CONTEXT) (body : List Arg) (x : Arg)
    (hC : ctx.ArgC = ctx.ArgV.length) (hV : ctx.ArgV = body ++ [x]) :
    (withoutLastArg ctx).ArgC = (withoutLastArg ctx).ArgV.length ∧
    (withoutLastArg ctx).ArgV = body := by
  simp [withoutLastArg, hC, hV]

theorem nodes_notBoundary (Lib : PathLibrary) (segs : List (List Arg × List Arg))
    (fin : List Arg) (node : YORI_SH_SINGLE_EXEC_CONTEXT)
    (hsegs : ∀ sg ∈ segs, RunOK sg.1 ∧ BlockOK sg.2) (hfin : RunOK fin)
    (hnode : node.CmdToExec = (execLoop Lib none fin initialExecContext).CmdToExec) :
    ∀ nd ∈ planChain Lib segs node, ∀ a ∈ nd.CmdToExec, NotBoundary a :=
  planChain_cmd Lib (fun l => ∀ a ∈ l, NotBoundary a) segs node
    (fun sg hsg => exec_notBoundary Lib sg.1 (hsegs sg hsg).1.2)
    (by rw [hnode]; exact exec_notBoundary Lib fin hfin.2)

/-- C9 (amended): for every command line made of programs separated by
blocks of separator arguments and followed by a last, unquoted argument `&`
(each program a non-empty run of arguments none of which is an unquoted
separator), the plan is built, the plan and its final node have
WaitForCompletion false, the final node is otherwise the final node of the
plan built from the command line without the `&` (so its stdin, stdout and
stderr are the same), and the `&` is in no node's argument array. -/
theorem C9_trailing_ampersand (Lib : PathLibrary) (ctx : YORI_SH_CMD_CONTEXT)
    (segs : List (List Arg × List Arg)) (fin : List Arg)
    (hC : ctx.ArgC = ctx.ArgV.length)
    (hV : ctx.ArgV = segArgs segs ++ fin ++ [⟨['&'], false⟩])
    (hsegs : ∀ sg ∈ segs, RunOK sg.1 ∧ BlockOK sg.2) (hfin : RunOK fin) :
    ∃ plan plan0 final final0,
      YoriShParseCmdContextToExecPlan Lib ctx = some (some plan) ∧
      YoriShParseCmdContextToExecPlan Lib (withoutLastArg ctx) = some (some plan0) ∧
      plan.WaitForCompletion = false ∧
      plan.FirstCmd.getLast? = some final ∧ plan0.FirstCmd.getLast? = some final0 ∧
      final.WaitForCompletion = false ∧
      final = { final0 with WaitForCompletion := false } ∧
      final.StdInType = final0.StdInType ∧ final.StdOutType = final0.StdOutType ∧
      final.StdErrType = final0.StdErrType ∧
      plan.FirstCmd.dropLast = plan0.FirstCmd.dropLast ∧
      ∀ node ∈ plan.FirstCmd, (⟨['&'], false⟩ : Arg) ∉ node.CmdToExec := by
  obtain ⟨hC0, hV0⟩ := withoutLastArg_shape ctx _ _ hC hV
  have hp := plan_shape_amp Lib ctx segs fin hC (by rw [hV]; simp) hsegs hfin
  have hp0 := plan_shape Lib (withoutLastArg ctx) segs fin hC0 hV0 hsegs hfin
  obtain ⟨front, chain, sep, hsplit⟩ := planChain_split Lib segs
  refine ⟨_, _,
    lastLink chain sep
      { execLoop Lib none fin initialExecContext with WaitForCompletion := false },
    lastLink chain sep (execLoop Lib none fin initialExecContext),
    hp, hp0, rfl, ?_, ?_, ?_, ?_, ?_, ?_, ?_, ?_, ?_⟩
  · show (planChain Lib segs _).getLast? = some (lastLink chain sep _)
    rw [hsplit]
    simp
  · show (planChain Lib segs _).getLast? = some (lastLink chain sep _)
    rw [hsplit]
    simp
  · rw [lastLink_wait]
  · rw [lastLink_wait]
  · rw [lastLink_wait]
  · rw [lastLink_wait]
  · rw [lastLink_wait]
  · show (planChain Lib segs _).dropLast = (planChain Lib segs _).dropLast
    rw [hsplit, hsplit]
    simp
  · intro node hnode hmem
    have := nodes_notBoundary Lib segs fin
      { execLoop Lib none fin initialExecContext with WaitForCompletion := false }
      hsegs hfin rfl node hnode _ hmem
    rcases this with h | h
    · exact absurd h (by decide)
    · exact absurd h (by decide)

/-- C9 witness: the command line `a | b &`. -/
theorem C9_trailing_ampersand_witness :
    ∃ plan plan0 final final0,
      YoriShParseCmdContextToExecPlan ⟨fun _ => false, fun s => '/' :: s⟩
        ⟨4, [⟨['a'], false⟩, ⟨['|'], false⟩, ⟨['b'], false⟩, ⟨['&'], false⟩], 0, false⟩ =
        some (some plan) ∧
      YoriShParseCmdContextToExecPlan ⟨fun _ => false, fun s => '/' :: s⟩
        (withoutLastArg
          ⟨4, [⟨['a'], false⟩, ⟨['|'], false⟩, ⟨['b'], false⟩, ⟨['&'], false⟩], 0, false⟩) =
        some (some plan0) ∧
      plan.WaitForCompletion = false ∧
      plan.FirstCmd.getLast? = some final ∧ plan0.FirstCmd.getLast? = some final0 ∧
      final.WaitForCompletion = false ∧
      final = { final0 with WaitForCompletion := false } ∧
      final.StdInType = final0.StdInType ∧ final.StdOutType = final0.StdOutType ∧
      final.StdErrType = final0.StdErrType ∧
      plan.FirstCmd.dropLast = plan0.FirstCmd.dropLast ∧
      ∀ node ∈ plan.FirstCmd, (⟨['&'], false⟩ : Arg) ∉ node.CmdToExec :=
  C9_trailing_ampersand ⟨fun _ => false, fun s => '/' :: s⟩
    ⟨4, [⟨['a'], false⟩, ⟨['|'], false⟩, ⟨['b'], false⟩, ⟨['&'], false⟩], 0, false⟩
    [([⟨['a'], false⟩], [⟨['|'], false⟩])] [⟨['b'], false⟩] rfl rfl
    (by
      intro sg hsg
      simp only [List.mem_singleton] at hsg
      subst hsg
      exact ⟨runOK_words ['a'] [] (by decide) (by simp), blockOK_single ['|'] (by decide)⟩)
    (runOK_words ['b'] [] (by decide) (by simp))

/-- C9 counterexample: for the command line `| a &` no plan is built; for
`a | &` the plan keeps WaitForCompletion true; for `a &! &` the final node
has stdin, stdout and stderr Default, while the plan of `a &!`, the command
line without the trailing `&`, has them Null, Buffer and Buffer. -/
theorem C9_counterexample_trailing_ampersand :
    YoriShParseCmdContextToExecPlan ⟨fun _ => false, fun s => '/' :: s⟩
      ⟨3, [⟨['|'], false⟩, ⟨['a'], false⟩, ⟨['&'], false⟩], 0, false⟩ = some none ∧
    (YoriShParseCmdContextToExecPlan ⟨fun _ => false, fun s => '/' :: s⟩
      ⟨3, [⟨['a'], false⟩, ⟨['|'], false⟩, ⟨['&'], false⟩], 0, false⟩).map
        (Option.map (fun plan => plan.WaitForCompletion)) = some (some true) ∧
    (YoriShParseCmdContextToExecPlan ⟨fun _ => false, fun s => '/' :: s⟩
      ⟨3, [⟨['a'], false⟩, ⟨['&', '!'], false⟩, ⟨['&'], false⟩], 0, false⟩).map
        (Option.map (fun plan => plan.FirstCmd.map
          (fun node => (node.StdInType, node.StdOutType, node.StdErrType)))) =
      some (some [(.Default, .Default, .Default)]) ∧
    (YoriShParseCmdContextToExecPlan ⟨fun _ => false, fun s => '/' :: s⟩
      (withoutLastArg
        ⟨3, [⟨['a'], false⟩, ⟨['&', '!'], false⟩, ⟨['&'], false⟩], 0, false⟩)).map
        (Option.map (fun plan => plan.FirstCmd.map
          (fun node => (node.StdInType, node.StdOutType, node.StdErrType)))) =
      some (some [(.Null, .Buffer, .Buffer)]) := by
  refine ⟨?_, ?_, ?_, ?_⟩ <;> decide!

/-- C10 (amended): for every command line made of programs separated by
blocks of separator arguments and followed by a last, unquoted argument `&!`
(each program a non-empty run of arguments none of which is an unquoted
separator), the plan is built, the plan and its final node have
WaitForCompletion false, and the final node has stdin Null and stdout and
stderr Buffer with RetainBufferData set. -/
theorem C10_trailing_ampersand_bang (Lib : PathLibrary) (ctx : YORI_SH_CMD_CONTEXT)
    (segs : List (List Arg × List Arg)) (fin : List Arg)
    (hC : ctx.ArgC = ctx.ArgV.length)
    (hV : ctx.ArgV = segArgs segs ++ fin ++ [⟨['&', '!'], false⟩])
    (hsegs : ∀ sg ∈ segs, RunOK sg.1 ∧ BlockOK sg.2) (hfin : RunOK fin) :
    ∃ plan final,
      YoriShParseCmdContextToExecPlan Lib ctx = some (some plan) ∧
      plan.WaitForCompletion = false ∧
      plan.FirstCmd.getLast? = some final ∧
      final.WaitForCompletion = false ∧
      final.StdInType = .Null ∧
      final.StdOutType = .Buffer ∧ final.StdOutRetainBufferData = true ∧
      final.StdErrType = .Buffer ∧ final.StdErrRetainBufferData = true := by
  have hp := plan_shape_amp_bang Lib ctx segs fin hC (by rw [hV]; simp) hsegs hfin
  obtain ⟨front, chain, sep, hsplit⟩ := planChain_split Lib segs
  have hlast : ∀ node : YORI_SH_SINGLE_EXEC_CONTEXT, node.StdInType = .Null →
      lastLink chain sep node = node := by
    intro node hn
    rcases lastLink_cases chain sep node with h | h
    · exact h
    · rw [h, hn]
      cases node
      simp at hn
      simp [hn]
  refine ⟨_,
    { execLoop Lib none fin initialExecContext with
        WaitForCompletion := false, StdInType := .Null,
        StdOutType := .Buffer, StdOutRetainBufferData := true,
        StdErrType := .Buffer, StdErrRetainBufferData := true },
    hp, rfl, ?_, rfl, rfl, rfl, rfl, rfl, rfl⟩
  show (planChain Lib segs _).getLast? = _
  rw [hsplit, hlast _ rfl]
  simp

/-- C10 witness: the command line `a | b &!`. -/
theorem C10_trailing_ampersand_bang_witness :
    ∃ plan final,
      YoriShParseCmdContextToExecPlan ⟨fun _ => false, fun s => '/' :: s⟩
        ⟨4, [⟨['a'], false⟩, ⟨['|'], false⟩, ⟨['b'], false⟩, ⟨['&', '!'], false⟩], 0, false⟩ =
        some (some plan) ∧
      plan.WaitForCompletion = false ∧
      plan.FirstCmd.getLast? = some final ∧
      final.WaitForCompletion = false ∧
      final.StdInType = .Null ∧
      final.StdOutType = .Buffer ∧ final.StdOutRetainBufferData = true ∧
      final.StdErrType = .Buffer ∧ final.StdErrRetainBufferData = true :=
  C10_trailing_ampersand_bang ⟨fun _ => false, fun s => '/' :: s⟩
    ⟨4, [⟨['a'], false⟩, ⟨['|'], false⟩, ⟨['b'], false⟩, ⟨['&', '!'], false⟩], 0, false⟩
    [([⟨['a'], false⟩], [⟨['|'], false⟩])] [⟨['b'], false⟩] rfl rfl
    (by
      intro sg hsg
      simp only [List.mem_singleton] at hsg
      subst hsg
      exact ⟨runOK_words ['a'] [] (by decide) (by simp), blockOK_single ['|'] (by decide)⟩)
    (runOK_words ['b'] [] (by decide) (by simp))

/-- C10 counterexample: for the command lines `| a &!` and `a | &!`, whose
last argument is an unquoted `&!` preceded by the program argument `a`, the
plan builder returns FALSE and builds no plan. -/
theorem C10_counterexample_trailing_ampersand_bang :
    YoriShParseCmdContextToExecPlan ⟨fun _ => false, fun s => '/' :: s⟩
      ⟨3, [⟨['|'], false⟩, ⟨['a'], false⟩, ⟨['&', '!'], false⟩], 0, false⟩ = some none ∧
    YoriShParseCmdContextToExecPlan ⟨fun _ => false, fun s => '/' :: s⟩
      ⟨3, [⟨['a'], false⟩, ⟨['|'], false⟩, ⟨['&', '!'], false⟩], 0, false⟩ = some none := by
  refine ⟨?_, ?_⟩ <;> decide!

theorem boundaryLoop_spec (n : Nat) (l : List Arg) :
    ∀ k : Nat, k + l.length = n →
      k ≤ boundaryLoop n k l ∧ boundaryLoop n k l ≤ n ∧
      (boundaryLoop n k l < n →
        ∃ a, l[boundaryLoop n k l - k]? = some a ∧ a.Quoted = false ∧
          YoriShIsArgumentProgramSeperator a.Text
            (decide (boundaryLoop n k l = n - 1)) = true) := by
  induction l with
  | nil =>
    intro k hk
    simp only [List.length_nil, Nat.add_zero] at hk
    subst hk
    simp [boundaryLoop]
  | cons a rest ih =>
    intro k hk
    have hlt : k < n := by
      simp at hk
      omega
    rw [boundaryLoop]
    simp only [hlt, if_true]
    by_cases hc : a.Quoted = false ∧
        YoriShIsArgumentProgramSeperator a.Text (decide (k = n - 1)) = true
    · simp only [hc, and_self, if_true]
      refine ⟨le_refl _, le_of_lt hlt, fun _ => ⟨a, by simp, hc.1, hc.2⟩⟩
    · simp only [hc, if_false]
      obtain ⟨h1, h2, h3⟩ := ih (k + 1) (by simp at hk ⊢; omega)
      refine ⟨by omega, h2, fun hb => ?_⟩
      obtain ⟨x, hx, hq, hs⟩ := h3 hb
      refine ⟨x, ?_, hq, hs⟩
      have : boundaryLoop n (k + 1) rest - k = (boundaryLoop n (k + 1) rest - (k + 1)) + 1 := by
        omega
      rw [this, List.getElem?_cons_succ]
      exact hx

theorem skipSeperators_spec (n : Nat) (l : List Arg) :
    ∀ (c a : Nat), c + l.length = n →
      c ≤ (skipSeperators n c a l).1 ∧ (skipSeperators n c a l).1 ≤ n ∧
      ((skipSeperators n c a l).1 = c →
        (skipSeperators n c a l).2 = a ∧
        ∀ x, l.head? = some x → YoriShIsArgumentProgramSeperator x.Text false = false) ∧
      (c < (skipSeperators n c a l).1 →
        (skipSeperators n c a l).2 + 1 = (skipSeperators n c a l).1 ∧
        ∃ x, l[(skipSeperators n c a l).2 - c]? = some x ∧
          YoriShIsArgumentProgramSeperator x.Text false = true) := by
  induction l with
  | nil =>
    intro c a hn
    simp only [List.length_nil, Nat.add_zero] at hn
    subst hn
    simp [skipSeperators]
  | cons b rest ih =>
    intro c a hn
    have hlt : c < n := by
      simp at hn
      omega
    rw [skipSeperators]
    by_cases hb : YoriShIsArgumentProgramSeperator b.Text false = true
    · simp only [hlt, hb, and_self, if_true]
      obtain ⟨h1, h2, h3, h4⟩ := ih (c + 1) c (by simp at hn ⊢; omega)
      refine ⟨by omega, h2, fun he => by omega, fun _ => ?_⟩
      by_cases hadv : c + 1 < (skipSeperators n (c + 1) c rest).1
      · obtain ⟨h5, x, hx, hs⟩ := h4 hadv
        refine ⟨h5, x, ?_, hs⟩
        have : (skipSeperators n (c + 1) c rest).2 - c =
            ((skipSeperators n (c + 1) c rest).2 - (c + 1)) + 1 := by omega
        rw [this, List.getElem?_cons_succ]
        exact hx
      · have he : (skipSeperators n (c + 1) c rest).1 = c + 1 := by omega
        obtain ⟨h5, _⟩ := h3 he
        rw [h5, he]
        exact ⟨rfl, b, by simp, hb⟩
    · have hcond : ¬ (c < n ∧ YoriShIsArgumentProgramSeperator b.Text false = true) :=
        fun h => hb h.2
      rw [if_neg hcond]
      refine ⟨le_refl _, le_of_lt hlt, fun _ => ⟨rfl, ?_⟩, fun h => absurd h (lt_irrefl _)⟩
      intro x hx
      simp only [List.head?_cons, Option.some.injEq] at hx
      subst hx
      simpa using hb

theorem trailingBackground_firstCmd (ctx : YORI_SH_CMD_CONTEXT) (cur c : Nat)
    (Plan : YORI_SH_EXEC_PLAN) (node : YORI_SH_SINGLE_EXEC_CONTEXT) :
    (trailingBackground ctx cur Plan node c).1.FirstCmd = Plan.FirstCmd := by
  unfold trailingBackground
  dsimp only
  split_ifs <;> rfl

theorem trailingBackground_consumed (ctx : YORI_SH_CMD_CONTEXT) (cur c : Nat)
    (Plan : YORI_SH_EXEC_PLAN) (node : YORI_SH_SINGLE_EXEC_CONTEXT) :
    (trailingBackground ctx cur Plan node c).2.2 = c ∨
    ((trailingBackground ctx cur Plan node c).2.2 = c + 1 ∧ cur + c = ctx.ArgC - 1) := by
  unfold trailingBackground
  dsimp only
  split_ifs with h1 <;> simp [h1]

theorem trailingBackground_fires (ctx : YORI_SH_CMD_CONTEXT) (cur c : Nat)
    (Plan : YORI_SH_EXEC_PLAN) (node : YORI_SH_SINGLE_EXEC_CONTEXT)
    (h1 : cur + c = ctx.ArgC - 1) (hq : (ctx.arg (cur + c)).Quoted = false)
    (ht : (ctx.arg (cur + c)).Text = ['&', '!'] ∨ (ctx.arg (cur + c)).Text = ['&', '!', '!']) :
    (trailingBackground ctx cur Plan node c).2.2 = c + 1 := by
  unfold trailingBackground
  rcases ht with ht | ht <;> simp [h1, hq, ht, h1 ▸ hq, h1 ▸ ht, charAt]

theorem arg_of_drop (ctx : YORI_SH_CMD_CONTEXT) (cur i : Nat) (a : Arg)
    (h : (ctx.ArgV.drop cur)[i]? = some a) : ctx.arg (cur + i) = a := by
  rw [List.getElem?_drop] at h
  simp [YORI_SH_CMD_CONTEXT.arg, List.getD_eq_getElem?_getD, h]

theorem progSep_end_only (t : List Char)
    (h1 : YoriShIsArgumentProgramSeperator t true = true)
    (h2 : YoriShIsArgumentProgramSeperator t false = false) :
    t = ['&', '!'] ∨ t = ['&', '!', '!'] := by
  unfold YoriShIsArgumentProgramSeperator at h1 h2
  rw [compare_exact ['&', '!'] (by decide), compare_exact ['&', '!', '!'] (by decide)] at h1
  split_ifs at h1 h2 <;> simp_all

theorem trailingBackground_amp_bang_bang (ctx : YORI_SH_CMD_CONTEXT) (A : List Arg)
    (cur c : Nat) (Plan : YORI_SH_EXEC_PLAN) (node : YORI_SH_SINGLE_EXEC_CONTEXT)
    (hC : ctx.ArgC = ctx.ArgV.length) (hV : ctx.ArgV = A ++ [⟨['&', '!', '!'], false⟩])
    (hA : A.length = cur + c) :
    trailingBackground ctx cur Plan node c =
      ({ Plan with WaitForCompletion := false,
                   EntireCmd :=
                     { Plan.EntireCmd with
                         WaitForCompletion := false, RunOnSecondConsole := true },
                   EntireCmdArgC := Plan.EntireCmdArgC - 1 },
       { node with WaitForCompletion := false, RunOnSecondConsole := true }, c + 1) := by
  have hlen : cur + c = ctx.ArgC - 1 := by
    rw [hC, hV]
    simp [hA]
  have harg : ctx.arg (cur + c) = ⟨['&', '!', '!'], false⟩ := by
    rw [← hA]
    exact arg_at ctx A [] _ hV
  rw [hlen] at harg
  simp [trailingBackground, hlen, harg, charAt]

/-- The plan of a command line made of programs separated by blocks of
separator arguments and followed by a last argument `&!!`. -/
theorem plan_shape_amp_bang_bang (Lib : PathLibrary) (ctx : YORI_SH_CMD_CONTEXT)
    (segs : List (List Arg × List Arg)) (fin : List Arg)
    (hC : ctx.ArgC = ctx.ArgV.length)
    (hV : ctx.ArgV = segArgs segs ++ (fin ++ [⟨['&', '!', '!'], false⟩]))
    (hsegs : ∀ sg ∈ segs, RunOK sg.1 ∧ BlockOK sg.2) (hfin : RunOK fin) :
    YoriShParseCmdContextToExecPlan Lib ctx =
      some (some
        { FirstCmd := planChain Lib segs
            { execLoop Lib none fin initialExecContext with
                WaitForCompletion := false, RunOnSecondConsole := true },
          NumberCommands := segs.length + 1,
          EntireCmd :=
            { (initialPlan ctx).EntireCmd with
                WaitForCompletion := false, RunOnSecondConsole := true },
          EntireCmdArgC := ctx.ArgC - 1,
          WaitForCompletion := false }) := by
  obtain ⟨a, r, hr, har⟩ := hfin.1
  obtain ⟨s2, fuel, h1, h2, h3, h4⟩ := plan_mid Lib ctx segs
    (fin ++ [⟨['&', '!', '!'], false⟩]) hC hV hsegs
    ⟨a, r ++ [⟨['&', '!', '!'], false⟩], by rw [hr]; rfl, har⟩
  have hne : fin ≠ [] := by rw [hr]; simp
  have htb := trailingBackground_amp_bang_bang ctx (segArgs segs ++ fin) (segArgs segs).length
    fin.length s2.Plan (execLoop Lib none fin initialExecContext) hC (by rw [hV]; simp)
    (by simp)
  have hstep := planStep_bg Lib ctx s2 (segArgs segs) fin ⟨['&', '!', '!'], false⟩ hC hV h3 hne
    hfin.2 rfl (by decide) (by rw [htb])
  have hlt : s2.CurrentArg < ctx.ArgC := by
    rw [hC, hV, h3, hr]
    simp
  rw [planLoop_step Lib ctx fuel s2 _ hlt hstep, planLoop_done Lib ctx fuel _ (by simp)] at h1
  rw [plan_unfold Lib ctx _ h1, htb, h2, h4]
  simp [planChain_eq, initialPlan]

/-- C11 (amended): for every command line made of programs separated by
blocks of separator arguments and followed by a last, unquoted argument
`&!!` (each program a non-empty run of arguments none of which is an
unquoted separator), the plan is built, the plan and its final node have
WaitForCompletion false, and the final node has RunOnSecondConsole set. -/
theorem C11_trailing_ampersand_bang_bang (Lib : PathLibrary) (ctx : YORI_SH_CMD_CONTEXT)
    (segs : List (List Arg × List Arg)) (fin : List Arg)
    (hC : ctx.ArgC = ctx.ArgV.length)
    (hV : ctx.ArgV = segArgs segs ++ fin ++ [⟨['&', '!', '!'], false⟩])
    (hsegs : ∀ sg ∈ segs, RunOK sg.1 ∧ BlockOK sg.2) (hfin : RunOK fin) :
    ∃ plan final,
      YoriShParseCmdContextToExecPlan Lib ctx = some (some plan) ∧
      plan.WaitForCompletion = false ∧
      plan.FirstCmd.getLast? = some final ∧
      final.WaitForCompletion = false ∧
      final.RunOnSecondConsole = true := by
  have hp := plan_shape_amp_bang_bang Lib ctx segs fin hC (by rw [hV]; simp) hsegs hfin
  obtain ⟨front, chain, sep, hsplit⟩ := planChain_split Lib segs
  refine ⟨_,
    lastLink chain sep
      { execLoop Lib none fin initialExecContext with
          WaitForCompletion := false, RunOnSecondConsole := true },
    hp, rfl, ?_, ?_, ?_⟩
  · show (planChain Lib segs _).getLast? = _
    rw [hsplit]
    simp
  · rcases lastLink_cases chain sep
      { execLoop Lib none fin initialExecContext with
          WaitForCompletion := false, RunOnSecondConsole := true } with h | h <;> rw [h]
  · rcases lastLink_cases chain sep
      { execLoop Lib none fin initialExecContext with
          WaitForCompletion := false, RunOnSecondConsole := true } with h | h <;> rw [h]

/-- C11 witness: the command line `a | b &!!`. -/
theorem C11_trailing_ampersand_bang_bang_witness :
    ∃ plan final,
      YoriShParseCmdContextToExecPlan ⟨fun _ => false, fun s => '/' :: s⟩
        ⟨4, [⟨['a'], false⟩, ⟨['|'], false⟩, ⟨['b'], false⟩, ⟨['&', '!', '!'], false⟩],
          0, false⟩ = some (some plan) ∧
      plan.WaitForCompletion = false ∧
      plan.FirstCmd.getLast? = some final ∧
      final.WaitForCompletion = false ∧
      final.RunOnSecondConsole = true :=
  C11_trailing_ampersand_bang_bang ⟨fun _ => false, fun s => '/' :: s⟩
    ⟨4, [⟨['a'], false⟩, ⟨['|'], false⟩, ⟨['b'], false⟩, ⟨['&', '!', '!'], false⟩], 0, false⟩
    [([⟨['a'], false⟩], [⟨['|'], false⟩])] [⟨['b'], false⟩] rfl rfl
    (by
      intro sg hsg
      simp only [List.mem_singleton] at hsg
      subst hsg
      exact ⟨runOK_words ['a'] [] (by decide) (by simp), blockOK_single ['|'] (by decide)⟩)
    (runOK_words ['b'] [] (by decide) (by simp))

/-- C11 counterexample: for the command lines `| a &!!` and `a | &!!`,
whose last argument is an unquoted `&!!` preceded by the program argument
`a`, the plan builder returns FALSE and builds no plan. -/
theorem C11_counterexample_trailing_ampersand_bang_bang :
    YoriShParseCmdContextToExecPlan ⟨fun _ => false, fun s => '/' :: s⟩
      ⟨3, [⟨['|'], false⟩, ⟨['a'], false⟩, ⟨['&', '!', '!'], false⟩], 0, false⟩ =
        some none ∧
    YoriShParseCmdContextToExecPlan ⟨fun _ => false, fun s => '/' :: s⟩
      ⟨3, [⟨['a'], false⟩, ⟨['|'], false⟩, ⟨['&', '!', '!'], false⟩], 0, false⟩ =
        some none := by
  refine ⟨?_, ?_⟩ <;> decide!

theorem sep_maximal (Str : List Char) (e : List Char × Bool) (he : e ∈ specSeparatorTable)
    (hp : e.1 <+: Str) : e.1.length ≤ (YoriShIsArgumentSeperator Str).CharsToConsume := by
  obtain ⟨t, rfl⟩ := hp
  simp only [specSeparatorTable, List.mem_cons, List.mem_singleton, List.not_mem_nil,
    or_false] at he
  rcases he with rfl | rfl | rfl | rfl | rfl | rfl | rfl | rfl | rfl | rfl | rfl | rfl | rfl |
    rfl | rfl | rfl | rfl <;>
  · simp [YoriShIsArgumentSeperator]
    try (split_ifs <;> simp)

theorem sep_sound_tail (c0 : Char) (r : List Char)
    (hc : c0 = '|' ∨ c0 = '&' ∨ c0 = '\n' ∨ c0 = '>' ∨ c0 = '<' ∨ c0 = '1' ∨ c0 = '2')
    (h : 0 < (YoriShIsArgumentSeperator (c0 :: r)).CharsToConsume) :
    ((c0 :: r).take (YoriShIsArgumentSeperator (c0 :: r)).CharsToConsume,
      (YoriShIsArgumentSeperator (c0 :: r)).TerminateArg) ∈ specSeparatorTable ∧
    (YoriShIsArgumentSeperator (c0 :: r)).CharsToConsume ≤ (c0 :: r).length := by
  rcases hc with rfl | rfl | rfl | rfl | rfl | rfl | rfl <;>
  · rcases r with _ | ⟨c1, _ | ⟨c2, _ | ⟨c3, r⟩⟩⟩ <;>
      simp [YoriShIsArgumentSeperator] at h ⊢ <;>
      (try split_ifs at h ⊢) <;> simp_all [specSeparatorTable]

theorem sep_sound (Str : List Char)
    (h : 0 < (YoriShIsArgumentSeperator Str).CharsToConsume) :
    (Str.take (YoriShIsArgumentSeperator Str).CharsToConsume,
      (YoriShIsArgumentSeperator Str).TerminateArg) ∈ specSeparatorTable ∧
    (YoriShIsArgumentSeperator Str).CharsToConsume ≤ Str.length := by
  rcases Str with _ | ⟨c0, r⟩
  · simp [YoriShIsArgumentSeperator] at h
  · by_cases hc : c0 = '|' ∨ c0 = '&' ∨ c0 = '\n' ∨ c0 = '>' ∨ c0 = '<' ∨ c0 = '1' ∨ c0 = '2'
    · exact sep_sound_tail c0 r hc h
    · simp only [not_or] at hc
      obtain ⟨h1, h2, h3, h4, h5, h6, h7⟩ := hc
      simp [YoriShIsArgumentSeperator, h1, h2, h3, h4, h5, h6, h7] at h

theorem sep_zero (Str : List Char)
    (h : (YoriShIsArgumentSeperator Str).CharsToConsume = 0) :
    YoriShIsArgumentSeperator Str = ⟨0, false⟩ := by
  rcases Str with _ | ⟨c0, r⟩
  · rfl
  · by_cases hc : c0 = '|' ∨ c0 = '&' ∨ c0 = '\n' ∨ c0 = '>' ∨ c0 = '<' ∨ c0 = '1' ∨ c0 = '2'
    · rcases hc with rfl | rfl | rfl | rfl | rfl | rfl | rfl <;>
      · simp [YoriShIsArgumentSeperator] at h ⊢
        try (split_ifs at h ⊢ <;> simp_all)
    · simp only [not_or] at hc
      obtain ⟨h1, h2, h3, h4, h5, h6, h7⟩ := hc
      simp [YoriShIsArgumentSeperator, h1, h2, h3, h4, h5, h6, h7]

/-- C20 (amended): for every string, wherever it stands in the line,
YoriShIsArgumentSeperator reports the longest operator of the table
|, ||, &, &&, &!, &!!, newline, >, >>, >&2, <, 1>, 1>>, 1>&2, 2>, 2>>, 2>&1
that is a prefix of the string, with that operator's terminate flag, and
reports zero characters with no terminate flag when no entry of the table
is a prefix. -/
theorem C20_separator_longest_operator (Str : List Char) :
    (∀ e ∈ specSeparatorTable, e.1 <+: Str →
      e.1.length ≤ (YoriShIsArgumentSeperator Str).CharsToConsume) ∧
    ((∃ e ∈ specSeparatorTable, e.1 <+: Str) →
      ∃ e ∈ specSeparatorTable, e.1 <+: Str ∧
        YoriShIsArgumentSeperator Str = ⟨e.1.length, e.2⟩) ∧
    ((∀ e ∈ specSeparatorTable, ¬ e.1 <+: Str) →
      YoriShIsArgumentSeperator Str = ⟨0, false⟩) := by
  refine ⟨fun e he hp => sep_maximal Str e he hp, ?_, ?_⟩
  · rintro ⟨e, he, hp⟩
    have hpos : 0 < (YoriShIsArgumentSeperator Str).CharsToConsume := by
      have h1 := sep_maximal Str e he hp
      have h2 : 0 < e.1.length := by
        simp only [specSeparatorTable, List.mem_cons, List.mem_singleton, List.not_mem_nil,
          or_false] at he
        rcases he with rfl | rfl | rfl | rfl | rfl | rfl | rfl | rfl | rfl | rfl | rfl | rfl |
          rfl | rfl | rfl | rfl | rfl <;> simp
      omega
    obtain ⟨hm, hl⟩ := sep_sound Str hpos
    refine ⟨_, hm, List.take_prefix _ _, ?_⟩
    simp [List.length_take, hl]
  · intro hno
    apply sep_zero
    by_contra hne
    obtain ⟨hm, _⟩ := sep_sound Str (Nat.pos_of_ne_zero hne)
    exact hno _ hm (List.take_prefix _ _)

/-- C20 witness: the string `2>&1 x` has the table entries `2>` and `2>&1`
as prefixes, and YoriShIsArgumentSeperator reports an entry of the table
of four characters with the terminate flag. -/
theorem C20_separator_longest_operator_witness :
    ∃ e ∈ specSeparatorTable, e.1 <+: ['2', '>', '&', '1', ' ', 'x'] ∧
      YoriShIsArgumentSeperator ['2', '>', '&', '1', ' ', 'x'] = ⟨e.1.length, e.2⟩ :=
  (C20_separator_longest_operator ['2', '>', '&', '1', ' ', 'x']).2.1
    ⟨(['2', '>'], false), by decide, by decide⟩

/-- C20 counterexample: `&!` and `&!!` are recognised although they are not
the final token of the line: on the strings `&! x` and `&!!x` the function
reports two and three characters, and the line `a &! b` is split into the
three arguments `a`, `&!` and `b`. -/
theorem C20_counterexample_bang_not_final :
    YoriShIsArgumentSeperator ['&', '!', ' ', 'x'] = ⟨2, true⟩ ∧
    YoriShIsArgumentSeperator ['&', '!', '!', 'x'] = ⟨3, true⟩ ∧
    (YoriShParseCmdlineToCmdContext id ['a', ' ', '&', '!', ' ', 'b'] 0).map
        (fun ctx => ctx.ArgV) =
      some [⟨['a'], false⟩, ⟨['&', '!'], false⟩, ⟨['b'], false⟩] := by
  refine ⟨by decide, by decide, by decide!⟩

theorem sizingTerminate_cursorOK (L off : Nat) (s : SizingState) (h : CursorOK s) :
    CursorOK (sizingTerminate L off s).1 := by
  obtain ⟨ch, ac, rc, cc, tn, qo, lf, fnd, ca, tr⟩ := s
  unfold CursorOK at h ⊢
  unfold sizingTerminate SizingState.markCurrentIfPast SizingState.countLast
    SizingState.markCurrent
  cases fnd
  · dsimp only
    split_ifs <;> dsimp only <;> intro hf <;> first | omega | cases hf
  · have h1 : ca ≤ ac := h rfl
    simp only [Bool.true_eq_false, false_and, if_false, if_true]
    split_ifs <;> dsimp only <;> intro _ <;> omega

theorem sizingLiteral_cursorOK (rest : List Char) (s : SizingState) (h : CursorOK s) :
    CursorOK (sizingLiteral rest s).1 := by
  obtain ⟨ch, ac, rc, cc, tn, qo, lf, fnd, ca, tr⟩ := s
  unfold CursorOK at h ⊢
  unfold sizingLiteral SizingState.countLast SizingState.markCurrent
  cases fnd
  · dsimp only
    split_ifs <;> dsimp only <;> intro hf <;> first | omega | cases hf
  · have h1 : ca ≤ ac := h rfl
    simp only [if_true]
    split_ifs <;> dsimp only <;> intro _ <;> omega

theorem countLast_cursorOK (s : SizingState) (h : CursorOK s) : CursorOK s.countLast := by
  obtain ⟨ch, ac, rc, cc, tn, qo, lf, fnd, ca, tr⟩ := s
  unfold CursorOK at h ⊢
  unfold SizingState.countLast SizingState.markCurrent
  cases fnd
  · dsimp only
    intro _
    exact Nat.le_succ _
  · intro _
    exact Nat.le_succ_of_le (h rfl)

theorem sizingStep_cursorOK (L off : Nat) (s : SizingState) (h : CursorOK s) :
    CursorOK (sizingStep L off s).1 := by
  unfold sizingStep
  split
  · exact h
  · dsimp only
    split_ifs
    all_goals first
      | exact h
      | exact sizingTerminate_cursorOK L off _ h
      | exact sizingLiteral_cursorOK _ _ h
      | exact countLast_cursorOK _ h
      | skip
    split
    · intro hf
      exact Nat.le_succ_of_le (h hf)
    · intro hf
      have := h hf
      show s.CurrentArg ≤ (if _ then s.ArgCount + 1 else s.ArgCount)
      split_ifs
      · exact Nat.le_succ_of_le this
      · exact this

theorem sizingLoop_cursorOK (L off : Nat) :
    ∀ (fuel : Nat) (s r : SizingState), CursorOK s → sizingLoop L off fuel s = some r →
      CursorOK r := by
  intro fuel
  induction fuel with
  | zero =>
    intro s r h hr
    by_cases hnil : s.Char = []
    · simp only [sizingLoop, hnil, if_true, Option.some.injEq] at hr
      rw [← hr]
      exact h
    · simp [sizingLoop, hnil] at hr
  | succ n ih =>
    intro s r h hr
    by_cases hnil : s.Char = []
    · simp only [sizingLoop, hnil, if_true, Option.some.injEq] at hr
      rw [← hr]
      exact h
    · have hs := sizingStep_cursorOK L off s h
      rcases hstep : sizingStep L off s with ⟨s1, b⟩
      rw [hstep] at hs
      cases b
      · simp only [sizingLoop, hnil, if_false, hstep] at hr
        exact ih s1 r hs hr
      · simp only [sizingLoop, hnil, if_false, hstep, Option.some.injEq] at hr
        rw [← hr]
        exact hs

theorem sizingPass_cursorOK (CmdLine : List Char) (off : Nat) (sz : SizingState)
    (h : sizingPass CmdLine off = some sz) : sz.CurrentArg ≤ sz.ArgCount := by
  unfold sizingPass at h
  split at h
  · cases h
  · rename_i s hs
    have hc := sizingLoop_cursorOK _ _ _ _ _ (by intro hf; cases hf) hs
    cases h
    unfold SizingState.markCurrent
    split_ifs with hf
    · exact hc hf
    · exact le_refl _

/-- C19: for every input line and every cursor offset, the tokenizer
returns a command line, and its CurrentArg is at most its ArgC (both are
unsigned, so 0 <= CurrentArg holds by type). -/
theorem C19_current_arg_in_range (Expand : List Char → List Char) (CmdLine : List Char)
    (CurrentOffset : Nat) :
    ∃ ctx, YoriShParseCmdlineToCmdContext Expand CmdLine CurrentOffset = some ctx ∧
      0 ≤ ctx.CurrentArg ∧ ctx.CurrentArg ≤ ctx.ArgC := by
  obtain ⟨sz, hsz, _, hctx⟩ := parse_eq Expand CmdLine CurrentOffset
  exact ⟨_, hctx, Nat.zero_le _, sizingPass_cursorOK CmdLine CurrentOffset sz hsz⟩

theorem castLONG_small (L : Nat) (hL : L < 2 ^ 31) : castLONG L = (L : Int) := by
  unfold castLONG
  have h1 : L % 2 ^ 32 = L := Nat.mod_eq_of_lt (by omega)
  rw [h1, if_pos hL]

theorem markIf_end (L : Nat) (hL : L < 2 ^ 31) (s : SizingState) :
    s.markCurrentIfPast L L = s := by
  unfold SizingState.markCurrentIfPast
  rw [castLONG_small L hL, if_neg]
  rintro ⟨_, h⟩
  omega

theorem countLast_end (s : SizingState) (hf : s.CurrentArgFound = false) (hc : s.Char = []) :
    EndOK s.countLast := by
  right
  unfold SizingState.countLast SizingState.markCurrent
  simp [hf, hc]

theorem sizingTerminate_end (L : Nat) (hL : L < 2 ^ 31) (s : SizingState)
    (hf : s.CurrentArgFound = false) : EndOK (sizingTerminate L L s).1 := by
  unfold sizingTerminate
  simp only [markIf_end L hL]
  split_ifs
  all_goals first
    | exact Or.inl hf
    | exact countLast_end _ hf (by assumption)

theorem sizingLiteral_end (rest : List Char) (s : SizingState)
    (hf : s.CurrentArgFound = false) : EndOK (sizingLiteral rest s).1 := by
  unfold sizingLiteral
  dsimp only
  split_ifs with h1
  · exact countLast_end _ hf h1
  · exact Or.inl hf

theorem sizingStep_end (L : Nat) (hL : L < 2 ^ 31) (s : SizingState)
    (hf : s.CurrentArgFound = false) : EndOK (sizingStep L L s).1 := by
  unfold sizingStep
  split
  · exact Or.inl hf
  · dsimp only
    split_ifs
    all_goals first
      | exact Or.inl hf
      | exact sizingTerminate_end L hL _ hf
      | exact sizingLiteral_end _ _ hf
      | exact countLast_end _ hf (by assumption)
      | skip
    split
    · exact Or.inl hf
    · exact Or.inl hf

theorem sizingLoop_end (L : Nat) (hL : L < 2 ^ 31) :
    ∀ (fuel : Nat) (s r : SizingState), EndOK s → sizingLoop L L fuel s = some r →
      EndOK r := by
  intro fuel
  induction fuel with
  | zero =>
    intro s r h hr
    by_cases hnil : s.Char = []
    · simp only [sizingLoop, hnil, if_true, Option.some.injEq] at hr
      rw [← hr]
      exact h
    · simp [sizingLoop, hnil] at hr
  | succ n ih =>
    intro s r h hr
    by_cases hnil : s.Char = []
    · simp only [sizingLoop, hnil, if_true, Option.some.injEq] at hr
      rw [← hr]
      exact h
    · have hf : s.CurrentArgFound = false := by
        rcases h with h | ⟨_, h⟩
        · exact h
        · exact absurd h hnil
      have hs := sizingStep_end L hL s hf
      rcases hstep : sizingStep L L s with ⟨s1, b⟩
      rw [hstep] at hs
      cases b
      · simp only [sizingLoop, hnil, if_false, hstep] at hr
        exact ih s1 r hs hr
      · simp only [sizingLoop, hnil, if_false, hstep, Option.some.injEq] at hr
        rw [← hr]
        exact hs

theorem sizingPass_end (CmdLine : List Char) (hL : CmdLine.length < 2 ^ 31) (sz : SizingState)
    (h : sizingPass CmdLine CmdLine.length = some sz) :
    sz.CurrentArg = sz.ArgCount ∨ sz.CurrentArg + 1 = sz.ArgCount := by
  unfold sizingPass at h
  split at h
  · cases h
  · rename_i s hs
    have hc := sizingLoop_end _ hL _ _ _ (Or.inl rfl) hs
    cases h
    unfold SizingState.markCurrent
    rcases hc with hc | ⟨hc, _⟩
    · left
      simp [hc]
    · split_ifs
      · right
        exact hc
      · left
        rfl

theorem plainLine_sep (c : Char) (r : List Char) (hc : isPlainChar c = true)
    (hr : ∀ d ∈ r, isPlainChar d = true ∨ d = ' ') :
    YoriShIsArgumentSeperator (c :: r) = ⟨0, false⟩ := by
  apply sep_plain c r ((plain_iff c).mp hc).1
  cases r with
  | nil => simp
  | cons d ds =>
    rcases hr d (by simp) with h | h
    · have := ((plain_iff d).mp h).1
      simp only [List.head?_cons, ne_eq, Option.some.injEq]
      rintro rfl
      simp [isOperatorChar] at this
    · subst h
      simp

theorem sizingStep_plainChar (L : Nat) (s : SizingState) (hp : PlainState s)
    (c : Char) (rest : List Char) (hs : s.Char = c :: rest) (hc : isPlainChar c = true) :
    ∃ s1, sizingStep L L s = (s1, false) ∧ s1.Char = rest ∧
      (rest ≠ [] → PlainState s1) ∧
      (rest = [] → s1.CurrentArgFound = true ∧ s1.CurrentArg + 1 = s1.ArgCount) := by
  obtain ⟨hq, hl, hf, hall⟩ := hp
  have hsep := plainLine_sep c rest hc (fun d hd => hall d (by rw [hs]; simp [hd]))
  obtain ⟨-, hesc, hnq, hns⟩ := (plain_iff c).mp hc
  have hrest : ∀ d ∈ rest, isPlainChar d = true ∨ d = ' ' :=
    fun d hd => hall d (by rw [hs]; simp [hd])
  obtain ⟨ch, ac, rc, cc, tn, qo, lf, fnd, ca, tr⟩ := s
  dsimp only at hq hl hf hs hall
  subst hq hl hf hs
  unfold sizingStep
  simp only [hesc, hnq, hns, hsep, sizingLiteral, SizingState.countLast,
    SizingState.markCurrent, Bool.false_eq_true, false_and, and_false, if_false,
    lt_self_iff_false]
  by_cases hr : rest = []
  · subst hr
    simp only [if_true]
    split_ifs <;> simp [PlainState]
  · simp only [hr, if_false]
    split_ifs <;> simp [PlainState] <;> exact fun _ => hrest

theorem sizingStep_space (L : Nat) (hL : L < 2 ^ 31) (s : SizingState) (hp : PlainState s)
    (rest : List Char) (hs : s.Char = ' ' :: rest) :
    (YoriShTrimSpacesFromBeginning rest = [] →
      ∃ s1, sizingStep L L s = (s1, true) ∧ s1.CurrentArgFound = false ∧
        s1.TrailingChars = true) ∧
    (YoriShTrimSpacesFromBeginning rest ≠ [] →
      ∃ s1, sizingStep L L s = (s1, false) ∧ s1.Char = YoriShTrimSpacesFromBeginning rest ∧
        PlainState s1) := by
  obtain ⟨hq, hl, hf, hall⟩ := hp
  have hrest : ∀ d ∈ YoriShTrimSpacesFromBeginning rest, isPlainChar d = true ∨ d = ' ' :=
    fun d hd => hall d (by rw [hs]; exact List.mem_cons_of_mem _ (trim_mem _ _ hd))
  obtain ⟨ch, ac, rc, cc, tn, qo, lf, fnd, ca, tr⟩ := s
  dsimp only at hq hl hf hs hall
  subst hq hl hf hs
  have hesc : YoriLibIsEscapeChar ' ' = false := by decide
  unfold sizingStep
  simp only [hesc, sizingTerminate, markIf_end L hL, trim_cons_space, Bool.false_eq_true,
    false_and, and_false, if_false, if_true, show ¬ (' ' = '"') by decide]
  refine ⟨fun ht => ?_, fun ht => ?_⟩
  · simp [ht]
  · obtain ⟨d, r, hd⟩ := List.exists_cons_of_ne_nil ht
    have hdn : d ≠ ' ' := by
      have := trim_head_ne_space rest
      rw [hd] at this
      simpa using this
    have hdp : isPlainChar d = true := by
      rcases hrest d (by rw [hd]; simp) with h | h
      · exact h
      · exact absurd h hdn
    have hsep := plainLine_sep d r hdp (fun x hx => hrest x (by rw [hd]; simp [hx]))
    rw [hd] at hrest ⊢
    simp [hsep, PlainState, ((plain_iff d).mp hdp).2.2.1]
    exact ⟨Or.inl hdp, fun a ha => hrest a (List.mem_cons_of_mem _ ha)⟩

theorem sizingLoop_plain (L : Nat) (hL : L < 2 ^ 31) :
    ∀ (n : Nat) (s : SizingState), s.Char.length ≤ n → PlainState s → s.Char ≠ [] →
      ∃ r, sizingLoop L L n s = some r ∧
        (s.Char.getLast? = some ' ' → r.CurrentArgFound = false ∧ r.TrailingChars = true) ∧
        (s.Char.getLast? ≠ some ' ' →
          r.CurrentArgFound = true ∧ r.CurrentArg + 1 = r.ArgCount) := by
  intro n
  induction n with
  | zero =>
    intro s hlen _ hne
    exact absurd (List.length_eq_zero.mp (Nat.le_zero.mp hlen)) hne
  | succ n ih =>
    intro s hlen hp hne
    obtain ⟨c, rest, hs⟩ := List.exists_cons_of_ne_nil hne
    have hlen2 : rest.length ≤ n := by
      rw [hs] at hlen
      simpa using hlen
    by_cases hc : c = ' '
    · subst hc
      obtain ⟨h1, h2⟩ := sizingStep_space L hL s hp rest hs
      by_cases ht : YoriShTrimSpacesFromBeginning rest = []
      · obtain ⟨s1, hstep, hf, htr⟩ := h1 ht
        refine ⟨s1, by simp [sizingLoop, hne, hstep], fun _ => ⟨hf, htr⟩, fun hl => ?_⟩
        exfalso
        apply hl
        rw [hs]
        clear hs hstep h1 h2 hlen hlen2 hp hne
        induction rest with
        | nil => rfl
        | cons d ds ihd =>
          by_cases hd : d = ' '
          · subst hd
            rw [trim_cons_space] at ht
            have := ihd ht
            rw [List.getLast?_cons_cons]
            cases ds with
            | nil => rfl
            | cons e es => rwa [List.getLast?_cons_cons] at this ⊢
          · rw [trim_cons_of_ne _ _ hd] at ht
            cases ht
      · obtain ⟨s1, hstep, hch, hp1⟩ := h2 ht
        have hlen3 : s1.Char.length ≤ n := by
          rw [hch]
          exact le_trans (trim_length_le rest) hlen2
        obtain ⟨r, hr, ha, hb⟩ := ih s1 hlen3 hp1 (by rw [hch]; exact ht)
        have hlast : s.Char.getLast? = s1.Char.getLast? := by
          rw [hs, hch, trim_getLast rest ht]
          cases rest with
          | nil => exact absurd rfl ht
          | cons d ds => rw [List.getLast?_cons_cons]
        refine ⟨r, by simp [sizingLoop, hne, hstep, hr], ?_, ?_⟩
        · rw [hlast]
          exact ha
        · rw [hlast]
          exact hb
    · have hcp : isPlainChar c = true := by
        rcases hp.2.2.2 c (by rw [hs]; simp) with h | h
        · exact h
        · exact absurd h hc
      obtain ⟨s1, hstep, hch, hA, hB⟩ := sizingStep_plainChar L s hp c rest hs hcp
      by_cases hr : rest = []
      · obtain ⟨hf, hcur⟩ := hB hr
        have hnil : s1.Char = [] := by rw [hch, hr]
        refine ⟨s1, ?_, ?_, fun _ => ⟨hf, hcur⟩⟩
        · cases n <;> simp [sizingLoop, hne, hstep, hnil]
        · intro hl
          rw [hs, hr] at hl
          simp at hl
          exact absurd hl hc
      · have hp1 := hA hr
        obtain ⟨r, hr1, ha, hb⟩ := ih s1 (by rw [hch]; exact hlen2) hp1 (by rw [hch]; exact hr)
        have hlast : s.Char.getLast? = s1.Char.getLast? := by
          rw [hs, hch]
          cases rest with
          | nil => exact absurd rfl hr
          | cons d ds => rw [List.getLast?_cons_cons]
        refine ⟨r, by simp [sizingLoop, hne, hstep, hr1], ?_, ?_⟩
        · rw [hlast]
          exact ha
        · rw [hlast]
          exact hb

theorem trim_ne_nil (l : List Char) (h : ∃ c ∈ l, c ≠ ' ') :
    YoriShTrimSpacesFromBeginning l ≠ [] := by
  induction l with
  | nil =>
    obtain ⟨c, hc, _⟩ := h
    simp at hc
  | cons d ds ih =>
    by_cases hd : d = ' '
    · subst hd
      rw [trim_cons_space]
      apply ih
      obtain ⟨c, hc, hne⟩ := h
      rcases List.mem_cons.mp hc with rfl | hc
      · exact absurd rfl hne
      · exact ⟨c, hc, hne⟩
    · rw [trim_cons_of_ne _ _ hd]
      simp

theorem trim_eq_nil (l : List Char) (h : ¬ ∃ c ∈ l, c ≠ ' ') :
    YoriShTrimSpacesFromBeginning l = [] := by
  induction l with
  | nil => rfl
  | cons d ds ih =>
    have hd : d = ' ' := by
      by_contra hd
      exact h ⟨d, by simp, hd⟩
    subst hd
    rw [trim_cons_space]
    apply ih
    rintro ⟨c, hc, hne⟩
    exact h ⟨c, List.mem_cons_of_mem _ hc, hne⟩

theorem sizingInit_plain (line : List Char)
    (hplain : ∀ c ∈ line, isPlainChar c = true ∨ c = ' ') : PlainState (sizingInit line) := by
  refine ⟨rfl, ?_, rfl, fun c hc => hplain c (trim_mem _ _ hc)⟩
  show decide ((YoriShTrimSpacesFromBeginning line).head? = some '"') = false
  rw [decide_eq_false_iff_not]
  intro hq
  have hmem : '"' ∈ YoriShTrimSpacesFromBeginning line := by
    cases ht : YoriShTrimSpacesFromBeginning line with
    | nil => rw [ht] at hq; simp at hq
    | cons d ds =>
      rw [ht] at hq
      simp only [List.head?_cons, Option.some.injEq] at hq
      subst hq
      simp
  rcases hplain _ (trim_mem _ _ hmem) with h | h
  · simp [isPlainChar] at h
  · simp at h

/-- Cursor results of the sizing pass on a line of plain characters and
spaces with the cursor at the end of the line. -/
theorem sizingPass_plain (line : List Char) (hlen : line.length < 2 ^ 31)
    (hplain : ∀ c ∈ line, isPlainChar c = true ∨ c = ' ') :
    ∃ sz, sizingPass line line.length = some sz ∧
      ((∃ c ∈ line, c ≠ ' ') → line.getLast? = some ' ' →
        sz.CurrentArg = sz.ArgCount ∧ sz.TrailingChars = true) ∧
      ((∃ c ∈ line, c ≠ ' ') → line.getLast? ≠ some ' ' →
        sz.CurrentArg + 1 = sz.ArgCount) ∧
      ((¬ ∃ c ∈ line, c ≠ ' ') → sz.CurrentArg = sz.ArgCount) := by
  by_cases hw : ∃ c ∈ line, c ≠ ' '
  · have hne := trim_ne_nil line hw
    obtain ⟨r, hr, ha, hb⟩ := sizingLoop_plain line.length hlen (line.length + 1)
      (sizingInit line) (Nat.le_succ_of_le (trim_length_le line)) (sizingInit_plain line hplain)
      hne
    have hlast : (sizingInit line).Char.getLast? = line.getLast? := trim_getLast line hne
    rw [hlast] at ha hb
    refine ⟨_, by simp only [sizingPass, hr]; rfl, fun _ hl => ?_, fun _ hl => ?_,
      fun h => absurd hw h⟩
    · obtain ⟨hf, ht⟩ := ha hl
      simp [SizingState.markCurrent, hf, ht]
    · obtain ⟨hf, hc⟩ := hb hl
      simp [SizingState.markCurrent, hf, hc]
  · have hnil := trim_eq_nil line hw
    have hloop : sizingLoop line.length line.length (line.length + 1) (sizingInit line) =
        some (sizingInit line) := by
      have : (sizingInit line).Char = [] := hnil
      simp [sizingLoop, this]
    refine ⟨_, by simp only [sizingPass, hloop]; rfl, fun h => absurd h hw,
      fun h => absurd h hw,
      fun _ => ?_⟩
    simp [SizingState.markCurrent, sizingInit]

/-- C17: for every line of plain characters and spaces (shorter than 2^31
characters, the range of the LONG cursor offset) that holds at least one
word and ends with a space, tokenizing with the cursor offset equal to the
line length returns a command line with CurrentArg equal to ArgC and
TrailingChars true. -/
theorem C17_cursor_after_trailing_space (Expand : List Char → List Char) (line : List Char)
    (hplain : ∀ c ∈ line, isPlainChar c = true ∨ c = ' ')
    (hword : ∃ c ∈ line, c ≠ ' ')
    (hend : line.getLast? = some ' ')
    (hlen : line.length < 2 ^ 31) :
    ∃ ctx, YoriShParseCmdlineToCmdContext Expand line line.length = some ctx ∧
      ctx.CurrentArg = ctx.ArgC ∧ ctx.TrailingChars = true := by
  obtain ⟨sz, hsz, _, hctx⟩ := parse_eq Expand line line.length
  obtain ⟨sz2, hsz2, ha, _, _⟩ := sizingPass_plain line hlen hplain
  rw [hsz] at hsz2
  cases hsz2
  exact ⟨_, hctx, (ha hword hend).1, (ha hword hend).2⟩

/-- C17 witness: the line `abc de  ` (two words, two trailing spaces) with
the cursor at offset 8. -/
theorem C17_cursor_after_trailing_space_witness :
    ∃ ctx, YoriShParseCmdlineToCmdContext id ['a', 'b', 'c', ' ', 'd', 'e', ' ', ' '] 8 =
        some ctx ∧
      ctx.CurrentArg = ctx.ArgC ∧ ctx.TrailingChars = true :=
  C17_cursor_after_trailing_space id ['a', 'b', 'c', ' ', 'd', 'e', ' ', ' ']
    (by decide) ⟨'a', by decide, by decide⟩ (by decide) (by norm_num)

/-- C18 (amended): for every line shorter than 2^31 characters, tokenizing
with the cursor offset equal to the length of the line returns a command
line whose CurrentArg is ArgC or ArgC - 1; on a line of plain characters
and spaces, CurrentArg is ArgC - 1 when the line ends with a character of a
word (the cursor is in the last argument) and ArgC when the line is empty
or ends with a space. -/
theorem C18_cursor_at_end (Expand : List Char → List Char) (line : List Char)
    (hlen : line.length < 2 ^ 31) :
    ∃ ctx, YoriShParseCmdlineToCmdContext Expand line line.length = some ctx ∧
      (ctx.CurrentArg = ctx.ArgC ∨ ctx.CurrentArg + 1 = ctx.ArgC) ∧
      ((∀ c ∈ line, isPlainChar c = true ∨ c = ' ') →
        (line ≠ [] → line.getLast? ≠ some ' ' → ctx.CurrentArg + 1 = ctx.ArgC) ∧
        (line = [] ∨ line.getLast? = some ' ' → ctx.CurrentArg = ctx.ArgC)) := by
  obtain ⟨sz, hsz, _, hctx⟩ := parse_eq Expand line line.length
  refine ⟨_, hctx, sizingPass_end line hlen sz hsz, fun hplain => ?_⟩
  obtain ⟨sz2, hsz2, ha, hb, hc⟩ := sizingPass_plain line hlen hplain
  rw [hsz] at hsz2
  cases hsz2
  refine ⟨fun hne hl => ?_, fun h => ?_⟩
  · apply hb _ hl
    obtain ⟨d, hd⟩ : ∃ d, line.getLast? = some d := by
      cases hg : line.getLast? with
      | none => exact absurd (List.getLast?_eq_none_iff.mp hg) hne
      | some d => exact ⟨d, rfl⟩
    refine ⟨d, List.mem_of_getLast?_eq_some hd, ?_⟩
    rintro rfl
    exact hl hd
  · by_cases hw : ∃ c ∈ line, c ≠ ' '
    · rcases h with h | h
      · obtain ⟨c, hc, _⟩ := hw
        rw [h] at hc
        simp at hc
      · exact (ha hw h).1
    · exact hc hw

/-- C18 witness: the line `ab c` with the cursor at offset 4 gives
CurrentArg + 1 = ArgC. -/
theorem C18_cursor_at_end_witness :
    ∃ ctx, YoriShParseCmdlineToCmdContext id ['a', 'b', ' ', 'c'] 4 = some ctx ∧
      (ctx.CurrentArg = ctx.ArgC ∨ ctx.CurrentArg + 1 = ctx.ArgC) ∧
      ((∀ c ∈ ['a', 'b', ' ', 'c'], isPlainChar c = true ∨ c = ' ') →
        (['a', 'b', ' ', 'c'] ≠ [] → ['a', 'b', ' ', 'c'].getLast? ≠ some ' ' →
          ctx.CurrentArg + 1 = ctx.ArgC) ∧
        (['a', 'b', ' ', 'c'] = [] ∨ ['a', 'b', ' ', 'c'].getLast? = some ' ' →
          ctx.CurrentArg = ctx.ArgC)) :=
  C18_cursor_at_end id ['a', 'b', ' ', 'c'] (by norm_num)

/-- C18 counterexample: for the lines `abc`, `a b` and the quoted `"abc"`
with the cursor at the end of the line, CurrentArg is ArgC - 1, not ArgC. -/
theorem C18_counterexample_cursor_in_last_argument :
    (YoriShParseCmdlineToCmdContext id ['a', 'b', 'c'] 3).map
        (fun ctx => (ctx.ArgC, ctx.CurrentArg)) = some (1, 0) ∧
    (YoriShParseCmdlineToCmdContext id ['a', ' ', 'b'] 3).map
        (fun ctx => (ctx.ArgC, ctx.CurrentArg)) = some (2, 1) ∧
    (YoriShParseCmdlineToCmdContext id ['"', 'a', 'b', 'c', '"'] 5).map
        (fun ctx => (ctx.ArgC, ctx.CurrentArg)) = some (1, 0) := by
  refine ⟨?_, ?_, ?_⟩ <;> decide!

theorem drop_arg (ctx : YORI_SH_CMD_CONTEXT) (i : Nat) (h : i < ctx.ArgV.length) :
    ctx.ArgV.drop i = ctx.arg i :: ctx.ArgV.drop (i + 1) := by
  rw [List.drop_eq_getElem_cons h]
  simp [YORI_SH_CMD_CONTEXT.arg, List.getD_eq_getElem?_getD, List.getElem?_eq_getElem h]

theorem exec_consumed (Lib : PathLibrary) (ctx : YORI_SH_CMD_CONTEXT) (cur : Nat) :
    (YoriShParseCmdContextToExecContext Lib ctx cur).1 =
      boundaryLoop ctx.ArgC cur (ctx.ArgV.drop cur) - cur := rfl

theorem boundaryLoop_at (ctx : YORI_SH_CMD_CONTEXT) (cur : Nat)
    (hC : ctx.ArgC = ctx.ArgV.length) (hlt : cur < ctx.ArgC) :
    (isBoundaryAt ctx cur = true → boundaryLoop ctx.ArgC cur (ctx.ArgV.drop cur) = cur) ∧
    (isBoundaryAt ctx cur = false →
      cur + 1 ≤ boundaryLoop ctx.ArgC cur (ctx.ArgV.drop cur)) := by
  rw [drop_arg ctx cur (by omega)]
  constructor
  · intro h
    simp only [isBoundaryAt, Bool.and_eq_true, Bool.not_eq_true'] at h
    simp [boundaryLoop, hlt, h.1, h.2]
  · intro h
    have hn : ¬ ((ctx.arg cur).Quoted = false ∧
        YoriShIsArgumentProgramSeperator (ctx.arg cur).Text (decide (cur = ctx.ArgC - 1)) =
          true) := by
      rintro ⟨h1, h2⟩
      simp [isBoundaryAt, h1, h2] at h
    simp only [boundaryLoop, hlt, if_true, hn, if_false]
    exact (boundaryLoop_spec ctx.ArgC (ctx.ArgV.drop (cur + 1)) (cur + 1)
      (by rw [List.length_drop]; omega)).1

theorem planStep_none (Lib : PathLibrary) (ctx : YORI_SH_CMD_CONTEXT) (s : PlanState)
    (hC : ctx.ArgC = ctx.ArgV.length) (hlt : s.CurrentArg < ctx.ArgC)
    (hb : isBoundaryAt ctx s.CurrentArg = true) : planStep Lib ctx s = none := by
  have h0 : (YoriShParseCmdContextToExecContext Lib ctx s.CurrentArg).1 = 0 := by
    rw [exec_consumed, (boundaryLoop_at ctx s.CurrentArg hC hlt).1 hb]
    simp
  unfold planStep
  rcases hexec : YoriShParseCmdContextToExecContext Lib ctx s.CurrentArg with ⟨c0, node⟩
  rw [hexec] at h0
  simp only at h0
  simp [h0]

theorem planStep_some (Lib : PathLibrary) (ctx : YORI_SH_CMD_CONTEXT) (s : PlanState)
    (hC : ctx.ArgC = ctx.ArgV.length) (hlt : s.CurrentArg < ctx.ArgC)
    (hb : isBoundaryAt ctx s.CurrentArg = false) : ∃ s1, planStep Lib ctx s = some s1 := by
  have h0 : (YoriShParseCmdContextToExecContext Lib ctx s.CurrentArg).1 ≠ 0 := by
    rw [exec_consumed]
    have := (boundaryLoop_at ctx s.CurrentArg hC hlt).2 hb
    omega
  rcases hexec : YoriShParseCmdContextToExecContext Lib ctx s.CurrentArg with ⟨c0, node⟩
  rw [hexec] at h0
  exact ⟨_, planStep_eq Lib ctx s c0 node hexec h0⟩

theorem skipSeperators_stop (n : Nat) (l : List Arg) :
    ∀ (c a : Nat), c + l.length = n → (skipSeperators n c a l).1 < n →
      ∃ x, l[(skipSeperators n c a l).1 - c]? = some x ∧
        YoriShIsArgumentProgramSeperator x.Text false = false := by
  induction l with
  | nil =>
    intro c a hk hlt
    simp only [skipSeperators] at hlt
    simp at hk
    omega
  | cons x rest ih =>
    intro c a hk hlt
    simp only [List.length_cons] at hk
    by_cases hcond : c < n ∧ YoriShIsArgumentProgramSeperator x.Text false = true
    · have e : skipSeperators n c a (x :: rest) = skipSeperators n (c + 1) c rest := by
        simp only [skipSeperators]
        rw [if_pos hcond]
      rw [e] at hlt ⊢
      obtain ⟨y, hy, hs⟩ := ih (c + 1) c (by omega) hlt
      have hge := (skipSeperators_spec n rest (c + 1) c (by omega)).1
      refine ⟨y, ?_, hs⟩
      rw [show (skipSeperators n (c + 1) c rest).1 - c =
        ((skipSeperators n (c + 1) c rest).1 - (c + 1)) + 1 by omega]
      simpa using hy
    · have e : skipSeperators n c a (x :: rest) = (c, a) := by
        simp only [skipSeperators]
        rw [if_neg hcond]
      rw [e] at hlt ⊢
      simp only at hlt
      refine ⟨x, by simp, ?_⟩
      by_contra hx
      exact hcond ⟨hlt, by simpa using hx⟩

/-- Progress of one iteration of the main loop: the next iteration starts
further right, and when arguments remain it starts right after an argument
with the text of a separator, at an argument that has no such text. -/
theorem planStep_next (Lib : PathLibrary) (ctx : YORI_SH_CMD_CONTEXT) (s s1 : PlanState)
    (hC : ctx.ArgC = ctx.ArgV.length) (hlt : s.CurrentArg < ctx.ArgC)
    (hstep : planStep Lib ctx s = some s1) :
    s.CurrentArg < s1.CurrentArg ∧ s1.CurrentArg ≤ ctx.ArgC ∧
    (s1.CurrentArg < ctx.ArgC →
      1 ≤ s1.CurrentArg ∧
      YoriShIsArgumentProgramSeperator (ctx.arg (s1.CurrentArg - 1)).Text false = true ∧
      YoriShIsArgumentProgramSeperator (ctx.arg s1.CurrentArg).Text false = false) := by
  obtain ⟨c0, node, hexec⟩ : ∃ c0 node,
      YoriShParseCmdContextToExecContext Lib ctx s.CurrentArg = (c0, node) := ⟨_, _, rfl⟩
  have hc0 : c0 ≠ 0 := by
    intro h0
    unfold planStep at hstep
    rw [hexec] at hstep
    simp [h0] at hstep
  rw [planStep_eq Lib ctx s c0 node hexec hc0] at hstep
  have hs1 := (Option.some.inj hstep).symm
  have hb : c0 = boundaryLoop ctx.ArgC s.CurrentArg (ctx.ArgV.drop s.CurrentArg) -
      s.CurrentArg := by
    have := congrArg Prod.fst hexec
    simpa [YoriShParseCmdContextToExecContext] using this.symm
  obtain ⟨b1, b2, b3⟩ := boundaryLoop_spec ctx.ArgC (ctx.ArgV.drop s.CurrentArg) s.CurrentArg
    (by rw [List.length_drop]; omega)
  have hbc : s.CurrentArg + c0 =
      boundaryLoop ctx.ArgC s.CurrentArg (ctx.ArgV.drop s.CurrentArg) := by omega
  have hcons := trailingBackground_consumed ctx s.CurrentArg c0 s.Plan node
  have hfire := trailingBackground_fires ctx s.CurrentArg c0 s.Plan node
  obtain ⟨T, hT⟩ : ∃ T, T = (trailingBackground ctx s.CurrentArg s.Plan node c0).2.2 :=
    ⟨_, rfl⟩
  rw [← hT] at hcons hfire hs1
  have hcur : s1.CurrentArg =
      (skipSeperators ctx.ArgC (s.CurrentArg + T) s.ArgOfLastOperatorIndex
        (ctx.ArgV.drop (s.CurrentArg + T))).1 := by rw [hs1]
  have hc1 : s.CurrentArg + T ≤ ctx.ArgC := by
    rcases hcons with h | ⟨h, h2⟩ <;> rw [h] <;> omega
  have hTpos : 0 < T := by
    rcases hcons with h | ⟨h, h2⟩ <;> rw [h] <;> omega
  obtain ⟨k1, k2, k3, k4⟩ := skipSeperators_spec ctx.ArgC (ctx.ArgV.drop (s.CurrentArg + T))
    (s.CurrentArg + T) s.ArgOfLastOperatorIndex (by rw [List.length_drop]; omega)
  have kstop := skipSeperators_stop ctx.ArgC (ctx.ArgV.drop (s.CurrentArg + T))
    (s.CurrentArg + T) s.ArgOfLastOperatorIndex (by rw [List.length_drop]; omega)
  rw [← hcur] at k1 k2 k3 k4 kstop
  refine ⟨by omega, k2, fun hlt1 => ?_⟩
  obtain ⟨y, hy, hys⟩ := kstop hlt1
  have hyarg := arg_of_drop ctx _ _ y hy
  rw [show s.CurrentArg + T + (s1.CurrentArg - (s.CurrentArg + T)) = s1.CurrentArg by omega]
    at hyarg
  by_cases hadv : s.CurrentArg + T < s1.CurrentArg
  · obtain ⟨h5, x, hx, hsx⟩ := k4 hadv
    have hxarg := arg_of_drop ctx _ _ x hx
    have h5b : (skipSeperators ctx.ArgC (s.CurrentArg + T) s.ArgOfLastOperatorIndex
        (ctx.ArgV.drop (s.CurrentArg + T))).2 = s1.CurrentArg - 1 := by omega
    rw [h5b] at hxarg
    rw [show s.CurrentArg + T + (s1.CurrentArg - 1 - (s.CurrentArg + T)) =
      s1.CurrentArg - 1 by omega] at hxarg
    refine ⟨by omega, ?_, ?_⟩
    · rw [hxarg]
      exact hsx
    · rw [hyarg]
      exact hys
  · exfalso
    have heq : s1.CurrentArg = s.CurrentArg + T := by omega
    rw [heq] at hlt1 hyarg
    rcases hcons with h | ⟨h, h2⟩
    · rw [h] at hlt1 hyarg
      rw [hbc] at hlt1 hyarg
      obtain ⟨a, ha, haq, has⟩ := b3 hlt1
      have harg := arg_of_drop ctx _ _ a ha
      rw [show s.CurrentArg +
        (boundaryLoop ctx.ArgC s.CurrentArg (ctx.ArgV.drop s.CurrentArg) - s.CurrentArg) =
        boundaryLoop ctx.ArgC s.CurrentArg (ctx.ArgV.drop s.CurrentArg) by omega] at harg
      have hay : a = y := by rw [← harg, ← hyarg]
      subst hay
      have hlast : boundaryLoop ctx.ArgC s.CurrentArg (ctx.ArgV.drop s.CurrentArg) =
          ctx.ArgC - 1 := by
        by_contra hne
        simp only [hne, decide_False] at has
        rw [has] at hys
        exact absurd hys (by decide)
      have hend := progSep_end_only a.Text (progSep_mono _ _ has) hys
      have hf := hfire (by rw [hbc]; exact hlast) (by rw [hbc, harg]; exact haq)
        (by rw [hbc, harg]; exact hend)
      omega
    · rw [h] at hlt1
      omega

theorem planLoop_total (Lib : PathLibrary) (ctx : YORI_SH_CMD_CONTEXT)
    (hC : ctx.ArgC = ctx.ArgV.length) (fuel : Nat) :
    ∀ s : PlanState, ctx.ArgC - s.CurrentArg ≤ fuel →
      ∃ r, planLoop Lib ctx fuel s = some r := by
  induction fuel with
  | zero =>
    intro s hf
    exact ⟨_, planLoop_done Lib ctx 0 s (by omega)⟩
  | succ fuel ih =>
    intro s hf
    by_cases hlt : s.CurrentArg < ctx.ArgC
    · cases hstep : planStep Lib ctx s with
      | none =>
        refine ⟨none, ?_⟩
        rw [planLoop.eq_def]
        simp [hlt, hstep]
      | some s1 =>
        rw [planLoop_step Lib ctx fuel s s1 hlt hstep]
        have := (planStep_next Lib ctx s s1 hC hlt hstep).1
        exact ih s1 (by omega)
    · exact ⟨_, planLoop_done Lib ctx _ s hlt⟩

theorem planLoop_success (Lib : PathLibrary) (ctx : YORI_SH_CMD_CONTEXT)
    (hC : ctx.ArgC = ctx.ArgV.length) (hbg : backgroundAfterSeparator ctx = false)
    (fuel : Nat) :
    ∀ s : PlanState, ctx.ArgC - s.CurrentArg ≤ fuel →
      (s.CurrentArg < ctx.ArgC → isBoundaryAt ctx s.CurrentArg = false) →
      ∃ sf, planLoop Lib ctx fuel s = some (some sf) := by
  induction fuel with
  | zero =>
    intro s hf _
    exact ⟨_, planLoop_done Lib ctx 0 s (by omega)⟩
  | succ fuel ih =>
    intro s hf hstart
    by_cases hlt : s.CurrentArg < ctx.ArgC
    · obtain ⟨s1, hstep⟩ := planStep_some Lib ctx s hC hlt (hstart hlt)
      rw [planLoop_step Lib ctx fuel s s1 hlt hstep]
      obtain ⟨h1, _, h3⟩ := planStep_next Lib ctx s s1 hC hlt hstep
      apply ih s1 (by omega)
      intro hlt1
      obtain ⟨hpos, hprev, hhere⟩ := h3 hlt1
      by_contra hb
      have hb2 : isBoundaryAt ctx s1.CurrentArg = true := by simpa using hb
      simp only [isBoundaryAt, Bool.and_eq_true, Bool.not_eq_true'] at hb2
      obtain ⟨hq, hsep⟩ := hb2
      have hlast : s1.CurrentArg = ctx.ArgC - 1 := by
        by_contra hne
        simp only [hne, decide_False] at hsep
        rw [hsep] at hhere
        exact absurd hhere (by decide)
      have hend := progSep_end_only _ (progSep_mono _ _ hsep) hhere
      rw [hlast] at hq hend hprev
      have h2 : 2 ≤ ctx.ArgC := by omega
      rw [show ctx.ArgC - 1 - 1 = ctx.ArgC - 2 by omega] at hprev
      have : backgroundAfterSeparator ctx = true := by
        simp only [backgroundAfterSeparator, Bool.and_eq_true, Bool.or_eq_true,
          decide_eq_true_eq, Bool.not_eq_true']
        exact ⟨⟨⟨h2, hq⟩, hend⟩, hprev⟩
      rw [this] at hbg
      exact absurd hbg (by decide)
    · exact ⟨_, planLoop_done Lib ctx _ s hlt⟩

/-- Building a plan from a well-formed command line always returns: with
FALSE when the first argument is an unquoted separator, with a plan when it
is not and the last argument is not an unquoted `&!` or `&!!` directly after
an argument with the text of a separator. -/
theorem plan_total (Lib : PathLibrary) (ctx : YORI_SH_CMD_CONTEXT)
    (hC : ctx.ArgC = ctx.ArgV.length) :
    (∃ r, YoriShParseCmdContextToExecPlan Lib ctx = some r) ∧
    (firstIsSeparator ctx = true → YoriShParseCmdContextToExecPlan Lib ctx = some none) ∧
    (firstIsSeparator ctx = false → backgroundAfterSeparator ctx = false →
      ∃ plan, YoriShParseCmdContextToExecPlan Lib ctx = some (some plan)) := by
  refine ⟨?_, ?_, ?_⟩
  · obtain ⟨r, hr⟩ := planLoop_total Lib ctx hC (ctx.ArgC + 1)
      { Plan := initialPlan ctx, CurrentArg := 0, ArgOfLastOperatorIndex := 0 } (by simp)
    simp only [initialPlan] at hr
    unfold YoriShParseCmdContextToExecPlan
    simp only [hr]
    cases r <;> simp
  · intro hf
    simp only [firstIsSeparator, Bool.and_eq_true, decide_eq_true_eq] at hf
    have hstep := planStep_none Lib ctx
      { Plan := initialPlan ctx, CurrentArg := 0, ArgOfLastOperatorIndex := 0 } hC hf.1 hf.2
    have hl : planLoop Lib ctx (ctx.ArgC + 1)
        { Plan := initialPlan ctx, CurrentArg := 0, ArgOfLastOperatorIndex := 0 } =
        some none := by
      rw [planLoop.eq_def]
      simp [hf.1, hstep]
    simp only [initialPlan] at hl
    unfold YoriShParseCmdContextToExecPlan
    simp only [hl]
  · intro hf hbg
    obtain ⟨sf, hsf⟩ := planLoop_success Lib ctx hC hbg (ctx.ArgC + 1)
      { Plan := initialPlan ctx, CurrentArg := 0, ArgOfLastOperatorIndex := 0 } (by simp)
      (by
        intro hlt
        simp only at hlt
        simp only [firstIsSeparator, hlt, decide_True, Bool.true_and] at hf
        exact hf)
    exact ⟨_, plan_unfold Lib ctx sf hsf⟩

/-- C16 (amended): every input line is tokenized into a command line, and
building an execution plan from that command line always returns: it
returns FALSE when the first argument is an unquoted separator (`|`, `||`,
`&`, `&&`, newline, or `&!`, `&!!` as the only argument), and it returns TRUE
with a plan when the first argument is not an unquoted separator and the
last argument is not an unquoted `&!` or `&!!` directly after an argument
with the text of a separator. -/
theorem C16_plan_building_outcome (Lib : PathLibrary) (Expand : List Char → List Char)
    (line : List Char) (CurrentOffset : Nat) :
    ∃ ctx, YoriShParseCmdlineToCmdContext Expand line CurrentOffset = some ctx ∧
      (∃ r, YoriShParseCmdContextToExecPlan Lib ctx = some r) ∧
      (firstIsSeparator ctx = true → YoriShParseCmdContextToExecPlan Lib ctx = some none) ∧
      (firstIsSeparator ctx = false → backgroundAfterSeparator ctx = false →
        ∃ plan, YoriShParseCmdContextToExecPlan Lib ctx = some (some plan)) := by
  obtain ⟨sz, _, hlen, hctx⟩ := parse_eq Expand line CurrentOffset
  refine ⟨_, hctx, plan_total Lib _ ?_⟩
  simp [hlen]

/-- C16 counterexample: the lines `| a`, `&` and `& a` are tokenized
into command lines whose first argument is the operator, and building the
plan returns FALSE for each of them. -/
theorem C16_counterexample_leading_operator :
    (YoriShParseCmdlineToCmdContext id ['|', ' ', 'a'] 0).map
        (YoriShParseCmdContextToExecPlan ⟨fun _ => false, fun s => '/' :: s⟩) =
      some (some none) ∧
    (YoriShParseCmdlineToCmdContext id ['&'] 0).map
        (YoriShParseCmdContextToExecPlan ⟨fun _ => false, fun s => '/' :: s⟩) =
      some (some none) ∧
    (YoriShParseCmdlineToCmdContext id ['&', ' ', 'a'] 0).map
        (YoriShParseCmdContextToExecPlan ⟨fun _ => false, fun s => '/' :: s⟩) =
      some (some none) := by
  refine ⟨?_, ?_, ?_⟩ <;> decide!

theorem dwordSub_eq (a b : Nat) (ha : a < 2 ^ 32) (hb : b ≤ a) : dwordSub a b = a - b := by
  unfold dwordSub
  rw [show a + 2 ^ 32 - b = (a - b) + 2 ^ 32 by omega, Nat.add_mod_right]
  exact Nat.mod_eq_of_lt (by omega)

theorem dwordAdd_eq (a b : Nat) (h : a + b < 2 ^ 32) : dwordAdd a b = a + b :=
  Nat.mod_eq_of_lt h

theorem closes_refl (Offset : Nat) (e : YORI_SH_BACKQUOTE_ENTRY) : Closes Offset e e :=
  ⟨rfl, rfl, rfl, Or.inl rfl⟩

theorem terminateWalk_closes (Offset : Nat) (b : Bool) :
    ∀ (l : List YORI_SH_BACKQUOTE_ENTRY) (d : Nat),
      List.Forall₂ (Closes Offset) l (terminateWalk Offset b l d).1 := by
  intro l
  induction l with
  | nil =>
    intro d
    simp [terminateWalk]
  | cons e rest ih =>
    intro d
    have hrefl : List.Forall₂ (Closes Offset) rest rest :=
      List.forall₂_same.mpr (fun x _ => closes_refl Offset x)
    unfold terminateWalk
    split_ifs with h1 h2 h3
    · refine List.Forall₂.cons ⟨rfl, rfl, rfl, Or.inr ⟨?_, ?_, rfl⟩⟩ hrefl
      · simp [YORI_SH_BACKQUOTE_ENTRY.isOpen, h1.1, h1.2]
      · simp [YORI_SH_BACKQUOTE_ENTRY.isOpen]
    · exact List.Forall₂.cons (closes_refl Offset e) hrefl
    · refine List.Forall₂.cons ⟨rfl, rfl, rfl, Or.inr ⟨?_, ?_, rfl⟩⟩ (ih _)
      · simp [YORI_SH_BACKQUOTE_ENTRY.isOpen, h1.1, h1.2]
      · simp [YORI_SH_BACKQUOTE_ENTRY.isOpen]
    · exact List.Forall₂.cons (closes_refl Offset e) (ih _)

theorem openCount_nil : openCount [] = 0 := rfl

theorem openCount_cons_pos (e : YORI_SH_BACKQUOTE_ENTRY) (l : List YORI_SH_BACKQUOTE_ENTRY)
    (h : e.isOpen = true) : openCount (e :: l) = openCount l + 1 :=
  List.countP_cons_of_pos _ _ h

theorem openCount_cons_neg (e : YORI_SH_BACKQUOTE_ENTRY) (l : List YORI_SH_BACKQUOTE_ENTRY)
    (h : e.isOpen = false) : openCount (e :: l) = openCount l :=
  List.countP_cons_of_neg _ _ (by simp [h])

theorem openCount_reverse (l : List YORI_SH_BACKQUOTE_ENTRY) :
    openCount l.reverse = openCount l :=
  List.countP_reverse _ l

theorem openCount_append (l m : List YORI_SH_BACKQUOTE_ENTRY) :
    openCount (l ++ m) = openCount l + openCount m :=
  List.countP_append _ l m

theorem openCount_le (l : List YORI_SH_BACKQUOTE_ENTRY) : openCount l ≤ l.length :=
  List.countP_le_length _

theorem isOpen_of (e : YORI_SH_BACKQUOTE_ENTRY) (h : e.Terminated = false ∧ e.Abandoned = false) :
    e.isOpen = true := by
  simp [YORI_SH_BACKQUOTE_ENTRY.isOpen, h.1, h.2]

theorem isOpen_of_not (e : YORI_SH_BACKQUOTE_ENTRY)
    (h : ¬ (e.Terminated = false ∧ e.Abandoned = false)) : e.isOpen = false := by
  simp only [YORI_SH_BACKQUOTE_ENTRY.isOpen]
  by_cases ht : e.Terminated = true
  · simp [ht]
  · have ht2 : e.Terminated = false := by simpa using ht
    have ha : e.Abandoned = true := by
      by_contra ha
      exact h ⟨ht2, by simpa using ha⟩
    simp [ha]

theorem terminateWalk_count (Offset : Nat) (b : Bool) :
    ∀ (l : List YORI_SH_BACKQUOTE_ENTRY) (d : Nat),
      openCount l ≤ d → d < 2 ^ 32 →
      (terminateWalk Offset b l d).2.1 + openCount l =
        d + openCount (terminateWalk Offset b l d).1 := by
  intro l
  induction l with
  | nil =>
    intro d _ _
    simp [terminateWalk]
  | cons e rest ih =>
    intro d hd hlt
    unfold terminateWalk
    split_ifs with h1 h2 h3
    · have ho := isOpen_of e h1
      rw [openCount_cons_pos e rest ho] at hd
      have hd1 : 1 ≤ d := by omega
      show dwordSub d 1 + openCount (e :: rest) = d + openCount (_ :: rest)
      rw [openCount_cons_pos e rest ho, openCount_cons_neg _ rest (by
        simp [YORI_SH_BACKQUOTE_ENTRY.isOpen]), dwordSub_eq d 1 hlt hd1]
      omega
    · rfl
    · have ho := isOpen_of e h1
      rw [openCount_cons_pos e rest ho] at hd
      have hd1 : 1 ≤ d := by omega
      have := ih (dwordSub d 1) (by rw [dwordSub_eq d 1 hlt hd1]; omega)
        (by rw [dwordSub_eq d 1 hlt hd1]; omega)
      show (terminateWalk Offset b rest (dwordSub d 1)).2.1 + openCount (e :: rest) =
        d + openCount (_ :: (terminateWalk Offset b rest (dwordSub d 1)).1)
      rw [openCount_cons_pos e rest ho, openCount_cons_neg _ _ (by
        simp [YORI_SH_BACKQUOTE_ENTRY.isOpen])]
      rw [dwordSub_eq d 1 hlt hd1] at this ⊢
      omega
    · have ho := isOpen_of_not e h1
      rw [openCount_cons_neg e rest ho] at hd
      have := ih d hd hlt
      show (terminateWalk Offset b rest d).2.1 + openCount (e :: rest) =
        d + openCount (e :: (terminateWalk Offset b rest d).1)
      rw [openCount_cons_neg e rest ho, openCount_cons_neg e _ ho]
      exact this

theorem forall₂_mem_right {α β : Type} (R : α → β → Prop) :
    ∀ (l : List α) (m : List β), List.Forall₂ R l m → ∀ y ∈ m, ∃ x ∈ l, R x y := by
  intro l m h
  induction h with
  | nil =>
    intro y hy
    simp at hy
  | cons hxy _ ih =>
    intro y hy
    rcases List.mem_cons.mp hy with rfl | hy
    · exact ⟨_, by simp, hxy⟩
    · obtain ⟨x, hx, hr⟩ := ih y hy
      exact ⟨x, List.mem_cons_of_mem _ hx, hr⟩

theorem closes_map_start (Offset : Nat) :
    ∀ (l m : List YORI_SH_BACKQUOTE_ENTRY), List.Forall₂ (Closes Offset) l m →
      m.map (fun e => e.StartingOffset) = l.map (fun e => e.StartingOffset) := by
  intro l m h
  induction h with
  | nil => rfl
  | cons hxy _ ih =>
    simp only [List.map_cons, ih, hxy.1]

theorem terminate_closes (ctx : YORI_SH_BACKQUOTE_CONTEXT) (Offset : Nat) (b : Bool) :
    List.Forall₂ (Closes Offset) ctx.MatchList
      (YoriShTerminateMatchingBackquoteEntry ctx Offset b).1.MatchList := by
  unfold YoriShTerminateMatchingBackquoteEntry
  dsimp only
  rw [← List.forall₂_reverse_iff, List.reverse_reverse]
  exact terminateWalk_closes Offset b _ _

theorem terminate_maxDepth (ctx : YORI_SH_BACKQUOTE_CONTEXT) (Offset : Nat) (b : Bool) :
    (YoriShTerminateMatchingBackquoteEntry ctx Offset b).1.MaxDepth = ctx.MaxDepth := rfl

theorem scanInv_here (Str : List Char) (Index : Nat) (c : Char) (rest : List Char)
    (ctx : YORI_SH_BACKQUOTE_CONTEXT) (h : ScanInv Str Index (c :: rest) ctx) (hc : c ≠ '(') :
    ScanInv Str Index [] ctx := by
  refine ⟨h.depth, fun e he => ?_, h.range, h.opener, h.sorted, h.count⟩
  rcases h.pos e he with h1 | ⟨_, h2⟩
  · exact Or.inl h1
  · simp only [List.head?_cons, Option.some.injEq] at h2
    exact absurd h2 hc

theorem scanInv_advance (Str : List Char) (Index : Nat) (r r1 : List Char)
    (ctx : YORI_SH_BACKQUOTE_CONTEXT) (h : ScanInv Str Index r ctx) (k : Nat) :
    ScanInv Str (Index + 1 + k) r1 ctx := by
  refine ⟨h.depth, fun e he => ?_, h.range, h.opener, h.sorted, h.count.1, ?_⟩
  · rcases h.pos e he with h1 | ⟨h1, _⟩
    · exact Or.inl (by omega)
    · exact Or.inl (by omega)
  · have := h.count.2
    omega

theorem scanInv_terminate (Str : List Char) (hL : Str.length < 2 ^ 32) (Index : Nat)
    (hI : Index ≤ Str.length) (ctx : YORI_SH_BACKQUOTE_CONTEXT) (b : Bool)
    (h : ScanInv Str Index [] ctx) :
    ScanInv Str Index [] (YoriShTerminateMatchingBackquoteEntry ctx Index b).1 := by
  have hcl := terminate_closes ctx Index b
  have hmem := forall₂_mem_right _ _ _ hcl
  have hpos : ∀ e ∈ ctx.MatchList, e.StartingOffset ≤ Index := by
    intro e he
    rcases h.pos e he with h1 | ⟨_, h2⟩
    · exact h1
    · simp at h2
  refine ⟨fun e1 he1 => ?_, fun e1 he1 => ?_, fun e1 he1 => ?_, fun e1 he1 => ?_, ?_, ?_, ?_⟩
  · obtain ⟨e, he, _, h2, _⟩ := hmem e1 he1
    rw [h2, terminate_maxDepth]
    exact h.depth e he
  · obtain ⟨e, he, h1, _⟩ := hmem e1 he1
    rw [h1]
    exact Or.inl (hpos e he)
  · obtain ⟨e, he, h1, _, _, h4⟩ := hmem e1 he1
    rcases h4 with rfl | ⟨_, hc, hlen⟩
    · exact h.range _ he
    · rw [h1, hlen, dwordSub_eq Index _ (by omega) (hpos e he)]
      have := hpos e he
      refine ⟨by omega, fun ho => ?_⟩
      rw [hc] at ho
      exact absurd ho (by decide)
  · obtain ⟨e, he, h1, _, h3, _⟩ := hmem e1 he1
    rw [h1, h3]
    exact h.opener e he
  · have h1 : List.Pairwise (fun a b : Nat => a < b)
        ((YoriShTerminateMatchingBackquoteEntry ctx Index b).1.MatchList.map
          (fun e => e.StartingOffset)) := by
      rw [closes_map_start _ _ _ hcl, List.pairwise_map]
      exact h.sorted
    rw [List.pairwise_map] at h1
    exact h1
  · have hc := terminateWalk_count Index b ctx.MatchList.reverse ctx.CurrentDepth
      (by rw [openCount_reverse, h.count.1])
      (by
        have := openCount_le ctx.MatchList
        have := h.count
        omega)
    rw [openCount_reverse] at hc
    show (terminateWalk Index b ctx.MatchList.reverse ctx.CurrentDepth).2.1 =
      openCount (terminateWalk Index b ctx.MatchList.reverse ctx.CurrentDepth).1.reverse
    rw [openCount_reverse]
    have := h.count.1
    omega
  · rw [← hcl.length_eq]
    exact h.count.2

theorem scanInv_allocate (Str : List Char) (hL : Str.length < 2 ^ 32) (Index Offset : Nat)
    (r1 : List Char) (ctx : YORI_SH_BACKQUOTE_CONTEXT) (b : Bool)
    (h : ScanInv Str Index [] ctx)
    (hO : Index < Offset) (hOL : Offset ≤ Str.length)
    (hpos : Offset ≤ Index + 1 ∨ (Offset = Index + 1 + 1 ∧ r1.head? = some '('))
    (hopen : (b = false → 1 ≤ Offset ∧ Str[Offset - 1]? = some '`') ∧
      (b = true → 2 ≤ Offset ∧ Str[Offset - 2]? = some '$' ∧ Str[Offset - 1]? = some '(')) :
    ScanInv Str (Index + 1) r1 (YoriShAllocateBackquoteEntry ctx Str.length Offset b) := by
  have hold : ∀ e ∈ ctx.MatchList, e.StartingOffset ≤ Index := by
    intro e he
    rcases h.pos e he with h1 | ⟨_, h2⟩
    · exact h1
    · simp at h2
  unfold YoriShAllocateBackquoteEntry
  refine ⟨fun e he => ?_, fun e he => ?_, fun e he => ?_, fun e he => ?_, ?_, ?_, ?_⟩
  · simp only [List.mem_append, List.mem_singleton] at he
    rcases he with he | rfl
    · have := h.depth e he
      dsimp only
      split_ifs <;> omega
    · dsimp only
      split_ifs <;> omega
  · simp only [List.mem_append, List.mem_singleton] at he
    rcases he with he | rfl
    · have := hold e he
      exact Or.inl (by omega)
    · exact hpos
  · simp only [List.mem_append, List.mem_singleton] at he
    rcases he with he | rfl
    · exact h.range e he
    · dsimp only
      rw [dwordSub_eq _ _ hL hOL]
      exact ⟨by omega, fun _ => by omega⟩
  · simp only [List.mem_append, List.mem_singleton] at he
    rcases he with he | rfl
    · exact h.opener e he
    · exact hopen
  · dsimp only
    rw [List.pairwise_append]
    refine ⟨h.sorted, List.pairwise_singleton _ _, fun a ha c hc => ?_⟩
    simp only [List.mem_singleton] at hc
    subst hc
    have := hold a ha
    dsimp only
    omega
  · dsimp only
    rw [openCount_append, h.count.1]
    rfl
  · dsimp only
    have := h.count.2
    simp only [List.length_append, List.length_singleton]
    omega

theorem getElem?_split (pre : List Char) (c : Char) (rest : List Char) :
    (pre ++ c :: rest)[pre.length]? = some c := by
  rw [List.getElem?_append_right (le_refl _)]
  simp

theorem getElem?_split_next (pre : List Char) (c : Char) (rest : List Char) :
    (pre ++ c :: rest)[pre.length + 1]? = rest.head? := by
  rw [List.getElem?_append_right (by omega)]
  simp [List.head?_eq_getElem?]

/-- The loop of `YoriShParseBackquoteSubstrings` ends with `Index` equal to
the length of the string and keeps the invariant. -/
theorem backquoteLoop_inv (Str : List Char) (hL : Str.length < 2 ^ 32) :
    ∀ (n : Nat) (rest pre : List Char) (ctx : YORI_SH_BACKQUOTE_CONTEXT),
      rest.length ≤ n → Str = pre ++ rest → ScanInv Str pre.length rest ctx →
      (backquoteLoop Str.length rest pre.length ctx).1 = Str.length ∧
      ScanInv Str Str.length [] (backquoteLoop Str.length rest pre.length ctx).2 := by
  intro n
  induction n using Nat.strong_induction_on with
  | _ n ih =>
    intro rest pre ctx hn hS hinv
    cases rest with
    | nil =>
      have hlen : Str.length = pre.length := by rw [hS]; simp
      simp only [backquoteLoop]
      rw [hlen]
      exact ⟨rfl, hinv⟩
    | cons c rest =>
      have hlen : Str.length = pre.length + (rest.length + 1) := by rw [hS]; simp
      have hc : Str[pre.length]? = some c := by rw [hS]; exact getElem?_split pre c rest
      have hnext : Str[pre.length + 1]? = rest.head? := by
        rw [hS]; exact getElem?_split_next pre c rest
      have hS1 : Str = (pre ++ [c]) ++ rest := by rw [hS]; simp
      have hl1 : (pre ++ [c]).length = pre.length + 1 := by simp
      simp only [List.length_cons] at hn
      have step : ∀ ctx1, ScanInv Str (pre.length + 1) rest ctx1 →
          (backquoteLoop Str.length rest (pre.length + 1) ctx1).1 = Str.length ∧
          ScanInv Str Str.length [] (backquoteLoop Str.length rest (pre.length + 1) ctx1).2 := by
        intro ctx1 h1
        have := ih (n - 1) (by omega) rest (pre ++ [c]) ctx1 (by omega) hS1 (by rw [hl1]; exact h1)
        rw [hl1] at this
        exact this
      unfold backquoteLoop
      by_cases hesc : YoriLibIsEscapeChar c = true
      · simp only [hesc, if_true]
        cases rest with
        | nil =>
          dsimp only
          have hlen2 : Str.length = pre.length + 1 := by simpa using hlen
          rw [hlen2]
          exact ⟨rfl, by simpa using scanInv_advance Str pre.length _ [] ctx hinv 0⟩
        | cons d rest2 =>
          dsimp only
          have hS2 : Str = (pre ++ [c, d]) ++ rest2 := by rw [hS]; simp
          have hl2 : (pre ++ [c, d]).length = pre.length + 2 := by simp
          simp only [List.length_cons] at hn
          have := ih (n - 2) (by omega) rest2 (pre ++ [c, d]) ctx (by omega) hS2
            (by rw [hl2]; exact scanInv_advance Str pre.length _ rest2 ctx hinv 1)
          rw [hl2] at this
          exact this
      · simp only [hesc, Bool.false_eq_true, if_false]
        by_cases htick : c = '`'
        · have hhere := scanInv_here Str pre.length c rest ctx hinv (by rw [htick]; decide)
          have hterm := scanInv_terminate Str hL pre.length (by omega) ctx false hhere
          simp only [htick, if_true]
          split_ifs with hf
          · apply step
            exact scanInv_allocate Str hL pre.length (pre.length + 1) rest _ false hterm
              (by omega) (by omega) (Or.inl (le_refl _))
              ⟨fun _ => ⟨by omega, by simpa [htick] using hc⟩, fun hb => by cases hb⟩
          · apply step
            simpa using scanInv_advance Str pre.length _ rest _ hterm 0
        · simp only [htick, if_false]
          by_cases hparen : c = ')'
          · have hhere := scanInv_here Str pre.length c rest ctx hinv (by rw [hparen]; decide)
            have hterm := scanInv_terminate Str hL pre.length (by omega) ctx true hhere
            simp only [hparen, if_true]
            apply step
            simpa using scanInv_advance Str pre.length _ rest _ hterm 0
          · simp only [hparen, if_false]
            split_ifs with hd
            · obtain ⟨hd1, hd2⟩ := hd
              have hhere := scanInv_here Str pre.length c rest ctx hinv (by rw [hd1]; decide)
              have hrne : rest ≠ [] := by
                rintro rfl
                simp at hd2
              have hrl : 1 ≤ rest.length := by
                cases rest with
                | nil => exact absurd rfl hrne
                | cons _ _ => simp
              apply step
              exact scanInv_allocate Str hL pre.length (pre.length + 2) rest ctx true hhere
                (by omega) (by omega) (Or.inr ⟨rfl, hd2⟩)
                ⟨fun hb => (by cases hb), fun _ => ⟨by omega, by simpa [hd1] using hc,
                  by rw [show pre.length + 2 - 1 = pre.length + 1 by omega, hnext, hd2]⟩⟩
            · apply step
              simpa using scanInv_advance Str pre.length _ rest ctx hinv 0

theorem backquoteLoop_index (L : Nat) :
    ∀ (n : Nat) (rest : List Char) (Index : Nat) (ctx : YORI_SH_BACKQUOTE_CONTEXT),
      rest.length ≤ n → (backquoteLoop L rest Index ctx).1 = Index + rest.length := by
  intro n
  induction n using Nat.strong_induction_on with
  | _ n ih =>
    intro rest Index ctx hn
    cases rest with
    | nil => simp [backquoteLoop]
    | cons c rest =>
      simp only [List.length_cons] at hn ⊢
      have step : ∀ ctx1, (backquoteLoop L rest (Index + 1) ctx1).1 =
          Index + (rest.length + 1) := by
        intro ctx1
        rw [ih (n - 1) (by omega) rest (Index + 1) ctx1 (by omega)]
        omega
      unfold backquoteLoop
      dsimp only
      split_ifs
      · cases rest with
        | nil => simp
        | cons d rest2 =>
          simp only [List.length_cons] at hn ⊢
          rw [ih (n - 2) (by omega) rest2 (Index + 2) ctx (by omega)]
          omega
      all_goals exact step _

/-- With allocation taken to succeed, `YoriShParseBackquoteSubstrings`
returns TRUE for every string. -/
theorem parseBackquote_total (Str : List Char) :
    YoriShParseBackquoteSubstrings Str =
      some (backquoteLoop Str.length Str 0
        { MatchList := [], MatchCount := 0, MaxDepth := 0, CurrentDepth := 0 }).2 := by
  unfold YoriShParseBackquoteSubstrings
  simp [backquoteLoop_index Str.length Str.length Str 0 _ (le_refl _)]

theorem parseBackquote_inv (Str : List Char) (hL : Str.length < 2 ^ 32) :
    ∃ ctx, YoriShParseBackquoteSubstrings Str = some ctx ∧ ScanInv Str Str.length [] ctx := by
  refine ⟨_, parseBackquote_total Str, ?_⟩
  have := backquoteLoop_inv Str hL Str.length Str []
    { MatchList := [], MatchCount := 0, MaxDepth := 0, CurrentDepth := 0 } (le_refl _) rfl
    ⟨by simp, by simp, by simp, by simp, by simp, by simp [openCount]⟩
  exact this.2

theorem seekEntry_some (test : YORI_SH_BACKQUOTE_ENTRY → Bool)
    (l : List YORI_SH_BACKQUOTE_ENTRY) :
    ∀ (D : Nat) (e : YORI_SH_BACKQUOTE_ENTRY), seekEntry test l D = some e →
      e ∈ l ∧ test e = true ∧ 1 ≤ e.TreeDepth ∧ e.TreeDepth ≤ D ∧
      (∀ e1 ∈ l, test e1 = true → e1.TreeDepth ≤ D → e1.TreeDepth ≤ e.TreeDepth) ∧
      l.find? (fun x => test x && decide (x.TreeDepth = e.TreeDepth)) = some e := by
  intro D
  induction D with
  | zero =>
    intro e h
    simp [seekEntry] at h
  | succ D ih =>
    intro e h
    unfold seekEntry at h
    cases hf : l.find? (fun x => test x && decide (x.TreeDepth = D + 1)) with
    | some x =>
      rw [hf] at h
      simp only [Option.some.injEq] at h
      subst h
      have hp := List.find?_some hf
      simp only [Bool.and_eq_true, decide_eq_true_eq] at hp
      refine ⟨List.mem_of_find?_eq_some hf, hp.1, by omega, by omega, fun e1 _ _ h1 => by omega,
        ?_⟩
      rw [hp.2]
      exact hf
    | none =>
      rw [hf] at h
      obtain ⟨h1, h2, h3, h4, h5, h6⟩ := ih e h
      refine ⟨h1, h2, h3, by omega, fun e1 he1 ht hd => ?_, h6⟩
      by_cases hd1 : e1.TreeDepth = D + 1
      · have := List.find?_eq_none.mp hf e1 he1
        simp [ht, hd1] at this
      · exact h5 e1 he1 ht (by omega)

theorem seekEntry_none (test : YORI_SH_BACKQUOTE_ENTRY → Bool)
    (l : List YORI_SH_BACKQUOTE_ENTRY) :
    ∀ (D : Nat), seekEntry test l D = none →
      ∀ e ∈ l, test e = true → 1 ≤ e.TreeDepth → e.TreeDepth ≤ D → False := by
  intro D
  induction D with
  | zero =>
    intro _ e _ _ h1 h2
    omega
  | succ D ih =>
    intro h e he ht h1 h2
    unfold seekEntry at h
    cases hf : l.find? (fun x => test x && decide (x.TreeDepth = D + 1)) with
    | some x =>
      rw [hf] at h
      cases h
    | none =>
      rw [hf] at h
      by_cases hd1 : e.TreeDepth = D + 1
      · have := List.find?_eq_none.mp hf e he
        simp [ht, hd1] at this
      · exact ih h e he ht h1 (by omega)

theorem find?_first_sorted (q : YORI_SH_BACKQUOTE_ENTRY → Bool) :
    ∀ (l : List YORI_SH_BACKQUOTE_ENTRY) (e : YORI_SH_BACKQUOTE_ENTRY),
      l.Pairwise (fun a b => a.StartingOffset < b.StartingOffset) →
      l.find? q = some e → ∀ e1 ∈ l, q e1 = true → e.StartingOffset ≤ e1.StartingOffset := by
  intro l
  induction l with
  | nil =>
    intro e _ h
    simp at h
  | cons x rest ih =>
    intro e hs hf e1 he1 hq
    rw [List.pairwise_cons] at hs
    by_cases hx : q x = true
    · rw [List.find?_cons_of_pos _ hx] at hf
      simp only [Option.some.injEq] at hf
      subst hf
      rcases List.mem_cons.mp he1 with rfl | he1
      · exact le_refl _
      · exact le_of_lt (hs.1 e1 he1)
    · rw [List.find?_cons_of_neg _ hx] at hf
      rcases List.mem_cons.mp he1 with rfl | he1
      · exact absurd hq hx
      · exact ih e hs.2 hf e1 he1 hq

theorem findNext_eq (Str : List Char) (ctx : YORI_SH_BACKQUOTE_CONTEXT)
    (h : YoriShParseBackquoteSubstrings Str = some ctx) :
    YoriShFindNextBackquoteSubstring Str =
      (seekEntry (fun e => e.Terminated) ctx.MatchList ctx.MaxDepth).map
        (fun e => (⟨e.StartingOffset, e.LengthInChars⟩, if e.NewStyleMatch then 2 else 1)) := by
  unfold YoriShFindNextBackquoteSubstring
  rw [h]
  dsimp only
  cases seekEntry (fun e => e.Terminated) ctx.MatchList ctx.MaxDepth <;> rfl

theorem findBest_eq (Str : List Char) (StringOffset : Nat) (ctx : YORI_SH_BACKQUOTE_CONTEXT)
    (h : YoriShParseBackquoteSubstrings Str = some ctx) :
    YoriShFindBestBackquoteSubstringAtOffset Str StringOffset =
      (seekEntry
        (fun e => decide (StringOffset ≥ e.StartingOffset) &&
          decide (StringOffset ≤ dwordAdd e.StartingOffset e.LengthInChars))
        ctx.MatchList ctx.MaxDepth).map
        (fun e => ⟨e.StartingOffset, e.LengthInChars⟩) := by
  unfold YoriShFindBestBackquoteSubstringAtOffset
  rw [h]
  dsimp only
  cases seekEntry _ ctx.MatchList ctx.MaxDepth <;> rfl

/-- C13: for every string (its length being a DWORD), the scan succeeds,
YoriShFindNextBackquoteSubstring returns TRUE exactly when the scan left a
terminated entry, and the substring it returns is that of a terminated
entry of greatest TreeDepth among the terminated entries, the one opened
first (smallest StartingOffset) among those of that depth; CharsInPrefix is
1 when the entry was opened by a backtick (the character before the
substring) and 2 when it was opened by the two characters `$(`. -/
theorem C13_find_next_substring (Str : List Char) (hL : Str.length < 2 ^ 32) :
    ∃ ctx, YoriShParseBackquoteSubstrings Str = some ctx ∧
      ((∃ r, YoriShFindNextBackquoteSubstring Str = some r) ↔
        ∃ e ∈ ctx.MatchList, e.Terminated = true) ∧
      ∀ r, YoriShFindNextBackquoteSubstring Str = some r →
        ∃ e ∈ ctx.MatchList, e.Terminated = true ∧
          r.1 = ⟨e.StartingOffset, e.LengthInChars⟩ ∧
          (∀ e1 ∈ ctx.MatchList, e1.Terminated = true → e1.TreeDepth ≤ e.TreeDepth) ∧
          (∀ e1 ∈ ctx.MatchList, e1.Terminated = true → e1.TreeDepth = e.TreeDepth →
            e.StartingOffset ≤ e1.StartingOffset) ∧
          ((e.NewStyleMatch = false ∧ 1 ≤ e.StartingOffset ∧
              Str[e.StartingOffset - 1]? = some '`' ∧ r.2 = 1) ∨
           (e.NewStyleMatch = true ∧ 2 ≤ e.StartingOffset ∧
              Str[e.StartingOffset - 2]? = some '$' ∧
              Str[e.StartingOffset - 1]? = some '(' ∧ r.2 = 2)) := by
  obtain ⟨ctx, hctx, hinv⟩ := parseBackquote_inv Str hL
  refine ⟨ctx, hctx, ?_, ?_⟩
  · rw [findNext_eq Str ctx hctx]
    constructor
    · rintro ⟨r, hr⟩
      cases hs : seekEntry (fun e => e.Terminated) ctx.MatchList ctx.MaxDepth with
      | none => rw [hs] at hr; cases hr
      | some e =>
        obtain ⟨h1, h2, _⟩ := seekEntry_some _ _ _ e hs
        exact ⟨e, h1, h2⟩
    · rintro ⟨e, he, ht⟩
      cases hs : seekEntry (fun e => e.Terminated) ctx.MatchList ctx.MaxDepth with
      | none =>
        exact absurd (seekEntry_none _ _ _ hs e he ht (hinv.depth e he).1 (hinv.depth e he).2) id
      | some e1 => exact ⟨_, rfl⟩
  · intro r hr
    rw [findNext_eq Str ctx hctx] at hr
    cases hs : seekEntry (fun e => e.Terminated) ctx.MatchList ctx.MaxDepth with
    | none => rw [hs] at hr; cases hr
    | some e =>
      rw [hs] at hr
      simp only [Option.map_some', Option.some.injEq] at hr
      obtain ⟨h1, h2, _, _, h5, h6⟩ := seekEntry_some _ _ _ e hs
      refine ⟨e, h1, h2, by rw [← hr], fun e1 he1 ht => h5 e1 he1 ht (hinv.depth e1 he1).2,
        fun e1 he1 ht hd => ?_, ?_⟩
      · exact find?_first_sorted _ _ e hinv.sorted h6 e1 he1 (by simp [ht, hd])
      · cases hn : e.NewStyleMatch with
        | false =>
          left
          obtain ⟨o1, o2⟩ := (hinv.opener e h1).1 hn
          refine ⟨rfl, o1, o2, ?_⟩
          rw [← hr]
          simp [hn]
        | true =>
          right
          obtain ⟨o1, o2, o3⟩ := (hinv.opener e h1).2 hn
          refine ⟨rfl, o1, o2, o3, ?_⟩
          rw [← hr]
          simp [hn]

/-- C14: for every string (its length being a DWORD) and every offset, the
scan succeeds, YoriShFindBestBackquoteSubstringAtOffset returns TRUE exactly
when some entry, terminated, abandoned or open, has StartingOffset <= offset
<= StartingOffset + length, the substring it returns is that of an entry of
greatest TreeDepth among the entries with the offset in range, and the
range of an entry that is still open ends at the end of the string. -/
theorem C14_find_best_substring (Str : List Char) (hL : Str.length < 2 ^ 32)
    (StringOffset : Nat) :
    ∃ ctx, YoriShParseBackquoteSubstrings Str = some ctx ∧
      ((∃ r, YoriShFindBestBackquoteSubstringAtOffset Str StringOffset = some r) ↔
        ∃ e ∈ ctx.MatchList, e.StartingOffset ≤ StringOffset ∧
          StringOffset ≤ e.StartingOffset + e.LengthInChars) ∧
      (∀ r, YoriShFindBestBackquoteSubstringAtOffset Str StringOffset = some r →
        ∃ e ∈ ctx.MatchList, r = ⟨e.StartingOffset, e.LengthInChars⟩ ∧
          e.StartingOffset ≤ StringOffset ∧
          StringOffset ≤ e.StartingOffset + e.LengthInChars ∧
          ∀ e1 ∈ ctx.MatchList, e1.StartingOffset ≤ StringOffset →
            StringOffset ≤ e1.StartingOffset + e1.LengthInChars →
            e1.TreeDepth ≤ e.TreeDepth) ∧
      (∀ e ∈ ctx.MatchList, e.Terminated = false → e.Abandoned = false →
        e.StartingOffset + e.LengthInChars = Str.length) := by
  obtain ⟨ctx, hctx, hinv⟩ := parseBackquote_inv Str hL
  have htest : ∀ e ∈ ctx.MatchList,
      ((decide (StringOffset ≥ e.StartingOffset) &&
        decide (StringOffset ≤ dwordAdd e.StartingOffset e.LengthInChars)) = true ↔
      (e.StartingOffset ≤ StringOffset ∧
        StringOffset ≤ e.StartingOffset + e.LengthInChars)) := by
    intro e he
    have := (hinv.range e he).1
    rw [dwordAdd_eq _ _ (by omega)]
    simp
  refine ⟨ctx, hctx, ?_, ?_, ?_⟩
  · rw [findBest_eq Str StringOffset ctx hctx]
    constructor
    · rintro ⟨r, hr⟩
      cases hs : seekEntry (fun e => decide (StringOffset ≥ e.StartingOffset) &&
          decide (StringOffset ≤ dwordAdd e.StartingOffset e.LengthInChars))
          ctx.MatchList ctx.MaxDepth with
      | none => rw [hs] at hr; cases hr
      | some e =>
        obtain ⟨h1, h2, _⟩ := seekEntry_some _ _ _ e hs
        exact ⟨e, h1, (htest e h1).mp h2⟩
    · rintro ⟨e, he, ht⟩
      cases hs : seekEntry (fun e => decide (StringOffset ≥ e.StartingOffset) &&
          decide (StringOffset ≤ dwordAdd e.StartingOffset e.LengthInChars))
          ctx.MatchList ctx.MaxDepth with
      | none =>
        exact absurd (seekEntry_none _ _ _ hs e he ((htest e he).mpr ht)
          (hinv.depth e he).1 (hinv.depth e he).2) id
      | some e1 => exact ⟨_, rfl⟩
  · intro r hr
    rw [findBest_eq Str StringOffset ctx hctx] at hr
    cases hs : seekEntry (fun e => decide (StringOffset ≥ e.StartingOffset) &&
        decide (StringOffset ≤ dwordAdd e.StartingOffset e.LengthInChars))
        ctx.MatchList ctx.MaxDepth with
    | none => rw [hs] at hr; cases hr
    | some e =>
      rw [hs] at hr
      simp only [Option.map_some', Option.some.injEq] at hr
      obtain ⟨h1, h2, _, _, h5, _⟩ := seekEntry_some _ _ _ e hs
      obtain ⟨t1, t2⟩ := (htest e h1).mp h2
      exact ⟨e, h1, hr.symm, t1, t2, fun e1 he1 a1 a2 =>
        h5 e1 he1 ((htest e1 he1).mpr ⟨a1, a2⟩) (hinv.depth e1 he1).2⟩
  · intro e he ht ha
    exact (hinv.range e he).2 (isOpen_of e ⟨ht, ha⟩)

/-- C15 (amended): for every string (its length being a DWORD), with
allocation taken to succeed YoriShParseBackquoteSubstrings returns TRUE,
also when entries are left open; YoriShFindNextBackquoteSubstring reports no
substring exactly when no entry is terminated, and an entry it returns is
terminated, never an open or abandoned one. -/
theorem C15_open_entries_are_kept (Str : List Char) (hL : Str.length < 2 ^ 32) :
    ∃ ctx, YoriShParseBackquoteSubstrings Str = some ctx ∧
      (YoriShFindNextBackquoteSubstring Str = none ↔
        ∀ e ∈ ctx.MatchList, e.Terminated = false) ∧
      ∀ r, YoriShFindNextBackquoteSubstring Str = some r →
        ∃ e ∈ ctx.MatchList, r.1 = ⟨e.StartingOffset, e.LengthInChars⟩ ∧
          e.Terminated = true ∧ e.isOpen = false := by
  obtain ⟨ctx, hctx, hinv⟩ := parseBackquote_inv Str hL
  refine ⟨ctx, hctx, ?_, ?_⟩
  · rw [findNext_eq Str ctx hctx]
    constructor
    · intro hn e he
      cases hs : seekEntry (fun e => e.Terminated) ctx.MatchList ctx.MaxDepth with
      | some e1 => rw [hs] at hn; cases hn
      | none =>
        by_contra ht
        exact seekEntry_none _ _ _ hs e he (by simpa using ht) (hinv.depth e he).1
          (hinv.depth e he).2
    · intro hall
      cases hs : seekEntry (fun e => e.Terminated) ctx.MatchList ctx.MaxDepth with
      | none => rfl
      | some e =>
        obtain ⟨h1, h2, _⟩ := seekEntry_some _ _ _ e hs
        rw [hall e h1] at h2
        cases h2
  · intro r hr
    rw [findNext_eq Str ctx hctx] at hr
    cases hs : seekEntry (fun e => e.Terminated) ctx.MatchList ctx.MaxDepth with
    | none => rw [hs] at hr; cases hr
    | some e =>
      rw [hs] at hr
      simp only [Option.map_some', Option.some.injEq] at hr
      obtain ⟨h1, h2, _⟩ := seekEntry_some _ _ _ e hs
      refine ⟨e, h1, by rw [← hr], h2, ?_⟩
      simp [YORI_SH_BACKQUOTE_ENTRY.isOpen, h2]

theorem backquoteLoop_plain (L : Nat) (rest : List Char) :
    ∀ (r : List Char) (Index : Nat) (ctx : YORI_SH_BACKQUOTE_CONTEXT),
      (∀ c ∈ r, isSubstitutionChar c = false) →
      backquoteLoop L (r ++ rest) Index ctx = backquoteLoop L rest (Index + r.length) ctx := by
  intro r
  induction r with
  | nil =>
    intro Index ctx _
    simp
  | cons c r ih =>
    intro Index ctx h
    have hc := h c (by simp)
    simp only [isSubstitutionChar, Bool.or_eq_false_iff, beq_eq_false_iff_ne, ne_eq] at hc
    obtain ⟨⟨⟨h1, h2⟩, h3⟩, h4⟩ := hc
    rw [List.cons_append, backquoteLoop.eq_def]
    simp only [h1, h2, h3, h4, Bool.false_eq_true, if_false, false_and]
    rw [ih (Index + 1) ctx (fun d hd => h d (List.mem_cons_of_mem _ hd))]
    simp only [List.length_cons]
    congr 1
    omega

theorem replaced_scan (r : List Char) (hr : ∀ c ∈ r, isSubstitutionChar c = false)
    (hlen : r.length + 13 < 2 ^ 32) :
    YoriShParseBackquoteSubstrings
        (['e', 'c', 'h', 'o', ' ', '$', '(', 'e', 'c', 'h', 'o', ' '] ++ r ++ [')']) =
      some { MatchList := [{ LengthInChars := r.length + 5, StartingOffset := 7, TreeDepth := 1,
                             NewStyleMatch := true, Terminated := true, Abandoned := false }],
             MatchCount := 1, MaxDepth := 1, CurrentDepth := 0 } := by
  rw [parseBackquote_total]
  have e1 : ['e', 'c', 'h', 'o', ' ', '$', '(', 'e', 'c', 'h', 'o', ' '] ++ r ++ [')'] =
      ['e', 'c', 'h', 'o', ' '] ++ ('$' :: '(' :: (['e', 'c', 'h', 'o', ' '] ++ r ++ [')'])) := by
    simp
  have hlen2 : (['e', 'c', 'h', 'o', ' ', '$', '(', 'e', 'c', 'h', 'o', ' '] ++ r ++
      [')']).length = r.length + 13 := by
    simp
  rw [hlen2, e1, backquoteLoop_plain _ _ ['e', 'c', 'h', 'o', ' '] 0 _ (by decide)]
  rw [backquoteLoop.eq_def]
  simp only [show YoriLibIsEscapeChar '$' = false by decide, Bool.false_eq_true, if_false,
    show ¬ ('$' = '`') by decide, show ¬ ('$' = ')') by decide, List.head?_cons, true_and,
    if_true]
  have e2 : '(' :: (['e', 'c', 'h', 'o', ' '] ++ r ++ [')']) =
      ('(' :: 'e' :: 'c' :: 'h' :: 'o' :: ' ' :: r) ++ [')'] := by simp
  rw [e2, backquoteLoop_plain _ _ _ _ _ (by
    intro c hc
    simp only [List.mem_cons] at hc
    rcases hc with rfl | rfl | rfl | rfl | rfl | rfl | hc
    · decide
    · decide
    · decide
    · decide
    · decide
    · decide
    · exact hr c hc)]
  simp only [backquoteLoop, show YoriLibIsEscapeChar ')' = false by decide,
    Bool.false_eq_true, if_false, show ¬ (')' = '`') by decide, if_true,
    YoriShAllocateBackquoteEntry, YoriShTerminateMatchingBackquoteEntry, List.nil_append,
    List.reverse_singleton, terminateWalk, and_self, List.length_cons, List.length_nil]
  rw [dwordSub_eq _ 7 (by omega) (by omega), dwordSub_eq _ 1 (by norm_num) (by norm_num)]
  simp
  omega

/-- C12: the scan of `echo $(echo` followed by a backquoted `echo x` and
`)` has maximum depth 2 and YoriShFindNextBackquoteSubstring returns the
substring `echo x` (offset 13, length 6) with a prefix length of 1; after
that region with its two backticks is replaced by a text `r` holding none of
the characters the scan acts on, the next call returns the contents
`echo ` followed by `r` of the outer `$(...)` (offset 7) with a prefix
length of 2. -/
theorem C12_innermost_first (r : List Char) (hr : ∀ c ∈ r, isSubstitutionChar c = false)
    (hlen : r.length + 13 < 2 ^ 32) :
    (YoriShParseBackquoteSubstrings nestedSample).map (fun ctx => ctx.MaxDepth) = some 2 ∧
    YoriShFindNextBackquoteSubstring nestedSample = some (⟨13, 6⟩, 1) ∧
    SubsetString.text nestedSample ⟨13, 6⟩ = ['e', 'c', 'h', 'o', ' ', 'x'] ∧
    YoriShFindNextBackquoteSubstring
        (nestedSample.take (13 - 1) ++ r ++ nestedSample.drop (13 + 6 + 1)) =
      some (⟨7, r.length + 5⟩, 2) ∧
    SubsetString.text (nestedSample.take (13 - 1) ++ r ++ nestedSample.drop (13 + 6 + 1))
        ⟨7, r.length + 5⟩ = ['e', 'c', 'h', 'o', ' '] ++ r := by
  have hT : nestedSample.take (13 - 1) ++ r ++ nestedSample.drop (13 + 6 + 1) =
      ['e', 'c', 'h', 'o', ' ', '$', '(', 'e', 'c', 'h', 'o', ' '] ++ r ++ [')'] := rfl
  refine ⟨by decide!, by decide!, by decide, ?_, ?_⟩
  · rw [hT, findNext_eq _ _ (replaced_scan r hr hlen)]
    simp [seekEntry]
  · rw [hT]
    simp only [SubsetString.text, List.cons_append, List.nil_append, List.drop_succ_cons,
      List.drop_zero]
    rw [show 'e' :: 'c' :: 'h' :: 'o' :: ' ' :: (r ++ [')']) =
      ('e' :: 'c' :: 'h' :: 'o' :: ' ' :: r) ++ [')'] by simp]
    exact List.take_left' (by simp)

/-- C12 witness: the replacement text `x`. -/
theorem C12_innermost_first_witness :
    YoriShFindNextBackquoteSubstring nestedSample = some (⟨13, 6⟩, 1) ∧
    YoriShFindNextBackquoteSubstring
        (nestedSample.take (13 - 1) ++ ['x'] ++ nestedSample.drop (13 + 6 + 1)) =
      some (⟨7, 6⟩, 2) :=
  ⟨(C12_innermost_first ['x'] (by decide) (by norm_num)).2.1,
    (C12_innermost_first ['x'] (by decide) (by norm_num)).2.2.2.1⟩

/-- C13 witness: a string with a backquoted `a` and `$(b)`. -/
theorem C13_find_next_substring_witness :
    ∃ ctx, YoriShParseBackquoteSubstrings ['`', 'a', '`', ' ', '$', '(', 'b', ')'] = some ctx ∧
      ((∃ r, YoriShFindNextBackquoteSubstring ['`', 'a', '`', ' ', '$', '(', 'b', ')'] =
          some r) ↔
        ∃ e ∈ ctx.MatchList, e.Terminated = true) := by
  obtain ⟨ctx, h1, h2, _⟩ :=
    C13_find_next_substring ['`', 'a', '`', ' ', '$', '(', 'b', ')'] (by norm_num)
  exact ⟨ctx, h1, h2⟩

/-- C14 witness: the string `echo` followed by a space, a backtick and `ab`,
whose only entry is open, with the offset 7. -/
theorem C14_find_best_substring_witness :
    ∃ ctx, YoriShParseBackquoteSubstrings ['e', 'c', 'h', 'o', ' ', '`', 'a', 'b'] = some ctx ∧
      ((∃ r, YoriShFindBestBackquoteSubstringAtOffset
          ['e', 'c', 'h', 'o', ' ', '`', 'a', 'b'] 7 = some r) ↔
        ∃ e ∈ ctx.MatchList, e.StartingOffset ≤ 7 ∧
          7 ≤ e.StartingOffset + e.LengthInChars) := by
  obtain ⟨ctx, h1, h2, _⟩ :=
    C14_find_best_substring ['e', 'c', 'h', 'o', ' ', '`', 'a', 'b'] (by norm_num) 7
  exact ⟨ctx, h1, h2⟩

/-- C15 witness: the string made of a backtick and `a`. -/
theorem C15_open_entries_are_kept_witness :
    ∃ ctx, YoriShParseBackquoteSubstrings ['`', 'a'] = some ctx ∧
      (YoriShFindNextBackquoteSubstring ['`', 'a'] = none ↔
        ∀ e ∈ ctx.MatchList, e.Terminated = false) := by
  obtain ⟨ctx, h1, h2, _⟩ := C15_open_entries_are_kept ['`', 'a'] (by norm_num)
  exact ⟨ctx, h1, h2⟩

/-- C15 counterexample: the scan of the string made of a backtick and `a`
leaves its only entry open and YoriShParseBackquoteSubstrings returns TRUE
with it; in the string with a backquoted `a`, a space, a backtick and `b`
the second entry is left open and YoriShFindNextBackquoteSubstring returns
the substring `a`. -/
theorem C15_counterexample_open_entry :
    YoriShParseBackquoteSubstrings ['`', 'a'] =
      some { MatchList := [{ LengthInChars := 1, StartingOffset := 1, TreeDepth := 1,
                             NewStyleMatch := false, Terminated := false,
                             Abandoned := false }],
             MatchCount := 1, MaxDepth := 1, CurrentDepth := 1 } ∧
    (YoriShParseBackquoteSubstrings ['`', 'a', '`', ' ', '`', 'b']).map
        (fun ctx => ctx.MatchList.map (fun e => e.isOpen)) = some [false, true] ∧
    YoriShFindNextBackquoteSubstring ['`', 'a', '`', ' ', '`', 'b'] = some (⟨1, 1⟩, 1) := by
  refine ⟨by decide!, by decide!, by decide!⟩

theorem tokenize_open_quote (s : List Char) (c : Nat) (t : Bool)
    (h : ∀ c ∈ s, YoriLibIsEscapeChar c = false ∧ c ≠ '"') :
    tokenize ('"' :: s) c t = [⟨s, true⟩] := by
  have hT : YoriShTrimSpacesFromBeginning ('"' :: s) = '"' :: s :=
    trim_cons_of_ne _ _ (by decide)
  unfold tokenize
  rw [hT]
  simp only [reduceCtorEq, if_false]
  change tokensFrom _ = _
  unfold fillInit
  rw [hT, tokensFrom_mk]
  simp only [List.head?_cons, decide_True]
  have := tokens_inquote_run s [] [] [] 0 true true h
  rw [List.append_nil] at this
  rw [tokens_open_quote, this, tokens_end]
  simp

/-- C30: for every text `s` without double quote and escape character,
tokenizing a double quote followed by `s` succeeds and gives the same ArgC
and the same arguments (text and quoted flag) as tokenizing the same text
with a closing double quote appended: ArgC is 1 and the single argument is
the environment expansion of `s` with the quoted flag set, also when `s`
is empty. -/
theorem C30_unterminated_quote (Expand : List Char → List Char) (s : List Char)
    (CurrentOffset : Nat) (hs : ∀ c ∈ s, YoriLibIsEscapeChar c = false ∧ c ≠ '"') :
    ∃ ctx1 ctx2,
      YoriShParseCmdlineToCmdContext Expand ('"' :: s) CurrentOffset = some ctx1 ∧
      YoriShParseCmdlineToCmdContext Expand ('"' :: (s ++ ['"'])) CurrentOffset = some ctx2 ∧
      ctx1.ArgC = ctx2.ArgC ∧ ctx1.ArgV = ctx2.ArgV ∧
      ctx1.ArgC = 1 ∧ ctx1.ArgV = [⟨Expand s, true⟩] := by
  obtain ⟨sz, _, h2, h3⟩ := parse_eq Expand ('"' :: s) CurrentOffset
  obtain ⟨sz2, _, k2, k3⟩ := parse_eq Expand ('"' :: (s ++ ['"'])) CurrentOffset
  rw [tokenize_open_quote s _ _ hs] at h2 h3
  rw [tokenize_quoted s _ _ hs] at k2 k3
  refine ⟨_, _, h3, k3, ?_, ?_, ?_, ?_⟩
  · simp only [h2, k2]
  · simp
  · simpa using h2
  · simp

/-- C30 witness: the line made of a double quote and `a b`. -/
theorem C30_unterminated_quote_witness :
    ∃ ctx1 ctx2,
      YoriShParseCmdlineToCmdContext id ['"', 'a', ' ', 'b'] 0 = some ctx1 ∧
      YoriShParseCmdlineToCmdContext id ('"' :: (['a', ' ', 'b'] ++ ['"'])) 0 = some ctx2 ∧
      ctx1.ArgC = ctx2.ArgC ∧ ctx1.ArgV = ctx2.ArgV ∧
      ctx1.ArgC = 1 ∧ ctx1.ArgV = [⟨id ['a', ' ', 'b'], true⟩] :=
  C30_unterminated_quote id ['a', ' ', 'b'] 0 (by decide)

theorem tokens_escape_pair (c d : Char) (out r : List Char) (av : List Arg) (len : Nat)
    (q o l : Bool) (hc : YoriLibIsEscapeChar c = true) :
    tokensFrom (mkFill out (c :: d :: r) av len q o l) =
      tokensFrom (mkFill (out ++ [c, d]) r av len q o l) := by
  rw [tokensFrom_step _ (by simp [mkFill])]
  apply tokensFrom_congr
  simp [fillStep, mkFill, hc, FillState.core]

theorem tokens_escape_last (c : Char) (out : List Char) (av : List Arg) (len : Nat)
    (q o l : Bool) (hc : YoriLibIsEscapeChar c = true) :
    tokensFrom (mkFill out [c] av len q o l) =
      tokensFrom (mkFill (out ++ [c]) [] av len q o l) := by
  rw [tokensFrom_step _ (by simp [mkFill])]
  apply tokensFrom_congr
  simp [fillStep, mkFill, hc, FillState.core]

theorem escape_not_plain (c : Char) (hc : YoriLibIsEscapeChar c = true) :
    c ≠ ' ' ∧ c ≠ '"' ∧ c ≠ '>' := by
  simp only [YoriLibIsEscapeChar, beq_iff_eq] at hc
  subst hc
  decide

theorem fillInit_word (line : List Char) (c : Nat) (t : Bool) (x : Char) (r : List Char)
    (hl : line = x :: r) (hs : x ≠ ' ') (hq : x ≠ '"') :
    tokenize line c t = tokensFrom (mkFill [] line [] 0 false false false) := by
  have hT : YoriShTrimSpacesFromBeginning line = line := by
    rw [hl]
    exact trim_cons_of_ne _ _ hs
  unfold tokenize
  rw [hT, hl]
  simp only [reduceCtorEq, if_false]
  change tokensFrom _ = _
  unfold fillInit
  rw [← hl, hT, tokensFrom_mk, hl]
  simp [hq]

theorem head_word (w1 : List Char) (c : Char) (rest : List Char)
    (h1 : ∀ x ∈ w1, isPlainChar x = true) (hc : YoriLibIsEscapeChar c = true) :
    ∃ x r, w1 ++ c :: rest = x :: r ∧ x ≠ ' ' ∧ x ≠ '"' := by
  cases w1 with
  | nil => exact ⟨c, rest, rfl, (escape_not_plain c hc).1, (escape_not_plain c hc).2.1⟩
  | cons x w =>
    have := (plain_iff x).mp (h1 x (by simp))
    exact ⟨x, w ++ c :: rest, rfl, this.2.2.2, this.2.2.1⟩

theorem tokenize_escape_pair (c d : Char) (w1 w2 : List Char) (n : Nat) (t : Bool)
    (hc : YoriLibIsEscapeChar c = true) (h1 : ∀ x ∈ w1, isPlainChar x = true)
    (h2 : ∀ x ∈ w2, isPlainChar x = true) :
    tokenize (w1 ++ c :: d :: w2) n t = [⟨w1 ++ c :: d :: w2, false⟩] := by
  obtain ⟨x, r, hl, hs, hq⟩ := head_word w1 c (d :: w2) h1 hc
  rw [fillInit_word _ n t x r hl hs hq]
  rw [tokens_plain_run w1 [] _ [] 0 false false h1 (by
    simp only [List.head?_cons, ne_eq, Option.some.injEq]
    exact (escape_not_plain c hc).2.2)]
  rw [tokens_escape_pair c d _ _ _ _ _ _ _ hc]
  have := tokens_plain_run w2 ([] ++ w1 ++ [c, d]) [] [] 0 false false h2 (by simp)
  rw [List.append_nil] at this
  rw [this, tokens_end]
  simp

theorem tokenize_escape_last (c : Char) (w1 : List Char) (n : Nat) (t : Bool)
    (hc : YoriLibIsEscapeChar c = true) (h1 : ∀ x ∈ w1, isPlainChar x = true) :
    tokenize (w1 ++ [c]) n t = [⟨w1 ++ [c], false⟩] := by
  obtain ⟨x, r, hl, hs, hq⟩ := head_word w1 c [] h1 hc
  rw [fillInit_word _ n t x r hl hs hq]
  rw [tokens_plain_run w1 [] _ [] 0 false false h1 (by
    simp only [List.head?_cons, ne_eq, Option.some.injEq]
    exact (escape_not_plain c hc).2.2)]
  rw [tokens_escape_last c _ _ _ _ _ _ hc, tokens_end]
  simp

/-- C29: in both passes of the tokenizer an iteration that starts at an
escape character consumes it together with the character after it (alone
when it is the last character of the line): the fill pass appends both
characters to the argument in progress and changes nothing else (no
argument is ended, the quote state and the operator variables keep their
values), the sizing pass counts both characters and leaves the loop only
at the end of the line.  A line made of plain characters around one
escaped character, whatever that character is, is one argument whose text
is the whole line with the escape character retained. -/
theorem C29_escape_pair (Expand : List Char → List Char) (CurrentOffset : Nat) (c d : Char)
    (w1 w2 : List Char) (hc : YoriLibIsEscapeChar c = true)
    (h1 : ∀ x ∈ w1, isPlainChar x = true) (h2 : ∀ x ∈ w2, isPlainChar x = true) :
    (∀ (s : FillState) (rest : List Char), s.Char = c :: d :: rest →
      fillStep s = { s with CurOut := s.CurOut ++ [c, d], Char := rest }) ∧
    (∀ s : FillState, s.Char = [c] →
      fillStep s = { s with CurOut := s.CurOut ++ [c], Char := [] }) ∧
    (∀ (L off : Nat) (s : SizingState) (rest : List Char), s.Char = c :: d :: rest →
      sizingStep L off s =
        ({ s with Char := rest, RequiredCharCount := s.RequiredCharCount + 2,
                  ArgCount := if rest = [] then s.ArgCount + 1 else s.ArgCount }, false)) ∧
    (∀ (L off : Nat) (s : SizingState), s.Char = [c] →
      sizingStep L off s =
        ({ s with Char := [], RequiredCharCount := s.RequiredCharCount + 1,
                  ArgCount := s.ArgCount + 1 }, false)) ∧
    (∃ ctx, YoriShParseCmdlineToCmdContext Expand (w1 ++ c :: d :: w2) CurrentOffset =
        some ctx ∧
      ctx.ArgC = 1 ∧ ctx.ArgV = [⟨Expand (w1 ++ c :: d :: w2), false⟩]) ∧
    (∃ ctx, YoriShParseCmdlineToCmdContext Expand (w1 ++ [c]) CurrentOffset = some ctx ∧
      ctx.ArgC = 1 ∧ ctx.ArgV = [⟨Expand (w1 ++ [c]), false⟩]) := by
  refine ⟨?_, ?_, ?_, ?_, ?_, ?_⟩
  · intro s rest hs
    simp [fillStep, hs, hc]
  · intro s hs
    simp [fillStep, hs, hc]
  · intro L off s rest hs
    simp [sizingStep, hs, hc]
  · intro L off s hs
    simp [sizingStep, hs, hc]
  · obtain ⟨sz, _, k2, k3⟩ := parse_eq Expand (w1 ++ c :: d :: w2) CurrentOffset
    rw [tokenize_escape_pair c d w1 w2 _ _ hc h1 h2] at k2 k3
    exact ⟨_, k3, by simpa using k2, by simp⟩
  · obtain ⟨sz, _, k2, k3⟩ := parse_eq Expand (w1 ++ [c]) CurrentOffset
    rw [tokenize_escape_last c w1 _ _ hc h1] at k2 k3
    exact ⟨_, k3, by simpa using k2, by simp⟩

/-- C29 witness: the line `a^ b`, an escaped space between `a` and `b`, is
one argument of four characters. -/
theorem C29_escape_pair_witness :
    ∃ ctx, YoriShParseCmdlineToCmdContext id (['a'] ++ '^' :: ' ' :: ['b']) 0 = some ctx ∧
      ctx.ArgC = 1 ∧ ctx.ArgV = [⟨id (['a'] ++ '^' :: ' ' :: ['b']), false⟩] :=
  (C29_escape_pair id 0 '^' ' ' ['a'] ['b'] (by decide) (by decide) (by decide)).2.2.2.2.1

theorem progSep_exact_end (s : List Char) (e : Bool) :
    YoriShIsArgumentProgramSeperator s e =
      (decide (s ∈ [['&'], ['&', '&'], ['\n'], ['|'], ['|', '|']]) ||
        (e && decide (s ∈ [['&', '!'], ['&', '!', '!']]))) := by
  unfold YoriShIsArgumentProgramSeperator
  rw [compare_exact ['&'] (by decide), compare_exact ['&', '&'] (by decide),
    compare_exact ['\n'] (by decide), compare_exact ['|'] (by decide),
    compare_exact ['|', '|'] (by decide), compare_exact ['&', '!'] (by decide),
    compare_exact ['&', '!', '!'] (by decide)]
  cases e <;> simp

theorem specEndsProgram_eq (ctx : YORI_SH_CMD_CONTEXT) (j : Nat) :
    specEndsProgram ctx j = isBoundaryAt ctx j := by
  unfold specEndsProgram isBoundaryAt
  rw [progSep_exact_end]

theorem boundaryLoop_before (ctx : YORI_SH_CMD_CONTEXT) (hC : ctx.ArgC = ctx.ArgV.length) :
    ∀ (m k : Nat), k + m = ctx.ArgC → ∀ j, k ≤ j →
      j < boundaryLoop ctx.ArgC k (ctx.ArgV.drop k) → isBoundaryAt ctx j = false := by
  intro m
  induction m with
  | zero =>
    intro k hk j hj hlt
    have : ctx.ArgV.drop k = [] := by
      apply List.drop_eq_nil_of_le
      omega
    rw [this] at hlt
    simp only [boundaryLoop] at hlt
    omega
  | succ m ih =>
    intro k hk j hj hlt
    have hkl : k < ctx.ArgC := by omega
    have hat := boundaryLoop_at ctx k hC hkl
    cases hb : isBoundaryAt ctx k with
    | true =>
      rw [hat.1 hb] at hlt
      omega
    | false =>
      by_cases hjk : j = k
      · rw [hjk]
        exact hb
      · apply ih (k + 1) (by omega) j (by omega)
        have hn : ¬ ((ctx.arg k).Quoted = false ∧
            YoriShIsArgumentProgramSeperator (ctx.arg k).Text (decide (k = ctx.ArgC - 1)) =
              true) := by
          rintro ⟨h1, h2⟩
          simp [isBoundaryAt, h1, h2] at hb
        rw [drop_arg ctx k (by omega)] at hlt
        simp only [boundaryLoop, hkl, if_true, hn, if_false] at hlt
        exact hlt

theorem boundaryLoop_stop (ctx : YORI_SH_CMD_CONTEXT) (hC : ctx.ArgC = ctx.ArgV.length)
    (k : Nat) (hk : k ≤ ctx.ArgC)
    (hlt : boundaryLoop ctx.ArgC k (ctx.ArgV.drop k) < ctx.ArgC) :
    isBoundaryAt ctx (boundaryLoop ctx.ArgC k (ctx.ArgV.drop k)) = true := by
  obtain ⟨b1, _, b3⟩ := boundaryLoop_spec ctx.ArgC (ctx.ArgV.drop k) k
    (by rw [List.length_drop]; omega)
  obtain ⟨a, ha, hq, hs⟩ := b3 hlt
  have harg := arg_of_drop ctx _ _ a ha
  rw [show k + (boundaryLoop ctx.ArgC k (ctx.ArgV.drop k) - k) =
    boundaryLoop ctx.ArgC k (ctx.ArgV.drop k) by omega] at harg
  simp [isBoundaryAt, harg, hq, hs]

/-- C21: for every command line and start index `i < ArgC`, the count
returned by YoriShParseCmdContextToExecContext is the number of arguments
from `i` up to, not including, the first argument at or after `i` that is
unquoted and equals `&`, `&&`, `|`, `||` or newline, or equals `&!` or `&!!`
and is the last argument; it is `ArgC - i` when there is none.  A quoted
argument, and `&!` or `&!!` elsewhere than last, is not such an argument. -/
theorem C21_consumed_count (Lib : PathLibrary) (ctx : YORI_SH_CMD_CONTEXT) (i : Nat)
    (hC : ctx.ArgC = ctx.ArgV.length) (hi : i < ctx.ArgC) :
    i + (YoriShParseCmdContextToExecContext Lib ctx i).1 ≤ ctx.ArgC ∧
    (∀ j, i ≤ j → j < i + (YoriShParseCmdContextToExecContext Lib ctx i).1 →
      specEndsProgram ctx j = false) ∧
    (i + (YoriShParseCmdContextToExecContext Lib ctx i).1 < ctx.ArgC →
      specEndsProgram ctx (i + (YoriShParseCmdContextToExecContext Lib ctx i).1) = true) ∧
    ((∀ j, i ≤ j → j < ctx.ArgC → specEndsProgram ctx j = false) →
      (YoriShParseCmdContextToExecContext Lib ctx i).1 = ctx.ArgC - i) := by
  obtain ⟨b1, b2, _⟩ := boundaryLoop_spec ctx.ArgC (ctx.ArgV.drop i) i
    (by rw [List.length_drop]; omega)
  have e : i + (YoriShParseCmdContextToExecContext Lib ctx i).1 =
      boundaryLoop ctx.ArgC i (ctx.ArgV.drop i) := by
    rw [exec_consumed]
    omega
  rw [e]
  refine ⟨b2, fun j h1 h2 => ?_, fun h => ?_, fun hall => ?_⟩
  · rw [specEndsProgram_eq]
    exact boundaryLoop_before ctx hC (ctx.ArgC - i) i (by omega) j h1 h2
  · rw [specEndsProgram_eq]
    exact boundaryLoop_stop ctx hC i (by omega) h
  · by_contra hne
    have hlt : boundaryLoop ctx.ArgC i (ctx.ArgV.drop i) < ctx.ArgC := by omega
    have h1 := boundaryLoop_stop ctx hC i (by omega) hlt
    rw [← specEndsProgram_eq, hall _ b1 hlt] at h1
    cases h1

/-- C21 witness: in the command line `a "|" &! b | c` (the first `|`
quoted) the run that starts at index 0 has four arguments. -/
theorem C21_consumed_count_witness :
    (YoriShParseCmdContextToExecContext ⟨fun _ => false, fun s => '/' :: s⟩
      ⟨6, [⟨['a'], false⟩, ⟨['|'], true⟩, ⟨['&', '!'], false⟩, ⟨['b'], false⟩,
        ⟨['|'], false⟩, ⟨['c'], false⟩], 0, false⟩ 0).1 = 4 ∧
    specEndsProgram ⟨6, [⟨['a'], false⟩, ⟨['|'], true⟩, ⟨['&', '!'], false⟩, ⟨['b'], false⟩,
        ⟨['|'], false⟩, ⟨['c'], false⟩], 0, false⟩ 4 = true := by
  have h := C21_consumed_count ⟨fun _ => false, fun s => '/' :: s⟩
    ⟨6, [⟨['a'], false⟩, ⟨['|'], true⟩, ⟨['&', '!'], false⟩, ⟨['b'], false⟩,
      ⟨['|'], false⟩, ⟨['c'], false⟩], 0, false⟩ 0 rfl (by decide)
  have h4 : (YoriShParseCmdContextToExecContext ⟨fun _ => false, fun s => '/' :: s⟩
      ⟨6, [⟨['a'], false⟩, ⟨['|'], true⟩, ⟨['&', '!'], false⟩, ⟨['b'], false⟩,
        ⟨['|'], false⟩, ⟨['c'], false⟩], 0, false⟩ 0).1 = 4 := by decide
  refine ⟨h4, ?_⟩
  have := h.2.2.1
  rw [h4] at this
  exact this (by decide)

theorem scanRedirect_remove (a : Arg) (e : YORI_SH_SINGLE_EXEC_CONTEXT) :
    (scanRedirect a e).RemoveThisArg = (!a.Quoted && beginsRedirection a.Text) := by
  obtain ⟨t, q⟩ := a
  cases q
  · simp only [scanRedirect, Bool.not_false, Bool.true_and, if_true]
    rcases t with _ | ⟨c0, _ | ⟨c1, r⟩⟩
    · simp [scanStdErr, scanStdOut, scanStdIn, charAt, beginsRedirection, NUL]
    · by_cases h0 : c0 = '<'
      · subst h0
        simp [scanStdErr, scanStdOut, scanStdIn, charAt, beginsRedirection]
      by_cases h1 : c0 = '>'
      · subst h1
        simp [scanStdErr, scanStdOut, scanStdOutAt, scanStdIn, charAt, beginsRedirection, NUL]
      simp [scanStdErr, scanStdOut, scanStdIn, charAt, beginsRedirection, h0, h1, NUL]
    · by_cases h0 : c0 = '<'
      · subst h0
        simp [scanStdErr, scanStdOut, scanStdIn, charAt, beginsRedirection]
      by_cases h1 : c0 = '>'
      · subst h1
        simp only [scanStdErr, scanStdOut, scanStdOutAt, scanStdIn, charAt, beginsRedirection]
        simp
        split_ifs <;> rfl
      by_cases h2 : c0 = '1'
      · subst h2
        by_cases h3 : c1 = '>'
        · subst h3
          simp only [scanStdErr, scanStdOut, scanStdOutAt, scanStdIn, charAt,
            beginsRedirection]
          simp
          split_ifs <;> rfl
        · simp [scanStdErr, scanStdOut, scanStdIn, charAt, beginsRedirection, h3]
      by_cases h4 : c0 = '2'
      · subst h4
        by_cases h3 : c1 = '>'
        · subst h3
          simp only [scanStdErr, scanStdOut, scanStdOutAt, scanStdIn, charAt,
            beginsRedirection]
          simp
          split_ifs <;> rfl
        · simp [scanStdErr, scanStdOut, scanStdIn, charAt, beginsRedirection, h3]
      simp [scanStdErr, scanStdOut, scanStdIn, charAt, beginsRedirection, h0, h1, h2, h4]
  · simp [scanRedirect]

theorem scanRedirect_quoted (a : Arg) (e : YORI_SH_SINGLE_EXEC_CONTEXT)
    (hq : a.Quoted = true) : scanRedirect a e = ⟨e, false, 0, none⟩ := by
  simp [scanRedirect, hq]

theorem scanRedirect_seeks (a : Arg) (e : YORI_SH_SINGLE_EXEC_CONTEXT) :
    seeksTarget (scanRedirect a e) a =
      (!a.Quoted && decide (a.Text ∈ redirectionAlone)) := by
  obtain ⟨t, q⟩ := a
  cases q
  · simp only [scanRedirect, Bool.not_false, Bool.true_and, if_true, seeksTarget]
    rcases t with _ | ⟨c0, _ | ⟨c1, _ | ⟨c2, r⟩⟩⟩
    · simp [scanStdErr, scanStdOut, scanStdIn, charAt, redirectionAlone, NUL]
    · by_cases h0 : c0 = '<'
      · subst h0
        simp [scanStdErr, scanStdOut, scanStdIn, charAt, redirectionAlone]
      by_cases h1 : c0 = '>'
      · subst h1
        simp [scanStdErr, scanStdOut, scanStdOutAt, scanStdIn, charAt, redirectionAlone, NUL]
      simp [scanStdErr, scanStdOut, scanStdIn, charAt, redirectionAlone, h0, h1, NUL]
    · by_cases h0 : c0 = '<'
      · subst h0
        simp [scanStdErr, scanStdOut, scanStdIn, charAt, redirectionAlone]
      by_cases h1 : c0 = '>'
      · subst h1
        by_cases h5 : c1 = '>'
        · subst h5
          simp [scanStdErr, scanStdOut, scanStdOutAt, scanStdIn, charAt, redirectionAlone]
        by_cases h6 : c1 = '&'
        · subst h6
          simp [scanStdErr, scanStdOut, scanStdOutAt, scanStdIn, charAt, redirectionAlone, NUL]
        simp [scanStdErr, scanStdOut, scanStdOutAt, scanStdIn, charAt, redirectionAlone, h5, h6]
      by_cases h2 : c0 = '1'
      · subst h2
        by_cases h3 : c1 = '>'
        · subst h3
          simp [scanStdErr, scanStdOut, scanStdOutAt, scanStdIn, charAt, redirectionAlone, NUL]
        · simp [scanStdErr, scanStdOut, scanStdIn, charAt, redirectionAlone, h3]
      by_cases h4 : c0 = '2'
      · subst h4
        by_cases h3 : c1 = '>'
        · subst h3
          simp [scanStdErr, scanStdOut, scanStdOutAt, scanStdIn, charAt, redirectionAlone, NUL]
        · simp [scanStdErr, scanStdOut, scanStdIn, charAt, redirectionAlone, h3]
      simp [scanStdErr, scanStdOut, scanStdIn, charAt, redirectionAlone, h0, h1, h2, h4]
    · by_cases h0 : c0 = '<'
      · subst h0
        simp [scanStdErr, scanStdOut, scanStdIn, charAt, redirectionAlone]
      by_cases h1 : c0 = '>'
      · subst h1
        by_cases h5 : c1 = '>'
        · subst h5
          simp [scanStdErr, scanStdOut, scanStdOutAt, scanStdIn, charAt, redirectionAlone]
        by_cases h6 : c1 = '&'
        · subst h6
          simp only [scanStdErr, scanStdOut, scanStdOutAt, scanStdIn, charAt, redirectionAlone]
          simp
          split_ifs <;> simp
        simp [scanStdErr, scanStdOut, scanStdOutAt, scanStdIn, charAt, redirectionAlone, h5, h6]
      by_cases h2 : c0 = '1'
      · subst h2
        by_cases h3 : c1 = '>'
        · subst h3
          by_cases h5 : c2 = '>'
          · subst h5
            simp [scanStdErr, scanStdOut, scanStdOutAt, scanStdIn, charAt, redirectionAlone]
          by_cases h6 : c2 = '&'
          · subst h6
            simp only [scanStdErr, scanStdOut, scanStdOutAt, scanStdIn, charAt,
              redirectionAlone]
            simp
            split_ifs <;> simp
          simp [scanStdErr, scanStdOut, scanStdOutAt, scanStdIn, charAt, redirectionAlone,
            h5, h6]
        · simp [scanStdErr, scanStdOut, scanStdIn, charAt, redirectionAlone, h3]
      by_cases h4 : c0 = '2'
      · subst h4
        by_cases h3 : c1 = '>'
        · subst h3
          by_cases h5 : c2 = '>'
          · subst h5
            simp [scanStdErr, scanStdOut, scanStdOutAt, scanStdIn, charAt, redirectionAlone]
          by_cases h6 : c2 = '&'
          · subst h6
            simp only [scanStdErr, scanStdOut, scanStdOutAt, scanStdIn, charAt,
              redirectionAlone]
            simp
            split_ifs <;> simp
          simp [scanStdErr, scanStdOut, scanStdOutAt, scanStdIn, charAt, redirectionAlone,
            h5, h6]
        · simp [scanStdErr, scanStdOut, scanStdIn, charAt, redirectionAlone, h3]
      simp [scanStdErr, scanStdOut, scanStdIn, charAt, redirectionAlone, h0, h1, h2, h4]
  · simp [scanRedirect, seeksTarget]

theorem scanRedirect_slot (a : Arg) (e : YORI_SH_SINGLE_EXEC_CONTEXT)
    (hq : a.Quoted = false) (h : a.Text ∈ redirectionAlone) :
    (scanRedirect a e).ExecContextRedirectString = some (redirectSlot a.Text) ∧
    (scanRedirect a e).CharOffset = a.Text.length := by
  obtain ⟨t, q⟩ := a
  simp only at hq h
  subst hq
  simp only [redirectionAlone, List.mem_cons, List.mem_singleton, List.not_mem_nil,
    or_false] at h
  rcases h with rfl | rfl | rfl | rfl | rfl | rfl | rfl <;>
    simp [scanRedirect, scanStdErr, scanStdOut, scanStdOutAt, scanStdIn, charAt, redirectSlot,
      NUL]

theorem scanStdOutAt_remove (t : List Char) (k : Nat) (r : RedirectScan) :
    (scanStdOutAt t k r).RemoveThisArg = true := by
  unfold scanStdOutAt
  dsimp only
  split_ifs <;> rfl

theorem scanRedirect_slot_remove (a : Arg) (e : YORI_SH_SINGLE_EXEC_CONTEXT)
    (slot : RedirectString) (h : (scanRedirect a e).ExecContextRedirectString = some slot) :
    (scanRedirect a e).RemoveThisArg = true := by
  have key : ∀ r : RedirectScan,
      (r.ExecContextRedirectString.isSome = true → r.RemoveThisArg = true) →
      ∀ t, ((scanStdErr t (scanStdOut t (scanStdIn t r))).ExecContextRedirectString.isSome =
          true →
        (scanStdErr t (scanStdOut t (scanStdIn t r))).RemoveThisArg = true) := by
    intro r hr t
    have h1 : (scanStdIn t r).ExecContextRedirectString.isSome = true →
        (scanStdIn t r).RemoveThisArg = true := by
      unfold scanStdIn
      split_ifs
      · intro _
        rfl
      · exact hr
    have h2 : (scanStdOut t (scanStdIn t r)).ExecContextRedirectString.isSome = true →
        (scanStdOut t (scanStdIn t r)).RemoveThisArg = true := by
      unfold scanStdOut
      dsimp only
      split_ifs
      · intro _
        exact scanStdOutAt_remove _ _ _
      · intro _
        exact scanStdOutAt_remove _ _ _
      · intro _
        exact scanStdOutAt_remove _ _ _
      · exact h1
    unfold scanStdErr
    dsimp only
    split_ifs
    all_goals first
      | exact h2
      | (intro _; rfl)
  obtain ⟨t, q⟩ := a
  cases q
  · simp only [scanRedirect, if_true] at h ⊢
    exact key _ (by simp) t (by rw [h]; rfl)
  · simp [scanRedirect] at h

theorem programArgs_nil (s : Bool) : programArgs s [] = [] := by
  cases s <;> rfl

theorem programArgs_target (a : Arg) (rest : List Arg) :
    programArgs true (a :: rest) =
      programArgs (decide (a.Text.length = 0 ∧ rest ≠ [])) rest := by
  simp [programArgs, argRoles]

theorem programArgs_redirection (a : Arg) (rest : List Arg)
    (h : a.Quoted = false ∧ beginsRedirection a.Text = true) :
    programArgs false (a :: rest) =
      programArgs (decide (a.Text ∈ redirectionAlone ∧ rest ≠ [])) rest := by
  simp [programArgs, argRoles, h]

theorem programArgs_program (a : Arg) (rest : List Arg)
    (h : ¬ (a.Quoted = false ∧ beginsRedirection a.Text = true)) :
    programArgs false (a :: rest) = a :: programArgs false rest := by
  simp only [programArgs, argRoles, h, if_false]
  simp

theorem alone_begins (t : List Char) (h : t ∈ redirectionAlone) :
    beginsRedirection t = true := by
  simp only [redirectionAlone, List.mem_cons, List.mem_singleton, List.not_mem_nil,
    or_false] at h
  rcases h with rfl | rfl | rfl | rfl | rfl | rfl | rfl <;> decide

/-- The program arguments copied by the second loop of
`YoriShParseCmdContextToExecContext` are the arguments with the role
`Program`. -/
theorem execLoop_programArgs (Lib : PathLibrary) (run : List Arg) :
    ∀ (m : Option RedirectString) (e : YORI_SH_SINGLE_EXEC_CONTEXT),
      (execLoop Lib m run e).CmdToExec = e.CmdToExec ++ programArgs m.isSome run := by
  induction run with
  | nil =>
    intro m e
    cases m <;> simp [execLoop, programArgs_nil]
  | cons a rest ih =>
    intro m e
    cases m with
    | some slot =>
      simp only [execLoop, Option.isSome_some]
      rw [programArgs_target]
      split_ifs with h
      · rw [ih]
        simp [h]
      · rw [ih, storeRedirectString_cmd]
        rw [decide_eq_false h]
        rfl
    | none =>
      simp only [execLoop, Option.isSome_none]
      have hrem := scanRedirect_remove a e
      have hseek := scanRedirect_seeks a e
      cases hs : (scanRedirect a e).ExecContextRedirectString with
      | some slot =>
        have hr := scanRedirect_slot_remove a e slot hs
        rw [hr] at hrem
        have hcond : a.Quoted = false ∧ beginsRedirection a.Text = true := by
          have := hrem.symm
          simpa using this
        rw [programArgs_redirection a rest hcond]
        simp only [seeksTarget, hs, Option.isSome_some, Bool.true_and] at hseek
        dsimp only
        split_ifs with h
        · rw [ih, scanRedirect_cmd]
          have hal : a.Text ∈ redirectionAlone := by
            have := hseek.symm
            simp only [decide_eq_true h.1, Bool.and_eq_true, Bool.not_eq_true',
              decide_eq_true_eq] at this
            exact this.2
          simp [hal, h.2]
        · rw [ih]
          simp only [copyArgUnlessRemoved, hr, if_true, storeRedirectString_cmd,
            scanRedirect_cmd, Option.isSome_none]
          have hfl : decide (a.Text ∈ redirectionAlone ∧ rest ≠ []) = false := by
            rw [decide_eq_false_iff_not]
            rintro ⟨hal, hne⟩
            have h2 : decide (a.Text.length = (scanRedirect a e).CharOffset) = true := by
              rw [hseek]
              simp [hcond.1, hal]
            exact h ⟨by simpa using h2, hne⟩
          rw [hfl]
      | none =>
        dsimp only
        rw [ih]
        simp only [seeksTarget, hs, Option.isSome_none, Bool.false_and] at hseek
        by_cases hr : (scanRedirect a e).RemoveThisArg = true
        · rw [hr] at hrem
          have hcond : a.Quoted = false ∧ beginsRedirection a.Text = true := by
            have := hrem.symm
            simpa using this
          rw [programArgs_redirection a rest hcond]
          have hnal : a.Text ∉ redirectionAlone := by
            intro hal
            have := hseek
            simp [hcond.1, hal] at this
          simp [copyArgUnlessRemoved, hr, scanRedirect_cmd, hnal]
        · have hr2 : (scanRedirect a e).RemoveThisArg = false := by simpa using hr
          rw [hr2] at hrem
          have hcond : ¬ (a.Quoted = false ∧ beginsRedirection a.Text = true) := by
            rintro ⟨h1, h2⟩
            simp [h1, h2] at hrem
          rw [programArgs_program a rest hcond]
          simp [copyArgUnlessRemoved, hr2, scanRedirect_cmd]

theorem argRoles_length (run : List Arg) : ∀ s, (argRoles s run).length = run.length := by
  induction run with
  | nil => intro s; cases s <;> rfl
  | cons a rest ih =>
    intro s
    cases s
    · simp only [argRoles]
      split_ifs <;> simp [ih]
    · simp [argRoles, ih]

theorem seekingAfter_true_ne (pre : List Arg) (h : seekingAfter true pre = false) :
    pre ≠ [] := by
  rintro rfl
  simp [seekingAfter] at h

theorem execLoop_some_cons (Lib : PathLibrary) (slot : RedirectString) (a : Arg)
    (rest : List Arg) (e : YORI_SH_SINGLE_EXEC_CONTEXT) :
    execLoop Lib (some slot) (a :: rest) e =
      if a.Text.length = 0 ∧ rest ≠ [] then execLoop Lib (some slot) rest e
      else
        execLoop Lib none rest
          (storeRedirectString slot (YoriShCheckForDeviceNameAndDuplicate Lib a.Text 0) e) := by
  rw [execLoop]

theorem execLoop_none_seek (Lib : PathLibrary) (slot : RedirectString) (a : Arg)
    (rest : List Arg) (e : YORI_SH_SINGLE_EXEC_CONTEXT)
    (hs : (scanRedirect a e).ExecContextRedirectString = some slot)
    (hl : a.Text.length = (scanRedirect a e).CharOffset) (hne : rest ≠ []) :
    execLoop Lib none (a :: rest) e =
      execLoop Lib (some slot) rest (scanRedirect a e).ExecContext := by
  rw [execLoop]
  simp only [hs]
  rw [if_pos ⟨hl, hne⟩]

theorem execLoop_none_store (Lib : PathLibrary) (slot : RedirectString) (a : Arg)
    (rest : List Arg) (e : YORI_SH_SINGLE_EXEC_CONTEXT)
    (hs : (scanRedirect a e).ExecContextRedirectString = some slot)
    (hl : ¬ (a.Text.length = (scanRedirect a e).CharOffset ∧ rest ≠ [])) :
    execLoop Lib none (a :: rest) e =
      execLoop Lib none rest
        (copyArgUnlessRemoved (scanRedirect a e).RemoveThisArg a
          (storeRedirectString slot
            (YoriShCheckForDeviceNameAndDuplicate Lib a.Text (scanRedirect a e).CharOffset)
            (scanRedirect a e).ExecContext)) := by
  rw [execLoop]
  simp only [hs]
  rw [if_neg hl]

theorem execLoop_none_plain (Lib : PathLibrary) (a : Arg)
    (rest : List Arg) (e : YORI_SH_SINGLE_EXEC_CONTEXT)
    (hs : (scanRedirect a e).ExecContextRedirectString = none) :
    execLoop Lib none (a :: rest) e =
      execLoop Lib none rest
        (copyArgUnlessRemoved (scanRedirect a e).RemoveThisArg a
          (scanRedirect a e).ExecContext) := by
  rw [execLoop]
  simp only [hs]

theorem execLoop_append (Lib : PathLibrary) (rest : List Arg) (hrest : rest ≠ []) :
    ∀ (pre : List Arg) (m : Option RedirectString) (e : YORI_SH_SINGLE_EXEC_CONTEXT),
      seekingAfter m.isSome pre = false →
      execLoop Lib m (pre ++ rest) e = execLoop Lib none rest (execLoop Lib m pre e) := by
  intro pre
  induction pre with
  | nil =>
    intro m e h
    cases m with
    | none => simp [execLoop]
    | some slot => simp [seekingAfter] at h
  | cons a pre ih =>
    intro m e h
    have hne : pre ++ rest ≠ [] := by simp [hrest]
    cases m with
    | some slot =>
      simp only [Option.isSome_some, seekingAfter] at h
      rw [List.cons_append, execLoop_some_cons, execLoop_some_cons]
      by_cases hz : a.Text.length = 0
      · have hp := seekingAfter_true_ne pre (by simpa [hz] using h)
        rw [if_pos ⟨hz, hne⟩, if_pos ⟨hz, hp⟩]
        exact ih (some slot) e (by simpa [hz] using h)
      · rw [if_neg (fun hc => hz hc.1), if_neg (fun hc => hz hc.1)]
        exact ih none _ (by simpa [hz] using h)
    | none =>
      simp only [Option.isSome_none, seekingAfter] at h
      rw [List.cons_append]
      have hseek := scanRedirect_seeks a e
      cases hs : (scanRedirect a e).ExecContextRedirectString with
      | some slot =>
        simp only [seeksTarget, hs, Option.isSome_some, Bool.true_and] at hseek
        by_cases hl : a.Text.length = (scanRedirect a e).CharOffset
        · have hal : (a.Quoted = false ∧ a.Text ∈ redirectionAlone) := by
            have := hseek.symm
            simpa [hl] using this
          have h2 : seekingAfter true pre = false := by simpa [hal] using h
          have hp := seekingAfter_true_ne pre h2
          rw [execLoop_none_seek Lib slot a _ e hs hl hne,
            execLoop_none_seek Lib slot a _ e hs hl hp]
          exact ih (some slot) _ h2
        · have hal : ¬ (a.Quoted = false ∧ a.Text ∈ redirectionAlone) := by
            intro hal
            have := hseek
            simp [hl, hal] at this
          rw [execLoop_none_store Lib slot a _ e hs (fun hc => hl hc.1),
            execLoop_none_store Lib slot a _ e hs (fun hc => hl hc.1)]
          exact ih none _ (by simpa [hal] using h)
      | none =>
        simp only [seeksTarget, hs, Option.isSome_none, Bool.false_and] at hseek
        have hal : ¬ (a.Quoted = false ∧ a.Text ∈ redirectionAlone) := by
          intro hal
          have := hseek
          simp [hal] at this
        rw [execLoop_none_plain Lib a _ e hs, execLoop_none_plain Lib a _ e hs]
        exact ih none _ (by simpa [hal] using h)

theorem execLoop_skip (Lib : PathLibrary) (slot : RedirectString) (t : Arg) (post : List Arg)
    (ht : t.Text.length ≠ 0 ∨ post = []) :
    ∀ (skipped : List Arg) (e : YORI_SH_SINGLE_EXEC_CONTEXT),
      (∀ x ∈ skipped, x.Text.length = 0) →
      execLoop Lib (some slot) (skipped ++ t :: post) e =
        execLoop Lib none post
          (storeRedirectString slot (YoriShCheckForDeviceNameAndDuplicate Lib t.Text 0) e) := by
  intro skipped
  induction skipped with
  | nil =>
    intro e _
    rw [List.nil_append, execLoop_some_cons, if_neg]
    rintro ⟨h1, h2⟩
    rcases ht with ht | ht
    · exact ht h1
    · exact h2 ht
  | cons x skipped ih =>
    intro e hs
    rw [List.cons_append, execLoop_some_cons, if_pos ⟨hs x (by simp), by simp⟩]
    exact ih e (fun y hy => hs y (by simp [hy]))

/-- C23: for every consumed run in which a redirection argument that is not
itself consumed as the target of an earlier redirection consists of the
operator alone and is followed, in the same run, by arguments of length
zero and then by an argument `t` that has a non-zero length or is the last
of the run: the file name of the redirection is taken from `t`, whatever
its quoted flag and its text, the scan goes on behind `t`, and the program
ArgV holds only program arguments of the part before the operator and of
the part behind `t`. -/
theorem C23_target_from_next_argument (Lib : PathLibrary) (ctx : YORI_SH_CMD_CONTEXT)
    (i : Nat) (pre : List Arg) (op : Arg) (skipped : List Arg) (t : Arg) (post : List Arg)
    (hrun : (ctx.ArgV.drop i).take (YoriShParseCmdContextToExecContext Lib ctx i).1 =
      pre ++ op :: (skipped ++ t :: post))
    (hpre : seekingAfter false pre = false)
    (hop : op.Quoted = false ∧ op.Text ∈ redirectionAlone)
    (hskip : ∀ x ∈ skipped, x.Text.length = 0)
    (ht : t.Text.length ≠ 0 ∨ post = []) :
    (YoriShParseCmdContextToExecContext Lib ctx i).2 =
      execLoop Lib none post
        (storeRedirectString (redirectSlot op.Text)
          (YoriShCheckForDeviceNameAndDuplicate Lib t.Text 0)
          (scanRedirect op (execLoop Lib none pre initialExecContext)).ExecContext) ∧
    (YoriShParseCmdContextToExecContext Lib ctx i).2.CmdToExec =
      programArgs false pre ++ programArgs false post := by
  have h1 : (YoriShParseCmdContextToExecContext Lib ctx i).2 =
      execLoop Lib none (pre ++ op :: (skipped ++ t :: post)) initialExecContext := by
    rw [← hrun]
    rfl
  have h2 : execLoop Lib none (pre ++ op :: (skipped ++ t :: post)) initialExecContext =
      execLoop Lib none post
        (storeRedirectString (redirectSlot op.Text)
          (YoriShCheckForDeviceNameAndDuplicate Lib t.Text 0)
          (scanRedirect op (execLoop Lib none pre initialExecContext)).ExecContext) := by
    rw [execLoop_append Lib _ (by simp) pre none _ hpre]
    obtain ⟨s1, s2⟩ := scanRedirect_slot op (execLoop Lib none pre initialExecContext) hop.1
      hop.2
    rw [execLoop_none_seek Lib _ op _ _ s1 s2.symm (by simp)]
    exact execLoop_skip Lib _ t post ht skipped _ hskip
  refine ⟨h1.trans h2, ?_⟩
  rw [h1, h2, execLoop_programArgs, storeRedirectString_cmd, scanRedirect_cmd,
    execLoop_programArgs]
  simp [initialExecContext, zeroExecContext]

/-- C23 witness: in the command line `a > "" "x y" b` (the last but one
argument quoted, the one before it empty) the file name of `>` is taken
from the quoted argument and the program is `a b`. -/
theorem C23_target_from_next_argument_witness :
    (YoriShParseCmdContextToExecContext ⟨fun _ => false, fun s => '/' :: s⟩
      ⟨5, [⟨['a'], false⟩, ⟨['>'], false⟩, ⟨[], false⟩, ⟨['x', ' ', 'y'], true⟩,
        ⟨['b'], false⟩], 0, false⟩ 0).2 =
      execLoop ⟨fun _ => false, fun s => '/' :: s⟩ none [⟨['b'], false⟩]
        (storeRedirectString (redirectSlot ['>'])
          (YoriShCheckForDeviceNameAndDuplicate ⟨fun _ => false, fun s => '/' :: s⟩
            ['x', ' ', 'y'] 0)
          (scanRedirect ⟨['>'], false⟩
            (execLoop ⟨fun _ => false, fun s => '/' :: s⟩ none [⟨['a'], false⟩]
              initialExecContext)).ExecContext) ∧
    (YoriShParseCmdContextToExecContext ⟨fun _ => false, fun s => '/' :: s⟩
      ⟨5, [⟨['a'], false⟩, ⟨['>'], false⟩, ⟨[], false⟩, ⟨['x', ' ', 'y'], true⟩,
        ⟨['b'], false⟩], 0, false⟩ 0).2.CmdToExec =
      programArgs false [⟨['a'], false⟩] ++ programArgs false [⟨['b'], false⟩] :=
  C23_target_from_next_argument ⟨fun _ => false, fun s => '/' :: s⟩
    ⟨5, [⟨['a'], false⟩, ⟨['>'], false⟩, ⟨[], false⟩, ⟨['x', ' ', 'y'], true⟩,
      ⟨['b'], false⟩], 0, false⟩ 0
    [⟨['a'], false⟩] ⟨['>'], false⟩ [⟨[], false⟩] ⟨['x', ' ', 'y'], true⟩ [⟨['b'], false⟩]
    (by decide) (by decide) (by decide) (by decide) (by decide)

theorem scanStdIn_merges (t : List Char) (r : RedirectScan) :
    mergesBothWays (scanStdIn t r).ExecContext = mergesBothWays r.ExecContext := by
  unfold scanStdIn
  split_ifs <;> rfl

theorem scanStdOutAt_merges (t : List Char) (k : Nat) (r : RedirectScan) :
    mergesBothWays (scanStdOutAt t k r).ExecContext = false := by
  unfold scanStdOutAt mergesBothWays YoriShExecContextCleanupStdOut
  dsimp only
  split_ifs <;> simp_all

theorem scanStdOut_merges (t : List Char) (r : RedirectScan)
    (h : mergesBothWays r.ExecContext = false) :
    mergesBothWays (scanStdOut t r).ExecContext = false := by
  unfold scanStdOut
  dsimp only
  split_ifs
  · exact scanStdOutAt_merges _ _ _
  · exact scanStdOutAt_merges _ _ _
  · exact scanStdOutAt_merges _ _ _
  · exact h

theorem scanStdErr_merges (t : List Char) (r : RedirectScan)
    (h : mergesBothWays r.ExecContext = false) :
    mergesBothWays (scanStdErr t r).ExecContext = false := by
  unfold mergesBothWays at h ⊢
  unfold scanStdErr YoriShExecContextCleanupStdErr
  dsimp only
  split_ifs <;> simp_all

theorem scanRedirect_merges (a : Arg) (e : YORI_SH_SINGLE_EXEC_CONTEXT)
    (h : mergesBothWays e = false) : mergesBothWays (scanRedirect a e).ExecContext = false := by
  unfold scanRedirect
  dsimp only
  split_ifs
  · apply scanStdErr_merges
    apply scanStdOut_merges
    rw [scanStdIn_merges]
    exact h
  · exact h

theorem storeRedirectString_merges (slot : RedirectString) (n : List Char)
    (e : YORI_SH_SINGLE_EXEC_CONTEXT) :
    mergesBothWays (storeRedirectString slot n e) = mergesBothWays e := by
  cases slot <;> rfl

theorem copyArgUnlessRemoved_merges (b : Bool) (a : Arg) (e : YORI_SH_SINGLE_EXEC_CONTEXT) :
    mergesBothWays (copyArgUnlessRemoved b a e) = mergesBothWays e := by
  unfold copyArgUnlessRemoved
  split_ifs <;> rfl

theorem execLoop_merges (Lib : PathLibrary) (run : List Arg) :
    ∀ (m : Option RedirectString) (e : YORI_SH_SINGLE_EXEC_CONTEXT),
      mergesBothWays e = false → mergesBothWays (execLoop Lib m run e) = false := by
  induction run with
  | nil =>
    intro m e h
    cases m <;> simpa [execLoop] using h
  | cons a rest ih =>
    intro m e h
    cases m with
    | some slot =>
      rw [execLoop_some_cons]
      split_ifs
      · exact ih _ _ h
      · exact ih _ _ (by rw [storeRedirectString_merges]; exact h)
    | none =>
      have hr := scanRedirect_merges a e h
      cases hs : (scanRedirect a e).ExecContextRedirectString with
      | some slot =>
        by_cases hl : a.Text.length = (scanRedirect a e).CharOffset ∧ rest ≠ []
        · rw [execLoop_none_seek Lib slot a rest e hs hl.1 hl.2]
          exact ih _ _ hr
        · rw [execLoop_none_store Lib slot a rest e hs hl]
          exact ih _ _ (by
            rw [copyArgUnlessRemoved_merges, storeRedirectString_merges]
            exact hr)
      | none =>
        rw [execLoop_none_plain Lib a rest e hs]
        exact ih _ _ (by rw [copyArgUnlessRemoved_merges]; exact hr)

theorem exec_merges (Lib : PathLibrary) (ctx : YORI_SH_CMD_CONTEXT) (i : Nat) :
    mergesBothWays (YoriShParseCmdContextToExecContext Lib ctx i).2 = false :=
  execLoop_merges Lib _ none initialExecContext (by decide)

theorem trailingBackground_merges (ctx : YORI_SH_CMD_CONTEXT) (cur c : Nat)
    (Plan : YORI_SH_EXEC_PLAN) (node : YORI_SH_SINGLE_EXEC_CONTEXT)
    (h : mergesBothWays node = false) :
    mergesBothWays (trailingBackground ctx cur Plan node c).2.1 = false := by
  unfold trailingBackground
  dsimp only
  split_ifs
  · exact h
  · rfl
  · exact h
  · exact h
  · exact h
  · exact h

theorem linkPrograms_merges (t : List Char) (prev node : YORI_SH_SINGLE_EXEC_CONTEXT)
    (hp : mergesBothWays prev = false) (hn : mergesBothWays node = false) :
    mergesBothWays (linkPrograms t prev node).1 = false ∧
    mergesBothWays (linkPrograms t prev node).2 = false := by
  unfold mergesBothWays at hp hn ⊢
  unfold linkPrograms
  split_ifs <;> simp_all

theorem linkChain_merges (chain : List YORI_SH_SINGLE_EXEC_CONTEXT) (t : List Char)
    (node : YORI_SH_SINGLE_EXEC_CONTEXT)
    (hc : ∀ x ∈ chain, mergesBothWays x = false) (hn : mergesBothWays node = false) :
    ∀ x ∈ linkChain chain t node, mergesBothWays x = false := by
  unfold linkChain
  cases hl : chain.getLast? with
  | none =>
    intro x hx
    simp only [List.mem_singleton] at hx
    rw [hx]
    exact hn
  | some prev =>
    have hprev : prev ∈ chain := List.mem_of_getLast?_eq_some hl
    obtain ⟨h1, h2⟩ := linkPrograms_merges t prev node (hc prev hprev) hn
    intro x hx
    simp only [List.mem_append, List.mem_cons, List.mem_singleton, List.not_mem_nil,
      or_false] at hx
    rcases hx with hx | rfl | rfl
    · exact hc x (List.mem_of_mem_dropLast hx)
    · exact h1
    · exact h2

theorem planStep_merges (Lib : PathLibrary) (ctx : YORI_SH_CMD_CONTEXT) (s s1 : PlanState)
    (h : ∀ x ∈ s.Plan.FirstCmd, mergesBothWays x = false)
    (hstep : planStep Lib ctx s = some s1) :
    ∀ x ∈ s1.Plan.FirstCmd, mergesBothWays x = false := by
  obtain ⟨c0, node, hexec⟩ : ∃ c0 node,
      YoriShParseCmdContextToExecContext Lib ctx s.CurrentArg = (c0, node) := ⟨_, _, rfl⟩
  have hc0 : c0 ≠ 0 := by
    intro h0
    unfold planStep at hstep
    rw [hexec] at hstep
    simp [h0] at hstep
  rw [planStep_eq Lib ctx s c0 node hexec hc0] at hstep
  have hs1 := (Option.some.inj hstep).symm
  have hnode : mergesBothWays node = false := by
    have := exec_merges Lib ctx s.CurrentArg
    rw [hexec] at this
    exact this
  rw [hs1]
  dsimp only
  rw [trailingBackground_firstCmd]
  exact linkChain_merges _ _ _ h (trailingBackground_merges ctx _ _ _ _ hnode)

theorem planLoop_merges (Lib : PathLibrary) (ctx : YORI_SH_CMD_CONTEXT) (fuel : Nat) :
    ∀ s sf : PlanState, (∀ x ∈ s.Plan.FirstCmd, mergesBothWays x = false) →
      planLoop Lib ctx fuel s = some (some sf) →
      ∀ x ∈ sf.Plan.FirstCmd, mergesBothWays x = false := by
  induction fuel with
  | zero =>
    intro s sf hinv h
    by_cases hlt : s.CurrentArg < ctx.ArgC
    · rw [planLoop.eq_def] at h
      simp [hlt] at h
    · rw [planLoop_done Lib ctx _ s hlt] at h
      simp only [Option.some.injEq] at h
      exact h ▸ hinv
  | succ fuel ih =>
    intro s sf hinv h
    by_cases hlt : s.CurrentArg < ctx.ArgC
    · cases hstep : planStep Lib ctx s with
      | none =>
        rw [planLoop.eq_def] at h
        simp [hlt, hstep] at h
      | some s1 =>
        rw [planLoop_step Lib ctx fuel s s1 hlt hstep] at h
        exact ih s1 sf (planStep_merges Lib ctx s s1 hinv hstep) h
    · rw [planLoop_done Lib ctx _ s hlt] at h
      simp only [Option.some.injEq] at h
      exact h ▸ hinv

theorem plan_merges (Lib : PathLibrary) (ctx : YORI_SH_CMD_CONTEXT)
    (plan : YORI_SH_EXEC_PLAN)
    (h : YoriShParseCmdContextToExecPlan Lib ctx = some (some plan)) :
    ∀ x ∈ plan.FirstCmd, mergesBothWays x = false := by
  unfold YoriShParseCmdContextToExecPlan at h
  simp only at h
  split at h
  · simp at h
  · simp at h
  · rename_i sf hsf
    simp only [Option.some.injEq] at h
    subst h
    exact planLoop_merges Lib ctx _ _ sf (by intro x hx; simp at hx) hsf

/-- C24: in the exec context produced by YoriShParseCmdContextToExecContext,
for every command line and start index, and in every node of every plan
produced by YoriShParseCmdContextToExecPlan, stdout is not sent to stderr
while stderr is sent to stdout.  An unquoted argument that begins with
`>&2` or `1>&2` sets stdout to stderr and resets a stderr that was sent to
stdout to the default; an unquoted argument that begins with `2>&1` sets
stderr to stdout and resets a stdout that was sent to stderr to the
default. -/
theorem C24_no_crossed_merge (Lib : PathLibrary) :
    (∀ (ctx : YORI_SH_CMD_CONTEXT) (i : Nat),
      mergesBothWays (YoriShParseCmdContextToExecContext Lib ctx i).2 = false) ∧
    (∀ (ctx : YORI_SH_CMD_CONTEXT) (plan : YORI_SH_EXEC_PLAN),
      YoriShParseCmdContextToExecPlan Lib ctx = some (some plan) →
      ∀ node ∈ plan.FirstCmd, mergesBothWays node = false) ∧
    (∀ (e : YORI_SH_SINGLE_EXEC_CONTEXT) (t r : List Char),
      t = '>' :: '&' :: '2' :: r ∨ t = '1' :: '>' :: '&' :: '2' :: r →
      (scanRedirect ⟨t, false⟩ e).ExecContext.StdOutType = .StdErr ∧
      (scanRedirect ⟨t, false⟩ e).ExecContext.StdErrType =
        (if e.StdErrType = .StdOut then .Default else e.StdErrType)) ∧
    (∀ (e : YORI_SH_SINGLE_EXEC_CONTEXT) (r : List Char),
      (scanRedirect ⟨'2' :: '>' :: '&' :: '1' :: r, false⟩ e).ExecContext.StdErrType =
        .StdOut ∧
      (scanRedirect ⟨'2' :: '>' :: '&' :: '1' :: r, false⟩ e).ExecContext.StdOutType =
        (if e.StdOutType = .StdErr then .Default else e.StdOutType)) := by
  refine ⟨exec_merges Lib, plan_merges Lib, ?_, ?_⟩
  · rintro e t r (rfl | rfl) <;>
      simp [scanRedirect, scanStdErr, scanStdOut, scanStdOutAt, scanStdIn, charAt,
        YoriShExecContextCleanupStdOut, YoriShExecContextCleanupStdIn]
  · intro e r
    simp [scanRedirect, scanStdErr, scanStdOut, scanStdOutAt, scanStdIn, charAt,
      YoriShExecContextCleanupStdErr, YoriShExecContextCleanupStdIn]

theorem isOpen_split (e : YORI_SH_BACKQUOTE_ENTRY) :
    (e.Terminated = false ∧ e.Abandoned = false) ↔ e.isOpen = true := by
  constructor
  · exact isOpen_of e
  · intro h
    by_contra hc
    rw [isOpen_of_not e hc] at h
    cases h

theorem terminateWalk_backtick_blocked (Offset : Nat) (A : YORI_SH_BACKQUOTE_ENTRY)
    (older : List YORI_SH_BACKQUOTE_ENTRY) (hA : A.isOpen = true)
    (hN : A.NewStyleMatch = true) :
    ∀ (newer : List YORI_SH_BACKQUOTE_ENTRY) (d : Nat), (∀ e ∈ newer, e.isOpen = false) →
      terminateWalk Offset false (newer ++ A :: older) d = (newer ++ A :: older, d, false) := by
  intro newer
  induction newer with
  | nil =>
    intro d _
    have h1 := (isOpen_split A).mpr hA
    simp only [List.nil_append]
    unfold terminateWalk
    rw [if_pos h1, if_neg (by rw [hN]; decide), if_pos rfl]
  | cons e rest ih =>
    intro d h
    have he : ¬ (e.Terminated = false ∧ e.Abandoned = false) := by
      intro hc
      have := h e (by simp)
      rw [isOpen_of e hc] at this
      cases this
    simp only [List.cons_append]
    unfold terminateWalk
    rw [if_neg he]
    dsimp only
    rw [ih d (fun x hx => h x (List.mem_cons_of_mem _ hx))]

theorem terminateWalk_paren_found (Offset : Nat) (A : YORI_SH_BACKQUOTE_ENTRY)
    (older : List YORI_SH_BACKQUOTE_ENTRY) (hA : A.isOpen = true)
    (hN : A.NewStyleMatch = true) :
    ∀ (newer : List YORI_SH_BACKQUOTE_ENTRY) (d : Nat),
      (∀ e ∈ newer, ¬ (e.isOpen = true ∧ e.NewStyleMatch = true)) →
      (terminateWalk Offset true (newer ++ A :: older) d).1 =
        newer.map (abandonAt Offset) ++ terminateAt Offset A :: older := by
  intro newer
  induction newer with
  | nil =>
    intro d _
    have h1 := (isOpen_split A).mpr hA
    simp only [List.nil_append, List.map_nil]
    unfold terminateWalk
    rw [if_pos h1, if_pos hN.symm]
    rfl
  | cons e rest ih =>
    intro d h
    have ihr := fun d1 => ih d1 (fun x hx => h x (List.mem_cons_of_mem _ hx))
    simp only [List.cons_append, List.map_cons]
    unfold terminateWalk
    by_cases he : e.Terminated = false ∧ e.Abandoned = false
    · have ho := isOpen_of e he
      have hn : ¬ (true = e.NewStyleMatch) := fun hc => h e (by simp) ⟨ho, hc.symm⟩
      rw [if_pos he, if_neg hn, if_neg (by decide)]
      dsimp only
      rw [ihr]
      simp [abandonAt, ho]
    · have ho := isOpen_of_not e he
      rw [if_neg he]
      dsimp only
      rw [ihr]
      simp [abandonAt, ho]

theorem terminateWalk_paren_none (Offset : Nat) :
    ∀ (l : List YORI_SH_BACKQUOTE_ENTRY) (d : Nat),
      (∀ e ∈ l, ¬ (e.isOpen = true ∧ e.NewStyleMatch = true)) →
      (terminateWalk Offset true l d).1 = l.map (abandonAt Offset) := by
  intro l
  induction l with
  | nil =>
    intro d _
    simp [terminateWalk]
  | cons e rest ih =>
    intro d h
    have ihr := fun d1 => ih d1 (fun x hx => h x (List.mem_cons_of_mem _ hx))
    simp only [List.map_cons]
    unfold terminateWalk
    by_cases he : e.Terminated = false ∧ e.Abandoned = false
    · have ho := isOpen_of e he
      have hn : ¬ (true = e.NewStyleMatch) := fun hc => h e (by simp) ⟨ho, hc.symm⟩
      rw [if_pos he, if_neg hn, if_neg (by decide)]
      dsimp only
      rw [ihr]
      simp [abandonAt, ho]
    · have ho := isOpen_of_not e he
      rw [if_neg he]
      dsimp only
      rw [ihr]
      simp [abandonAt, ho]

/-- C26 counterexample: in the scan of `$(` followed by a backtick, the
backtick meets the open dollar-paren entry; that entry is left open (not
abandoned) and a backtick entry of depth 2 is opened after the backtick. -/
theorem C26_counterexample_backtick_opens :
    YoriShParseBackquoteSubstrings ['$', '(', '`'] =
      some { MatchList := [{ LengthInChars := 1, StartingOffset := 2, TreeDepth := 1,
                             NewStyleMatch := true, Terminated := false,
                             Abandoned := false },
                           { LengthInChars := 0, StartingOffset := 3, TreeDepth := 2,
                             NewStyleMatch := false, Terminated := false,
                             Abandoned := false }],
             MatchCount := 2, MaxDepth := 2, CurrentDepth := 2 } := by
  decide!

/-- C26 (amended): during the backquote scan, when an unescaped backtick is
met at `Index` and the most recently opened entry that is still open is
dollar-paren-style, YoriShTerminateMatchingBackquoteEntry returns NULL and
changes nothing, and the scan goes on with a new open backtick-style entry
added at the end of the list: it starts after the backtick, runs to the end
of the string and is one level deeper than the current depth. -/
theorem C26_backtick_inside_dollar_paren (Length : Nat) (ctx : YORI_SH_BACKQUOTE_CONTEXT)
    (pre post : List YORI_SH_BACKQUOTE_ENTRY) (A : YORI_SH_BACKQUOTE_ENTRY)
    (rest : List Char) (Index : Nat)
    (hlist : ctx.MatchList = pre ++ A :: post)
    (hA : A.isOpen = true) (hN : A.NewStyleMatch = true)
    (hpost : ∀ e ∈ post, e.isOpen = false) :
    YoriShTerminateMatchingBackquoteEntry ctx Index false = (ctx, false) ∧
    backquoteLoop Length ('`' :: rest) Index ctx =
      backquoteLoop Length rest (Index + 1)
        (YoriShAllocateBackquoteEntry ctx Length (Index + 1) false) ∧
    (YoriShAllocateBackquoteEntry ctx Length (Index + 1) false).MatchList =
      pre ++ A :: post ++
        [{ LengthInChars := dwordSub Length (Index + 1), StartingOffset := Index + 1,
           TreeDepth := ctx.CurrentDepth + 1, NewStyleMatch := false,
           Terminated := false, Abandoned := false }] := by
  have hT : YoriShTerminateMatchingBackquoteEntry ctx Index false = (ctx, false) := by
    unfold YoriShTerminateMatchingBackquoteEntry
    dsimp only
    have hrev : ctx.MatchList.reverse = post.reverse ++ A :: pre.reverse := by
      rw [hlist]
      simp
    rw [hrev, terminateWalk_backtick_blocked Index A pre.reverse hA hN post.reverse
      ctx.CurrentDepth (fun e he => hpost e (List.mem_reverse.mp he))]
    dsimp only
    rw [← hrev, List.reverse_reverse]
  refine ⟨hT, ?_, ?_⟩
  · rw [backquoteLoop.eq_def]
    simp only [show YoriLibIsEscapeChar '`' = false by decide, Bool.false_eq_true, if_false,
      if_true, hT]
  · unfold YoriShAllocateBackquoteEntry
    dsimp only
    rw [hlist]

/-- Witness for C26: the state of the scan of `$(` + backtick when the
backtick is met. -/
theorem C26_backtick_inside_dollar_paren_witness :
    backquoteLoop 3 ['`'] 2
        { MatchList := [{ LengthInChars := 1, StartingOffset := 2, TreeDepth := 1,
                          NewStyleMatch := true, Terminated := false, Abandoned := false }],
          MatchCount := 1, MaxDepth := 1, CurrentDepth := 1 } =
      backquoteLoop 3 [] 3
        (YoriShAllocateBackquoteEntry
          { MatchList := [{ LengthInChars := 1, StartingOffset := 2, TreeDepth := 1,
                            NewStyleMatch := true, Terminated := false, Abandoned := false }],
            MatchCount := 1, MaxDepth := 1, CurrentDepth := 1 } 3 3 false) :=
  (C26_backtick_inside_dollar_paren 3
    { MatchList := [{ LengthInChars := 1, StartingOffset := 2, TreeDepth := 1,
                      NewStyleMatch := true, Terminated := false, Abandoned := false }],
      MatchCount := 1, MaxDepth := 1, CurrentDepth := 1 } []  []
    { LengthInChars := 1, StartingOffset := 2, TreeDepth := 1,
      NewStyleMatch := true, Terminated := false, Abandoned := false } [] 2 rfl rfl rfl
    (by simp)).2.1

/-- C27: during the backquote scan, when an unescaped `)` is met at
`Index`, the scan goes on with the entries YoriShTerminateMatchingBackquoteEntry
leaves.  If `A` is the newest open dollar-paren entry, `A` becomes
terminated with the length `Index - StartingOffset`, every open entry
newer than `A` (all of them backtick-style) becomes abandoned with the
length `Index - StartingOffset`, and every other entry is as it was.  If no
dollar-paren entry is open, every open entry becomes abandoned with that
length and every other entry is as it was.  For an entry that starts at or
before `Index` the new length ends at the `)`. -/
theorem C27_close_paren (Length : Nat) (ctx : YORI_SH_BACKQUOTE_CONTEXT)
    (rest : List Char) (Index : Nat) :
    backquoteLoop Length (')' :: rest) Index ctx =
      backquoteLoop Length rest (Index + 1)
        (YoriShTerminateMatchingBackquoteEntry ctx Index true).1 ∧
    (∀ (pre post : List YORI_SH_BACKQUOTE_ENTRY) (A : YORI_SH_BACKQUOTE_ENTRY),
      ctx.MatchList = pre ++ A :: post → A.isOpen = true → A.NewStyleMatch = true →
      (∀ e ∈ post, ¬ (e.isOpen = true ∧ e.NewStyleMatch = true)) →
      (YoriShTerminateMatchingBackquoteEntry ctx Index true).1.MatchList =
        pre ++ terminateAt Index A :: post.map (abandonAt Index)) ∧
    ((∀ e ∈ ctx.MatchList, ¬ (e.isOpen = true ∧ e.NewStyleMatch = true)) →
      (YoriShTerminateMatchingBackquoteEntry ctx Index true).1.MatchList =
        ctx.MatchList.map (abandonAt Index)) ∧
    (∀ e : YORI_SH_BACKQUOTE_ENTRY, e.isOpen = true → e.StartingOffset ≤ Index →
      Index < 2 ^ 32 →
      (terminateAt Index e).Terminated = true ∧
      (terminateAt Index e).StartingOffset + (terminateAt Index e).LengthInChars = Index ∧
      (abandonAt Index e).Abandoned = true ∧
      (abandonAt Index e).StartingOffset + (abandonAt Index e).LengthInChars = Index) := by
  refine ⟨?_, ?_, ?_, ?_⟩
  · rw [backquoteLoop.eq_def]
    simp only [show YoriLibIsEscapeChar ')' = false by decide, Bool.false_eq_true, if_false,
      show ¬ (')' = '`') by decide, if_true]
  · intro pre post A hlist hA hN hpost
    unfold YoriShTerminateMatchingBackquoteEntry
    dsimp only
    have hrev : ctx.MatchList.reverse = post.reverse ++ A :: pre.reverse := by
      rw [hlist]
      simp
    rw [hrev, terminateWalk_paren_found Index A pre.reverse hA hN post.reverse
      ctx.CurrentDepth (fun e he => hpost e (List.mem_reverse.mp he))]
    simp
  · intro h
    unfold YoriShTerminateMatchingBackquoteEntry
    dsimp only
    rw [terminateWalk_paren_none Index ctx.MatchList.reverse ctx.CurrentDepth
      (fun e he => h e (List.mem_reverse.mp he))]
    simp
  · intro e ho hs hI
    have hd := dwordSub_eq Index e.StartingOffset hI hs
    simp only [terminateAt, abandonAt, ho, if_true, hd]
    refine ⟨trivial, by omega, trivial, by omega⟩

/-- Witness for C27: a `)` at offset 9 with an open dollar-paren entry
followed by an open backtick entry, and with an open backtick entry
alone. -/
theorem C27_close_paren_witness :
    (YoriShTerminateMatchingBackquoteEntry
      { MatchList := [⟨20, 2, 1, true, false, false⟩, ⟨17, 5, 2, false, false, false⟩],
        MatchCount := 2, MaxDepth := 2, CurrentDepth := 2 } 9 true).1.MatchList =
      [⟨7, 2, 1, true, true, false⟩, ⟨4, 5, 2, false, false, true⟩] ∧
    (YoriShTerminateMatchingBackquoteEntry
      { MatchList := [⟨17, 5, 1, false, false, false⟩],
        MatchCount := 1, MaxDepth := 1, CurrentDepth := 1 } 9 true).1.MatchList =
      [⟨4, 5, 1, false, false, true⟩] :=
  ⟨(C27_close_paren 22
      { MatchList := [⟨20, 2, 1, true, false, false⟩, ⟨17, 5, 2, false, false, false⟩],
        MatchCount := 2, MaxDepth := 2, CurrentDepth := 2 } [] 9).2.1
      [] [⟨17, 5, 2, false, false, false⟩] ⟨20, 2, 1, true, false, false⟩ rfl rfl rfl
      (by decide),
   (C27_close_paren 22
      { MatchList := [⟨17, 5, 1, false, false, false⟩],
        MatchCount := 1, MaxDepth := 1, CurrentDepth := 1 } [] 9).2.2.1 (by decide)⟩

theorem backquoteLoopOpened_erase (L : Nat) :
    ∀ (n : Nat) (rest : List Char) (Index : Nat) (ctx : YORI_SH_BACKQUOTE_CONTEXT)
      (g : List Nat), rest.length ≤ n →
      (backquoteLoopOpened L rest Index ctx g).1 = (backquoteLoop L rest Index ctx).1 ∧
      (backquoteLoopOpened L rest Index ctx g).2.1 = (backquoteLoop L rest Index ctx).2 := by
  intro n
  induction n using Nat.strong_induction_on with
  | _ n ih =>
    intro rest Index ctx g hn
    cases rest with
    | nil => simp [backquoteLoop, backquoteLoopOpened]
    | cons c rest =>
      simp only [List.length_cons] at hn
      unfold backquoteLoop backquoteLoopOpened
      dsimp only
      split_ifs
      · cases rest with
        | nil => simp
        | cons d rest2 =>
          simp only [List.length_cons] at hn
          exact ih (n - 2) (by omega) rest2 (Index + 2) ctx g (by omega)
      all_goals exact ih (n - 1) (by omega) rest (Index + 1) _ _ (by omega)

/-- An invariant of the loop of `YoriShParseBackquoteSubstrings`: a
property that holds at the start, is kept when `Index` advances, by
`YoriShTerminateMatchingBackquoteEntry` called at a backtick or at `)`, and
by `YoriShAllocateBackquoteEntry`, holds when the loop ends. -/
theorem backquoteLoopOpened_inv_at (Str : List Char) (hL : Str.length < 2 ^ 32)
    (P : Nat → YORI_SH_BACKQUOTE_CONTEXT → List Nat → Prop)
    (hadv : ∀ i ctx g, P i ctx g → P (i + 1) ctx g)
    (hterm : ∀ i ctx g b, i < Str.length →
      Str[i]? = some (if b = true then ')' else '`') → ScanInv Str i [] ctx → P i ctx g →
      P i (YoriShTerminateMatchingBackquoteEntry ctx i b).1 g)
    (halloc : ∀ i off ctx g b, ScanInv Str i [] ctx → P i ctx g → i < off →
      off ≤ Str.length →
      P (i + 1) (YoriShAllocateBackquoteEntry ctx Str.length off b)
        (g ++ [openCount ctx.MatchList])) :
    ∀ (n : Nat) (rest pre : List Char) (ctx : YORI_SH_BACKQUOTE_CONTEXT) (g : List Nat),
      rest.length ≤ n → Str = pre ++ rest → ScanInv Str pre.length rest ctx →
      P pre.length ctx g →
      ScanInv Str Str.length [] (backquoteLoopOpened Str.length rest pre.length ctx g).2.1 ∧
      P Str.length (backquoteLoopOpened Str.length rest pre.length ctx g).2.1
        (backquoteLoopOpened Str.length rest pre.length ctx g).2.2 := by
  intro n
  induction n using Nat.strong_induction_on with
  | _ n ih =>
    intro rest pre ctx g hn hS hinv hP
    cases rest with
    | nil =>
      have hlen : Str.length = pre.length := by rw [hS]; simp
      simp only [backquoteLoopOpened]
      rw [hlen]
      exact ⟨hinv, hP⟩
    | cons c rest =>
      have hlen : Str.length = pre.length + (rest.length + 1) := by rw [hS]; simp
      have hc : Str[pre.length]? = some c := by rw [hS]; exact getElem?_split pre c rest
      have hnext : Str[pre.length + 1]? = rest.head? := by
        rw [hS]; exact getElem?_split_next pre c rest
      have hS1 : Str = (pre ++ [c]) ++ rest := by rw [hS]; simp
      have hl1 : (pre ++ [c]).length = pre.length + 1 := by simp
      simp only [List.length_cons] at hn
      have step : ∀ ctx1 g1, ScanInv Str (pre.length + 1) rest ctx1 →
          P (pre.length + 1) ctx1 g1 →
          ScanInv Str Str.length []
            (backquoteLoopOpened Str.length rest (pre.length + 1) ctx1 g1).2.1 ∧
          P Str.length (backquoteLoopOpened Str.length rest (pre.length + 1) ctx1 g1).2.1
            (backquoteLoopOpened Str.length rest (pre.length + 1) ctx1 g1).2.2 := by
        intro ctx1 g1 h1 hP1
        have := ih (n - 1) (by omega) rest (pre ++ [c]) ctx1 g1 (by omega) hS1
          (by rw [hl1]; exact h1) (by rw [hl1]; exact hP1)
        rw [hl1] at this
        exact this
      unfold backquoteLoopOpened
      by_cases hesc : YoriLibIsEscapeChar c = true
      · simp only [hesc, if_true]
        cases rest with
        | nil =>
          dsimp only
          have hlen2 : Str.length = pre.length + 1 := by simpa using hlen
          rw [hlen2]
          exact ⟨by simpa using scanInv_advance Str pre.length _ [] ctx hinv 0, hadv _ _ _ hP⟩
        | cons d rest2 =>
          dsimp only
          have hS2 : Str = (pre ++ [c, d]) ++ rest2 := by rw [hS]; simp
          have hl2 : (pre ++ [c, d]).length = pre.length + 2 := by simp
          simp only [List.length_cons] at hn
          have := ih (n - 2) (by omega) rest2 (pre ++ [c, d]) ctx g (by omega) hS2
            (by rw [hl2]; exact scanInv_advance Str pre.length _ rest2 ctx hinv 1)
            (by rw [hl2]; exact hadv _ _ _ (hadv _ _ _ hP))
          rw [hl2] at this
          exact this
      · simp only [hesc, Bool.false_eq_true, if_false]
        by_cases htick : c = '`'
        · have hhere := scanInv_here Str pre.length c rest ctx hinv (by rw [htick]; decide)
          have hterm1 := scanInv_terminate Str hL pre.length (by omega) ctx false hhere
          have hPt := hterm pre.length ctx g false (by omega) (by rw [hc, htick]; rfl) hhere hP
          simp only [htick, if_true]
          split_ifs with hf
          · apply step
            · exact scanInv_allocate Str hL pre.length (pre.length + 1) rest _ false hterm1
                (by omega) (by omega) (Or.inl (le_refl _))
                ⟨fun _ => ⟨by omega, by simpa [htick] using hc⟩, fun hb => (by cases hb)⟩
            · exact halloc pre.length (pre.length + 1) _ g false hterm1 hPt (by omega)
                (by omega)
          · apply step
            · simpa using scanInv_advance Str pre.length _ rest _ hterm1 0
            · exact hadv _ _ _ hPt
        · simp only [htick, if_false]
          by_cases hparen : c = ')'
          · have hhere := scanInv_here Str pre.length c rest ctx hinv (by rw [hparen]; decide)
            have hterm1 := scanInv_terminate Str hL pre.length (by omega) ctx true hhere
            have hPt := hterm pre.length ctx g true (by omega) (by rw [hc, hparen]; rfl) hhere hP
            simp only [hparen, if_true]
            apply step
            · simpa using scanInv_advance Str pre.length _ rest _ hterm1 0
            · exact hadv _ _ _ hPt
          · simp only [hparen, if_false]
            split_ifs with hd
            · obtain ⟨hd1, hd2⟩ := hd
              have hhere := scanInv_here Str pre.length c rest ctx hinv (by rw [hd1]; decide)
              have hrne : rest ≠ [] := by
                rintro rfl
                simp at hd2
              have hrl : 1 ≤ rest.length := by
                cases rest with
                | nil => exact absurd rfl hrne
                | cons _ _ => simp
              apply step
              · exact scanInv_allocate Str hL pre.length (pre.length + 2) rest ctx true hhere
                  (by omega) (by omega) (Or.inr ⟨rfl, hd2⟩)
                  ⟨fun hb => (by cases hb), fun _ => ⟨by omega, by simpa [hd1] using hc,
                    by rw [show pre.length + 2 - 1 = pre.length + 1 by omega, hnext, hd2]⟩⟩
              · have hhere0 : ScanInv Str pre.length [] ctx := hhere
                exact halloc pre.length (pre.length + 2) ctx g true hhere0 hP (by omega)
                  (by omega)
            · apply step
              · simpa using scanInv_advance Str pre.length _ rest ctx hinv 0
              · exact hadv _ _ _ hP

/-- An invariant of the loop of `YoriShParseBackquoteSubstrings`: a
property that holds at the start, is kept when `Index` advances, by
`YoriShTerminateMatchingBackquoteEntry` and by `YoriShAllocateBackquoteEntry`,
holds when the loop ends. -/
theorem backquoteLoopOpened_inv (Str : List Char) (hL : Str.length < 2 ^ 32)
    (P : Nat → YORI_SH_BACKQUOTE_CONTEXT → List Nat → Prop)
    (hadv : ∀ i ctx g, P i ctx g → P (i + 1) ctx g)
    (hterm : ∀ i ctx g b, i < Str.length → ScanInv Str i [] ctx → P i ctx g →
      P i (YoriShTerminateMatchingBackquoteEntry ctx i b).1 g)
    (halloc : ∀ i off ctx g b, ScanInv Str i [] ctx → P i ctx g → i < off →
      off ≤ Str.length →
      P (i + 1) (YoriShAllocateBackquoteEntry ctx Str.length off b)
        (g ++ [openCount ctx.MatchList])) :
    ∀ (n : Nat) (rest pre : List Char) (ctx : YORI_SH_BACKQUOTE_CONTEXT) (g : List Nat),
      rest.length ≤ n → Str = pre ++ rest → ScanInv Str pre.length rest ctx →
      P pre.length ctx g →
      ScanInv Str Str.length [] (backquoteLoopOpened Str.length rest pre.length ctx g).2.1 ∧
      P Str.length (backquoteLoopOpened Str.length rest pre.length ctx g).2.1
        (backquoteLoopOpened Str.length rest pre.length ctx g).2.2 :=
  backquoteLoopOpened_inv_at Str hL P hadv
    (fun i ctx g b hi _ hs hp => hterm i ctx g b hi hs hp) halloc

/-- The invariant principle for the whole scan of `Str`. -/
theorem parseBackquote_invariant (Str : List Char) (hL : Str.length < 2 ^ 32)
    (P : Nat → YORI_SH_BACKQUOTE_CONTEXT → List Nat → Prop)
    (h0 : P 0 { MatchList := [], MatchCount := 0, MaxDepth := 0, CurrentDepth := 0 } [])
    (hadv : ∀ i ctx g, P i ctx g → P (i + 1) ctx g)
    (hterm : ∀ i ctx g b, i < Str.length → ScanInv Str i [] ctx → P i ctx g →
      P i (YoriShTerminateMatchingBackquoteEntry ctx i b).1 g)
    (halloc : ∀ i off ctx g b, ScanInv Str i [] ctx → P i ctx g → i < off →
      off ≤ Str.length →
      P (i + 1) (YoriShAllocateBackquoteEntry ctx Str.length off b)
        (g ++ [openCount ctx.MatchList])) :
    ∃ ctx Opened, YoriShParseBackquoteSubstrings Str = some ctx ∧
      backquoteLoopOpened Str.length Str 0
        { MatchList := [], MatchCount := 0, MaxDepth := 0, CurrentDepth := 0 } [] =
        (Str.length, ctx, Opened) ∧
      ScanInv Str Str.length [] ctx ∧ P Str.length ctx Opened := by
  have herase := backquoteLoopOpened_erase Str.length Str.length Str 0
    { MatchList := [], MatchCount := 0, MaxDepth := 0, CurrentDepth := 0 } [] (le_refl _)
  have hidx := backquoteLoop_index Str.length Str.length Str 0
    { MatchList := [], MatchCount := 0, MaxDepth := 0, CurrentDepth := 0 } (le_refl _)
  have hinv := backquoteLoopOpened_inv Str hL P hadv hterm halloc Str.length Str []
    { MatchList := [], MatchCount := 0, MaxDepth := 0, CurrentDepth := 0 } [] (le_refl _) rfl
    ⟨by simp, by simp, by simp, by simp, by simp, by simp [openCount]⟩ h0
  simp only [List.length_nil] at hinv
  refine ⟨_, _, ?_, ?_, hinv.1, hinv.2⟩
  · rw [parseBackquote_total, ← herase.2]
  · apply Prod.ext
    · rw [herase.1, hidx]
      simp
    · rfl

/-- The invariant principle for the whole scan of `Str`, the character at
which `YoriShTerminateMatchingBackquoteEntry` is called being known. -/
theorem parseBackquote_invariant_at (Str : List Char) (hL : Str.length < 2 ^ 32)
    (P : Nat → YORI_SH_BACKQUOTE_CONTEXT → List Nat → Prop)
    (h0 : P 0 { MatchList := [], MatchCount := 0, MaxDepth := 0, CurrentDepth := 0 } [])
    (hadv : ∀ i ctx g, P i ctx g → P (i + 1) ctx g)
    (hterm : ∀ i ctx g b, i < Str.length →
      Str[i]? = some (if b = true then ')' else '`') → ScanInv Str i [] ctx → P i ctx g →
      P i (YoriShTerminateMatchingBackquoteEntry ctx i b).1 g)
    (halloc : ∀ i off ctx g b, ScanInv Str i [] ctx → P i ctx g → i < off →
      off ≤ Str.length →
      P (i + 1) (YoriShAllocateBackquoteEntry ctx Str.length off b)
        (g ++ [openCount ctx.MatchList])) :
    ∃ ctx Opened, YoriShParseBackquoteSubstrings Str = some ctx ∧
      backquoteLoopOpened Str.length Str 0
        { MatchList := [], MatchCount := 0, MaxDepth := 0, CurrentDepth := 0 } [] =
        (Str.length, ctx, Opened) ∧
      ScanInv Str Str.length [] ctx ∧ P Str.length ctx Opened := by
  have herase := backquoteLoopOpened_erase Str.length Str.length Str 0
    { MatchList := [], MatchCount := 0, MaxDepth := 0, CurrentDepth := 0 } [] (le_refl _)
  have hidx := backquoteLoop_index Str.length Str.length Str 0
    { MatchList := [], MatchCount := 0, MaxDepth := 0, CurrentDepth := 0 } (le_refl _)
  have hinv := backquoteLoopOpened_inv_at Str hL P hadv hterm halloc Str.length Str []
    { MatchList := [], MatchCount := 0, MaxDepth := 0, CurrentDepth := 0 } [] (le_refl _) rfl
    ⟨by simp, by simp, by simp, by simp, by simp, by simp [openCount]⟩ h0
  simp only [List.length_nil] at hinv
  refine ⟨_, _, ?_, ?_, hinv.1, hinv.2⟩
  · rw [parseBackquote_total, ← herase.2]
  · apply Prod.ext
    · rw [herase.1, hidx]
      simp
    · rfl

theorem closes_map_depth (Offset : Nat) :
    ∀ (l m : List YORI_SH_BACKQUOTE_ENTRY), List.Forall₂ (Closes Offset) l m →
      m.map (fun e => e.TreeDepth) = l.map (fun e => e.TreeDepth) := by
  intro l m h
  induction h with
  | nil => rfl
  | cons hxy _ ih =>
    simp only [List.map_cons, ih, hxy.2.1]

theorem foldr_max_append (l : List Nat) (x : Nat) :
    (l ++ [x]).foldr max 0 = max (l.foldr max 0) x := by
  induction l with
  | nil => simp
  | cons a l ih =>
    simp only [List.cons_append, List.foldr_cons, ih]
    exact (max_assoc _ _ _).symm

/-- C28: for every input text (of a length that fits a DWORD), the k-th
entry produced by the backquote scan has a TreeDepth of one plus the number
of entries that were open (neither terminated nor abandoned) when
YoriShAllocateBackquoteEntry was called for it, so at least 1; MaxDepth is
the maximum TreeDepth over all entries (0 if there is none); and at the end
of the scan CurrentDepth is the number of entries still open. -/
theorem C28_tree_depth (Str : List Char) (hL : Str.length < 2 ^ 32) :
    ∃ ctx Opened, YoriShParseBackquoteSubstrings Str = some ctx ∧
      backquoteLoopOpened Str.length Str 0
        { MatchList := [], MatchCount := 0, MaxDepth := 0, CurrentDepth := 0 } [] =
        (Str.length, ctx, Opened) ∧
      ctx.MatchList.map (fun e => e.TreeDepth) = Opened.map (fun k => k + 1) ∧
      (∀ e ∈ ctx.MatchList, 1 ≤ e.TreeDepth) ∧
      ctx.MaxDepth = maxTreeDepth ctx.MatchList ∧
      ctx.CurrentDepth = openCount ctx.MatchList := by
  obtain ⟨ctx, Opened, h1, h2, hinv, hP⟩ := parseBackquote_invariant Str hL
    (fun _ ctx g => ctx.MatchList.map (fun e => e.TreeDepth) = g.map (fun k => k + 1) ∧
      ctx.MaxDepth = maxTreeDepth ctx.MatchList)
    ⟨rfl, rfl⟩
    (fun _ _ _ h => h)
    (fun i ctx g b _ _ h => by
      have hd := closes_map_depth i _ _ (terminate_closes ctx i b)
      refine ⟨hd.trans h.1, ?_⟩
      rw [terminate_maxDepth]
      unfold maxTreeDepth
      rw [hd]
      exact h.2)
    (fun i off ctx g b hs h _ _ => by
      unfold YoriShAllocateBackquoteEntry maxTreeDepth
      dsimp only
      refine ⟨?_, ?_⟩
      · rw [List.map_append, List.map_append, h.1, hs.count.1]
        rfl
      · rw [List.map_append, List.map_singleton, foldr_max_append, h.2]
        unfold maxTreeDepth
        split_ifs with hgt
        · exact (max_eq_right (le_of_lt hgt)).symm
        · exact (max_eq_left (not_lt.mp hgt)).symm)
  exact ⟨ctx, Opened, h1, h2, hP.1, fun e he => (hinv.depth e he).1, hP.2, hinv.count.1⟩

/-- Witness for C28: the sample with a backquoted command inside `$(`. -/
theorem C28_tree_depth_witness :
    ∃ ctx Opened, YoriShParseBackquoteSubstrings nestedSample = some ctx ∧
      backquoteLoopOpened nestedSample.length nestedSample 0
        { MatchList := [], MatchCount := 0, MaxDepth := 0, CurrentDepth := 0 } [] =
        (nestedSample.length, ctx, Opened) ∧
      ctx.MatchList.map (fun e => e.TreeDepth) = Opened.map (fun k => k + 1) ∧
      (∀ e ∈ ctx.MatchList, 1 ≤ e.TreeDepth) ∧
      ctx.MaxDepth = maxTreeDepth ctx.MatchList ∧
      ctx.CurrentDepth = openCount ctx.MatchList :=
  C28_tree_depth nestedSample (by decide)

theorem openStack_cons_pos (e : YORI_SH_BACKQUOTE_ENTRY) (rest : List YORI_SH_BACKQUOTE_ENTRY)
    (d : Nat) (h : e.isOpen = true) :
    OpenStack (e :: rest) d ↔ e.TreeDepth = d ∧ 1 ≤ d ∧ OpenStack rest (d - 1) := by
  simp [OpenStack, h]

theorem openStack_cons_neg (e : YORI_SH_BACKQUOTE_ENTRY) (rest : List YORI_SH_BACKQUOTE_ENTRY)
    (d : Nat) (h : e.isOpen = false) : OpenStack (e :: rest) d ↔ OpenStack rest d := by
  simp [OpenStack, h]

theorem openStack_open_le :
    ∀ (l : List YORI_SH_BACKQUOTE_ENTRY) (d : Nat), OpenStack l d →
      ∀ e ∈ l, e.isOpen = true → e.TreeDepth ≤ d := by
  intro l
  induction l with
  | nil =>
    intro d _ e he
    simp at he
  | cons a rest ih =>
    intro d hs e he ho
    by_cases ha : a.isOpen = true
    · rw [openStack_cons_pos a rest d ha] at hs
      rcases List.mem_cons.mp he with rfl | he
      · exact le_of_eq hs.1
      · have := ih (d - 1) hs.2.2 e he ho
        omega
    · have ha2 : a.isOpen = false := by simpa using ha
      rw [openStack_cons_neg a rest d ha2] at hs
      rcases List.mem_cons.mp he with rfl | he
      · rw [ha2] at ho
        cases ho
      · exact ih d hs e he ho

theorem openStack_walk (Offset : Nat) (b : Bool) :
    ∀ (l : List YORI_SH_BACKQUOTE_ENTRY) (d : Nat), d < 2 ^ 32 → OpenStack l d →
      OpenStack (terminateWalk Offset b l d).1 (terminateWalk Offset b l d).2.1 := by
  intro l
  induction l with
  | nil =>
    intro d _ _
    simp [terminateWalk, OpenStack]
  | cons e rest ih =>
    intro d hlt hs
    unfold terminateWalk
    split_ifs with h1 h2 h3
    · have ho := isOpen_of e h1
      rw [openStack_cons_pos e rest d ho] at hs
      dsimp only
      rw [openStack_cons_neg _ rest _ (by simp [YORI_SH_BACKQUOTE_ENTRY.isOpen]),
        dwordSub_eq d 1 hlt hs.2.1]
      exact hs.2.2
    · exact hs
    · have ho := isOpen_of e h1
      rw [openStack_cons_pos e rest d ho] at hs
      dsimp only
      rw [openStack_cons_neg _ _ _ (by simp [YORI_SH_BACKQUOTE_ENTRY.isOpen])]
      have hd := dwordSub_eq d 1 hlt hs.2.1
      rw [hd]
      exact ih (d - 1) (by omega) hs.2.2
    · have ho := isOpen_of_not e h1
      rw [openStack_cons_neg e rest d ho] at hs
      dsimp only
      rw [openStack_cons_neg e _ _ ho]
      exact ih d hlt hs

theorem endsBefore_closes (Offset : Nat) (a a1 b b1 : YORI_SH_BACKQUOTE_ENTRY)
    (ha : Closes Offset a a1) (hb : Closes Offset b b1) (h : EndsBefore a b) :
    EndsBefore a1 b1 := by
  intro hd
  rw [ha.2.1, hb.2.1] at hd
  obtain ⟨hc, hlt⟩ := h hd
  rcases ha.2.2.2 with rfl | ⟨ho, _, _⟩
  · rw [hb.1]
    exact ⟨hc, hlt⟩
  · rw [hc] at ho
    cases ho

theorem pairwise_closes (Offset : Nat) :
    ∀ (l m : List YORI_SH_BACKQUOTE_ENTRY), List.Forall₂ (Closes Offset) l m →
      l.Pairwise EndsBefore → m.Pairwise EndsBefore := by
  intro l m h
  induction h with
  | nil =>
    intro _
    exact List.Pairwise.nil
  | cons hxy htl ih =>
    intro hp
    rw [List.pairwise_cons] at hp ⊢
    refine ⟨fun b1 hb1 => ?_, ih hp.2⟩
    obtain ⟨b, hb, hbb⟩ := forall₂_mem_right _ _ _ htl b1 hb1
    exact endsBefore_closes Offset _ _ _ _ hxy hbb (hp.1 b hb)

/-- C25: for every input text (of a length that fits a DWORD), any two
distinct entries produced by YoriShParseBackquoteSubstrings that have the
same TreeDepth have disjoint offset ranges [StartingOffset, StartingOffset
+ LengthInChars]: one of them ends before the other starts. -/
theorem C25_same_depth_disjoint (Str : List Char) (hL : Str.length < 2 ^ 32) :
    ∃ ctx, YoriShParseBackquoteSubstrings Str = some ctx ∧
      ∀ e1 ∈ ctx.MatchList, ∀ e2 ∈ ctx.MatchList, e1 ≠ e2 →
        e1.TreeDepth = e2.TreeDepth →
        e1.StartingOffset + e1.LengthInChars < e2.StartingOffset ∨
        e2.StartingOffset + e2.LengthInChars < e1.StartingOffset := by
  obtain ⟨ctx, _, h1, _, _, hP⟩ := parseBackquote_invariant Str hL
    (fun i ctx _ => OpenStack ctx.MatchList.reverse ctx.CurrentDepth ∧
      ctx.MatchList.Pairwise EndsBefore ∧
      ∀ e ∈ ctx.MatchList, e.isOpen = false → e.StartingOffset + e.LengthInChars ≤ i)
    ⟨trivial, List.Pairwise.nil, fun e he => by simp at he⟩
    (fun i ctx _ h => ⟨h.1, h.2.1, fun e he hc => Nat.le_succ_of_le (h.2.2 e he hc)⟩)
    (fun i ctx _ b hi hs h => by
      have hcl := terminate_closes ctx i b
      have hdlt : ctx.CurrentDepth < 2 ^ 32 := by
        have := openCount_le ctx.MatchList
        have := hs.count
        omega
      refine ⟨?_, pairwise_closes i _ _ hcl h.2.1, fun e1 he1 hc1 => ?_⟩
      · have := openStack_walk i b ctx.MatchList.reverse ctx.CurrentDepth hdlt h.1
        unfold YoriShTerminateMatchingBackquoteEntry
        dsimp only
        rw [List.reverse_reverse]
        exact this
      · obtain ⟨e, he, hs1, _, _, h4⟩ := forall₂_mem_right _ _ _ hcl e1 he1
        rcases h4 with rfl | ⟨_, _, hlen⟩
        · exact h.2.2 _ he hc1
        · have hpos : e.StartingOffset ≤ i := by
            rcases hs.pos e he with hp | ⟨_, hp⟩
            · exact hp
            · simp at hp
          rw [hs1, hlen, dwordSub_eq i _ (by omega) hpos]
          omega)
    (fun i off ctx _ b hs h hio _ => by
      unfold YoriShAllocateBackquoteEntry
      dsimp only
      refine ⟨?_, ?_, fun e he hc => ?_⟩
      · rw [List.reverse_append, List.reverse_singleton, List.singleton_append,
          openStack_cons_pos _ _ _ (by simp [YORI_SH_BACKQUOTE_ENTRY.isOpen])]
        exact ⟨rfl, by omega, by simpa using h.1⟩
      · rw [List.pairwise_append]
        refine ⟨h.2.1, List.pairwise_singleton _ _, fun a ha c hc => ?_⟩
        simp only [List.mem_singleton] at hc
        subst hc
        intro hd
        dsimp only at hd
        have hcl : a.isOpen = false := by
          by_contra hne
          have ho : a.isOpen = true := by simpa using hne
          have := openStack_open_le _ _ h.1 a (List.mem_reverse.mpr ha) ho
          omega
        have := h.2.2 a ha hcl
        exact ⟨hcl, by dsimp only; omega⟩
      · simp only [List.mem_append, List.mem_singleton] at he
        rcases he with he | rfl
        · exact Nat.le_succ_of_le (h.2.2 e he hc)
        · simp [YORI_SH_BACKQUOTE_ENTRY.isOpen] at hc)
  refine ⟨ctx, h1, fun e1 he1 e2 he2 hne hd => ?_⟩
  have hsym : ctx.MatchList.Pairwise (fun a b => EndsBefore a b ∨ EndsBefore b a) :=
    hP.2.1.imp (fun hab => Or.inl hab)
  have := hsym.forall (fun a b hab => hab.symm) he1 he2 hne
  rcases this with hab | hba
  · exact Or.inl (hab hd).2
  · exact Or.inr (hba hd.symm).2

/-- Witness for C25: a backquoted `a` followed by a backquoted `b`. -/
theorem C25_same_depth_disjoint_witness :
    ∃ ctx, YoriShParseBackquoteSubstrings ['`', 'a', '`', '`', 'b', '`'] = some ctx ∧
      ∀ e1 ∈ ctx.MatchList, ∀ e2 ∈ ctx.MatchList, e1 ≠ e2 →
        e1.TreeDepth = e2.TreeDepth →
        e1.StartingOffset + e1.LengthInChars < e2.StartingOffset ∨
        e2.StartingOffset + e2.LengthInChars < e1.StartingOffset :=
  C25_same_depth_disjoint ['`', 'a', '`', '`', 'b', '`'] (by norm_num)

theorem copyArgChars_true_aux :
    ∀ (n : Nat) (t : List Char), t.length ≤ n → copyArgChars true t = removeEscapesLoop t := by
  intro n
  induction n using Nat.strong_induction_on with
  | _ n ih =>
    intro t hn
    cases t with
    | nil => rfl
    | cons c cs =>
      simp only [List.length_cons] at hn
      by_cases hesc : YoriLibIsEscapeChar c = true
      · cases cs with
        | nil =>
          rw [copyArgChars.eq_def, removeEscapesLoop.eq_def]
          simp [hesc]
        | cons c1 cs1 =>
          simp only [List.length_cons] at hn
          rw [copyArgChars.eq_def, removeEscapesLoop.eq_def]
          simp only [hesc, and_self, if_true]
          rw [ih (n - 2) (by omega) cs1 (by omega)]
      · rw [copyArgChars.eq_def, removeEscapesLoop.eq_def]
        simp only [hesc, and_false, if_false]
        rw [ih (n - 1) (by omega) cs (by omega)]
        simp

theorem copyArgChars_true (t : List Char) : copyArgChars true t = removeEscapesLoop t :=
  copyArgChars_true_aux t.length t (le_refl _)

theorem take_map_take {α : Type} (f : α → α) (n : Nat) (l : List α) :
    ((l.take n).map f ++ l.drop n).take n = (l.take n).map f := by
  by_cases h : n ≤ l.length
  · have hl : ((l.take n).map f).length = n := by simp [h]
    exact List.take_left' hl
  · rw [List.drop_eq_nil_of_le (by omega), List.append_nil]
    exact List.take_of_length_le (by simp)

theorem removeEscapesLoop_none (t : List Char) (h : t.any YoriLibIsEscapeChar = false) :
    removeEscapesLoop t = t := by
  induction t with
  | nil => rfl
  | cons c cs ih =>
    simp only [List.any_cons, Bool.or_eq_false_iff] at h
    rw [removeEscapesLoop.eq_def]
    simp only [h.1, Bool.false_eq_true, if_false, ih h.2]

theorem removeEscapesFromArg_eq (a : Arg) :
    removeEscapesFromArg a = { a with Text := removeEscapesLoop a.Text } := by
  unfold removeEscapesFromArg
  split_ifs with h
  · rfl
  · rw [removeEscapesLoop_none a.Text (by simpa using h)]

theorem buildLoop_removed (l : List Arg) :
    ∀ count, buildLoop false count (l.map removeEscapesFromArg) = buildLoop true count l := by
  induction l with
  | nil =>
    intro count
    rfl
  | cons a rest ih =>
    intro count
    simp only [List.map_cons, buildLoop, ih, removeEscapesFromArg_eq, copyArgChars_false,
      copyArgChars_true]

theorem removeEscapesLoop_plain (pre post : List Char)
    (h : ∀ c ∈ pre, YoriLibIsEscapeChar c = false) :
    removeEscapesLoop (pre ++ post) = pre ++ removeEscapesLoop post := by
  induction pre with
  | nil => rfl
  | cons c cs ih =>
    have hc := h c (by simp)
    rw [List.cons_append, removeEscapesLoop.eq_def]
    simp only [hc, Bool.false_eq_true, if_false,
      ih (fun x hx => h x (List.mem_cons_of_mem _ hx)), List.cons_append]

/-- C37: for every command line, YoriShBuildCmdlineFromCmdContext with
RemoveEscapes = TRUE gives the same string as YoriShBuildCmdlineFromCmdContext
with RemoveEscapes = FALSE applied to the command line that
YoriShRemoveEscapesFromCmdContext leaves.  In both, the copy of an
argument drops each escape character and keeps the character after it
(whatever it is), and drops an escape that is the last character. -/
theorem C37_remove_escapes_agree (CmdContext : YORI_SH_CMD_CONTEXT) :
    YoriShBuildCmdlineFromCmdContext CmdContext true =
      YoriShBuildCmdlineFromCmdContext (YoriShRemoveEscapesFromCmdContext CmdContext) false ∧
    (∀ a ∈ (YoriShRemoveEscapesFromCmdContext CmdContext).ArgV.take CmdContext.ArgC,
      ∃ b ∈ CmdContext.ArgV.take CmdContext.ArgC,
        a.Quoted = b.Quoted ∧ a.Text = copyArgChars true b.Text) ∧
    (∀ (pre post : List Char) (c d : Char),
      (∀ x ∈ pre, YoriLibIsEscapeChar x = false) → YoriLibIsEscapeChar c = true →
      copyArgChars true (pre ++ c :: d :: post) = pre ++ d :: copyArgChars true post ∧
      copyArgChars true (pre ++ [c]) = pre ∧
      removeEscapesLoop (pre ++ c :: d :: post) = pre ++ d :: removeEscapesLoop post ∧
      removeEscapesLoop (pre ++ [c]) = pre) := by
  refine ⟨?_, ?_, ?_⟩
  · unfold YoriShBuildCmdlineFromCmdContext YoriShRemoveEscapesFromCmdContext
    dsimp only
    rw [take_map_take, buildLoop_removed]
  · intro a ha
    unfold YoriShRemoveEscapesFromCmdContext at ha
    dsimp only at ha
    rw [take_map_take] at ha
    obtain ⟨b, hb, rfl⟩ := List.mem_map.mp ha
    exact ⟨b, hb, by rw [removeEscapesFromArg_eq], by
      rw [removeEscapesFromArg_eq, copyArgChars_true]⟩
  · intro pre post c d hpre hc
    simp only [copyArgChars_true]
    rw [removeEscapesLoop_plain pre _ hpre, removeEscapesLoop_plain pre _ hpre]
    simp [removeEscapesLoop, hc]

theorem linkPrograms_bar (prev node : YORI_SH_SINGLE_EXEC_CONTEXT) :
    linkPrograms ['|'] prev node = (pipeSource prev, pipeTarget node) := by
  unfold linkPrograms pipeSource pipeTarget
  rw [if_neg (by decide), if_neg (by decide), if_neg (by decide), if_pos (by decide)]

/-- C34: when two consecutive programs are separated by `|`, the linking
makes the edge Concurrent and the earlier node's WaitForCompletion false in
every case, changes the earlier node's stdout to Pipe only if it was
Default and the later node's stdin to Pipe only if it was Default, and
changes nothing else.  This holds for the linking step, for the last two
nodes of any chain, and for the plan of a command line made of two
programs with `|` between them; in the plan of `a >f | b` node 0 keeps
stdout = Overwrite with the file name resolved from `f`. -/
theorem C34_pipe_defaults (Lib : PathLibrary) :
    (∀ prev node : YORI_SH_SINGLE_EXEC_CONTEXT,
      linkPrograms ['|'] prev node = (pipeSource prev, pipeTarget node) ∧
      (pipeSource prev).NextProgramType = .ExecConcurrently ∧
      (pipeSource prev).WaitForCompletion = false ∧
      (prev.StdOutType = .Default → (pipeSource prev).StdOutType = .Pipe) ∧
      (prev.StdOutType ≠ .Default →
        (pipeSource prev).StdOutType = prev.StdOutType ∧
        (pipeSource prev).StdOutFileName = prev.StdOutFileName) ∧
      (node.StdInType = .Default → (pipeTarget node).StdInType = .Pipe) ∧
      (node.StdInType ≠ .Default →
        (pipeTarget node).StdInType = node.StdInType ∧
        (pipeTarget node).StdInFileName = node.StdInFileName)) ∧
    (∀ (front : List YORI_SH_SINGLE_EXEC_CONTEXT) (prev node : YORI_SH_SINGLE_EXEC_CONTEXT),
      linkChain (front ++ [prev]) ['|'] node = front ++ [pipeSource prev, pipeTarget node]) ∧
    (∀ (ctx : YORI_SH_CMD_CONTEXT) (run1 run2 : List Arg),
      ctx.ArgC = ctx.ArgV.length → ctx.ArgV = run1 ++ ⟨['|'], false⟩ :: run2 →
      RunOK run1 → RunOK run2 →
      YoriShParseCmdContextToExecPlan Lib ctx =
        some (some
          { initialPlan ctx with
              FirstCmd := [pipeSource (execLoop Lib none run1 initialExecContext),
                           pipeTarget (execLoop Lib none run2 initialExecContext)],
              NumberCommands := 2 })) ∧
    ((YoriShParseCmdlineToCmdContext id ['a', ' ', '>', 'f', ' ', '|', ' ', 'b'] 0).bind
        (fun ctx => (YoriShParseCmdContextToExecPlan ⟨fun _ => false, fun s => '/' :: s⟩ ctx).bind
          (fun r => r.map (fun plan => plan.FirstCmd.map
            (fun n => (n.CmdToExec, n.StdOutType, n.StdOutFileName))))) =
      some [([⟨['a'], false⟩], StdOutType.Overwrite, ['/', 'f']),
            ([⟨['b'], false⟩], StdOutType.Default, [])] ∧
     (YoriShParseCmdlineToCmdContext id ['a', ' ', '>', 'f', ' ', '|', ' ', 'b'] 0).bind
        (fun ctx => (YoriShParseCmdContextToExecPlan ⟨fun _ => false, fun s => '/' :: s⟩ ctx).bind
          (fun r => r.map (fun plan => plan.FirstCmd.map
            (fun n => (n.StdInType, n.NextProgramType, n.WaitForCompletion))))) =
      some [(StdInType.Default, NextProgramType.ExecConcurrently, false),
            (StdInType.Pipe, NextProgramType.Zero, true)]) := by
  refine ⟨?_, ?_, ?_, ?_⟩
  · intro prev node
    refine ⟨linkPrograms_bar prev node, rfl, rfl, ?_, ?_, ?_, ?_⟩
    · intro h
      simp [pipeSource, h]
    · intro h
      simp [pipeSource, h]
    · intro h
      simp [pipeTarget, h]
    · intro h
      simp [pipeTarget, h]
  · intro front prev node
    unfold linkChain
    simp [linkPrograms_bar]
  · intro ctx run1 run2 hC hV h1 h2
    have hb : BlockOK [⟨['|'], false⟩] := blockOK_single ['|'] (by decide)
    rw [plan_shape Lib ctx [(run1, [⟨['|'], false⟩])] run2 hC (by simp [segArgs, hV])
      (by
        intro sg hsg
        simp only [List.mem_singleton] at hsg
        subst hsg
        exact ⟨h1, hb⟩) h2]
    simp [planChain, midNodes, linkChain, lastText, linkPrograms_bar]
  · exact ⟨by decide!, by decide!⟩

/-- C34 witness: the command line `a >f | b`, arguments a, >f, | and b. -/
theorem C34_pipe_defaults_witness :
    YoriShParseCmdContextToExecPlan ⟨fun _ => false, fun s => '/' :: s⟩
        ⟨4, [⟨['a'], false⟩, ⟨['>', 'f'], false⟩, ⟨['|'], false⟩, ⟨['b'], false⟩], 0, false⟩ =
      some (some
        { initialPlan
            ⟨4, [⟨['a'], false⟩, ⟨['>', 'f'], false⟩, ⟨['|'], false⟩, ⟨['b'], false⟩], 0,
              false⟩ with
            FirstCmd :=
              [pipeSource (execLoop ⟨fun _ => false, fun s => '/' :: s⟩ none
                 [⟨['a'], false⟩, ⟨['>', 'f'], false⟩] initialExecContext),
               pipeTarget (execLoop ⟨fun _ => false, fun s => '/' :: s⟩ none
                 [⟨['b'], false⟩] initialExecContext)],
            NumberCommands := 2 }) :=
  (C34_pipe_defaults ⟨fun _ => false, fun s => '/' :: s⟩).2.2.1
    ⟨4, [⟨['a'], false⟩, ⟨['>', 'f'], false⟩, ⟨['|'], false⟩, ⟨['b'], false⟩], 0, false⟩
    [⟨['a'], false⟩, ⟨['>', 'f'], false⟩] [⟨['b'], false⟩] rfl rfl
    ⟨⟨⟨['a'], false⟩, [⟨['>', 'f'], false⟩], rfl, by decide⟩, by
      intro a ha
      simp only [List.mem_cons, List.mem_singleton, List.not_mem_nil, or_false] at ha
      rcases ha with rfl | rfl <;> exact Or.inr (by decide)⟩
    (runOK_words ['b'] [] (by decide) (by simp))

theorem noCursor_ext (a b : SizingState) (h1 : a.Char = b.Char) (h2 : a.ArgCount = b.ArgCount)
    (h3 : a.RequiredCharCount = b.RequiredCharCount) (h4 : a.CharsToConsume = b.CharsToConsume)
    (h5 : a.TerminateNextArg = b.TerminateNextArg) (h6 : a.QuoteOpen = b.QuoteOpen)
    (h7 : a.LookingForFirstQuote = b.LookingForFirstQuote)
    (h8 : a.TrailingChars = b.TrailingChars) : a.noCursor = b.noCursor := by
  cases a
  cases b
  simp only [SizingState.noCursor] at *
  simp [h1, h2, h3, h4, h5, h6, h7, h8]

theorem noCursor_markCurrent (s : SizingState) : s.markCurrent.noCursor = s.noCursor := by
  unfold SizingState.markCurrent SizingState.noCursor
  split_ifs <;> rfl

theorem noCursor_countLast (s : SizingState) :
    s.countLast.noCursor = { s.noCursor with ArgCount := s.ArgCount + 1 } := by
  unfold SizingState.countLast SizingState.markCurrent SizingState.noCursor
  split_ifs <;> rfl

theorem sizingTerminate_required (len off : Nat) (s : SizingState) :
    (sizingTerminate len off s).1.RequiredCharCount =
      s.RequiredCharCount +
        (if YoriShTrimSpacesFromBeginning s.Char = [] then 0
         else effC s.Char s.CharsToConsume +
           (if (YoriShTrimSpacesFromBeginning s.Char).drop (effC s.Char s.CharsToConsume) = []
            then 0
            else if effT s.Char s.CharsToConsume s.TerminateNextArg = true then 1 else 0)) := by
  unfold sizingTerminate effT effC
  simp only [SizingState.countLast]
  split_ifs <;> simp_all <;> omega

theorem sizingTerminate_scratch (len off : Nat) (s : SizingState) :
    (sizingTerminate len off s).1.CharsToConsume =
      (if YoriShTrimSpacesFromBeginning s.Char = [] then s.CharsToConsume
       else effC s.Char s.CharsToConsume) ∧
    (sizingTerminate len off s).1.TerminateNextArg =
      (if YoriShTrimSpacesFromBeginning s.Char = [] then s.TerminateNextArg
       else effT s.Char s.CharsToConsume s.TerminateNextArg) ∧
    (sizingTerminate len off s).1.TrailingChars =
      (if YoriShTrimSpacesFromBeginning s.Char = [] then true else s.TrailingChars) := by
  unfold sizingTerminate effT effC
  simp only [SizingState.countLast]
  split_ifs <;> simp_all

theorem sizingTerminate_break (len off : Nat) (s : SizingState) :
    (sizingTerminate len off s).2 =
      decide (YoriShTrimSpacesFromBeginning s.Char = [] ∨
        (YoriShTrimSpacesFromBeginning s.Char).drop (effC s.Char s.CharsToConsume) = []) := by
  unfold sizingTerminate effC
  simp only [SizingState.countLast]
  split_ifs <;> simp_all

theorem sizingTerminate_lffq_break (len off : Nat) (s : SizingState) :
    (sizingTerminate len off s).1.LookingForFirstQuote =
      (if (sizingTerminate len off s).2 = true then s.LookingForFirstQuote
       else decide ((sizingTerminate len off s).1.Char.head? = some '"')) := by
  unfold sizingTerminate
  simp only [SizingState.countLast]
  split_ifs <;> simp_all

/-- The terminate branch of the sizing loop does not depend on the cursor
offset, apart from the record of the cursor. -/
theorem sizingTerminate_indep (L1 o1 L2 o2 : Nat) (s1 s2 : SizingState)
    (h : s1.noCursor = s2.noCursor) :
    (sizingTerminate L1 o1 s1).1.noCursor = (sizingTerminate L2 o2 s2).1.noCursor ∧
    (sizingTerminate L1 o1 s1).2 = (sizingTerminate L2 o2 s2).2 := by
  have h1 : s1.Char = s2.Char := by
    have := congrArg SizingState.Char h
    exact this
  have h2 : s1.ArgCount = s2.ArgCount := by
    have := congrArg SizingState.ArgCount h
    exact this
  have h3 : s1.RequiredCharCount = s2.RequiredCharCount := by
    have := congrArg SizingState.RequiredCharCount h
    exact this
  have h4 : s1.CharsToConsume = s2.CharsToConsume := by
    have := congrArg SizingState.CharsToConsume h
    exact this
  have h5 : s1.TerminateNextArg = s2.TerminateNextArg := by
    have := congrArg SizingState.TerminateNextArg h
    exact this
  have h6 : s1.QuoteOpen = s2.QuoteOpen := by
    have := congrArg SizingState.QuoteOpen h
    exact this
  have h7 : s1.LookingForFirstQuote = s2.LookingForFirstQuote := by
    have := congrArg SizingState.LookingForFirstQuote h
    exact this
  have h8 : s1.TrailingChars = s2.TrailingChars := by
    have := congrArg SizingState.TrailingChars h
    exact this
  have hb : (sizingTerminate L1 o1 s1).2 = (sizingTerminate L2 o2 s2).2 := by
    rw [sizingTerminate_break, sizingTerminate_break, h1, h4]
  have hc : (sizingTerminate L1 o1 s1).1.Char = (sizingTerminate L2 o2 s2).1.Char := by
    rw [sizingTerminate_char, sizingTerminate_char, h1, h4, h5]
  refine ⟨noCursor_ext _ _ hc ?_ ?_ ?_ ?_ ?_ ?_ ?_, hb⟩
  · rw [sizingTerminate_argCount, sizingTerminate_argCount, h1, h2, h4, h5]
  · rw [sizingTerminate_required, sizingTerminate_required, h1, h3, h4, h5]
  · rw [(sizingTerminate_scratch L1 o1 s1).1, (sizingTerminate_scratch L2 o2 s2).1, h1, h4]
  · rw [(sizingTerminate_scratch L1 o1 s1).2.1, (sizingTerminate_scratch L2 o2 s2).2.1,
      h1, h4, h5]
  · rw [sizingTerminate_quoteOpen, sizingTerminate_quoteOpen, h6]
  · rw [sizingTerminate_lffq_break, sizingTerminate_lffq_break L2, hb, hc, h7]
  · rw [(sizingTerminate_scratch L1 o1 s1).2.2, (sizingTerminate_scratch L2 o2 s2).2.2,
      h1, h8]

theorem sizingLiteral_indep (rest : List Char) (s1 s2 : SizingState)
    (h : s1.noCursor = s2.noCursor) :
    (sizingLiteral rest s1).1.noCursor = (sizingLiteral rest s2).1.noCursor ∧
    (sizingLiteral rest s1).2 = (sizingLiteral rest s2).2 := by
  obtain ⟨ch1, ac1, rq1, ctc1, tna1, qo1, lf1, f1, a1, tc1⟩ := s1
  obtain ⟨ch2, ac2, rq2, ctc2, tna2, qo2, lf2, f2, a2, tc2⟩ := s2
  simp only [SizingState.noCursor, SizingState.mk.injEq, and_true, true_and] at h
  obtain ⟨rfl, rfl, rfl, rfl, rfl, rfl, rfl, rfl⟩ := h
  unfold sizingLiteral
  dsimp only
  split_ifs
  · exact ⟨by rw [noCursor_countLast, noCursor_countLast]; rfl, rfl⟩
  · exact ⟨rfl, rfl⟩

/-- One iteration of the sizing loop does not depend on the cursor offset,
apart from the record of the cursor. -/
theorem sizingStep_indep (L1 o1 L2 o2 : Nat) (s1 s2 : SizingState)
    (h : s1.noCursor = s2.noCursor) :
    (sizingStep L1 o1 s1).1.noCursor = (sizingStep L2 o2 s2).1.noCursor ∧
    (sizingStep L1 o1 s1).2 = (sizingStep L2 o2 s2).2 := by
  obtain ⟨ch1, ac1, rq1, ctc1, tna1, qo1, lf1, f1, a1, tc1⟩ := s1
  obtain ⟨ch2, ac2, rq2, ctc2, tna2, qo2, lf2, f2, a2, tc2⟩ := s2
  simp only [SizingState.noCursor, SizingState.mk.injEq, and_true, true_and] at h
  obtain ⟨rfl, rfl, rfl, rfl, rfl, rfl, rfl, rfl⟩ := h
  cases ch1 with
  | nil => exact ⟨rfl, rfl⟩
  | cons c rest =>
    unfold sizingStep
    dsimp only
    by_cases hesc : YoriLibIsEscapeChar c = true
    · simp only [hesc, if_true]
      cases rest with
      | nil => exact ⟨rfl, rfl⟩
      | cons d rest2 => exact ⟨rfl, rfl⟩
    · simp only [hesc, Bool.false_eq_true, if_false]
      by_cases hq : c = '"'
      · subst hq
        simp only [true_and, if_true]
        by_cases hcl : qo1 = true ∧ lf1 = true
        · rw [if_pos hcl, if_pos hcl]
          by_cases hr : rest = []
          · simp only [hr, if_true, and_true]
            rw [noCursor_countLast, noCursor_countLast]
            rfl
          · simp only [hr, if_false, and_true]
            rfl
        · rw [if_neg hcl, if_neg hcl]
          by_cases hlf : lf1 = true
          · rw [if_pos hlf, if_pos hlf]
            by_cases hr : rest = []
            · simp only [hr, if_true, and_true]
              rw [noCursor_countLast, noCursor_countLast]
              rfl
            · simp only [hr, if_false, and_true]
              rfl
          · rw [if_neg hlf, if_neg hlf]
            split_ifs
            all_goals first
              | exact sizingLiteral_indep _ _ _ rfl
              | exact sizingTerminate_indep _ _ _ _ _ _ rfl
      · simp only [hq, false_and, if_false]
        split_ifs
        all_goals first
          | exact sizingLiteral_indep _ _ _ rfl
          | exact sizingTerminate_indep _ _ _ _ _ _ rfl

theorem sizingLoop_indep (L1 o1 L2 o2 : Nat) :
    ∀ (fuel : Nat) (s1 s2 : SizingState), s1.noCursor = s2.noCursor →
      (sizingLoop L1 o1 fuel s1).map SizingState.noCursor =
        (sizingLoop L2 o2 fuel s2).map SizingState.noCursor := by
  intro fuel
  induction fuel with
  | zero =>
    intro s1 s2 h
    have hc : s1.Char = s2.Char := by
      have := congrArg SizingState.Char h
      exact this
    rw [sizingLoop.eq_def, sizingLoop.eq_def L2]
    by_cases hn : s2.Char = []
    · simp [hc, hn, h]
    · simp [hc, hn]
  | succ fuel ih =>
    intro s1 s2 h
    have hc : s1.Char = s2.Char := by
      have := congrArg SizingState.Char h
      exact this
    obtain ⟨hs, hb⟩ := sizingStep_indep L1 o1 L2 o2 s1 s2 h
    rw [sizingLoop.eq_def, sizingLoop.eq_def L2]
    by_cases hn : s2.Char = []
    · simp [hc, hn, h]
    · simp only [hc, hn, if_false]
      rcases h1 : sizingStep L1 o1 s1 with ⟨t1, b1⟩
      rcases h2 : sizingStep L2 o2 s2 with ⟨t2, b2⟩
      rw [h1, h2] at hs hb
      simp only at hs hb
      subst hb
      cases b1 with
      | true => simp [hs]
      | false => exact ih t1 t2 hs

theorem sizingPass_indep (CmdLine : List Char) (o1 o2 : Nat) :
    (sizingPass CmdLine o1).map SizingState.noCursor =
      (sizingPass CmdLine o2).map SizingState.noCursor := by
  have h := sizingLoop_indep CmdLine.length o1 CmdLine.length o2 (CmdLine.length + 1)
    (sizingInit CmdLine) (sizingInit CmdLine) rfl
  unfold sizingPass
  cases h1 : sizingLoop CmdLine.length o1 (CmdLine.length + 1) (sizingInit CmdLine) with
  | none =>
    rw [h1] at h
    cases h2 : sizingLoop CmdLine.length o2 (CmdLine.length + 1) (sizingInit CmdLine) with
    | none => rfl
    | some t2 =>
      rw [h2] at h
      simp at h
  | some t1 =>
    rw [h1] at h
    cases h2 : sizingLoop CmdLine.length o2 (CmdLine.length + 1) (sizingInit CmdLine) with
    | none =>
      rw [h2] at h
      simp at h
    | some t2 =>
      rw [h2] at h
      simp only [Option.map_some', Option.some.injEq] at h
      simp only [Option.map_some', Option.some.injEq, noCursor_markCurrent]
      have hf : ∀ t : SizingState,
          ({ t with RequiredCharCount := t.RequiredCharCount + 1 } : SizingState).noCursor =
            { t.noCursor with RequiredCharCount := t.noCursor.RequiredCharCount + 1 } :=
        fun _ => rfl
      rw [hf, hf, h]

theorem tokenize_scratch (CmdLine : List Char) (c1 c2 : Nat) (t1 t2 : Bool) :
    tokenize CmdLine c1 t1 = tokenize CmdLine c2 t2 := by
  unfold tokenize
  split_ifs
  · rfl
  · exact tokensFrom_congr _ _ rfl

/-- C39: for every input line, every environment expansion and any two
cursor offsets, YoriShParseCmdlineToCmdContext returns command lines with
the same ArgC, the same arguments (texts and quoted flags) and the same
TrailingChars flag: the two results can differ in CurrentArg only. -/
theorem C39_cursor_only_current_arg (Expand : List Char → List Char) (CmdLine : List Char)
    (CurrentOffset1 CurrentOffset2 : Nat) :
    ∃ ctx1 ctx2,
      YoriShParseCmdlineToCmdContext Expand CmdLine CurrentOffset1 = some ctx1 ∧
      YoriShParseCmdlineToCmdContext Expand CmdLine CurrentOffset2 = some ctx2 ∧
      ctx1.ArgC = ctx2.ArgC ∧ ctx1.ArgV = ctx2.ArgV ∧
      ctx1.TrailingChars = ctx2.TrailingChars ∧
      ctx2 = { ctx1 with CurrentArg := ctx2.CurrentArg } := by
  obtain ⟨sz1, hs1, _, hp1⟩ := parse_eq Expand CmdLine CurrentOffset1
  obtain ⟨sz2, hs2, _, hp2⟩ := parse_eq Expand CmdLine CurrentOffset2
  have h := sizingPass_indep CmdLine CurrentOffset1 CurrentOffset2
  rw [hs1, hs2] at h
  simp only [Option.map_some', Option.some.injEq] at h
  have hA : sz1.ArgCount = sz2.ArgCount := by
    have := congrArg SizingState.ArgCount h
    exact this
  have hT : sz1.TrailingChars = sz2.TrailingChars := by
    have := congrArg SizingState.TrailingChars h
    exact this
  have hV := tokenize_scratch CmdLine sz1.CharsToConsume sz2.CharsToConsume
    sz1.TerminateNextArg sz2.TerminateNextArg
  refine ⟨_, _, hp1, hp2, hA, ?_, hT, ?_⟩
  · simp only [hV]
  · simp only [hV, hA, hT]

theorem terminateWalk_closesAs (Offset : Nat) (b : Bool) :
    ∀ (l : List YORI_SH_BACKQUOTE_ENTRY) (d : Nat),
      List.Forall₂ (ClosesAs Offset b) l (terminateWalk Offset b l d).1 := by
  intro l
  induction l with
  | nil =>
    intro d
    simp [terminateWalk]
  | cons e rest ih =>
    intro d
    have hrefl : List.Forall₂ (ClosesAs Offset b) rest rest :=
      List.forall₂_same.mpr (fun x _ => Or.inl rfl)
    unfold terminateWalk
    split_ifs with h1 h2 h3
    · exact List.Forall₂.cons (Or.inr (Or.inl ⟨isOpen_of e h1, h2.symm, rfl⟩)) hrefl
    · exact List.Forall₂.cons (Or.inl rfl) hrefl
    · refine List.Forall₂.cons (Or.inr (Or.inr ⟨isOpen_of e h1, ?_⟩)) (ih _)
      simp [abandonAt, isOpen_of e h1]
    · exact List.Forall₂.cons (Or.inl rfl) (ih _)

theorem terminate_closesAs (ctx : YORI_SH_BACKQUOTE_CONTEXT) (Offset : Nat) (b : Bool) :
    List.Forall₂ (ClosesAs Offset b) ctx.MatchList
      (YoriShTerminateMatchingBackquoteEntry ctx Offset b).1.MatchList := by
  unfold YoriShTerminateMatchingBackquoteEntry
  dsimp only
  rw [← List.forall₂_reverse_iff, List.reverse_reverse]
  exact terminateWalk_closesAs Offset b _ _

/-- Each terminated entry of the scan of a string is followed by its
closing character. -/
theorem parseBackquote_closer (Str : List Char) (hL : Str.length < 2 ^ 32) :
    ∃ ctx, YoriShParseBackquoteSubstrings Str = some ctx ∧ ScanInv Str Str.length [] ctx ∧
      ∀ e ∈ ctx.MatchList, e.Terminated = true →
        Str[e.StartingOffset + e.LengthInChars]? =
          some (if e.NewStyleMatch = true then ')' else '`') := by
  obtain ⟨ctx, _, h1, _, hinv, hP⟩ := parseBackquote_invariant_at Str hL
    (fun _ ctx _ => ∀ e ∈ ctx.MatchList, e.Terminated = true →
      Str[e.StartingOffset + e.LengthInChars]? =
        some (if e.NewStyleMatch = true then ')' else '`'))
    (fun e he => by simp at he)
    (fun _ _ _ h => h)
    (fun i ctx _ b hi hch hs h e1 he1 ht => by
      obtain ⟨e, he, hcl⟩ := forall₂_mem_right _ _ _ (terminate_closesAs ctx i b) e1 he1
      rcases hcl with rfl | ⟨_, hb, rfl⟩ | ⟨ho, rfl⟩
      · exact h _ he ht
      · have hpos : e.StartingOffset ≤ i := by
          rcases hs.pos e he with hp | ⟨_, hp⟩
          · exact hp
          · simp at hp
        simp only [terminateAt, hb]
        rw [dwordSub_eq i _ (by omega) hpos, show e.StartingOffset + (i - e.StartingOffset) = i
          by omega]
        exact hch
      · exfalso
        simp only [abandonAt, ho, if_true] at ht
        simp only [YORI_SH_BACKQUOTE_ENTRY.isOpen, Bool.and_eq_true, Bool.not_eq_true'] at ho
        rw [ho.1] at ht
        cases ht)
    (fun i off ctx _ b _ h _ _ e he ht => by
      unfold YoriShAllocateBackquoteEntry at he
      simp only [List.mem_append, List.mem_singleton] at he
      rcases he with he | rfl
      · exact h e he ht
      · cases ht)
  exact ⟨ctx, h1, hinv, hP⟩

/-- C38: for every input text (of a length that fits a DWORD) for which
YoriShFindNextBackquoteSubstring returns TRUE with a substring at offset o
of length n and prefix length p: p is 1 or 2 and at most o, the character
at o + n is inside the text, if p = 1 the characters at o - 1 and o + n are
both backticks, and if p = 2 the characters at o - 2 and o - 1 are `$(` and
the character at o + n is `)`. -/
theorem C38_substring_bracketed (Str : List Char) (hL : Str.length < 2 ^ 32)
    (sub : SubsetString) (p : Nat)
    (h : YoriShFindNextBackquoteSubstring Str = some (sub, p)) :
    (p = 1 ∨ p = 2) ∧ p ≤ sub.StartOffset ∧
    sub.StartOffset + sub.LengthInChars < Str.length ∧
    (p = 1 → Str[sub.StartOffset - 1]? = some '`' ∧
      Str[sub.StartOffset + sub.LengthInChars]? = some '`') ∧
    (p = 2 → Str[sub.StartOffset - 2]? = some '$' ∧ Str[sub.StartOffset - 1]? = some '(' ∧
      Str[sub.StartOffset + sub.LengthInChars]? = some ')') := by
  obtain ⟨ctx, hctx, hinv, hclose⟩ := parseBackquote_closer Str hL
  rw [findNext_eq Str ctx hctx] at h
  cases hs : seekEntry (fun e => e.Terminated) ctx.MatchList ctx.MaxDepth with
  | none =>
    rw [hs] at h
    cases h
  | some e =>
    rw [hs] at h
    simp only [Option.map_some', Option.some.injEq, Prod.mk.injEq] at h
    obtain ⟨hsub, hp⟩ := h
    obtain ⟨he, ht, _⟩ := seekEntry_some _ _ _ e hs
    have hc := hclose e he ht
    have hlt : e.StartingOffset + e.LengthInChars < Str.length := by
      by_contra hge
      rw [List.getElem?_eq_none (by omega)] at hc
      cases hc
    subst hsub
    dsimp only
    cases hn : e.NewStyleMatch with
    | false =>
      obtain ⟨o1, o2⟩ := (hinv.opener e he).1 hn
      rw [hn] at hp hc
      simp only [Bool.false_eq_true, if_false] at hp hc
      subst hp
      exact ⟨Or.inl rfl, o1, hlt, fun _ => ⟨o2, hc⟩, fun h2 => (by cases h2)⟩
    | true =>
      obtain ⟨o1, o2, o3⟩ := (hinv.opener e he).2 hn
      rw [hn] at hp hc
      simp only [if_true] at hp hc
      subst hp
      exact ⟨Or.inr rfl, o1, hlt, fun h1 => (by cases h1), fun _ => ⟨o2, o3, hc⟩⟩

/-- C38 witness: in the sample with a backquoted command inside `$(`, the
first substring is the backquoted `echo x` at offset 13. -/
theorem C38_substring_bracketed_witness :
    (1 = 1 ∨ 1 = 2) ∧ 1 ≤ 13 ∧ 13 + 6 < nestedSample.length ∧
    (1 = 1 → nestedSample[13 - 1]? = some '`' ∧ nestedSample[13 + 6]? = some '`') ∧
    (1 = 2 → nestedSample[13 - 2]? = some '$' ∧ nestedSample[13 - 1]? = some '(' ∧
      nestedSample[13 + 6]? = some ')') :=
  C38_substring_bracketed nestedSample (by decide) ⟨13, 6⟩ 1 (by decide!)

theorem programArgs_sublist (b : Bool) (run : List Arg) : (programArgs b run).Sublist run := by
  unfold programArgs
  have h1 : ((run.zip (argRoles b run)).filter (fun p => decide (p.2 = .Program))).Sublist
      (run.zip (argRoles b run)) := List.filter_sublist _
  have h2 := h1.map (fun p => p.1)
  rw [List.map_fst_zip _ _ (by rw [argRoles_length])] at h2
  exact h2

theorem linkPrograms_snd_cmd (s : List Char) (prev node : YORI_SH_SINGLE_EXEC_CONTEXT) :
    (linkPrograms s prev node).2.CmdToExec = node.CmdToExec := by
  unfold linkPrograms
  split_ifs <;> rfl

theorem linkChain_map_cmd (chain : List YORI_SH_SINGLE_EXEC_CONTEXT) (sep : List Char)
    (node : YORI_SH_SINGLE_EXEC_CONTEXT) :
    (linkChain chain sep node).map (fun n => n.CmdToExec) =
      chain.map (fun n => n.CmdToExec) ++ [node.CmdToExec] := by
  unfold linkChain
  cases h : chain.getLast? with
  | none =>
    have : chain = [] := List.getLast?_eq_none_iff.mp h
    simp [this]
  | some prev =>
    have hsplit := List.dropLast_append_getLast? prev (by rw [h]; exact rfl)
    simp only [List.map_append, List.map_cons, List.map_nil, linkPrograms_fst_cmd,
      linkPrograms_snd_cmd]
    conv_rhs => rw [← hsplit]
    simp

theorem trailingBackground_cmd (ctx : YORI_SH_CMD_CONTEXT) (cur c : Nat)
    (Plan : YORI_SH_EXEC_PLAN) (node : YORI_SH_SINGLE_EXEC_CONTEXT) :
    (trailingBackground ctx cur Plan node c).2.1.CmdToExec = node.CmdToExec ∧
    (trailingBackground ctx cur Plan node c).1.NumberCommands = Plan.NumberCommands ∧
    c ≤ (trailingBackground ctx cur Plan node c).2.2 := by
  unfold trailingBackground
  dsimp only
  split_ifs <;> simp

theorem skipSeperators_ge (n : Nat) (l : List Arg) :
    ∀ c a : Nat, c ≤ (skipSeperators n c a l).1 := by
  induction l with
  | nil =>
    intro c a
    simp [skipSeperators]
  | cons x rest ih =>
    intro c a
    unfold skipSeperators
    split_ifs
    · exact le_trans (Nat.le_succ c) (ih (c + 1) c)
    · exact le_refl _

theorem forall₂_snoc {α β : Type} (R : α → β → Prop) (l : List α) (m : List β) (a : α) (b : β)
    (h : List.Forall₂ R l m) (hab : R a b) : List.Forall₂ R (l ++ [a]) (m ++ [b]) := by
  induction h with
  | nil => exact List.Forall₂.cons hab List.Forall₂.nil
  | cons hxy _ ih => exact List.Forall₂.cons hxy ih

theorem planStep_runs (Lib : PathLibrary) (ctx : YORI_SH_CMD_CONTEXT) (s s1 : PlanState)
    (hC : ctx.ArgC = ctx.ArgV.length) (hlt : s.CurrentArg < ctx.ArgC)
    (hinv : PlanRuns ctx s) (hstep : planStep Lib ctx s = some s1) : PlanRuns ctx s1 := by
  obtain ⟨hnum, _, ⟨runs, hruns, hbound, hpair⟩, hsub⟩ := hinv
  obtain ⟨_, hle1, _⟩ := planStep_next Lib ctx s s1 hC hlt hstep
  obtain ⟨c0, node, hexec⟩ : ∃ c0 node,
      YoriShParseCmdContextToExecContext Lib ctx s.CurrentArg = (c0, node) := ⟨_, _, rfl⟩
  have hc0 : c0 ≠ 0 := by
    intro h0
    unfold planStep at hstep
    rw [hexec] at hstep
    simp [h0] at hstep
  have hc0eq : c0 = boundaryLoop ctx.ArgC s.CurrentArg (ctx.ArgV.drop s.CurrentArg) -
      s.CurrentArg := by
    rw [← exec_consumed Lib, hexec]
  have hnode : node.CmdToExec =
      programArgs false ((ctx.ArgV.drop s.CurrentArg).take c0) := by
    have h2 : node = (YoriShParseCmdContextToExecContext Lib ctx s.CurrentArg).2 := by
      rw [hexec]
    have h1 : c0 = (YoriShParseCmdContextToExecContext Lib ctx s.CurrentArg).1 := by
      rw [hexec]
    rw [h2, h1]
    unfold YoriShParseCmdContextToExecContext
    dsimp only
    rw [execLoop_programArgs]
    simp [initialExecContext, zeroExecContext]
  have hbl := boundaryLoop_spec ctx.ArgC (ctx.ArgV.drop s.CurrentArg) s.CurrentArg
    (by simp only [List.length_drop]; omega)
  have hrun : s.CurrentArg + c0 ≤ ctx.ArgC := by
    have := hbl.1
    have := hbl.2.1
    omega
  rw [planStep_eq Lib ctx s c0 node hexec hc0] at hstep
  have hs1 := (Option.some.inj hstep).symm
  obtain ⟨htc, htn, htge⟩ := trailingBackground_cmd ctx s.CurrentArg c0 s.Plan node
  have hcur : s.CurrentArg + c0 ≤ s1.CurrentArg := by
    rw [hs1]
    dsimp only
    exact le_trans (by omega) (skipSeperators_ge _ _ _ _)
  have hmap : s1.Plan.FirstCmd.map (fun n => n.CmdToExec) =
      s.Plan.FirstCmd.map (fun n => n.CmdToExec) ++ [node.CmdToExec] := by
    rw [hs1]
    dsimp only
    rw [linkChain_map_cmd, trailingBackground_firstCmd, htc]
  have hlen : s1.Plan.FirstCmd.length = s.Plan.FirstCmd.length + 1 := by
    have := congrArg List.length hmap
    simpa using this
  refine ⟨?_, hle1, ⟨runs ++ [(s.CurrentArg, c0)], ?_, ?_, ?_⟩, ?_⟩
  · rw [hlen, ← hnum, hs1]
    dsimp only
    rw [htn]
  · rw [hmap]
    exact forall₂_snoc _ _ _ _ _ hruns ⟨by omega, hrun, hnode⟩
  · intro r hr
    simp only [List.mem_append, List.mem_singleton] at hr
    rcases hr with hr | rfl
    · have := hbound r hr
      omega
    · exact hcur
  · rw [List.pairwise_append]
    refine ⟨hpair, List.pairwise_singleton _ _, fun a ha b hb => ?_⟩
    simp only [List.mem_singleton] at hb
    subst hb
    exact hbound a ha
  · rw [hmap, List.flatten_append, List.flatten_singleton]
    have h1 : (ctx.ArgV.take s.CurrentArg ++ (ctx.ArgV.drop s.CurrentArg).take c0).Sublist
        (ctx.ArgV.take s1.CurrentArg) := by
      rw [← List.take_add]
      exact List.take_sublist_take_left _ hcur
    refine List.Sublist.trans (List.Sublist.append hsub ?_) h1
    rw [hnode]
    exact programArgs_sublist _ _

theorem planLoop_runs (Lib : PathLibrary) (ctx : YORI_SH_CMD_CONTEXT)
    (hC : ctx.ArgC = ctx.ArgV.length) (fuel : Nat) :
    ∀ s sf : PlanState, PlanRuns ctx s → planLoop Lib ctx fuel s = some (some sf) →
      PlanRuns ctx sf := by
  induction fuel with
  | zero =>
    intro s sf hinv h
    by_cases hlt : s.CurrentArg < ctx.ArgC
    · rw [planLoop.eq_def] at h
      simp [hlt] at h
    · rw [planLoop_done Lib ctx _ s hlt] at h
      simp only [Option.some.injEq] at h
      exact h ▸ hinv
  | succ fuel ih =>
    intro s sf hinv h
    by_cases hlt : s.CurrentArg < ctx.ArgC
    · cases hstep : planStep Lib ctx s with
      | none =>
        rw [planLoop.eq_def] at h
        simp [hlt, hstep] at h
      | some s1 =>
        rw [planLoop_step Lib ctx fuel s s1 hlt hstep] at h
        exact ih s1 sf (planStep_runs Lib ctx s s1 hC hlt hinv hstep) h
    · rw [planLoop_done Lib ctx _ s hlt] at h
      simp only [Option.some.injEq] at h
      exact h ▸ hinv

/-- C40: for every command line (ArgC being the number of its arguments)
for which YoriShParseCmdContextToExecPlan succeeds, NumberCommands is the
number of nodes of the chain, every node has the program arguments of a
non-empty consumed run of the command line, the runs follow each other
without overlap, and the argument lists of the nodes, one after the other
in chain order, are a sublist of the arguments of the command line (same
texts and quoted flags, same order), so no argument is given to two
programs. -/
theorem C40_plan_nodes (Lib : PathLibrary) (ctx : YORI_SH_CMD_CONTEXT)
    (plan : YORI_SH_EXEC_PLAN) (hC : ctx.ArgC = ctx.ArgV.length)
    (h : YoriShParseCmdContextToExecPlan Lib ctx = some (some plan)) :
    plan.NumberCommands = plan.FirstCmd.length ∧
    (∃ runs : List (Nat × Nat),
      List.Forall₂ (ProgramRun ctx) (plan.FirstCmd.map (fun n => n.CmdToExec)) runs ∧
      runs.Pairwise (fun a b => a.1 + a.2 ≤ b.1)) ∧
    (plan.FirstCmd.map (fun n => n.CmdToExec)).flatten.Sublist ctx.ArgV := by
  unfold YoriShParseCmdContextToExecPlan at h
  simp only at h
  split at h
  · simp at h
  · simp at h
  · rename_i sf hsf
    simp only [Option.some.injEq] at h
    subst h
    obtain ⟨h1, _, ⟨runs, h2, _, h3⟩, h4⟩ := planLoop_runs Lib ctx hC _ _ sf
      ⟨rfl, Nat.zero_le _, ⟨[], List.Forall₂.nil, fun r hr => by simp at hr,
        List.Pairwise.nil⟩, by simp⟩ hsf
    exact ⟨h1, ⟨runs, h2, h3⟩, h4.trans (List.take_sublist _ _)⟩

/-- C35: the boundary scan of YoriShParseCmdContextToExecContext never stops
at a quoted argument, but the loop of YoriShParseCmdContextToExecPlan that
steps over separators (parse.c 1594-1599) does not look at the quoted flag:
it steps over every argument whose text is a separator and records its
index as ArgOfLastOperatorIndex.  The line `a | "|" b` is tokenized into
a, |, a quoted | and b; in its plan the second node has the single argument
b, and in the plan of a, |, quoted &&, b the edge is OnSuccess and no pipe
is set up.  A quoted | that does not directly follow a separator stays in
the program: the plan of a, quoted |, b has one node with all three
arguments. -/
theorem C35_quoted_separator_skipped :
    (∀ (ArgC Count : Nat) (a : Arg) (rest : List Arg), a.Quoted = true → Count < ArgC →
      boundaryLoop ArgC Count (a :: rest) = boundaryLoop ArgC (Count + 1) rest) ∧
    (∀ (ArgC c a0 : Nat) (x : Arg) (rest : List Arg), c < ArgC →
      YoriShIsArgumentProgramSeperator x.Text false = true →
      skipSeperators ArgC c a0 (x :: rest) = skipSeperators ArgC (c + 1) c rest) ∧
    (YoriShParseCmdlineToCmdContext id ['a', ' ', '|', ' ', '"', '|', '"', ' ', 'b'] 0).map
        (fun ctx => ctx.ArgV) =
      some [⟨['a'], false⟩, ⟨['|'], false⟩, ⟨['|'], true⟩, ⟨['b'], false⟩] ∧
    (YoriShParseCmdContextToExecPlan ⟨fun _ => false, fun s => '/' :: s⟩
        ⟨4, [⟨['a'], false⟩, ⟨['|'], false⟩, ⟨['|'], true⟩, ⟨['b'], false⟩], 0, false⟩).bind
        (fun r => r.map (fun plan => plan.FirstCmd.map (fun n => n.CmdToExec))) =
      some [[⟨['a'], false⟩], [⟨['b'], false⟩]] ∧
    (YoriShParseCmdContextToExecPlan ⟨fun _ => false, fun s => '/' :: s⟩
        ⟨4, [⟨['a'], false⟩, ⟨['|'], false⟩, ⟨['&', '&'], true⟩, ⟨['b'], false⟩], 0,
          false⟩).bind
        (fun r => r.map (fun plan => plan.FirstCmd.map
          (fun n => (n.StdOutType, n.NextProgramType, n.WaitForCompletion)))) =
      some [(StdOutType.Default, NextProgramType.ExecOnSuccess, true),
            (StdOutType.Default, NextProgramType.Zero, true)] ∧
    (YoriShParseCmdContextToExecPlan ⟨fun _ => false, fun s => '/' :: s⟩
        ⟨3, [⟨['a'], false⟩, ⟨['|'], true⟩, ⟨['b'], false⟩], 0, false⟩).bind
        (fun r => r.map (fun plan => plan.FirstCmd.map (fun n => n.CmdToExec))) =
      some [[⟨['a'], false⟩, ⟨['|'], true⟩, ⟨['b'], false⟩]] := by
  refine ⟨?_, ?_, by decide!, by decide!, by decide!, by decide!⟩
  · intro ArgC Count a rest hq hlt
    rw [boundaryLoop.eq_def]
    simp [hlt, hq]
  · intro ArgC c a0 x rest hlt hsep
    rw [skipSeperators.eq_def]
    simp [hlt, hsep]

theorem fillTerminate_written (s : FillState) :
    (fillTerminate s).written ≤
      s.written + 1 +
        (if YoriShTrimSpacesFromBeginning s.Char = [] then 0
         else effC s.Char s.CharsToConsume +
           (if effT s.Char s.CharsToConsume s.TerminateNextArg = true then 1 else 0)) := by
  unfold fillTerminate effT effC
  simp only [FillState.terminateArg, FillState.beginArg, FillState.written]
  split_ifs <;> simp_all <;> omega

theorem countLast_proj (s : SizingState) :
    s.countLast.RequiredCharCount = s.RequiredCharCount ∧
    s.countLast.ArgCount = s.ArgCount + 1 := by
  unfold SizingState.countLast
  simp

theorem terminate_budget (len off : Nat) (sz : SizingState) (fl : FillState) (req n w : Nat)
    (h1 : sz.Char = fl.Char) (h2 : sz.CharsToConsume = fl.CharsToConsume)
    (h3 : sz.TerminateNextArg = fl.TerminateNextArg)
    (hreq : sz.RequiredCharCount = req) (hn : sz.ArgCount = n) (hw : fl.written = w) :
    (fillTerminate fl).written + (req + n) ≤
      (sizingTerminate len off sz).1.RequiredCharCount +
        (sizingTerminate len off sz).1.ArgCount + w := by
  have hf := fillTerminate_written fl
  rw [sizingTerminate_required, sizingTerminate_argCount, h1, h2, h3, ← hreq, ← hn, ← hw]
  split_ifs at hf ⊢ <;> omega

theorem literal_budget (c : Char) (rest : List Char) (sz : SizingState) (fl : FillState)
    (req n w : Nat) (hreq : sz.RequiredCharCount = req) (hn : sz.ArgCount = n)
    (hw : fl.written = w) :
    (fillLiteral c rest fl).written + (req + n) ≤
      (sizingLiteral rest sz).1.RequiredCharCount + (sizingLiteral rest sz).1.ArgCount +
        w := by
  unfold sizingLiteral fillLiteral
  rw [← hreq, ← hn, ← hw]
  by_cases h : rest = []
  · simp only [h, if_true, (countLast_proj _).1, (countLast_proj _).2, FillState.written,
      List.length_append, List.length_singleton]
    omega
  · simp only [h, if_false, FillState.written, List.length_append, List.length_singleton]
    omega

/-- One iteration of the fill loop stores at most as many characters as
the same iteration of the sizing loop adds to `RequiredCharCount +
ArgCount`. -/
theorem step_budget (len off : Nat) (sz : SizingState) (fl : FillState)
    (hR : PassRel sz fl) (hne : fl.Char ≠ []) :
    (fillStep fl).written + (sz.RequiredCharCount + sz.ArgCount) ≤
      (sizingStep len off sz).1.RequiredCharCount + (sizingStep len off sz).1.ArgCount +
        fl.written := by
  obtain ⟨hc, hq, hl, ha, hr⟩ := hR
  cases hch : fl.Char with
  | nil => exact absurd hch hne
  | cons c rest =>
    have hsz : sz.Char = c :: rest := hc.trans hch
    have hfirst : (0 < fl.ArgV.length ∨ 0 < sz.RequiredCharCount) ↔
        (0 < fl.ArgV.length ∨ 0 < fl.CurOut.length) := by
      by_cases h0 : fl.ArgV = []
      · rw [hr h0]
      · have : 0 < fl.ArgV.length := List.length_pos.mpr h0
        constructor <;> intro _ <;> left <;> exact this
    unfold sizingStep fillStep
    simp only [hsz, hch, hq, hl, ha]
    by_cases hesc : YoriLibIsEscapeChar c = true
    · simp only [hesc, if_true]
      cases rest with
      | nil =>
        simp only [FillState.written, List.length_append, List.length_singleton]
        omega
      | cons c1 r2 =>
        simp only [FillState.written, List.length_append, List.length_cons, List.length_nil]
        split_ifs <;> omega
    · simp only [hesc, Bool.false_eq_true, if_false]
      by_cases hcq : c = '"'
      · subst hcq
        simp only [true_and, if_true]
        by_cases hcl : fl.QuoteOpen = true ∧ fl.LookingForFirstQuote = true
        · simp only [hcl, and_self, if_true]
          by_cases h : rest = []
          · simp only [h, if_true, (countLast_proj _).1, (countLast_proj _).2,
              FillState.written]
            omega
          · simp only [h, if_false, FillState.written]
            omega
        · simp only [hcl, if_false, hl]
          by_cases hlf : fl.LookingForFirstQuote = true
          · simp only [hlf, if_true]
            by_cases h : rest = []
            · simp only [h, if_true, (countLast_proj _).1, (countLast_proj _).2,
                FillState.written]
              omega
            · simp only [h, if_false, FillState.written]
              omega
          · simp only [hlf, if_false, hq]
            have hsep : YoriShIsArgumentSeperator ('"' :: rest) = ⟨0, false⟩ :=
              sep_cons_other _ _ (by decide) (by decide) (by decide) (by decide)
                (by decide) (by decide) (by decide)
            by_cases hqo : fl.QuoteOpen = true
            · have hnq : (!fl.QuoteOpen) = false := by simp [hqo]
              simp only [hnq, Bool.false_eq_true, if_false, hfirst, ha, hsep,
                show ('"' : Char) ≠ ' ' by decide, lt_irrefl]
              split_ifs <;> first | exact literal_budget _ _ _ _ _ _ _ rfl rfl rfl | exact literal_budget _ _ _ _ _ _ _ rfl ha rfl
            · have hnq : (!fl.QuoteOpen) = true := by simpa using hqo
              simp only [hnq, if_true]
              first | exact literal_budget _ _ _ _ _ _ _ rfl rfl rfl | exact literal_budget _ _ _ _ _ _ _ rfl ha rfl
      · have hs1 : (if c = '"' then { sz with QuoteOpen := !sz.QuoteOpen } else sz) = sz := by
          simp [hcq]
        have hf1 : (if c = '"' then { fl with QuoteOpen := !fl.QuoteOpen } else fl) = fl := by
          simp [hcq]
        simp only [hs1, hf1, hcq, false_and, if_false, hfirst, ha, hq]
        by_cases hqo : fl.QuoteOpen = true
        · simp only [hqo, if_true]
          first | exact literal_budget _ _ _ _ _ _ _ rfl rfl rfl | exact literal_budget _ _ _ _ _ _ _ rfl ha rfl
        · simp only [hqo, Bool.false_eq_true, if_false]
          by_cases hsp : c = ' '
          · simp only [hsp, if_true]
            first | exact terminate_budget _ _ _ _ _ _ _ rfl rfl rfl rfl rfl rfl | exact terminate_budget _ _ _ _ _ _ _ hc rfl rfl rfl rfl rfl | exact terminate_budget _ _ _ _ _ _ _ hc rfl rfl rfl ha rfl | exact terminate_budget _ _ _ _ _ _ _ rfl rfl rfl rfl ha rfl
          · simp only [hsp, if_false, hsz, hch]
            split_ifs with hf hs
            · first | exact terminate_budget _ _ _ _ _ _ _ rfl rfl rfl rfl rfl rfl | exact terminate_budget _ _ _ _ _ _ _ hc rfl rfl rfl rfl rfl | exact terminate_budget _ _ _ _ _ _ _ hc rfl rfl rfl ha rfl | exact terminate_budget _ _ _ _ _ _ _ rfl rfl rfl rfl ha rfl
            · first | exact literal_budget _ _ _ _ _ _ _ rfl rfl rfl | exact literal_budget _ _ _ _ _ _ _ rfl ha rfl
            · first | exact literal_budget _ _ _ _ _ _ _ rfl rfl rfl | exact literal_budget _ _ _ _ _ _ _ rfl ha rfl

theorem fillRun_char_aux (n : Nat) :
    ∀ s : FillState, s.Char.length ≤ n → (fillRun s).Char = [] := by
  induction n using Nat.strong_induction_on with
  | _ n ih =>
    intro s hn
    by_cases hc : s.Char = []
    · rw [fillRun_nil _ hc]
      exact hc
    · rw [fillRun_step _ hc]
      have hlt := fillStep_length s hc
      exact ih (n - 1) (by omega) (fillStep s) (by omega)

theorem fillRun_char (s : FillState) : (fillRun s).Char = [] :=
  fillRun_char_aux _ s (le_refl _)

theorem loop_budget (len off : Nat) (n : Nat) (sz : SizingState) (fl : FillState)
    (hR : PassRel sz fl) (hne : fl.Char ≠ []) (hn : fl.Char.length ≤ n) :
    ∃ sz1, sizingLoop len off n sz = some sz1 ∧
      sz1.ArgCount = (fillRun fl).ArgV.length + 1 ∧
      (fillRun fl).written + (sz.RequiredCharCount + sz.ArgCount) ≤
        sz1.RequiredCharCount + sz1.ArgCount + fl.written := by
  induction n using Nat.strong_induction_on generalizing sz fl with
  | _ n ih =>
    have hszne : sz.Char ≠ [] := by rw [hR.1]; exact hne
    obtain ⟨k, hk⟩ : ∃ k, n = k + 1 := by
      cases n with
      | zero => simp at hn; exact absurd hn hne
      | succ k => exact ⟨k, rfl⟩
    subst hk
    have hstep := step_sim len off sz fl hR hne
    have hb := step_budget len off sz fl hR hne
    have hlt := fillStep_length fl hne
    obtain ⟨hchar, hcont, hfin⟩ := hstep
    rw [fillRun_step fl hne]
    rcases hs : sizingStep len off sz with ⟨s1, b⟩
    rw [hs] at hchar hcont hfin hb
    simp only at hchar hcont hfin hb
    by_cases hnil : (fillStep fl).Char = []
    · rw [fillRun_nil _ hnil]
      have hz : s1.Char = [] := by rw [hchar, hnil]
      cases b with
      | true => exact ⟨s1, by simp [sizingLoop, hszne, hs], hfin hnil, hb⟩
      | false =>
        refine ⟨s1, ?_, hfin hnil, hb⟩
        cases k <;> simp [sizingLoop, hszne, hs, hz]
    · obtain ⟨hflag, hR1⟩ := hcont hnil
      subst hflag
      obtain ⟨sz1, h1, h2, h3⟩ := ih k (by omega) s1 (fillStep fl) hR1 hnil (by omega)
      exact ⟨sz1, by simp [sizingLoop, hszne, hs, h1], h2, by omega⟩

/-- C36: for every input line and cursor offset the sizing pass returns a
count, which is zero exactly when the line has no argument (the fill pass is
then skipped).  Otherwise the fill loop runs to the end of the line, the
index of its last argument is ArgC - 1, the array it leaves has ArgC
entries, and the characters it has stored, one terminator per argument
included, are at most the RequiredCharCount + ArgCount characters that the
sizing pass asked for. -/
theorem C36_passes_agree (CmdLine : List Char) (CurrentOffset : Nat) :
    ∃ sz, sizingPass CmdLine CurrentOffset = some sz ∧
      (sz.ArgCount = 0 ↔ YoriShTrimSpacesFromBeginning CmdLine = []) ∧
      (0 < sz.ArgCount →
        ∃ fl, fillLoop (CmdLine.length + 1)
            (fillInit CmdLine sz.CharsToConsume sz.TerminateNextArg) = some fl ∧
          fl.Char = [] ∧ fl.ArgV.length = sz.ArgCount - 1 ∧
          fillPass CmdLine sz.CharsToConsume sz.TerminateNextArg = some fl.finish ∧
          fl.finish.length = sz.ArgCount ∧
          fl.charsWritten ≤ sz.RequiredCharCount + sz.ArgCount) := by
  by_cases hT : YoriShTrimSpacesFromBeginning CmdLine = []
  · have h1 : sizingLoop CmdLine.length CurrentOffset (CmdLine.length + 1) (sizingInit CmdLine)
        = some (sizingInit CmdLine) := by
      simp [sizingLoop, sizingInit, hT]
    have hsz : sizingPass CmdLine CurrentOffset =
        some ({ sizingInit CmdLine with
          RequiredCharCount := (sizingInit CmdLine).RequiredCharCount + 1 } :
            SizingState).markCurrent := by
      simp only [sizingPass, h1]
    refine ⟨_, hsz, ?_, ?_⟩
    · simp [hT, sizingInit]
    · intro hpos
      simp [sizingInit] at hpos
  · have hlen : ∀ c t, (fillInit CmdLine c t).Char.length ≤ CmdLine.length + 1 := by
      intro c t
      have := trim_length_le CmdLine
      simp only [fillInit]
      omega
    have hR : ∀ c t, PassRel (sizingInit CmdLine) (fillInit CmdLine c t) := by
      intro c t
      simp [PassRel, sizingInit, fillInit]
    have hne : ∀ c t, (fillInit CmdLine c t).Char ≠ [] := by
      intro c t
      simpa [fillInit] using hT
    obtain ⟨sz0, h0, _, _⟩ := loop_budget CmdLine.length CurrentOffset (CmdLine.length + 1)
      (sizingInit CmdLine) (fillInit CmdLine 0 false) (hR 0 false) (hne 0 false) (hlen 0 false)
    obtain ⟨sz1, h1, h2, h3⟩ := loop_budget CmdLine.length CurrentOffset (CmdLine.length + 1)
      (sizingInit CmdLine) (fillInit CmdLine sz0.CharsToConsume sz0.TerminateNextArg)
      (hR _ _) (hne _ _) (hlen _ _)
    rw [h0] at h1
    cases h1
    have hsz : sizingPass CmdLine CurrentOffset =
        some ({ sz0 with RequiredCharCount := sz0.RequiredCharCount + 1 } :
          SizingState).markCurrent := by
      simp only [sizingPass, h0]
    have hrun := fillLoop_eq_run (CmdLine.length + 1)
      (fillInit CmdLine sz0.CharsToConsume sz0.TerminateNextArg) (hlen _ _)
    have hchar : (fillRun (fillInit CmdLine sz0.CharsToConsume sz0.TerminateNextArg)).Char =
        [] := by
      exact fillRun_char _
    refine ⟨_, hsz, ?_, fun _ => ⟨_, ?_, hchar, ?_, ?_, ?_, ?_⟩⟩
    · simp [hT, h2]
    · simpa using hrun
    · simp [h2]
    · simp only [fillPass, markCurrent_proj]
      rw [hrun]
      rfl
    · simp [finish_length, h2]
    · have hinit : (fillInit CmdLine sz0.CharsToConsume sz0.TerminateNextArg).written = 0 := by
        simp [FillState.written, fillInit]
      have hinit2 : (sizingInit CmdLine).RequiredCharCount + (sizingInit CmdLine).ArgCount =
          0 := by
        simp [sizingInit]
      simp only [FillState.charsWritten, markCurrent_proj]
      split_ifs <;> omega

/-- C36 witness: the line `a "b c" | d` needs 10 characters for its four
arguments and their terminators; the sizing pass asks for 12. -/
theorem C36_passes_agree_witness :
    (sizingPass ['a', ' ', '"', 'b', ' ', 'c', '"', ' ', '|', ' ', 'd'] 0).map
        (fun sz => (sz.ArgCount, sz.RequiredCharCount)) = some (4, 8) ∧
    (fillLoop 12 (fillInit ['a', ' ', '"', 'b', ' ', 'c', '"', ' ', '|', ' ', 'd'] 0 false)).map
        (fun fl => (fl.ArgV.length, fl.charsWritten)) = some (3, 10) ∧
    ∃ sz, sizingPass ['a', ' ', '"', 'b', ' ', 'c', '"', ' ', '|', ' ', 'd'] 0 = some sz ∧
      (sz.ArgCount = 0 ↔
        YoriShTrimSpacesFromBeginning ['a', ' ', '"', 'b', ' ', 'c', '"', ' ', '|', ' ', 'd'] =
          []) ∧
      (0 < sz.ArgCount →
        ∃ fl, fillLoop (['a', ' ', '"', 'b', ' ', 'c', '"', ' ', '|', ' ', 'd'].length + 1)
            (fillInit ['a', ' ', '"', 'b', ' ', 'c', '"', ' ', '|', ' ', 'd']
              sz.CharsToConsume sz.TerminateNextArg) = some fl ∧
          fl.Char = [] ∧ fl.ArgV.length = sz.ArgCount - 1 ∧
          fillPass ['a', ' ', '"', 'b', ' ', 'c', '"', ' ', '|', ' ', 'd']
            sz.CharsToConsume sz.TerminateNextArg = some fl.finish ∧
          fl.finish.length = sz.ArgCount ∧
          fl.charsWritten ≤ sz.RequiredCharCount + sz.ArgCount) :=
  ⟨by decide!, by decide!,
    C36_passes_agree ['a', ' ', '"', 'b', ' ', 'c', '"', ' ', '|', ' ', 'd'] 0⟩

theorem sep_pos_not_escape (cs : List Char)
    (h : 0 < (YoriShIsArgumentSeperator cs).CharsToConsume) :
    ∃ c rest, cs = c :: rest ∧ YoriLibIsEscapeChar c = false ∧ c ≠ '"' ∧ c ≠ ' ' := by
  cases cs with
  | nil => simp [YoriShIsArgumentSeperator] at h
  | cons c rest =>
    have h2 := sep_pos_head _ h
    refine ⟨c, rest, rfl, ?_, by simpa using h2.1, by simpa using h2.2⟩
    by_contra hesc
    have hc : c = '^' := by simpa [YoriLibIsEscapeChar] using hesc
    subst hc
    simp [YoriShIsArgumentSeperator] at h

/-- The fill loop at an operator that directly follows the text of an
argument: the iteration is the terminate branch with the operator's
length and terminate flag. -/
theorem tokens_glued (out cs : List Char) (av : List Arg) (len : Nat) (q l : Bool)
    (hpos : 0 < (YoriShIsArgumentSeperator cs).CharsToConsume)
    (hstart : 0 < av.length ∨ 0 < out.length) :
    tokensFrom (mkFill out cs av len q false l) =
      tokensFrom (fillTerminate
        { mkFill out cs av len q false l with
            CharsToConsume := (YoriShIsArgumentSeperator cs).CharsToConsume,
            TerminateNextArg := (YoriShIsArgumentSeperator cs).TerminateArg }) := by
  obtain ⟨c, rest, rfl, hesc, hq, hs⟩ := sep_pos_not_escape cs hpos
  rw [tokensFrom_step _ (by simp [mkFill])]
  congr 1
  simp only [fillStep, mkFill, hesc, hq, hs, Bool.false_eq_true, false_and, if_false]
  rw [if_pos hstart, if_pos hpos]

theorem terminate_to_next (s : FillState) (op R : List Char)
    (hchar : YoriShTrimSpacesFromBeginning s.Char = op ++ R)
    (hC : effC s.Char s.CharsToConsume = op.length)
    (hT : effT s.Char s.CharsToConsume s.TerminateNextArg = true)
    (hop : op ≠ []) (hq : op.head? ≠ some '"')
    (hmore : YoriShTrimSpacesFromBeginning R ≠ []) :
    tokensFrom (fillTerminate s) =
      tokensFrom (mkFill [] (YoriShTrimSpacesFromBeginning R)
        (s.ArgV ++ [⟨s.CurOut, s.CurQuoted⟩, ⟨op, false⟩]) 0
        (decide ((YoriShTrimSpacesFromBeginning R).head? = some '"')) s.QuoteOpen
        (decide ((YoriShTrimSpacesFromBeginning R).head? = some '"'))) := by
  have hhead : (op ++ R).head? ≠ some '"' := by
    cases op with
    | nil => exact absurd rfl hop
    | cons c r => simpa using hq
  rw [fillTerminate_sep_more s (by rw [hchar]; simp [hop]) hT
    (by rw [hC]; exact List.length_pos.mpr hop) (by rw [hchar, hC]; simpa using hmore)]
  apply tokensFrom_congr
  simp [mkFill, FillState.core, hchar, hC, hq, hop]

theorem terminate_to_glued (s : FillState) (op R : List Char)
    (hchar : YoriShTrimSpacesFromBeginning s.Char = op ++ R)
    (hC : effC s.Char s.CharsToConsume = op.length)
    (hT : effT s.Char s.CharsToConsume s.TerminateNextArg = false)
    (hop : op ≠ []) (hq : op.head? ≠ some '"') :
    tokensFrom (fillTerminate s) =
      tokensFrom (mkFill op R (s.ArgV ++ [⟨s.CurOut, s.CurQuoted⟩]) 0 false s.QuoteOpen
        (decide (R.head? = some '"'))) := by
  have hhead : (op ++ R).head? ≠ some '"' := by
    cases op with
    | nil => exact absurd rfl hop
    | cons c r => simpa using hq
  have hpos : 0 < op.length := List.length_pos.mpr hop
  rw [fillTerminate_cont s (by rw [hchar]; simp [hop]) hT]
  apply tokensFrom_congr
  simp [mkFill, FillState.core, hchar, hC, hq, hop, hpos]

/-- An operator that terminates, written directly after the text of an
argument and followed by more text. -/
theorem tokens_glued_term (out op R : List Char) (av : List Arg) (len : Nat) (q l : Bool)
    (hsep : YoriShIsArgumentSeperator (op ++ R) = ⟨op.length, true⟩) (hop : op ≠ [])
    (hstart : 0 < av.length ∨ 0 < out.length)
    (hmore : YoriShTrimSpacesFromBeginning R ≠ []) :
    tokensFrom (mkFill out (op ++ R) av len q false l) =
      tokensFrom (mkFill [] (YoriShTrimSpacesFromBeginning R)
        (av ++ [⟨out, q⟩, ⟨op, false⟩]) 0
        (decide ((YoriShTrimSpacesFromBeginning R).head? = some '"')) false
        (decide ((YoriShTrimSpacesFromBeginning R).head? = some '"'))) := by
  have hpos : 0 < (YoriShIsArgumentSeperator (op ++ R)).CharsToConsume := by
    rw [hsep]
    exact List.length_pos.mpr hop
  have hl : op.length ≠ 0 := by
    have := List.length_pos.mpr hop
    omega
  obtain ⟨hq, hs⟩ := sep_pos_head _ hpos
  have hq1 : op.head? ≠ some '"' := by
    cases op with
    | nil => exact absurd rfl hop
    | cons c r => simpa using hq
  have htrim : YoriShTrimSpacesFromBeginning (op ++ R) = op ++ R :=
    trim_of_head_ne_space _ hs
  rw [tokens_glued out (op ++ R) av len q l hpos hstart, hsep]
  exact terminate_to_next _ op R htrim (by simp [effC, hl]) (by simp [effT, hl]) hop hq1 hmore

/-- An operator that terminates, written after a space and followed by more
text. -/
theorem tokens_spaced_term (out op R : List Char) (av : List Arg) (len : Nat) (q l : Bool)
    (hsep : YoriShIsArgumentSeperator (op ++ R) = ⟨op.length, true⟩) (hop : op ≠ [])
    (hmore : YoriShTrimSpacesFromBeginning R ≠ []) :
    tokensFrom (mkFill out (' ' :: (op ++ R)) av len q false l) =
      tokensFrom (mkFill [] (YoriShTrimSpacesFromBeginning R)
        (av ++ [⟨out, q⟩, ⟨op, false⟩]) 0
        (decide ((YoriShTrimSpacesFromBeginning R).head? = some '"')) false
        (decide ((YoriShTrimSpacesFromBeginning R).head? = some '"'))) := by
  have hpos : 0 < (YoriShIsArgumentSeperator (op ++ R)).CharsToConsume := by
    rw [hsep]
    exact List.length_pos.mpr hop
  obtain ⟨hq, hs⟩ := sep_pos_head _ hpos
  have hq1 : op.head? ≠ some '"' := by
    cases op with
    | nil => exact absurd rfl hop
    | cons c r => simpa using hq
  have htrim : YoriShTrimSpacesFromBeginning (' ' :: (op ++ R)) = op ++ R := by
    rw [trim_cons_space, trim_of_head_ne_space _ hs]
  rw [tokens_space]
  exact terminate_to_next _ op R htrim (by simp [effC, mkFill, htrim, hsep])
    (by simp [effT, mkFill, htrim, hsep]) hop hq1 hmore

/-- An operator that does not terminate, written after a space: it begins
the next argument, which goes on with the text after the operator. -/
theorem tokens_spaced_redir (out op R : List Char) (av : List Arg) (len : Nat) (q l : Bool)
    (hsep : YoriShIsArgumentSeperator (op ++ R) = ⟨op.length, false⟩) (hop : op ≠ []) :
    tokensFrom (mkFill out (' ' :: (op ++ R)) av len q false l) =
      tokensFrom (mkFill op R (av ++ [⟨out, q⟩]) 0 false false
        (decide (R.head? = some '"'))) := by
  have hpos : 0 < (YoriShIsArgumentSeperator (op ++ R)).CharsToConsume := by
    rw [hsep]
    exact List.length_pos.mpr hop
  obtain ⟨hq, hs⟩ := sep_pos_head _ hpos
  have hq1 : op.head? ≠ some '"' := by
    cases op with
    | nil => exact absurd rfl hop
    | cons c r => simpa using hq
  have htrim : YoriShTrimSpacesFromBeginning (' ' :: (op ++ R)) = op ++ R := by
    rw [trim_cons_space, trim_of_head_ne_space _ hs]
  rw [tokens_space]
  exact terminate_to_glued _ op R htrim (by simp [effC, mkFill, htrim, hsep])
    (by simp [effT, mkFill, htrim, hsep]) hop hq1

theorem sep_wordTerminator (op R : List Char) (hop : op ∈ wordTerminators)
    (hR : ∀ d, R.head? = some d →
      d ≠ '|' ∧ d ≠ '&' ∧ d ≠ '>' ∧ (op = ['&'] → d ≠ '!')) :
    YoriShIsArgumentSeperator (op ++ R) = ⟨op.length, true⟩ := by
  cases R with
  | nil =>
    simp only [wordTerminators, List.mem_cons, List.mem_singleton, List.not_mem_nil,
      or_false] at hop
    rcases hop with h | h | h | h | h | h | h | h <;> subst h <;> rfl
  | cons d R =>
    obtain ⟨h1, h2, h3, h4⟩ := hR d rfl
    simp only [wordTerminators, List.mem_cons, List.mem_singleton, List.not_mem_nil,
      or_false] at hop
    rcases hop with h | h | h | h | h | h | h | h <;> subst h <;>
      simp [YoriShIsArgumentSeperator, h1, h2, h3]
    intro h5
    exact absurd h5 (h4 rfl)

theorem sep_nonTerminating (op R : List Char) (hop : op ∈ nonTerminatingOperators)
    (hR : ∀ d, R.head? = some d → d ≠ '>' ∧ d ≠ '&') :
    YoriShIsArgumentSeperator (op ++ R) = ⟨op.length, false⟩ := by
  cases R with
  | nil =>
    simp only [nonTerminatingOperators, List.mem_cons, List.mem_singleton, List.not_mem_nil,
      or_false] at hop
    rcases hop with h | h | h | h | h | h | h <;> subst h <;> rfl
  | cons d R =>
    obtain ⟨h1, h2⟩ := hR d rfl
    simp only [nonTerminatingOperators, List.mem_cons, List.mem_singleton, List.not_mem_nil,
      or_false] at hop
    rcases hop with h | h | h | h | h | h | h <;> subst h <;>
      simp [YoriShIsArgumentSeperator, h1, h2]

theorem plain_head (w : List Char) (hw : isPlainWord w = true) :
    ∃ d w1, w = d :: w1 ∧ isOperatorChar d = false ∧ YoriLibIsEscapeChar d = false ∧
      d ≠ '"' ∧ d ≠ ' ' := by
  obtain ⟨h1, h2⟩ := (plainWord_iff w).mp hw
  cases w with
  | nil => exact absurd rfl h1
  | cons d w1 => exact ⟨d, w1, rfl, (plain_iff d).mp (h2 d (by simp))⟩

theorem tokenize_word_start (w R : List Char) (c : Nat) (t : Bool)
    (hw : isPlainWord w = true) :
    tokenize (w ++ R) c t = tokensFrom (mkFill [] (w ++ R) [] 0 false false false) := by
  obtain ⟨d, w1, rfl, _, _, hq, hs⟩ := plain_head w hw
  have hT : YoriShTrimSpacesFromBeginning (d :: (w1 ++ R)) = d :: (w1 ++ R) :=
    trim_cons_of_ne _ _ hs
  have hhead : (d :: (w1 ++ R)).head? ≠ some '"' := by simpa using hq
  rw [List.cons_append]
  unfold tokenize
  rw [hT]
  simp only [reduceCtorEq, if_false]
  change tokensFrom _ = _
  unfold fillInit
  rw [hT, tokensFrom_mk]
  simp only [hhead, decide_False]

/-- A run of plain characters before a `>`: the run is copied when it does
not end in the digit `1` or `2`. -/
theorem tokens_plain_run_gt (body : List Char) (out r : List Char) (av : List Arg) (len : Nat)
    (q l : Bool) (h : ∀ c ∈ body, isPlainChar c = true)
    (hr : r.head? = some '>' → body.getLast? ≠ some '1' ∧ body.getLast? ≠ some '2') :
    tokensFrom (mkFill out (body ++ r) av len q false l) =
      tokensFrom (mkFill (out ++ body) r av len q false l) := by
  induction body generalizing out with
  | nil => simp
  | cons c body ih =>
    have hc := (plain_iff c).mp (h c (by simp))
    have hsep : YoriShIsArgumentSeperator (c :: (body ++ r)) = ⟨0, false⟩ := by
      cases body with
      | nil =>
        by_cases hgt : r.head? = some '>'
        · obtain ⟨g1, g2⟩ := hr hgt
          have ho := hc.1
          simp only [isOperatorChar, decide_eq_false_iff_not, not_or] at ho
          exact sep_cons_other c _ ho.1 ho.2.1 ho.2.2.1 ho.2.2.2.1 ho.2.2.2.2
            (by simpa using g1) (by simpa using g2)
        · exact sep_plain c _ hc.1 (by simpa using hgt)
      | cons d ds =>
        have hd := (plain_iff d).mp (h d (by simp))
        apply sep_plain c _ hc.1
        simp only [List.cons_append, List.head?_cons, ne_eq, Option.some.injEq]
        rintro rfl
        simp [isOperatorChar] at hd
    have hr2 : r.head? = some '>' → body.getLast? ≠ some '1' ∧ body.getLast? ≠ some '2' := by
      intro hgt
      cases body with
      | nil => simp
      | cons d ds => simpa using hr hgt
    rw [List.cons_append, tokens_plain c out _ av len q l hc.2.1 hc.2.2.1 hc.2.2.2
      (by rw [hsep]), ih _ (fun c hc => h c (by simp [hc])) hr2]
    simp

theorem wordTerminator_ne_nil (op : List Char) (hop : op ∈ wordTerminators) : op ≠ [] := by
  rintro rfl
  simp [wordTerminators] at hop

theorem nonTerminating_ne_nil (op : List Char) (hop : op ∈ nonTerminatingOperators) :
    op ≠ [] := by
  rintro rfl
  simp [nonTerminatingOperators] at hop

theorem wordTerminator_gt (op R : List Char) (hop : op ∈ wordTerminators)
    (h : (op ++ R).head? = some '>') : op = ['>', '&', '2'] := by
  simp only [wordTerminators, List.mem_cons, List.mem_singleton, List.not_mem_nil,
    or_false] at hop
  rcases hop with h1 | h1 | h1 | h1 | h1 | h1 | h1 | h1 <;> subst h1 <;> simp at h ⊢

theorem plain_word_tail (w : List Char) (av : List Arg) (hw : isPlainWord w = true) :
    YoriShTrimSpacesFromBeginning w = w ∧ w ≠ [] ∧ w.head? ≠ some '"' ∧
    tokensFrom (mkFill [] w av 0 false false false) = av ++ [⟨w, false⟩] := by
  obtain ⟨hne, hall⟩ := (plainWord_iff w).mp hw
  obtain ⟨d, w1, rfl, _, _, hq, hs⟩ := plain_head w hw
  refine ⟨trim_cons_of_ne _ _ hs, hne, by simpa using hq, ?_⟩
  have := tokens_plain_run (d :: w1) [] [] av 0 false false hall (by simp)
  simp only [List.append_nil, List.nil_append] at this
  rw [this, tokens_end]

/-- The words `w1` and `w2` with a terminating operator written between
them without spaces. -/
theorem tokenize_glued (w1 op w2 : List Char) (c : Nat) (t : Bool)
    (hw1 : isPlainWord w1 = true) (hw2 : isPlainWord w2 = true) (hop : op ∈ wordTerminators)
    (h1 : op = ['>', '&', '2'] → w1.getLast? ≠ some '1' ∧ w1.getLast? ≠ some '2')
    (h2 : op = ['&'] → w2.head? ≠ some '!') :
    tokenize (w1 ++ (op ++ w2)) c t = [⟨w1, false⟩, ⟨op, false⟩, ⟨w2, false⟩] := by
  obtain ⟨hne1, hall1⟩ := (plainWord_iff w1).mp hw1
  obtain ⟨hT2, hne2, hq2, hend⟩ := plain_word_tail w2 [⟨w1, false⟩, ⟨op, false⟩] hw2
  obtain ⟨d, w2r, hd, hdo, _, _, _⟩ := plain_head w2 hw2
  have hsep : YoriShIsArgumentSeperator (op ++ w2) = ⟨op.length, true⟩ := by
    apply sep_wordTerminator op w2 hop
    intro e he
    rw [hd] at he
    simp only [List.head?_cons, Option.some.injEq] at he
    subst he
    simp only [isOperatorChar, decide_eq_false_iff_not, not_or] at hdo
    refine ⟨hdo.1, hdo.2.1, hdo.2.2.2.1, fun ho => ?_⟩
    have := h2 ho
    rw [hd] at this
    simpa using this
  rw [tokenize_word_start w1 _ c t hw1,
    tokens_plain_run_gt w1 [] (op ++ w2) [] 0 false false hall1
      (fun hgt => h1 (wordTerminator_gt op w2 hop hgt)),
    List.nil_append,
    tokens_glued_term w1 op w2 [] 0 false false hsep (wordTerminator_ne_nil op hop)
      (Or.inr (List.length_pos.mpr hne1)) (by rw [hT2]; exact hne2)]
  simp only [hT2, hq2, decide_False, List.nil_append]
  exact hend

/-- The words `w1` and `w2` with a terminating operator written between
them, one space on each side. -/
theorem tokenize_spaced (w1 op w2 : List Char) (c : Nat) (t : Bool)
    (hw1 : isPlainWord w1 = true) (hw2 : isPlainWord w2 = true) (hop : op ∈ wordTerminators) :
    tokenize (w1 ++ ' ' :: (op ++ ' ' :: w2)) c t =
      [⟨w1, false⟩, ⟨op, false⟩, ⟨w2, false⟩] := by
  obtain ⟨hne1, hall1⟩ := (plainWord_iff w1).mp hw1
  obtain ⟨hT2, hne2, hq2, hend⟩ := plain_word_tail w2 [⟨w1, false⟩, ⟨op, false⟩] hw2
  have hsep : YoriShIsArgumentSeperator (op ++ ' ' :: w2) = ⟨op.length, true⟩ := by
    apply sep_wordTerminator op _ hop
    intro e he
    simp only [List.head?_cons, Option.some.injEq] at he
    subst he
    exact ⟨by decide, by decide, by decide, fun _ => by decide⟩
  have hT3 : YoriShTrimSpacesFromBeginning (' ' :: w2) = w2 := by
    rw [trim_cons_space, hT2]
  rw [tokenize_word_start w1 _ c t hw1,
    tokens_plain_run w1 [] _ [] 0 false false hall1 (by simp),
    List.nil_append,
    tokens_spaced_term w1 op (' ' :: w2) [] 0 false false hsep (wordTerminator_ne_nil op hop)
      (by rw [hT3]; exact hne2)]
  simp only [hT3, hq2, decide_False, List.nil_append]
  exact hend

/-- A word, a space, and a redirection operator directly followed by a
plain file name. -/
theorem tokenize_redirect_file (w op f : List Char) (c : Nat) (t : Bool)
    (hw : isPlainWord w = true) (hf : isPlainWord f = true)
    (hop : op ∈ nonTerminatingOperators) :
    tokenize (w ++ ' ' :: (op ++ f)) c t = [⟨w, false⟩, ⟨op ++ f, false⟩] := by
  obtain ⟨hne1, hall1⟩ := (plainWord_iff w).mp hw
  obtain ⟨hnef, hallf⟩ := (plainWord_iff f).mp hf
  obtain ⟨d, fr, hd, hdo, _, hdq, _⟩ := plain_head f hf
  have hsep : YoriShIsArgumentSeperator (op ++ f) = ⟨op.length, false⟩ := by
    apply sep_nonTerminating op f hop
    intro e he
    rw [hd] at he
    simp only [List.head?_cons, Option.some.injEq] at he
    subst he
    simp only [isOperatorChar, decide_eq_false_iff_not, not_or] at hdo
    exact ⟨hdo.2.2.2.1, hdo.2.1⟩
  have hfq : f.head? ≠ some '"' := by
    rw [hd]
    simpa using hdq
  rw [tokenize_word_start w _ c t hw,
    tokens_plain_run w [] _ [] 0 false false hall1 (by simp),
    List.nil_append,
    tokens_spaced_redir w op f [] 0 false false hsep (nonTerminating_ne_nil op hop)]
  simp only [hfq, decide_False, List.nil_append]
  have := tokens_plain_run f op [] [⟨w, false⟩] 0 false false hallf (by simp)
  simp only [List.append_nil] at this
  rw [this, tokens_end]
  rfl

/-- A word, a space, and a redirection operator directly followed by a
file name in double quotes: both quotes are dropped and the text between
them is part of the argument the operator begins. -/
theorem tokenize_redirect_quoted (w op g : List Char) (c : Nat) (t : Bool)
    (hw : isPlainWord w = true) (hop : op ∈ nonTerminatingOperators)
    (hg : ∀ x ∈ g, YoriLibIsEscapeChar x = false ∧ x ≠ '"') :
    tokenize (w ++ ' ' :: (op ++ '"' :: (g ++ ['"']))) c t =
      [⟨w, false⟩, ⟨op ++ g, false⟩] := by
  obtain ⟨hne1, hall1⟩ := (plainWord_iff w).mp hw
  have hsep : YoriShIsArgumentSeperator (op ++ '"' :: (g ++ ['"'])) = ⟨op.length, false⟩ := by
    apply sep_nonTerminating op _ hop
    intro e he
    simp only [List.head?_cons, Option.some.injEq] at he
    subst he
    exact ⟨by decide, by decide⟩
  rw [tokenize_word_start w _ c t hw,
    tokens_plain_run w [] _ [] 0 false false hall1 (by simp),
    List.nil_append,
    tokens_spaced_redir w op _ [] 0 false false hsep (nonTerminating_ne_nil op hop)]
  simp only [List.head?_cons, decide_True, List.nil_append]
  rw [tokens_open_quote, tokens_inquote_run g _ _ _ _ _ _ hg, tokens_close_quote, tokens_end]
  rfl

/-- The fill loop over quoted sections that stand after the beginning of an
argument: every quote and every character between the quotes is copied. -/
theorem tokens_sections (segs : List (List Char × List Char)) (out : List Char)
    (av : List Arg)
    (h : ∀ s ∈ segs, (∀ x ∈ s.1, YoriLibIsEscapeChar x = false ∧ x ≠ '"') ∧
      ∀ x ∈ s.2, isPlainChar x = true) :
    tokensFrom (mkFill out (quotedSections segs) av 0 false false false) =
      av ++ [⟨out ++ quotedSections segs, false⟩] := by
  induction segs generalizing out with
  | nil =>
    simp only [quotedSections, List.map_nil, List.flatten_nil, List.append_nil]
    exact tokens_end out av false false false
  | cons s rest ih =>
    obtain ⟨h1, h2⟩ := h s (by simp)
    have hcons : quotedSections (s :: rest) =
        '"' :: (s.1 ++ '"' :: (s.2 ++ quotedSections rest)) := by
      simp [quotedSections]
    have hhead : (quotedSections rest).head? ≠ some '>' := by
      cases rest with
      | nil => simp [quotedSections]
      | cons s2 r2 => simp [quotedSections]
    rw [hcons, tokens_quote_literal]
    simp only [Bool.not_false]
    rw [tokens_inquote_run s.1 _ _ _ _ _ _ h1, tokens_quote_literal]
    simp only [Bool.not_true]
    rw [tokens_plain_run s.2 _ _ _ _ _ _ h2 hhead, ih _ (fun s hs => h s (by simp [hs]))]
    simp

theorem tokenize_sections (pre : List Char) (segs : List (List Char × List Char))
    (c : Nat) (t : Bool) (hpre : isPlainWord pre = true)
    (h : ∀ s ∈ segs, (∀ x ∈ s.1, YoriLibIsEscapeChar x = false ∧ x ≠ '"') ∧
      ∀ x ∈ s.2, isPlainChar x = true) :
    tokenize (pre ++ quotedSections segs) c t = [⟨pre ++ quotedSections segs, false⟩] := by
  obtain ⟨_, hall⟩ := (plainWord_iff pre).mp hpre
  have hhead : (quotedSections segs).head? ≠ some '>' := by
    cases segs with
    | nil => simp [quotedSections]
    | cons s2 r2 => simp [quotedSections]
  rw [tokenize_word_start pre _ c t hpre,
    tokens_plain_run pre [] _ [] 0 false false hall hhead, tokens_sections segs _ _ h]
  simp

theorem parse_of_tokenize (Expand : List Char → List Char) (CmdLine : List Char)
    (CurrentOffset : Nat) (args : List Arg)
    (h : ∀ c t, tokenize CmdLine c t = args) :
    ∃ ctx, YoriShParseCmdlineToCmdContext Expand CmdLine CurrentOffset = some ctx ∧
      ctx.ArgC = args.length ∧
      ctx.ArgV = args.map (fun a => { a with Text := Expand a.Text }) := by
  obtain ⟨sz, _, h2, h3⟩ := parse_eq Expand CmdLine CurrentOffset
  rw [h] at h2 h3
  exact ⟨_, h3, h2, rfl⟩

/-- C31 counterexample: in the line `a >"b c"` the second argument begins
with `>`, not with a double quote, and neither of its two quotes is copied:
the arguments are `a` and `>b c`. -/
theorem C31_counterexample_redirect_quote :
    (YoriShParseCmdlineToCmdContext id "a >\"b c\"".toList 0).map (fun ctx => ctx.ArgV) =
      some [⟨"a".toList, false⟩, ⟨">b c".toList, false⟩] := by
  decide!

/-- C32 (amended): for plain words `w1`, `w2` and an operator `op` among
`|`, `||`, `&`, `&&`, newline, `>&2`, `1>&2`, `2>&1`, where `w1` does not end
in the digit `1` or `2` when `op` is `>&2` and `w2` does not begin with `!`
when `op` is `&`: tokenizing `w1 op w2` written without spaces gives the
three unquoted arguments `w1`, `op`, `w2`, the same arguments as the line
with one space on each side of the operator (which gives them without the
two side conditions). -/
theorem C32_glued_operator (Expand : List Char → List Char) (w1 op w2 : List Char)
    (CurrentOffset1 CurrentOffset2 : Nat)
    (hw1 : isPlainWord w1 = true) (hw2 : isPlainWord w2 = true) (hop : op ∈ wordTerminators)
    (h1 : op = ['>', '&', '2'] → w1.getLast? ≠ some '1' ∧ w1.getLast? ≠ some '2')
    (h2 : op = ['&'] → w2.head? ≠ some '!') :
    ∃ ctx1 ctx2,
      YoriShParseCmdlineToCmdContext Expand (w1 ++ op ++ w2) CurrentOffset1 = some ctx1 ∧
      YoriShParseCmdlineToCmdContext Expand (w1 ++ ' ' :: (op ++ ' ' :: w2)) CurrentOffset2 =
        some ctx2 ∧
      ctx1.ArgC = 3 ∧
      ctx1.ArgV = [⟨Expand w1, false⟩, ⟨Expand op, false⟩, ⟨Expand w2, false⟩] ∧
      ctx2.ArgC = ctx1.ArgC ∧ ctx2.ArgV = ctx1.ArgV := by
  obtain ⟨ctx1, g1, g2, g3⟩ := parse_of_tokenize Expand (w1 ++ op ++ w2) CurrentOffset1 _
    (fun c t => by
      rw [List.append_assoc]
      exact tokenize_glued w1 op w2 c t hw1 hw2 hop h1 h2)
  obtain ⟨ctx2, k1, k2, k3⟩ := parse_of_tokenize Expand (w1 ++ ' ' :: (op ++ ' ' :: w2))
    CurrentOffset2 _ (fun c t => tokenize_spaced w1 op w2 c t hw1 hw2 hop)
  exact ⟨ctx1, ctx2, g1, k1, g2, g3, by rw [k2, g2], by rw [k3, g3]⟩

/-- C32 witness: `make>&2log` and `make >&2 log` both give the arguments
`make`, `>&2`, `log`. -/
theorem C32_glued_operator_witness :
    ∃ ctx1 ctx2,
      YoriShParseCmdlineToCmdContext id "make>&2log".toList 0 = some ctx1 ∧
      YoriShParseCmdlineToCmdContext id "make >&2 log".toList 0 = some ctx2 ∧
      ctx1.ArgC = 3 ∧
      ctx1.ArgV = [⟨"make".toList, false⟩, ⟨">&2".toList, false⟩, ⟨"log".toList, false⟩] ∧
      ctx2.ArgC = ctx1.ArgC ∧ ctx2.ArgV = ctx1.ArgV :=
  C32_glued_operator id "make".toList ">&2".toList "log".toList 0 0 (by decide) (by decide)
    (by decide) (by decide) (by decide)

/-- C32 counterexample: `a1` and `!b` are plain words; `a1>&2b` gives the
arguments `a`, `1>&2`, `b` while `a1 >&2 b` gives `a1`, `>&2`, `b`, and `a&!b`
gives `a`, `&!`, `b` while `a & !b` gives `a`, `&`, `!b`. -/
theorem C32_counterexample_digit_and_bang :
    isPlainWord "a1".toList = true ∧ isPlainWord "!b".toList = true ∧
    (YoriShParseCmdlineToCmdContext id "a1>&2b".toList 0).map (fun ctx => ctx.ArgV) =
      some [⟨"a".toList, false⟩, ⟨"1>&2".toList, false⟩, ⟨"b".toList, false⟩] ∧
    (YoriShParseCmdlineToCmdContext id "a1 >&2 b".toList 0).map (fun ctx => ctx.ArgV) =
      some [⟨"a1".toList, false⟩, ⟨">&2".toList, false⟩, ⟨"b".toList, false⟩] ∧
    (YoriShParseCmdlineToCmdContext id "a&!b".toList 0).map (fun ctx => ctx.ArgV) =
      some [⟨"a".toList, false⟩, ⟨"&!".toList, false⟩, ⟨"b".toList, false⟩] ∧
    (YoriShParseCmdlineToCmdContext id "a & !b".toList 0).map (fun ctx => ctx.ArgV) =
      some [⟨"a".toList, false⟩, ⟨"&".toList, false⟩, ⟨"!b".toList, false⟩] :=
  ⟨by decide, by decide, by decide!, by decide!, by decide!, by decide!⟩

/-- C33: for a plain word `w`, a plain file name `f` and an operator `op`
among `>`, `>>`, `1>`, `1>>`, `2>`, `2>>`, `<`, tokenizing `w opf` gives the
two unquoted arguments `w` and `op` followed by `f`; and for a file name `g`
without quote and escape character (spaces and operator characters allowed)
written in double quotes directly after `op`, tokenizing `w op"g"` gives the
two unquoted arguments `w` and `op` followed by `g`, both quotes dropped. -/
theorem C33_redirect_glued_file (Expand : List Char → List Char) (w op f g : List Char)
    (CurrentOffset1 CurrentOffset2 : Nat)
    (hw : isPlainWord w = true) (hf : isPlainWord f = true)
    (hop : op ∈ nonTerminatingOperators)
    (hg : ∀ x ∈ g, YoriLibIsEscapeChar x = false ∧ x ≠ '"') :
    (∃ ctx, YoriShParseCmdlineToCmdContext Expand (w ++ ' ' :: (op ++ f)) CurrentOffset1 =
        some ctx ∧
      ctx.ArgC = 2 ∧ ctx.ArgV = [⟨Expand w, false⟩, ⟨Expand (op ++ f), false⟩]) ∧
    (∃ ctx, YoriShParseCmdlineToCmdContext Expand (w ++ ' ' :: (op ++ '"' :: (g ++ ['"'])))
        CurrentOffset2 = some ctx ∧
      ctx.ArgC = 2 ∧ ctx.ArgV = [⟨Expand w, false⟩, ⟨Expand (op ++ g), false⟩]) :=
  ⟨parse_of_tokenize Expand _ CurrentOffset1 _
    (fun c t => tokenize_redirect_file w op f c t hw hf hop),
   parse_of_tokenize Expand _ CurrentOffset2 _
    (fun c t => tokenize_redirect_quoted w op g c t hw hop hg)⟩

/-- C33 witness: `dir 2>>out.txt` gives `dir` and `2>>out.txt`;
`dir 2>>"my file.txt"` gives `dir` and `2>>my file.txt`. -/
theorem C33_redirect_glued_file_witness :
    (∃ ctx, YoriShParseCmdlineToCmdContext id "dir 2>>out.txt".toList 0 = some ctx ∧
      ctx.ArgC = 2 ∧ ctx.ArgV = [⟨"dir".toList, false⟩, ⟨"2>>out.txt".toList, false⟩]) ∧
    (∃ ctx, YoriShParseCmdlineToCmdContext id "dir 2>>\"my file.txt\"".toList 0 = some ctx ∧
      ctx.ArgC = 2 ∧ ctx.ArgV = [⟨"dir".toList, false⟩, ⟨"2>>my file.txt".toList, false⟩]) :=
  C33_redirect_glued_file id "dir".toList "2>>".toList "out.txt".toList "my file.txt".toList
    0 0 (by decide) (by decide) (by decide) (by decide)

/-- The first character of the line is copied without an operator test
(parse.c 514: the test needs an argument already begun or completed). -/
theorem tokens_first_char (c : Char) (r : List Char) (len : Nat) (q l : Bool)
    (hesc : YoriLibIsEscapeChar c = false) (hq : c ≠ '"') (hs : c ≠ ' ') :
    tokensFrom (mkFill [] (c :: r) [] len q false l) =
      tokensFrom (mkFill [c] r [] len q false l) := by
  rw [tokensFrom_step _ (by simp [mkFill])]
  apply tokensFrom_congr
  simp [fillStep, mkFill, hesc, hq, hs, fillLiteral, FillState.core]

theorem tokenize_first_char_sections (c : Char) (segs : List (List Char × List Char))
    (k : Nat) (t : Bool)
    (hesc : YoriLibIsEscapeChar c = false) (hq : c ≠ '"') (hs : c ≠ ' ')
    (h : ∀ s ∈ segs, (∀ x ∈ s.1, YoriLibIsEscapeChar x = false ∧ x ≠ '"') ∧
      ∀ x ∈ s.2, isPlainChar x = true) :
    tokenize (c :: quotedSections segs) k t = [⟨c :: quotedSections segs, false⟩] := by
  have hT : YoriShTrimSpacesFromBeginning (c :: quotedSections segs) =
      c :: quotedSections segs := trim_cons_of_ne _ _ hs
  have hhead : (c :: quotedSections segs).head? ≠ some '"' := by simpa using hq
  unfold tokenize
  rw [hT]
  simp only [reduceCtorEq, if_false]
  change tokensFrom _ = _
  unfold fillInit
  rw [hT, tokensFrom_mk]
  simp only [hhead, decide_False]
  rw [tokens_first_char c _ 0 false false hesc hq hs, tokens_sections segs _ _ h]
  simp

theorem terminate_to_glued_core (s : FillState) (op R : List Char)
    (hchar : YoriShTrimSpacesFromBeginning s.Char = op ++ R)
    (hC : effC s.Char s.CharsToConsume = op.length)
    (hT : effT s.Char s.CharsToConsume s.TerminateNextArg = false)
    (hop : op ≠ []) (hq : op.head? ≠ some '"') :
    (fillTerminate s).core =
      (mkFill op R (s.ArgV ++ [⟨s.CurOut, s.CurQuoted⟩]) 0 false s.QuoteOpen
        (decide (R.head? = some '"'))).core := by
  have hpos : 0 < op.length := List.length_pos.mpr hop
  rw [fillTerminate_cont s (by rw [hchar]; simp [hop]) hT]
  simp [mkFill, FillState.core, hchar, hC, hq, hop, hpos]

/-- One iteration of the fill loop at a space that is followed by a
redirection operator and a double quote: the argument in progress is ended,
the operator begins the next one and `LookingForFirstQuote` is set. -/
theorem fillStep_space_redirect_quote (out op R : List Char) (av : List Arg) (len : Nat)
    (q l : Bool) (hop : op ∈ nonTerminatingOperators) :
    (fillStep (mkFill out (' ' :: (op ++ '"' :: R)) av len q false l)).core =
      (mkFill op ('"' :: R) (av ++ [⟨out, q⟩]) 0 false false true).core := by
  have hne := nonTerminating_ne_nil op hop
  have hsep : YoriShIsArgumentSeperator (op ++ '"' :: R) = ⟨op.length, false⟩ := by
    apply sep_nonTerminating op _ hop
    intro e he
    simp only [List.head?_cons, Option.some.injEq] at he
    subst he
    exact ⟨by decide, by decide⟩
  have hpos : 0 < (YoriShIsArgumentSeperator (op ++ '"' :: R)).CharsToConsume := by
    rw [hsep]
    exact List.length_pos.mpr hne
  obtain ⟨hq, hs⟩ := sep_pos_head _ hpos
  have hq1 : op.head? ≠ some '"' := by
    cases op with
    | nil => exact absurd rfl hne
    | cons c r => simpa using hq
  have htrim : YoriShTrimSpacesFromBeginning (' ' :: (op ++ '"' :: R)) = op ++ '"' :: R := by
    rw [trim_cons_space, trim_of_head_ne_space _ hs]
  have hstep : fillStep (mkFill out (' ' :: (op ++ '"' :: R)) av len q false l) =
      fillTerminate (mkFill out (' ' :: (op ++ '"' :: R)) av len q false l) := by
    simp [fillStep, mkFill, YoriLibIsEscapeChar]
  rw [hstep]
  have := terminate_to_glued_core (mkFill out (' ' :: (op ++ '"' :: R)) av len q false l) op
    ('"' :: R) htrim (by simp [effC, mkFill, htrim, hsep]) (by simp [effT, mkFill, htrim, hsep])
    hne hq1
  simpa [mkFill] using this

/-- One iteration of the fill loop at a redirection operator that is
written directly after the text of an argument and followed by a double
quote. -/
theorem fillStep_glued_redirect_quote (out op R : List Char) (av : List Arg) (len : Nat)
    (q l : Bool) (hop : op ∈ nonTerminatingOperators)
    (hstart : 0 < av.length ∨ 0 < out.length) :
    (fillStep (mkFill out (op ++ '"' :: R) av len q false l)).core =
      (mkFill op ('"' :: R) (av ++ [⟨out, q⟩]) 0 false false true).core := by
  have hne := nonTerminating_ne_nil op hop
  have hsep : YoriShIsArgumentSeperator (op ++ '"' :: R) = ⟨op.length, false⟩ := by
    apply sep_nonTerminating op _ hop
    intro e he
    simp only [List.head?_cons, Option.some.injEq] at he
    subst he
    exact ⟨by decide, by decide⟩
  have hpos : 0 < (YoriShIsArgumentSeperator (op ++ '"' :: R)).CharsToConsume := by
    rw [hsep]
    exact List.length_pos.mpr hne
  have hl : op.length ≠ 0 := by
    have := List.length_pos.mpr hne
    omega
  obtain ⟨hq, hs⟩ := sep_pos_head _ hpos
  have hq1 : op.head? ≠ some '"' := by
    cases op with
    | nil => exact absurd rfl hne
    | cons c r => simpa using hq
  have htrim : YoriShTrimSpacesFromBeginning (op ++ '"' :: R) = op ++ '"' :: R :=
    trim_of_head_ne_space _ hs
  have hstep : fillStep (mkFill out (op ++ '"' :: R) av len q false l) =
      fillTerminate
        { mkFill out (op ++ '"' :: R) av len q false l with
            CharsToConsume := (YoriShIsArgumentSeperator (op ++ '"' :: R)).CharsToConsume,
            TerminateNextArg := (YoriShIsArgumentSeperator (op ++ '"' :: R)).TerminateArg } := by
    obtain ⟨c, rest, hcs, hesc, hq2, hs2⟩ := sep_pos_not_escape _ hpos
    rw [hcs] at hpos ⊢
    simp only [fillStep, mkFill, hesc, hq2, hs2, Bool.false_eq_true, false_and, if_false]
    rw [if_pos hstart, if_pos hpos]
  rw [hstep, hsep]
  have := terminate_to_glued_core
    { mkFill out (op ++ '"' :: R) av len q false l with
        CharsToConsume := op.length, TerminateNextArg := false } op
    ('"' :: R) htrim (by simp [effC, hl]) (by simp [effT, hl]) hne hq1
  simpa [mkFill] using this

/-- C31 (amended): in the fill loop, while the argument in progress is not
waiting for the quote that closes its opening quote
(`LookingForFirstQuote` clear), a double quote toggles the quote-open state
and is copied into the argument text; while quote-open every character that
is neither a quote nor the escape character, a space or an operator
character included, is copied and the argument goes on.  So an argument that
begins with a plain word and goes on with quoted sections, each followed by
plain text, is one argument with the quoted flag clear whose text is the
input with every quote character in it.  A redirection operator that the
tokenizer recognises (after a space, or directly after the text of an
argument) and that is directly followed by a double quote begins an argument
with `LookingForFirstQuote` set: that quote opens the quoted state and the
next quote closes it, and neither is copied, so `w op"g"` gives the two
unquoted arguments `w` and `op` followed by `g`.  The first character of the
line is copied without an operator test, so a line that begins with one
character that is not a space, a quote or the escape character and goes on
with quoted sections is one unquoted argument with every quote kept. -/
theorem C31_inner_quotes_copied (Expand : List Char → List Char) (pre : List Char)
    (segs : List (List Char × List Char)) (w op g : List Char) (c0 : Char)
    (CurrentOffset : Nat)
    (hpre : isPlainWord pre = true)
    (hsegs : ∀ s ∈ segs, (∀ x ∈ s.1, YoriLibIsEscapeChar x = false ∧ x ≠ '"') ∧
      ∀ x ∈ s.2, isPlainChar x = true)
    (hw : isPlainWord w = true) (hop : op ∈ nonTerminatingOperators)
    (hg : ∀ x ∈ g, YoriLibIsEscapeChar x = false ∧ x ≠ '"')
    (hc0 : YoriLibIsEscapeChar c0 = false ∧ c0 ≠ '"' ∧ c0 ≠ ' ') :
    (∀ (s : FillState) (r : List Char), s.Char = '"' :: r → s.LookingForFirstQuote = false →
      (fillStep s).core =
        ({ s with CurOut := s.CurOut ++ ['"'], Char := r, QuoteOpen := !s.QuoteOpen } :
          FillState).core) ∧
    (∀ (s : FillState) (c : Char) (r : List Char), s.Char = c :: r → s.QuoteOpen = true →
      YoriLibIsEscapeChar c = false → c ≠ '"' →
      fillStep s = { s with CurOut := s.CurOut ++ [c], Char := r }) ∧
    (∃ ctx, YoriShParseCmdlineToCmdContext Expand (pre ++ quotedSections segs) CurrentOffset =
        some ctx ∧
      ctx.ArgC = 1 ∧ ctx.ArgV = [⟨Expand (pre ++ quotedSections segs), false⟩]) ∧
    (∀ (out R : List Char) (av : List Arg) (len : Nat) (q l : Bool),
      (fillStep (mkFill out (' ' :: (op ++ '"' :: R)) av len q false l)).core =
        (mkFill op ('"' :: R) (av ++ [⟨out, q⟩]) 0 false false true).core ∧
      (0 < av.length ∨ 0 < out.length →
        (fillStep (mkFill out (op ++ '"' :: R) av len q false l)).core =
          (mkFill op ('"' :: R) (av ++ [⟨out, q⟩]) 0 false false true).core)) ∧
    (∀ (s : FillState) (r : List Char), s.Char = '"' :: r → s.LookingForFirstQuote = true →
      fillStep s =
        if s.QuoteOpen = true then
          { s with QuoteOpen := false, LookingForFirstQuote := false, Char := r }
        else { s with QuoteOpen := true, Char := r }) ∧
    (∃ ctx, YoriShParseCmdlineToCmdContext Expand (w ++ ' ' :: (op ++ '"' :: (g ++ ['"'])))
        CurrentOffset = some ctx ∧
      ctx.ArgC = 2 ∧ ctx.ArgV = [⟨Expand w, false⟩, ⟨Expand (op ++ g), false⟩]) ∧
    (∀ (r : List Char) (len : Nat) (q l : Bool),
      (fillStep (mkFill [] (c0 :: r) [] len q false l)).core =
        (mkFill [c0] r [] len q false l).core) ∧
    (∃ ctx, YoriShParseCmdlineToCmdContext Expand (c0 :: quotedSections segs) CurrentOffset =
        some ctx ∧
      ctx.ArgC = 1 ∧ ctx.ArgV = [⟨Expand (c0 :: quotedSections segs), false⟩]) := by
  refine ⟨?_, ?_, ?_, ?_, ?_, ?_, ?_, ?_⟩
  · intro s r hc hl
    have hsep : YoriShIsArgumentSeperator ('"' :: r) = ⟨0, false⟩ :=
      sep_cons_other _ _ (by decide) (by decide) (by decide) (by decide)
        (by decide) (by decide) (by decide)
    obtain ⟨out, cs, av, len, q, k, t, o, l⟩ := s
    simp only at hc hl
    subst hc hl
    cases o <;> by_cases hstart : 0 < av.length ∨ 0 < out.length <;>
      simp [fillStep, YoriLibIsEscapeChar, fillLiteral, FillState.core, hsep, hstart]
  · intro s c r hc ho hesc hq
    obtain ⟨out, cs, av, len, q, k, t, o, l⟩ := s
    simp only at hc ho
    subst hc ho
    simp [fillStep, hesc, hq, fillLiteral]
  · exact parse_of_tokenize Expand _ CurrentOffset _
      (fun c t => tokenize_sections pre segs c t hpre hsegs)
  · intro out R av len q l
    exact ⟨fillStep_space_redirect_quote out op R av len q l hop,
      fillStep_glued_redirect_quote out op R av len q l hop⟩
  · intro s r hc hl
    obtain ⟨out, cs, av, len, q, k, t, o, l⟩ := s
    simp only at hc hl
    subst hc hl
    cases o <;> simp [fillStep, YoriLibIsEscapeChar]
  · exact parse_of_tokenize Expand _ CurrentOffset _
      (fun c t => tokenize_redirect_quoted w op g c t hw hop hg)
  · intro r len q l
    simp [fillStep, mkFill, hc0.1, hc0.2.1, hc0.2.2, fillLiteral, FillState.core]
  · exact parse_of_tokenize Expand _ CurrentOffset _
      (fun c t => tokenize_first_char_sections c0 segs c t hc0.1 hc0.2.1 hc0.2.2 hsegs)

/-- C31 witness: the line `a"b c"d"|"e` is the one unquoted argument
`a"b c"d"|"e`; the line `a >"b c"` gives `a` and `>b c`; the line
`>"b c"d"|"e` is the one unquoted argument `>"b c"d"|"e`; and the line
`>"b c"` alone is the one unquoted argument `>"b c"`. -/
theorem C31_inner_quotes_copied_witness :
    (∃ ctx, YoriShParseCmdlineToCmdContext id "a\"b c\"d\"|\"e".toList 0 = some ctx ∧
      ctx.ArgC = 1 ∧ ctx.ArgV = [⟨"a\"b c\"d\"|\"e".toList, false⟩]) ∧
    (∃ ctx, YoriShParseCmdlineToCmdContext id "a >\"b c\"".toList 0 = some ctx ∧
      ctx.ArgC = 2 ∧ ctx.ArgV = [⟨"a".toList, false⟩, ⟨">b c".toList, false⟩]) ∧
    (∃ ctx, YoriShParseCmdlineToCmdContext id ">\"b c\"d\"|\"e".toList 0 = some ctx ∧
      ctx.ArgC = 1 ∧ ctx.ArgV = [⟨">\"b c\"d\"|\"e".toList, false⟩]) ∧
    (∃ ctx, YoriShParseCmdlineToCmdContext id ">\"b c\"".toList 0 = some ctx ∧
      ctx.ArgC = 1 ∧ ctx.ArgV = [⟨">\"b c\"".toList, false⟩]) :=
  ⟨(C31_inner_quotes_copied id "a".toList
      [("b c".toList, "d".toList), ("|".toList, "e".toList)] "a".toList ">".toList
      "b c".toList '>' 0 (by decide) (by decide) (by decide) (by decide) (by decide)
      (by decide)).2.2.1,
   (C31_inner_quotes_copied id "a".toList
      [("b c".toList, "d".toList), ("|".toList, "e".toList)] "a".toList ">".toList
      "b c".toList '>' 0 (by decide) (by decide) (by decide) (by decide) (by decide)
      (by decide)).2.2.2.2.2.1,
   (C31_inner_quotes_copied id "a".toList
      [("b c".toList, "d".toList), ("|".toList, "e".toList)] "a".toList ">".toList
      "b c".toList '>' 0 (by decide) (by decide) (by decide) (by decide) (by decide)
      (by decide)).2.2.2.2.2.2.2,
   (C31_inner_quotes_copied id "a".toList
      [("b c".toList, [])] "a".toList ">".toList
      "b c".toList '>' 0 (by decide) (by decide) (by decide) (by decide) (by decide)
      (by decide)).2.2.2.2.2.2.2⟩

/-- C40 witness: the command line `a >f | b c & d` (seven arguments) gives
three nodes with the argument lists `a`, `b c` and `d`, taken from three
runs of the command line that do not overlap. -/
theorem C40_plan_nodes_witness :
    ∃ plan, YoriShParseCmdContextToExecPlan ⟨fun _ => false, fun s => '/' :: s⟩
        ⟨7, [⟨['a'], false⟩, ⟨['>', 'f'], false⟩, ⟨['|'], false⟩, ⟨['b'], false⟩,
          ⟨['c'], false⟩, ⟨['&'], false⟩, ⟨['d'], false⟩], 0, false⟩ = some (some plan) ∧
      plan.FirstCmd.map (fun n => n.CmdToExec) =
        [[⟨['a'], false⟩], [⟨['b'], false⟩, ⟨['c'], false⟩], [⟨['d'], false⟩]] ∧
      plan.NumberCommands = plan.FirstCmd.length ∧
      (∃ runs : List (Nat × Nat),
        List.Forall₂ (ProgramRun ⟨7, [⟨['a'], false⟩, ⟨['>', 'f'], false⟩, ⟨['|'], false⟩,
            ⟨['b'], false⟩, ⟨['c'], false⟩, ⟨['&'], false⟩, ⟨['d'], false⟩], 0, false⟩)
          (plan.FirstCmd.map (fun n => n.CmdToExec)) runs ∧
        runs.Pairwise (fun a b => a.1 + a.2 ≤ b.1)) ∧
      (plan.FirstCmd.map (fun n => n.CmdToExec)).flatten.Sublist
        [⟨['a'], false⟩, ⟨['>', 'f'], false⟩, ⟨['|'], false⟩, ⟨['b'], false⟩,
          ⟨['c'], false⟩, ⟨['&'], false⟩, ⟨['d'], false⟩] := by
  have hplan : (YoriShParseCmdContextToExecPlan ⟨fun _ => false, fun s => '/' :: s⟩
        ⟨7, [⟨['a'], false⟩, ⟨['>', 'f'], false⟩, ⟨['|'], false⟩, ⟨['b'], false⟩,
          ⟨['c'], false⟩, ⟨['&'], false⟩, ⟨['d'], false⟩], 0, false⟩).bind
        (fun r => r.map (fun plan => plan.FirstCmd.map (fun n => n.CmdToExec))) =
      some [[⟨['a'], false⟩], [⟨['b'], false⟩, ⟨['c'], false⟩], [⟨['d'], false⟩]] := by
    decide!
  cases hP : YoriShParseCmdContextToExecPlan ⟨fun _ => false, fun s => '/' :: s⟩
        ⟨7, [⟨['a'], false⟩, ⟨['>', 'f'], false⟩, ⟨['|'], false⟩, ⟨['b'], false⟩,
          ⟨['c'], false⟩, ⟨['&'], false⟩, ⟨['d'], false⟩], 0, false⟩ with
  | none =>
    rw [hP] at hplan
    simp at hplan
  | some r =>
    cases r with
    | none =>
      rw [hP] at hplan
      simp at hplan
    | some plan =>
      rw [hP] at hplan
      exact ⟨plan, rfl, by simpa using hplan,
        C40_plan_nodes ⟨fun _ => false, fun s => '/' :: s⟩ _ plan rfl hP⟩

theorem trim_idem (r : List Char) :
    YoriShTrimSpacesFromBeginning (YoriShTrimSpacesFromBeginning r) =
      YoriShTrimSpacesFromBeginning r :=
  trim_of_head_ne_space _ (trim_head_ne_space r)

theorem redirectQuoteStateOK_core (s : FillState) :
    redirectQuoteStateOK s.core = redirectQuoteStateOK s := rfl

theorem redirectQuoteRunOK_core (fuel : Nat) : ∀ s : FillState,
    redirectQuoteRunOK fuel s.core = redirectQuoteRunOK fuel s := by
  induction fuel with
  | zero => intro s; rfl
  | succ fuel ih =>
    intro s
    have hc : s.core.Char = s.Char := rfl
    have h3 : redirectQuoteRunOK fuel (fillStep s.core) =
        redirectQuoteRunOK fuel (fillStep s) := by
      rw [← ih (fillStep s.core), fillStep_core, ih]
    simp only [redirectQuoteRunOK, hc, redirectQuoteStateOK_core, h3]

theorem redirectQuoteRunOK_congr (fuel : Nat) (s1 s2 : FillState) (h : s1.core = s2.core) :
    redirectQuoteRunOK fuel s1 = redirectQuoteRunOK fuel s2 := by
  rw [← redirectQuoteRunOK_core fuel s1, h, redirectQuoteRunOK_core]

theorem safe_congr (s1 s2 : FillState) (h : s1.core = s2.core)
    (hN : RedirectQuoteSafe s1) : RedirectQuoteSafe s2 := by
  intro fuel
  rw [← redirectQuoteRunOK_congr fuel s1 s2 h]
  exact hN fuel

theorem safe_step (s : FillState) (hc : s.Char ≠ []) (hN : RedirectQuoteSafe s) :
    RedirectQuoteSafe (fillStep s) ∧ redirectQuoteStateOK s = true := by
  constructor
  · intro fuel
    have := hN (fuel + 1)
    simp only [redirectQuoteRunOK, hc, if_false, Bool.and_eq_true] at this
    exact this.2
  · have := hN 1
    simp only [redirectQuoteRunOK, hc, if_false, Bool.and_eq_true] at this
    exact this.1

/-- The state after one iteration, given up to the scratch variables,
inherits the property. -/
theorem safe_next (s s1 : FillState) (hc : s.Char ≠ [])
    (hstep : (fillStep s).core = s1.core) (hN : RedirectQuoteSafe s) :
    RedirectQuoteSafe s1 :=
  safe_congr _ _ hstep (safe_step s hc hN).1

/-- Two states with the same next state share the property when the second
passes the check itself. -/
theorem safe_swap (s s2 : FillState) (hc : s.Char ≠ []) (hc2 : s2.Char ≠ [])
    (hstep : (fillStep s).core = (fillStep s2).core) (h2 : redirectQuoteStateOK s2 = true)
    (hN : RedirectQuoteSafe s) : RedirectQuoteSafe s2 := by
  intro fuel
  cases fuel with
  | zero => rfl
  | succ fuel =>
    have h0 := hN (fuel + 1)
    simp only [redirectQuoteRunOK, hc, hc2, if_false, Bool.and_eq_true] at h0 ⊢
    refine ⟨h2, ?_⟩
    rw [← redirectQuoteRunOK_congr fuel _ _ hstep]
    exact h0.2

theorem safe_of_fuel (fuel : Nat) : ∀ s : FillState, s.Char.length ≤ fuel →
    redirectQuoteRunOK fuel s = true → RedirectQuoteSafe s := by
  induction fuel with
  | zero =>
    intro s hf _ fuel1
    have hnil : s.Char = [] := List.length_eq_zero.mp (Nat.le_zero.mp hf)
    cases fuel1 with
    | zero => rfl
    | succ f => simp [redirectQuoteRunOK, hnil]
  | succ fuel ih =>
    intro s hf h fuel1
    by_cases hc : s.Char = []
    · cases fuel1 with
      | zero => rfl
      | succ f => simp [redirectQuoteRunOK, hc]
    · simp only [redirectQuoteRunOK, hc, if_false, Bool.and_eq_true] at h
      have hlen := fillStep_length s hc
      have hrec := ih (fillStep s) (by omega) h.2
      cases fuel1 with
      | zero => rfl
      | succ f =>
        simp only [redirectQuoteRunOK, hc, if_false, Bool.and_eq_true]
        exact ⟨h.1, hrec f⟩

theorem step_escape_pair (c d : Char) (out r : List Char) (av : List Arg) (len : Nat)
    (q o l : Bool) (hc : YoriLibIsEscapeChar c = true) :
    (fillStep (mkFill out (c :: d :: r) av len q o l)).core =
      (mkFill (out ++ [c, d]) r av len q o l).core := by
  simp [fillStep, mkFill, hc, FillState.core]

theorem step_open_quote (out r : List Char) (av : List Arg) (len : Nat) (q : Bool) :
    (fillStep (mkFill out ('"' :: r) av len q false true)).core =
      (mkFill out r av len q true true).core := by
  simp [fillStep, mkFill, YoriLibIsEscapeChar, FillState.core]

theorem step_close_quote (out r : List Char) (av : List Arg) (len : Nat) (q : Bool) :
    (fillStep (mkFill out ('"' :: r) av len q true true)).core =
      (mkFill out r av len q false false).core := by
  simp [fillStep, mkFill, YoriLibIsEscapeChar, FillState.core]

theorem step_quote_literal (out r : List Char) (av : List Arg) (len : Nat) (q o : Bool) :
    (fillStep (mkFill out ('"' :: r) av len q o false)).core =
      (mkFill (out ++ ['"']) r av len q (!o) false).core := by
  have hsep : YoriShIsArgumentSeperator ('"' :: r) = ⟨0, false⟩ :=
    sep_cons_other _ _ (by decide) (by decide) (by decide) (by decide)
      (by decide) (by decide) (by decide)
  cases o <;> simp [fillStep, mkFill, YoriLibIsEscapeChar, fillLiteral, FillState.core, hsep]

theorem step_inquote (c : Char) (out r : List Char) (av : List Arg) (len : Nat) (q l : Bool)
    (hesc : YoriLibIsEscapeChar c = false) (hq : c ≠ '"') :
    (fillStep (mkFill out (c :: r) av len q true l)).core =
      (mkFill (out ++ [c]) r av len q true l).core := by
  simp [fillStep, mkFill, hesc, hq, fillLiteral, FillState.core]

theorem step_plain (c : Char) (out r : List Char) (av : List Arg) (len : Nat) (q l : Bool)
    (hesc : YoriLibIsEscapeChar c = false) (hq : c ≠ '"') (hs : c ≠ ' ')
    (hsep : (YoriShIsArgumentSeperator (c :: r)).CharsToConsume = 0) :
    (fillStep (mkFill out (c :: r) av len q false l)).core =
      (mkFill (out ++ [c]) r av len q false l).core := by
  have h0 : ¬ 0 < (YoriShIsArgumentSeperator (c :: r)).CharsToConsume := by omega
  simp only [fillStep, mkFill, hesc, hq, hs, fillLiteral, FillState.core, h0,
    Bool.false_eq_true, false_and, if_false]
  split_ifs <;> simp

theorem step_first_char (c : Char) (r : List Char) (len : Nat) (q l : Bool)
    (hesc : YoriLibIsEscapeChar c = false) (hq : c ≠ '"') (hs : c ≠ ' ') :
    (fillStep (mkFill [] (c :: r) [] len q false l)).core =
      (mkFill [c] r [] len q false l).core := by
  simp [fillStep, mkFill, hesc, hq, hs, fillLiteral, FillState.core]

theorem step_space (out r : List Char) (av : List Arg) (len : Nat) (q l : Bool) :
    fillStep (mkFill out (' ' :: r) av len q false l) =
      fillTerminate (mkFill out (' ' :: r) av len q false l) := by
  simp [fillStep, mkFill, YoriLibIsEscapeChar]

theorem step_space_trim (out r : List Char) (av : List Arg) (len : Nat) (q l : Bool) :
    fillStep (mkFill out (' ' :: r) av len q false l) =
      fillStep (mkFill out (' ' :: YoriShTrimSpacesFromBeginning r) av len q false l) := by
  rw [step_space, step_space]
  unfold fillTerminate
  simp only [mkFill, trim_cons_space, trim_idem]

theorem step_glued_space (out cs : List Char) (av : List Arg) (len : Nat) (q l : Bool)
    (hpos : 0 < (YoriShIsArgumentSeperator cs).CharsToConsume)
    (hstart : 0 < av.length ∨ 0 < out.length) :
    (fillStep (mkFill out cs av len q false l)).core =
      (fillStep (mkFill out (' ' :: cs) av len q false l)).core := by
  obtain ⟨_, hs⟩ := sep_pos_head cs hpos
  have htrim : YoriShTrimSpacesFromBeginning cs = cs := trim_of_head_ne_space _ hs
  have hk : (YoriShIsArgumentSeperator cs).CharsToConsume ≠ 0 := by omega
  obtain ⟨c, rest, hcs, hesc, hq2, hs2⟩ := sep_pos_not_escape cs hpos
  have hstep : fillStep (mkFill out cs av len q false l) =
      fillTerminate
        { mkFill out cs av len q false l with
            CharsToConsume := (YoriShIsArgumentSeperator cs).CharsToConsume,
            TerminateNextArg := (YoriShIsArgumentSeperator cs).TerminateArg } := by
    rw [hcs] at hpos ⊢
    simp only [fillStep, mkFill, hesc, hq2, hs2, Bool.false_eq_true, false_and, if_false]
    rw [if_pos hstart, if_pos hpos]
  rw [hstep, step_space]
  unfold fillTerminate
  simp only [mkFill, trim_cons_space, htrim, FillState.terminateArg, FillState.beginArg, hk,
    if_false]
  split_ifs <;> simp_all [FillState.core]

theorem step_space_next (out r : List Char) (av : List Arg) (len : Nat) (q l : Bool)
    (hT : YoriShTrimSpacesFromBeginning r ≠ [])
    (hsep : (YoriShIsArgumentSeperator (YoriShTrimSpacesFromBeginning r)).CharsToConsume = 0) :
    (fillStep (mkFill out (' ' :: r) av len q false l)).core =
      (mkFill [] (YoriShTrimSpacesFromBeginning r) (av ++ [⟨out, q⟩]) 0
        (decide ((YoriShTrimSpacesFromBeginning r).head? = some '"')) false
        (decide ((YoriShTrimSpacesFromBeginning r).head? = some '"'))).core := by
  rw [step_space]
  have h1 : (mkFill out (' ' :: r) av len q false l).Char = ' ' :: r := rfl
  have h2 : (mkFill out (' ' :: r) av len q false l).CharsToConsume = 0 := rfl
  have hsepT := sep_zero_term _ hsep
  rw [fillTerminate_cont _ (by rw [h1, trim_cons_space]; exact hT)
    (by rw [h1, h2]; simp [effT, trim_cons_space, hsepT])]
  simp [mkFill, effC, trim_cons_space, hsep, FillState.core]

theorem terminate_to_next_core (s : FillState) (op R : List Char)
    (hchar : YoriShTrimSpacesFromBeginning s.Char = op ++ R)
    (hC : effC s.Char s.CharsToConsume = op.length)
    (hT : effT s.Char s.CharsToConsume s.TerminateNextArg = true)
    (hop : op ≠ []) (hq : op.head? ≠ some '"')
    (hmore : YoriShTrimSpacesFromBeginning R ≠ []) :
    (fillTerminate s).core =
      (mkFill [] (YoriShTrimSpacesFromBeginning R)
        (s.ArgV ++ [⟨s.CurOut, s.CurQuoted⟩, ⟨op, false⟩]) 0
        (decide ((YoriShTrimSpacesFromBeginning R).head? = some '"')) s.QuoteOpen
        (decide ((YoriShTrimSpacesFromBeginning R).head? = some '"'))).core := by
  rw [fillTerminate_sep_more s (by rw [hchar]; simp [hop]) hT
    (by rw [hC]; exact List.length_pos.mpr hop) (by rw [hchar, hC]; simpa using hmore)]
  simp [mkFill, FillState.core, hchar, hC, hq, hop]

theorem step_spaced_term (out op R : List Char) (av : List Arg) (len : Nat) (q l : Bool)
    (hsep : YoriShIsArgumentSeperator (op ++ R) = ⟨op.length, true⟩) (hop : op ≠ [])
    (hmore : YoriShTrimSpacesFromBeginning R ≠ []) :
    (fillStep (mkFill out (' ' :: (op ++ R)) av len q false l)).core =
      (mkFill [] (YoriShTrimSpacesFromBeginning R)
        (av ++ [⟨out, q⟩, ⟨op, false⟩]) 0
        (decide ((YoriShTrimSpacesFromBeginning R).head? = some '"')) false
        (decide ((YoriShTrimSpacesFromBeginning R).head? = some '"'))).core := by
  have hpos : 0 < (YoriShIsArgumentSeperator (op ++ R)).CharsToConsume := by
    rw [hsep]
    exact List.length_pos.mpr hop
  obtain ⟨hq, hs⟩ := sep_pos_head _ hpos
  have hq1 : op.head? ≠ some '"' := by
    cases op with
    | nil => exact absurd rfl hop
    | cons c r => simpa using hq
  have htrim : YoriShTrimSpacesFromBeginning (' ' :: (op ++ R)) = op ++ R := by
    rw [trim_cons_space, trim_of_head_ne_space _ hs]
  rw [step_space]
  exact terminate_to_next_core _ op R htrim (by simp [effC, mkFill, htrim, hsep])
    (by simp [effT, mkFill, htrim, hsep]) hop hq1 hmore

theorem step_spaced_redir (out op R : List Char) (av : List Arg) (len : Nat) (q l : Bool)
    (hsep : YoriShIsArgumentSeperator (op ++ R) = ⟨op.length, false⟩) (hop : op ≠ []) :
    (fillStep (mkFill out (' ' :: (op ++ R)) av len q false l)).core =
      (mkFill op R (av ++ [⟨out, q⟩]) 0 false false (decide (R.head? = some '"'))).core := by
  have hpos : 0 < (YoriShIsArgumentSeperator (op ++ R)).CharsToConsume := by
    rw [hsep]
    exact List.length_pos.mpr hop
  obtain ⟨hq, hs⟩ := sep_pos_head _ hpos
  have hq1 : op.head? ≠ some '"' := by
    cases op with
    | nil => exact absurd rfl hop
    | cons c r => simpa using hq
  have htrim : YoriShTrimSpacesFromBeginning (' ' :: (op ++ R)) = op ++ R := by
    rw [trim_cons_space, trim_of_head_ne_space _ hs]
  rw [step_space]
  exact terminate_to_glued_core _ op R htrim (by simp [effC, mkFill, htrim, hsep])
    (by simp [effT, mkFill, htrim, hsep]) hop hq1

theorem argsReadBack_cons (a : Arg) (rest : List Arg) (h : argsReadBack (a :: rest) = true) :
    NUL ∉ a.Text ∧ (a.Quoted = true → quotedTextOK rest.isEmpty a.Text = true) ∧
      argsReadBack rest = true := by
  simp only [argsReadBack, readBackOK, Bool.and_eq_true, decide_eq_true_eq, Bool.or_eq_true,
    Bool.not_eq_true'] at h
  refine ⟨h.1.1, fun hq => ?_, h.2⟩
  rcases h.1.2 with h1 | h1
  · rw [hq] at h1
    exact absurd h1 (by decide)
  · exact h1

theorem argsReadBack_no_nul (rest : List Arg) (h : argsReadBack rest = true) :
    ∀ a ∈ rest, NUL ∉ a.Text := by
  induction rest with
  | nil => intro a ha; simp at ha
  | cons b r ih =>
    obtain ⟨h1, _, h3⟩ := argsReadBack_cons b r h
    intro a ha
    rcases List.mem_cons.mp ha with rfl | ha
    · exact h1
    · exact ih h3 a ha

theorem spacedArgs_nil : spacedArgs [] = [] := rfl

theorem spacedArgs_cons (a : Arg) (rest : List Arg) :
    spacedArgs (a :: rest) = ' ' :: (renderArg a ++ spacedArgs rest) := by
  simp [spacedArgs]

theorem spacedArgs_blank (rest : List Arg) :
    spacedArgs rest = [] ∨ (spacedArgs rest).head? = some ' ' := by
  cases rest with
  | nil => exact Or.inl rfl
  | cons a r => exact Or.inr (by simp [spacedArgs_cons])

theorem sep_table_blank (e : List Char × Bool) (he : e ∈ specSeparatorTable) (Y : List Char)
    (hY : Y = [] ∨ Y.head? = some ' ') :
    YoriShIsArgumentSeperator (e.1 ++ Y) = ⟨e.1.length, e.2⟩ := by
  have hY2 : Y = [] ∨ ∃ R, Y = ' ' :: R := by
    rcases hY with h1 | h1
    · exact Or.inl h1
    · cases Y with
      | nil => simp at h1
      | cons y R =>
        simp only [List.head?_cons, Option.some.injEq] at h1
        exact Or.inr ⟨R, by rw [h1]⟩
  simp only [specSeparatorTable, List.mem_cons, List.mem_singleton, List.not_mem_nil,
    or_false] at he
  rcases hY2 with rfl | ⟨R, rfl⟩
  · rcases he with rfl | rfl | rfl | rfl | rfl | rfl | rfl | rfl | rfl | rfl | rfl | rfl | rfl |
      rfl | rfl | rfl | rfl <;> rfl
  · rcases he with rfl | rfl | rfl | rfl | rfl | rfl | rfl | rfl | rfl | rfl | rfl | rfl | rfl |
      rfl | rfl | rfl | rfl <;> simp [YoriShIsArgumentSeperator]

theorem table_nonTerminating (e : List Char × Bool) (he : e ∈ specSeparatorTable)
    (hb : e.2 = false) : e.1 ∈ nonTerminatingOperators := by
  simp only [specSeparatorTable, List.mem_cons, List.mem_singleton, List.not_mem_nil,
    or_false] at he
  rcases he with rfl | rfl | rfl | rfl | rfl | rfl | rfl | rfl | rfl | rfl | rfl | rfl | rfl |
    rfl | rfl | rfl | rfl <;> simp [nonTerminatingOperators] at hb ⊢

theorem sep_take_length (S : List Char) (k : Nat) (b : Bool)
    (h : YoriShIsArgumentSeperator S = ⟨k, b⟩) (hk : 0 < k) :
    (S.take k).length = k ∧ (S.take k, b) ∈ specSeparatorTable ∧ S.take k ≠ [] := by
  have hpos : 0 < (YoriShIsArgumentSeperator S).CharsToConsume := by rw [h]; exact hk
  obtain ⟨h1, h2⟩ := sep_sound S hpos
  rw [h] at h1 h2
  simp only at h1 h2
  have hl : (S.take k).length = k := by simp [List.length_take]; omega
  refine ⟨hl, h1, ?_⟩
  intro he
  rw [he] at hl
  simp at hl
  omega

/-- An operator found by `YoriShIsArgumentSeperator` is found again, with
the same flag, when the text after it is replaced by a text that is empty
or begins with a space. -/
theorem sep_blank_stable (S Y : List Char) (k : Nat) (b : Bool)
    (h : YoriShIsArgumentSeperator S = ⟨k, b⟩) (hk : 0 < k)
    (hY : Y = [] ∨ Y.head? = some ' ') :
    YoriShIsArgumentSeperator (S.take k ++ Y) = ⟨k, b⟩ := by
  obtain ⟨hl, ht, _⟩ := sep_take_length S k b h hk
  have := sep_table_blank _ ht Y hY
  simpa [hl] using this

/-- A redirection operator found by `YoriShIsArgumentSeperator` is found
again when the text after it is replaced by a text that is empty or begins
with a character that is not an operator character. -/
theorem sep_redirect_next (S Y : List Char) (k : Nat)
    (h : YoriShIsArgumentSeperator S = ⟨k, false⟩) (hk : 0 < k)
    (hY : ∀ d, Y.head? = some d → isOperatorChar d = false) :
    YoriShIsArgumentSeperator (S.take k ++ Y) = ⟨k, false⟩ := by
  obtain ⟨hl, ht, _⟩ := sep_take_length S k false h hk
  have hop := table_nonTerminating _ ht rfl
  have := sep_nonTerminating (S.take k) Y hop (fun d hd => by
    have := hY d hd
    simp only [isOperatorChar, decide_eq_false_iff_not, not_or] at this
    exact ⟨this.2.2.2.1, this.2.1⟩)
  simpa [hl] using this

theorem sep_zero_not_op (c : Char) (r : List Char)
    (h : (YoriShIsArgumentSeperator (c :: r)).CharsToConsume = 0) :
    isOperatorChar c = false := by
  simp only [isOperatorChar, decide_eq_false_iff_not, not_or]
  refine ⟨?_, ?_, ?_, ?_, ?_⟩ <;> rintro rfl <;>
    simp [YoriShIsArgumentSeperator] at h <;> split_ifs at h

/-- A character that is not the start of an operator stays so when the text
after it is replaced by a text that begins with `>` only if the first text
did. -/
theorem sep_literal_stable (c : Char) (A B : List Char)
    (h : (YoriShIsArgumentSeperator (c :: A)).CharsToConsume = 0)
    (hB : B.head? = some '>' → A.head? = some '>') :
    (YoriShIsArgumentSeperator (c :: B)).CharsToConsume = 0 := by
  have hop := sep_zero_not_op c A h
  by_cases hB1 : B.head? = some '>'
  · have hA := hB hB1
    obtain ⟨A1, rfl⟩ : ∃ A1, A = '>' :: A1 := by
      cases A with
      | nil => simp at hA
      | cons a A1 =>
        simp only [List.head?_cons, Option.some.injEq] at hA
        exact ⟨A1, by rw [hA]⟩
    have h1 : c ≠ '1' := by
      rintro rfl
      simp [YoriShIsArgumentSeperator] at h
      split_ifs at h
    have h2 : c ≠ '2' := by
      rintro rfl
      simp [YoriShIsArgumentSeperator] at h
      split_ifs at h
    simp only [isOperatorChar, decide_eq_false_iff_not, not_or] at hop
    rw [sep_cons_other c B hop.1 hop.2.1 hop.2.2.1 hop.2.2.2.1 hop.2.2.2.2 h1 h2]
  · rw [sep_plain c B hop hB1]

/-- The terminate branch reads the text left after the spaces only: the
spaces may be taken away beforehand. -/
theorem tokens_space_trim (out r : List Char) (av : List Arg) (len : Nat) (q l : Bool) :
    tokensFrom (mkFill out (' ' :: r) av len q false l) =
      tokensFrom (mkFill out (' ' :: YoriShTrimSpacesFromBeginning r) av len q false l) := by
  rw [tokens_space, tokens_space]
  congr 1
  unfold fillTerminate
  simp only [mkFill, trim_cons_space, trim_idem]

/-- An operator written directly after the text of an argument is read as
if a space stood before it. -/
theorem tokens_glued_eq_space (out cs : List Char) (av : List Arg) (len : Nat) (q l : Bool)
    (hpos : 0 < (YoriShIsArgumentSeperator cs).CharsToConsume)
    (hstart : 0 < av.length ∨ 0 < out.length) :
    tokensFrom (mkFill out cs av len q false l) =
      tokensFrom (mkFill out (' ' :: cs) av len q false l) := by
  obtain ⟨_, hs⟩ := sep_pos_head cs hpos
  have htrim : YoriShTrimSpacesFromBeginning cs = cs := trim_of_head_ne_space _ hs
  have hk : (YoriShIsArgumentSeperator cs).CharsToConsume ≠ 0 := by omega
  rw [tokens_glued out cs av len q l hpos hstart, tokens_space]
  apply tokensFrom_congr
  unfold fillTerminate
  simp only [mkFill, trim_cons_space, htrim, FillState.terminateArg, FillState.beginArg, hk,
    if_false]
  split_ifs <;> simp_all [FillState.core]

theorem quotes_snoc (r : List Char) (hall : ∀ x ∈ r, x = '"') : r ++ ['"'] = '"' :: r := by
  induction r with
  | nil => rfl
  | cons x r ih =>
    have hx : x = '"' := hall x (List.mem_cons_self _ _)
    subst hx
    rw [List.cons_append, ih (fun y hy => hall y (List.mem_cons_of_mem _ hy))]

/-- A run of double quotes read outside an opening quote pair: each is
copied and toggles the quote-open state. -/
theorem tokens_quote_run (r : List Char) (hall : ∀ x ∈ r, x = '"') :
    ∀ (out Y : List Char) (av : List Arg) (len : Nat) (q o : Bool),
    ∃ oo, tokensFrom (mkFill out (r ++ Y) av len q o false) =
        tokensFrom (mkFill (out ++ r) Y av len q oo false) ∧
      (r.length % 2 = 0 → oo = o) ∧ (r.length % 2 = 1 → oo = !o) := by
  induction r with
  | nil =>
    intro out Y av len q o
    exact ⟨o, by simp, fun _ => rfl, fun h => by simp at h⟩
  | cons x r ih =>
    intro out Y av len q o
    have hx : x = '"' := hall x (List.mem_cons_self _ _)
    subst hx
    obtain ⟨oo, h1, h2, h3⟩ := ih (fun y hy => hall y (List.mem_cons_of_mem _ hy))
      (out ++ ['"']) Y av len q (!o)
    refine ⟨oo, ?_, ?_, ?_⟩
    · rw [List.cons_append, tokens_quote_literal, h1]
      simp
    · intro hp
      have := h3 (by simp only [List.length_cons] at hp; omega)
      simpa using this
    · intro hp
      exact h2 (by simp only [List.length_cons] at hp; omega)

/-- The text of a quoted argument written between double quotes is read
back as that text; the quote-open state is clear afterwards unless the text
ends in a run of double quotes of odd length. -/
theorem tokens_inquote_copy (n : Nat) : ∀ (text out Y : List Char) (av : List Arg) (len : Nat)
    (q last : Bool), text.length ≤ n → quotedTextOK last text = true →
    ∃ oo, tokensFrom (mkFill out (text ++ '"' :: Y) av len q true true) =
        tokensFrom (mkFill (out ++ text) Y av len q oo false) ∧
      (last = false → oo = false) := by
  induction n using Nat.strong_induction_on with
  | _ n ih =>
    intro text out Y av len q last hn hd
    match text, hn, hd with
    | [], _, _ =>
      exact ⟨false, by rw [List.nil_append, tokens_close_quote]; simp, fun _ => rfl⟩
    | [c], _, hd =>
      by_cases hesc : YoriLibIsEscapeChar c = true
      · simp [quotedTextOK, hesc] at hd
      · have hesc2 : YoriLibIsEscapeChar c = false := by simpa using hesc
        by_cases hq : c = '"'
        · subst hq
          have hl : last = true := by simpa [quotedTextOK, hesc2] using hd
          refine ⟨true, ?_, fun h => by rw [hl] at h; exact absurd h (by decide)⟩
          rw [List.singleton_append, tokens_close_quote, tokens_quote_literal]
          simp
        · refine ⟨false, ?_, fun _ => rfl⟩
          rw [List.singleton_append, tokens_inquote c out _ av len q true hesc2 hq,
            tokens_close_quote]
    | c :: d :: r, hn, hd =>
      by_cases hesc : YoriLibIsEscapeChar c = true
      · have hd2 : quotedTextOK last r = true := by simpa [quotedTextOK, hesc] using hd
        obtain ⟨oo, h1, h2⟩ := ih r.length (by simp at hn; omega) r (out ++ [c, d]) Y av len q
          last (le_refl _) hd2
        refine ⟨oo, ?_, h2⟩
        rw [List.cons_append, List.cons_append, tokens_escape_pair c d out _ av len q true true
          hesc, h1]
        simp
      · have hesc2 : YoriLibIsEscapeChar c = false := by simpa using hesc
        by_cases hq : c = '"'
        · subst hq
          simp only [quotedTextOK, hesc2, Bool.false_eq_true, if_false, if_true,
            Bool.and_eq_true, List.all_eq_true, decide_eq_true_eq, Bool.or_eq_true] at hd
          obtain ⟨hall, hpar⟩ := hd
          have hall2 : ∀ x ∈ (d :: r) ++ ['"'], x = '"' := by
            intro x hx
            rcases List.mem_append.mp hx with h | h
            · exact hall x h
            · simpa using h
          obtain ⟨oo, h1, h2, _⟩ := tokens_quote_run ((d :: r) ++ ['"']) hall2 out Y av len q
            false
          refine ⟨oo, ?_, ?_⟩
          · have e1 : ('"' :: d :: r) ++ '"' :: Y = '"' :: (((d :: r) ++ ['"']) ++ Y) := by
              simp
            have e2 : out ++ '"' :: d :: r = out ++ ((d :: r) ++ ['"']) := by
              rw [quotes_snoc (d :: r) hall]
            rw [e1, tokens_close_quote, h1, e2]
          · intro hl
            apply h2
            rcases hpar with h | h
            · rw [hl] at h
              exact absurd h (by decide)
            · simp only [List.length_append, List.length_cons, List.length_nil] at h ⊢
              omega
        · simp only [quotedTextOK, hesc2, hq, Bool.false_eq_true, if_false] at hd
          obtain ⟨oo, h1, h2⟩ := ih (d :: r).length (by simp at hn ⊢; omega) (d :: r)
            (out ++ [c]) Y av len q last (le_refl _) hd
          refine ⟨oo, ?_, h2⟩
          rw [List.cons_append, tokens_inquote c out _ av len q true hesc2 hq, h1]
          simp

/-- A quoted argument written between double quotes is read back from its
opening quote on; when it is the last argument nothing follows it. -/
theorem tokens_quoted_run (text Y : List Char) (av : List Arg) (last : Bool)
    (hd : quotedTextOK last text = true) (hY : last = true → Y = []) :
    tokensFrom (mkFill [] ('"' :: (text ++ '"' :: Y)) av 0 true false true) =
      tokensFrom (mkFill text Y av 0 true false false) := by
  obtain ⟨oo, h1, h2⟩ := tokens_inquote_copy text.length text [] Y av 0 true last (le_refl _) hd
  rw [tokens_open_quote, h1, List.nil_append]
  cases last with
  | false => rw [h2 rfl]
  | true => rw [hY rfl, tokens_end, tokens_end]

theorem spacedArgs_isEmpty (rest : List Arg) (h : rest.isEmpty = true) :
    spacedArgs rest = [] := by
  cases rest with
  | nil => rfl
  | cons a r => simp at h

/-- A terminating operator after a space, with only spaces after it. -/
theorem tokens_spaced_term_end (out op R : List Char) (av : List Arg) (len : Nat) (q l : Bool)
    (hsep : YoriShIsArgumentSeperator (op ++ R) = ⟨op.length, true⟩) (hne : op ≠ [])
    (hend : YoriShTrimSpacesFromBeginning R = []) :
    tokensFrom (mkFill out (' ' :: (op ++ R)) av len q false l) =
      av ++ [⟨out, q⟩, ⟨op, false⟩] := by
  have hpos : 0 < op.length := List.length_pos.mpr hne
  have hpos2 : 0 < (YoriShIsArgumentSeperator (op ++ R)).CharsToConsume := by
    rw [hsep]
    exact hpos
  obtain ⟨hq, hs⟩ := sep_pos_head _ hpos2
  have hT : YoriShTrimSpacesFromBeginning (op ++ R) = op ++ R := trim_of_head_ne_space _ hs
  have hne2 : op ++ R ≠ [] := by simp [hne]
  have hqu : op.head? ≠ some '"' := by
    cases op with
    | nil => exact absurd rfl hne
    | cons c r => simpa using hq
  rw [tokens_space]
  have h1 : (mkFill out (' ' :: (op ++ R)) av len q false l).Char = ' ' :: (op ++ R) := rfl
  have h2 : (mkFill out (' ' :: (op ++ R)) av len q false l).CharsToConsume = 0 := rfl
  rw [fillTerminate_sep_end _ (by rw [h1, trim_cons_space, hT]; exact hne2)
    (by rw [h1, h2]; simp [effT, trim_cons_space, hT, hsep])
    (by rw [h1, h2]; simpa [effC, trim_cons_space, hT, hsep] using hpos)
    (by rw [h1, h2]; simpa [effC, trim_cons_space, hT, hsep] using hend),
    tokensFrom_nil _ rfl]
  have hl : op.length ≠ 0 := by omega
  simp [FillState.finish, mkFill, effC, trim_cons_space, hT, hsep, hq, hl, hqu, hne]

/-- A space with only spaces after it when no character of the argument in
progress is stored: the entry is given the length one (parse.c 610-614). -/
theorem tokens_space_end_empty (r : List Char) (av : List Arg) (len : Nat) (q l : Bool)
    (hT : YoriShTrimSpacesFromBeginning r = []) :
    tokensFrom (mkFill [] (' ' :: r) av len q false l) = av ++ [⟨[NUL], q⟩] := by
  rw [tokens_space, fillTerminate_nil _ (by simpa [mkFill, trim_cons_space] using hT),
    tokensFrom_nil _ rfl]
  simp [FillState.finish, mkFill]

theorem renderArg_unquoted (t : List Char) : renderArg ⟨t, false⟩ = t := by
  simp [renderArg]

theorem renderArg_quoted (t : List Char) : renderArg ⟨t, true⟩ = '"' :: (t ++ ['"']) := by
  simp [renderArg]

theorem head_append_blank (t Y : List Char) (hY : Y = [] ∨ Y.head? = some ' ') (d : Char)
    (h : (t ++ Y).head? = some d) : t.head? = some d ∨ (t = [] ∧ d = ' ') := by
  cases t with
  | nil =>
    rcases hY with rfl | hY
    · simp at h
    · simp only [List.nil_append] at h
      rw [hY] at h
      exact Or.inr ⟨rfl, (Option.some.inj h).symm⟩
  | cons c t => exact Or.inl (by simpa using h)

/-- The built characters of a quoted argument after a space. -/
theorem rebuilt_quoted (out t Y : List Char) (av : List Arg) (q last : Bool)
    (hd : quotedTextOK last t = true) (hY : last = true → Y = []) :
    tokensFrom (mkFill out (' ' :: (renderArg ⟨t, true⟩ ++ Y)) av 0 q false false) =
      tokensFrom (mkFill t Y (av ++ [⟨out, q⟩]) 0 true false false) := by
  have hform : renderArg ⟨t, true⟩ ++ Y = '"' :: (t ++ '"' :: Y) := by
    simp [renderArg_quoted]
  have htrim : YoriShTrimSpacesFromBeginning ('"' :: (t ++ '"' :: Y)) = '"' :: (t ++ '"' :: Y) :=
    trim_cons_of_ne _ _ (by decide)
  have hsep : YoriShIsArgumentSeperator ('"' :: (t ++ '"' :: Y)) = ⟨0, false⟩ :=
    sep_cons_other _ _ (by decide) (by decide) (by decide) (by decide)
      (by decide) (by decide) (by decide)
  rw [hform, tokens_space_next out _ av 0 q false (by rw [htrim]; simp)
    (by rw [htrim, hsep]), htrim]
  simp only [List.head?_cons, decide_True]
  exact tokens_quoted_run t Y _ last hd hY

/-- The built characters of an unquoted argument that begins with a
character copied into it, after a space. -/
theorem rebuilt_unquoted (out t Y : List Char) (av : List Arg) (q : Bool)
    (hne : t ≠ []) (hs : t.head? ≠ some ' ') (hq : t.head? ≠ some '"')
    (hsep : (YoriShIsArgumentSeperator (t ++ Y)).CharsToConsume = 0) :
    tokensFrom (mkFill out (' ' :: (t ++ Y)) av 0 q false false) =
      tokensFrom (mkFill [] (t ++ Y) (av ++ [⟨out, q⟩]) 0 false false false) := by
  obtain ⟨c, t1, rfl⟩ : ∃ c t1, t = c :: t1 := by
    cases t with
    | nil => exact absurd rfl hne
    | cons c t1 => exact ⟨c, t1, rfl⟩
  have hc : c ≠ ' ' := by simpa using hs
  have hc2 : c ≠ '"' := by simpa using hq
  have htrim : YoriShTrimSpacesFromBeginning (c :: t1 ++ Y) = c :: t1 ++ Y :=
    trim_cons_of_ne _ _ hc
  rw [tokens_space_next out _ av 0 q false (by rw [htrim]; simp) (by rw [htrim]; exact hsep),
    htrim]
  simp [hc2]

/-- The built characters of a quoted argument after a terminating
operator. -/
theorem rebuilt_term_quoted (out S t Y : List Char) (k : Nat) (av : List Arg) (q last : Bool)
    (hS : YoriShIsArgumentSeperator S = ⟨k, true⟩) (hk : 0 < k)
    (hd : quotedTextOK last t = true) (hY : last = true → Y = []) :
    tokensFrom (mkFill out (' ' :: (S.take k ++ ' ' :: (renderArg ⟨t, true⟩ ++ Y))) av 0 q
        false false) =
      tokensFrom (mkFill t Y (av ++ [⟨out, q⟩, ⟨S.take k, false⟩]) 0 true false false) := by
  obtain ⟨hl, _, hne⟩ := sep_take_length S k true hS hk
  have hsep := sep_blank_stable S (' ' :: (renderArg ⟨t, true⟩ ++ Y)) k true hS hk
    (Or.inr rfl)
  have hform : renderArg ⟨t, true⟩ ++ Y = '"' :: (t ++ '"' :: Y) := by
    simp [renderArg_quoted]
  have htrim : YoriShTrimSpacesFromBeginning (' ' :: (renderArg ⟨t, true⟩ ++ Y)) =
      '"' :: (t ++ '"' :: Y) := by
    rw [trim_cons_space, hform, trim_cons_of_ne _ _ (by decide)]
  rw [tokens_spaced_term out (S.take k) _ av 0 q false (by rw [hsep, hl]) hne
    (by rw [htrim]; simp), htrim]
  simp only [List.head?_cons, decide_True]
  exact tokens_quoted_run t Y _ last hd hY

/-- The built characters of an unquoted argument that begins with a
character copied into it, after a terminating operator. -/
theorem rebuilt_term_unquoted (out S t Y : List Char) (k : Nat) (av : List Arg) (q : Bool)
    (hS : YoriShIsArgumentSeperator S = ⟨k, true⟩) (hk : 0 < k)
    (hne : t ≠ []) (hs : t.head? ≠ some ' ') (hq : t.head? ≠ some '"') :
    tokensFrom (mkFill out (' ' :: (S.take k ++ ' ' :: (t ++ Y))) av 0 q false false) =
      tokensFrom (mkFill [] (t ++ Y) (av ++ [⟨out, q⟩, ⟨S.take k, false⟩]) 0 false false
        false) := by
  obtain ⟨hl, _, hne2⟩ := sep_take_length S k true hS hk
  have hsep := sep_blank_stable S (' ' :: (t ++ Y)) k true hS hk (Or.inr rfl)
  obtain ⟨c, t1, rfl⟩ : ∃ c t1, t = c :: t1 := by
    cases t with
    | nil => exact absurd rfl hne
    | cons c t1 => exact ⟨c, t1, rfl⟩
  have hc : c ≠ ' ' := by simpa using hs
  have hc2 : c ≠ '"' := by simpa using hq
  have htrim : YoriShTrimSpacesFromBeginning (' ' :: (c :: t1 ++ Y)) = c :: t1 ++ Y := by
    rw [trim_cons_space]
    exact trim_cons_of_ne _ _ hc
  rw [tokens_spaced_term out (S.take k) _ av 0 q false (by rw [hsep, hl]) hne2
    (by rw [htrim]; simp), htrim]
  simp [hc2]

/-- The built characters of an empty argument that stands between a
terminating operator and a further operator. -/
theorem rebuilt_term_empty (out S Z : List Char) (k : Nat) (av : List Arg) (q : Bool)
    (hS : YoriShIsArgumentSeperator S = ⟨k, true⟩) (hk : 0 < k)
    (hZ : 0 < (YoriShIsArgumentSeperator Z).CharsToConsume) :
    tokensFrom (mkFill out (' ' :: (S.take k ++ ' ' :: ' ' :: Z)) av 0 q false false) =
      tokensFrom (mkFill [] (' ' :: Z) (av ++ [⟨out, q⟩, ⟨S.take k, false⟩]) 0 false false
        false) := by
  obtain ⟨hl, _, hne2⟩ := sep_take_length S k true hS hk
  have hsep := sep_blank_stable S (' ' :: ' ' :: Z) k true hS hk (Or.inr rfl)
  obtain ⟨hq, hs⟩ := sep_pos_head Z hZ
  have hZne : Z ≠ [] := by
    rintro rfl
    simp [YoriShIsArgumentSeperator] at hZ
  have htrim : YoriShTrimSpacesFromBeginning (' ' :: ' ' :: Z) = Z := by
    rw [trim_cons_space, trim_cons_space]
    exact trim_of_head_ne_space _ hs
  rw [tokens_spaced_term out (S.take k) _ av 0 q false (by rw [hsep, hl]) hne2
    (by rw [htrim]; exact hZne), htrim]
  simp only [hq, decide_False]
  exact tokens_glued_eq_space [] Z _ 0 false false hZ (Or.inl (by simp))

/-- The terminate branch of the fill loop under the relation `SimOK`: the
argument in progress ends here, and the built characters of the arguments
that follow are read back as these arguments. -/
theorem sim_terminate (n : Nat)
    (ih : ∀ (out cs : List Char) (av : List Arg) (q o l : Bool), cs.length < n →
      RedirectQuoteSafe (mkFill out cs av 0 q o l) →
      (l = true → (o = false → cs.head? = some '"') ∧ (q = false → 0 < out.length)) →
      SimOK out cs av q o l)
    (out T : List Char) (av : List Arg) (q : Bool)
    (hT : RedirectQuoteSafe (mkFill out (' ' :: T) av 0 q false false))
    (hhead : T.head? ≠ some ' ')
    (hlen : T.length < n ∨ (0 < (YoriShIsArgumentSeperator T).CharsToConsume ∧ T.length ≤ n)) :
    ∃ t rest,
      tokensFrom (mkFill out (' ' :: T) av 0 q false false) = av ++ ⟨out ++ t, q⟩ :: rest ∧
      (argsReadBack rest = true → NUL ∉ t →
        t = [] ∧
        tokensFrom (mkFill out (spacedArgs rest) av 0 q false false) =
          av ++ ⟨out, q⟩ :: rest ∧
        (0 < (YoriShIsArgumentSeperator T).CharsToConsume →
          ∃ a2 rest2, rest = a2 :: rest2 ∧ a2.Quoted = false ∧
            0 < (YoriShIsArgumentSeperator (a2.Text ++ spacedArgs rest2)).CharsToConsume)) := by
  have htrim : YoriShTrimSpacesFromBeginning T = T := trim_of_head_ne_space _ hhead
  by_cases hnil : T = []
  · subst hnil
    by_cases hout : out = []
    · subst hout
      refine ⟨[NUL], [], ?_, ?_⟩
      · rw [tokens_space_end_empty [] av 0 q false rfl]
        simp
      · intro _ hN
        exact absurd (by simp) hN
    · refine ⟨[], [], ?_, ?_⟩
      · rw [tokens_space_end out [] av 0 q false rfl hout]
        simp
      · intro _ _
        refine ⟨rfl, ?_, ?_⟩
        · rw [spacedArgs_nil, tokens_end]
        · intro h
          simp [YoriShIsArgumentSeperator] at h
  · obtain ⟨k, b, hsep⟩ : ∃ k b, YoriShIsArgumentSeperator T = ⟨k, b⟩ := ⟨_, _, rfl⟩
    by_cases hk : k = 0
    · subst hk
      have hsep0 : (YoriShIsArgumentSeperator T).CharsToConsume = 0 := by rw [hsep]
      have hTlen : T.length < n := by
        rcases hlen with h | ⟨h, _⟩
        · exact h
        · rw [hsep] at h
          exact absurd h (lt_irrefl 0)
      have hstep := tokens_space_next out T av 0 q false (by rw [htrim]; exact hnil)
        (by rw [htrim]; exact hsep0)
      rw [htrim] at hstep
      have hstepc := step_space_next out T av 0 q false (by rw [htrim]; exact hnil)
        (by rw [htrim]; exact hsep0)
      rw [htrim] at hstepc
      have hN1 := safe_next _ _ (by simp [mkFill]) hstepc hT
      obtain ⟨t1, rest1, hP, hG⟩ := ih [] T (av ++ [⟨out, q⟩]) (decide (T.head? = some '"'))
        false (decide (T.head? = some '"')) hTlen hN1
        (fun hl => ⟨fun _ => by simpa using hl, fun hq => by rw [hl] at hq; exact absurd hq (by decide)⟩)
      refine ⟨[], ⟨t1, decide (T.head? = some '"')⟩ :: rest1, ?_, ?_⟩
      · rw [hstep, hP]
        simp
      · intro hrest _
        obtain ⟨hn1, hq1, hrest1⟩ := argsReadBack_cons _ _ hrest
        obtain ⟨hR2, hU, _⟩ := hG hrest1 hn1
        refine ⟨rfl, ?_, fun h => by rw [hsep] at h; exact absurd h (lt_irrefl 0)⟩
        rw [spacedArgs_cons]
        by_cases hqh : T.head? = some '"'
        · have hq2 := hq1 (by simp [hqh])
          simp only [hqh, decide_True, List.nil_append] at hP hR2 ⊢
          rw [rebuilt_quoted out t1 _ av q rest1.isEmpty hq2 (spacedArgs_isEmpty rest1), hR2]
          simp
        · obtain ⟨hR1, hH1, hS0, _, _⟩ := hU (by simp [hqh])
          simp only [hqh, decide_False, List.nil_append] at hP hR1 ⊢
          obtain ⟨hne1, hsep1⟩ := hS0 rfl hsep0 hhead hnil
          have hh : t1.head? = T.head? := by
            cases ht : t1 with
            | nil => exact absurd ht hne1
            | cons c r =>
              rw [ht] at hH1
              rw [(hH1 c rfl).1]
              rfl
          rw [renderArg_unquoted,
            rebuilt_unquoted out t1 _ av q hne1 (by rw [hh]; exact hhead)
              (by rw [hh]; exact hqh) hsep1, hR1]
          simp
    · have hkpos : 0 < k := Nat.pos_of_ne_zero hk
      have hTlen : T.length ≤ n := by
        rcases hlen with h | ⟨_, h⟩
        · exact le_of_lt h
        · exact h
      obtain ⟨hl, _, hopne⟩ := sep_take_length T k b hsep hkpos
      have hsplit : T = T.take k ++ T.drop k := (List.take_append_drop k T).symm
      have hdroplen : (T.drop k).length < n := by
        have : (T.drop k).length = T.length - k := List.length_drop k T
        have : T.length ≠ 0 := by simpa using hnil
        omega
      cases b with
      | false =>
        have hstepc := step_spaced_redir out (T.take k) (T.drop k) av 0 q false
          (by rw [← hsplit, hsep, hl]) hopne
        rw [← hsplit] at hstepc
        have hN1 := safe_next _ _ (by simp [mkFill]) hstepc hT
        have hstep := tokens_spaced_redir out (T.take k) (T.drop k) av 0 q false
          (by rw [← hsplit, hsep, hl]) hopne
        rw [← hsplit] at hstep
        obtain ⟨t1, rest1, hP, hG⟩ := ih (T.take k) (T.drop k) (av ++ [⟨out, q⟩]) false false
          (decide ((T.drop k).head? = some '"')) hdroplen hN1
          (fun hl2 => ⟨fun _ => by simpa using hl2, fun _ => by rw [hl]; exact hkpos⟩)
        refine ⟨[], ⟨T.take k ++ t1, false⟩ :: rest1, ?_, ?_⟩
        · rw [hstep, hP]
          simp
        · intro hrest _
          obtain ⟨hn1, _, hrest1⟩ := argsReadBack_cons _ _ hrest
          have hN2 : NUL ∉ t1 := fun h => hn1 (by simp [h])
          obtain ⟨hR2, hU, hX⟩ := hG hrest1 hN2
          have hboth : tokensFrom (mkFill (T.take k) (t1 ++ spacedArgs rest1)
                (av ++ [⟨out, q⟩]) 0 false false false) =
                (av ++ [⟨out, q⟩]) ++ ⟨T.take k ++ t1, false⟩ :: rest1 ∧
              ∀ d, t1.head? = some d → isOperatorChar d = false ∧ d ≠ '"' := by
            by_cases hlast : (T.drop k).head? = some '"'
            · obtain ⟨hRX, hHX⟩ := hX (decide_eq_true hlast) rfl
              refine ⟨hRX, fun d hd => ⟨(hHX d hd).1, ?_⟩⟩
              rintro rfl
              exact absurd ((hHX '"' hd).2 rfl).1 (by decide)
            · obtain ⟨hR1, hH1, _, _, _⟩ := hU (decide_eq_false hlast)
              refine ⟨hR1, fun d hd => ?_⟩
              obtain ⟨g1, g2⟩ := hH1 d hd
              refine ⟨g2 rfl (Or.inr (by rw [hl]; exact hkpos)), ?_⟩
              rintro rfl
              exact hlast g1
          obtain ⟨hR1, hH1⟩ := hboth
          have hnext : ∀ d, (t1 ++ spacedArgs rest1).head? = some d →
              isOperatorChar d = false ∧ d ≠ '"' := by
            intro d hd
            rcases head_append_blank t1 _ (spacedArgs_blank rest1) d hd with h1 | ⟨_, h1⟩
            · exact hH1 d h1
            · subst h1
              exact ⟨by decide, by decide⟩
          have hsep2 := sep_redirect_next T (t1 ++ spacedArgs rest1) k hsep hkpos
            (fun d hd => (hnext d hd).1)
          have hq2 : (t1 ++ spacedArgs rest1).head? ≠ some '"' := fun h =>
            (hnext '"' h).2 rfl
          refine ⟨rfl, ?_, fun _ => ⟨_, _, rfl, rfl, ?_⟩⟩
          · rw [spacedArgs_cons, renderArg_unquoted, List.append_assoc,
              tokens_spaced_redir out (T.take k) _ av 0 q false (by rw [hsep2, hl]) hopne]
            simp only [hq2, decide_False]
            rw [hR1]
            simp
          · simp only [List.append_assoc]
            rw [hsep2]
            exact hkpos
      | true =>
        by_cases hmore : YoriShTrimSpacesFromBeginning (T.drop k) = []
        · have hstep := tokens_spaced_term_end out (T.take k) (T.drop k) av 0 q false
            (by rw [← hsplit, hsep, hl]) hopne hmore
          rw [← hsplit] at hstep
          have hsep2 := sep_blank_stable T [] k true hsep hkpos (Or.inl rfl)
          refine ⟨[], [⟨T.take k, false⟩], ?_, ?_⟩
          · rw [hstep]
            simp
          · intro _ _
            refine ⟨rfl, ?_, fun _ => ⟨_, _, rfl, rfl, ?_⟩⟩
            · rw [spacedArgs_cons, renderArg_unquoted, spacedArgs_nil,
                tokens_spaced_term_end out (T.take k) [] av 0 q false (by rw [hsep2, hl]) hopne
                  rfl]
            · simp only [spacedArgs_nil]
              rw [hsep2]
              exact hkpos
        · have hstep := tokens_spaced_term out (T.take k) (T.drop k) av 0 q false
            (by rw [← hsplit, hsep, hl]) hopne hmore
          rw [← hsplit] at hstep
          have hstepc := step_spaced_term out (T.take k) (T.drop k) av 0 q false
            (by rw [← hsplit, hsep, hl]) hopne hmore
          rw [← hsplit] at hstepc
          have hN1 := safe_next _ _ (by simp [mkFill]) hstepc hT
          have hT2len : (YoriShTrimSpacesFromBeginning (T.drop k)).length < n :=
            lt_of_le_of_lt (trim_length_le _) hdroplen
          have hT2head := trim_head_ne_space (T.drop k)
          obtain ⟨t1, rest1, hP, hG⟩ := ih [] (YoriShTrimSpacesFromBeginning (T.drop k))
            (av ++ [⟨out, q⟩, ⟨T.take k, false⟩])
            (decide ((YoriShTrimSpacesFromBeginning (T.drop k)).head? = some '"')) false
            (decide ((YoriShTrimSpacesFromBeginning (T.drop k)).head? = some '"')) hT2len
            hN1 (fun hl => ⟨fun _ => by simpa using hl,
              fun hq => by rw [hl] at hq; exact absurd hq (by decide)⟩)
          refine ⟨[], ⟨T.take k, false⟩ ::
            ⟨t1, decide ((YoriShTrimSpacesFromBeginning (T.drop k)).head? = some '"')⟩ :: rest1,
            ?_, ?_⟩
          · rw [hstep, hP]
            simp
          · intro hrest _
            obtain ⟨_, _, hrest0⟩ := argsReadBack_cons _ _ hrest
            obtain ⟨hn1, hq1, hrest1⟩ := argsReadBack_cons _ _ hrest0
            obtain ⟨hR2, hU, _⟩ := hG hrest1 hn1
            have hsep2 : ∀ Z, YoriShIsArgumentSeperator (T.take k ++ ' ' :: Z) = ⟨k, true⟩ :=
              fun Z => sep_blank_stable T (' ' :: Z) k true hsep hkpos (Or.inr rfl)
            refine ⟨rfl, ?_, fun _ => ⟨_, _, rfl, rfl, ?_⟩⟩
            · rw [spacedArgs_cons, renderArg_unquoted, spacedArgs_cons]
              by_cases hqh : (YoriShTrimSpacesFromBeginning (T.drop k)).head? = some '"'
              · have hq2 := hq1 (by simp [hqh])
                simp only [hqh, decide_True, List.nil_append] at hP hR2 ⊢
                rw [rebuilt_term_quoted out T t1 _ k av q rest1.isEmpty hsep hkpos hq2
                  (spacedArgs_isEmpty rest1), hR2]
                simp
              · obtain ⟨hR1, hH1, _, _, hE0⟩ := hU (by simp [hqh])
                simp only [hqh, decide_False, List.nil_append] at hP hR1 ⊢
                rw [renderArg_unquoted]
                by_cases ht1 : t1 = []
                · subst ht1
                  obtain ⟨a2, rest2, hr, ha2, hpos2⟩ := hE0 rfl rfl rfl hmore hT2head
                  subst hr
                  simp only [List.nil_append] at hR1 ⊢
                  rw [spacedArgs_cons] at hR1 ⊢
                  have hren : renderArg a2 = a2.Text := by
                    obtain ⟨tx, qx⟩ := a2
                    simp only at ha2
                    subst ha2
                    exact renderArg_unquoted tx
                  rw [hren] at hR1 ⊢
                  rw [rebuilt_term_empty out T _ k av q hsep hkpos hpos2, hR1]
                  simp
                · have hh : t1.head? = (YoriShTrimSpacesFromBeginning (T.drop k)).head? := by
                    cases ht : t1 with
                    | nil => exact absurd ht ht1
                    | cons c r =>
                      rw [ht] at hH1
                      rw [(hH1 c rfl).1]
                      rfl
                  rw [rebuilt_term_unquoted out T t1 _ k av q hsep hkpos ht1
                    (by rw [hh]; exact hT2head) (by rw [hh]; exact hqh), hR1]
                  simp
            · rw [spacedArgs_cons, hsep2]
              exact hkpos

theorem escape_is_caret (c : Char) (h : YoriLibIsEscapeChar c = true) : c = '^' := by
  simpa [YoriLibIsEscapeChar] using h

theorem sep_escape (c : Char) (r : List Char) (h : YoriLibIsEscapeChar c = true) :
    (YoriShIsArgumentSeperator (c :: r)).CharsToConsume = 0 := by
  have := escape_is_caret c h
  subst this
  rw [sep_cons_other _ _ (by decide) (by decide) (by decide) (by decide) (by decide)
    (by decide) (by decide)]

theorem sep_quote (r : List Char) :
    (YoriShIsArgumentSeperator ('"' :: r)).CharsToConsume = 0 := by
  rw [sep_cons_other _ _ (by decide) (by decide) (by decide) (by decide) (by decide)
    (by decide) (by decide)]

/-- Every state of the fill loop stands in the relation `SimOK` when the
loop run from it passes the check `redirectQuoteStateOK` throughout. -/
theorem sim_main (n : Nat) : ∀ (out cs : List Char) (av : List Arg) (q o l : Bool),
    cs.length < n → RedirectQuoteSafe (mkFill out cs av 0 q o l) →
    (l = true → (o = false → cs.head? = some '"') ∧ (q = false → 0 < out.length)) →
    SimOK out cs av q o l := by
  induction n with
  | zero =>
    intro out cs av q o l hn
    exact absurd hn (Nat.not_lt_zero _)
  | succ n ih =>
    intro out cs av q o l hn hA hWF
    cases cs with
    | nil =>
      refine ⟨[], [], by rw [tokens_end]; simp, fun _ _ => ⟨by simp [spacedArgs_nil, tokens_end],
        fun _ => ⟨by simp [spacedArgs_nil, tokens_end], fun c hc => by simp at hc,
          fun _ _ _ h => absurd rfl h, fun _ _ _ h => absurd rfl h,
          fun _ _ _ h => absurd rfl h⟩,
        fun _ _ => ⟨by simp [spacedArgs_nil, tokens_end], fun c hc => by simp at hc⟩⟩⟩
    | cons c cs1 =>
      have hne : (mkFill out (c :: cs1) av 0 q o l).Char ≠ [] := by simp [mkFill]
      have hchk := (safe_step _ hne hA).2
      have hn1 : cs1.length < n := by
        simp only [List.length_cons] at hn
        omega
      by_cases hesc : YoriLibIsEscapeChar c = true
      · have hcq : c ≠ '"' := by
          rw [escape_is_caret c hesc]
          decide
        have hcop : isOperatorChar c = false := by
          rw [escape_is_caret c hesc]
          decide
        cases cs1 with
        | nil =>
          refine ⟨[c], [], by rw [tokens_escape_last c out av 0 q o l hesc, tokens_end],
            fun _ _ => ⟨by simp [spacedArgs_nil, tokens_end], fun _ => ⟨?_, ?_, ?_, ?_, ?_⟩,
              fun _ _ => ⟨?_, ?_⟩⟩⟩
          · rw [spacedArgs_nil, List.append_nil, tokens_escape_last c out av 0 q o false hesc,
              tokens_end]
          · intro c1 hc1
            simp only [List.head?_cons, Option.some.injEq] at hc1
            subst hc1
            exact ⟨rfl, fun _ _ => hcop⟩
          · intro _ _ _ _
            exact ⟨by simp, by rw [spacedArgs_nil, List.append_nil]; exact sep_escape c [] hesc⟩
          · intro _ _ _ _ _
            simp
          · intro _ _ h
            simp at h
          · rw [spacedArgs_nil, List.append_nil,
              tokens_escape_last c out av 0 q false false hesc, tokens_end]
          · intro c1 hc1
            simp only [List.head?_cons, Option.some.injEq] at hc1
            subst hc1
            exact ⟨hcop, fun h => absurd h hcq⟩
        | cons d cs2 =>
          have hn2 : cs2.length < n := by
            simp only [List.length_cons] at hn1
            omega
          obtain ⟨t2, rest, hP, hG⟩ := ih (out ++ [c, d]) cs2 av q o l hn2
            (safe_next _ _ hne (step_escape_pair c d out cs2 av 0 q o l hesc) hA)
            (fun hl => by
              obtain ⟨ho, hq⟩ := hWF hl
              refine ⟨fun ho2 => ?_, fun _ => by simp⟩
              have := ho ho2
              simp only [List.head?_cons, Option.some.injEq] at this
              exact absurd this hcq)
          refine ⟨c :: d :: t2, rest,
            by rw [tokens_escape_pair c d out cs2 av 0 q o l hesc, hP]; simp, ?_⟩
          intro hrest hN
          have hN2 : NUL ∉ t2 := fun h => hN (by simp [h])
          obtain ⟨hR2, hU, hX⟩ := hG hrest hN2
          refine ⟨by simpa using hR2, fun hl => ?_, fun hl hq => ⟨?_, ?_⟩⟩
          · obtain ⟨hR1, hH1, hS0, hF0, hE0⟩ := hU hl
            refine ⟨?_, ?_, ?_, ?_, ?_⟩
            · rw [List.cons_append, List.cons_append,
                tokens_escape_pair c d out _ av 0 q o false hesc, hR1]
              simp
            · intro c1 hc1
              simp only [List.head?_cons, Option.some.injEq] at hc1
              subst hc1
              exact ⟨rfl, fun _ _ => hcop⟩
            · intro _ _ _ _
              exact ⟨by simp, sep_escape c _ hesc⟩
            · intro _ _ _ _ _
              simp
            · intro _ _ h
              simp at h
          · obtain ⟨hRX, _⟩ := hX hl hq
            rw [List.cons_append, List.cons_append,
              tokens_escape_pair c d out _ av 0 q false false hesc, hRX]
            simp
          · intro c1 hc1
            simp only [List.head?_cons, Option.some.injEq] at hc1
            subst hc1
            exact ⟨hcop, fun h => absurd h hcq⟩
      · have hesc2 : YoriLibIsEscapeChar c = false := by simpa using hesc
        by_cases hq : c = '"'
        · subst hq
          by_cases hl : l = true
          · obtain ⟨ho, hout⟩ := hWF hl
            subst hl
            cases q with
            | true =>
              cases o with
              | false =>
                obtain ⟨t, rest, hP, hG⟩ := ih out cs1 av true true true hn1
                  (safe_next _ _ hne (step_open_quote out cs1 av 0 true) hA)
                  (fun _ => ⟨fun h => by simp at h, fun h => by simp at h⟩)
                refine ⟨t, rest, by rw [tokens_open_quote, hP], fun hrest hN =>
                  ⟨(hG hrest hN).1, fun h => by simp at h, fun _ h => by simp at h⟩⟩
              | true =>
                obtain ⟨t, rest, hP, hG⟩ := ih out cs1 av true false false hn1
                  (safe_next _ _ hne (step_close_quote out cs1 av 0 true) hA)
                  (fun h => by simp at h)
                refine ⟨t, rest, by rw [tokens_close_quote, hP], fun hrest hN =>
                  ⟨(hG hrest hN).1, fun h => by simp at h, fun _ h => by simp at h⟩⟩
            | false =>
              have hpos : 0 < out.length := hout rfl
              cases o with
              | false =>
                have hno : ¬ (cs1.head? = some '"' ∧ (cs1.drop 1).head? = some '"') := by
                  rintro ⟨h1, h2⟩
                  simp only [redirectQuoteStateOK, mkFill, h1, h2, and_self, decide_True,
                    Bool.not_true, Bool.false_eq_true, if_false, if_true] at hchk
                obtain ⟨t, rest, hP, hG⟩ := ih out cs1 av false true true hn1
                  (safe_next _ _ hne (step_open_quote out cs1 av 0 false) hA)
                  (fun _ => ⟨fun h => by simp at h, fun _ => hpos⟩)
                refine ⟨t, rest, by rw [tokens_open_quote, hP], fun hrest hN => ?_⟩
                obtain ⟨hR2, _, hX⟩ := hG hrest hN
                obtain ⟨hRX, hHX⟩ := hX rfl rfl
                refine ⟨hR2, fun h => by simp at h, fun _ _ => ⟨hRX, fun c1 hc1 => ?_⟩⟩
                obtain ⟨g1, g2⟩ := hHX c1 hc1
                refine ⟨g1, fun hc => ?_⟩
                obtain ⟨_, g3, g4⟩ := g2 hc
                exact absurd ⟨g3, g4⟩ hno
              | true =>
                obtain ⟨t, rest, hP, hG⟩ := ih out cs1 av false false false hn1
                  (safe_next _ _ hne (step_close_quote out cs1 av 0 false) hA)
                  (fun h => by simp at h)
                refine ⟨t, rest, by rw [tokens_close_quote, hP], fun hrest hN => ?_⟩
                obtain ⟨hR2, hU, _⟩ := hG hrest hN
                obtain ⟨hR1, hH1, _, _, _⟩ := hU rfl
                refine ⟨hR2, fun h => by simp at h, fun _ _ => ⟨hR1, fun c1 hc1 => ?_⟩⟩
                obtain ⟨g1, g2⟩ := hH1 c1 hc1
                refine ⟨g2 rfl (Or.inr hpos), fun hc => ⟨rfl, rfl, ?_⟩⟩
                rw [← hc]
                simpa using g1
          · have hl2 : l = false := by simpa using hl
            subst hl2
            obtain ⟨t1, rest, hP, hG⟩ := ih (out ++ ['"']) cs1 av q (!o) false hn1
              (safe_next _ _ hne (step_quote_literal out cs1 av 0 q o) hA)
              (fun h => by simp at h)
            refine ⟨'"' :: t1, rest, by rw [tokens_quote_literal, hP]; simp, ?_⟩
            intro hrest hN
            have hN2 : NUL ∉ t1 := fun h => hN (by simp [h])
            obtain ⟨hR2, hU, _⟩ := hG hrest hN2
            refine ⟨by simpa using hR2, fun _ => ?_, fun h => by simp at h⟩
            obtain ⟨hR1, _, _, _, _⟩ := hU rfl
            refine ⟨?_, ?_, ?_, ?_, ?_⟩
            · rw [List.cons_append, tokens_quote_literal, hR1]
              simp
            · intro c1 hc1
              simp only [List.head?_cons, Option.some.injEq] at hc1
              subst hc1
              exact ⟨rfl, fun _ _ => by decide⟩
            · intro _ _ _ _
              exact ⟨by simp, sep_quote _⟩
            · intro _ _ _ _ _
              simp
            · intro _ _ h
              simp at h
        · cases o with
          | true =>
            obtain ⟨t1, rest, hP, hG⟩ := ih (out ++ [c]) cs1 av q true l hn1
              (safe_next _ _ hne (step_inquote c out cs1 av 0 q l hesc2 hq) hA)
              (fun hl => ⟨fun h => by simp at h, fun _ => by simp⟩)
            refine ⟨c :: t1, rest,
              by rw [tokens_inquote c out cs1 av 0 q l hesc2 hq, hP]; simp, ?_⟩
            intro hrest hN
            have hN2 : NUL ∉ t1 := fun h => hN (by simp [h])
            obtain ⟨hR2, hU, hX⟩ := hG hrest hN2
            refine ⟨by simpa using hR2, fun hl => ?_, fun hl hq0 => ?_⟩
            · obtain ⟨hR1, _, _, _, _⟩ := hU hl
              refine ⟨?_, ?_, ?_, ?_, ?_⟩
              · rw [List.cons_append, tokens_inquote c out _ av 0 q false hesc2 hq, hR1]
                simp
              · intro c1 hc1
                simp only [List.head?_cons, Option.some.injEq] at hc1
                subst hc1
                exact ⟨rfl, fun h => by simp at h⟩
              · intro h
                simp at h
              · intro h
                simp at h
              · intro h
                simp at h
            · subst hl hq0
              obtain ⟨hRX, hHX⟩ := hX rfl rfl
              have hcc : c ≠ ' ' ∧ isOperatorChar c = false := by
                simpa [redirectQuoteStateOK, mkFill, hesc2, hq] using hchk
              have hz2 : (YoriShIsArgumentSeperator
                  (c :: (t1 ++ spacedArgs rest))).CharsToConsume = 0 := by
                rw [sep_plain c _ hcc.2 (fun hgt => by
                  rcases head_append_blank t1 _ (spacedArgs_blank rest) '>' hgt with
                    h1 | ⟨_, h1⟩
                  · exact absurd (hHX '>' h1).1 (by decide)
                  · exact absurd h1 (by decide))]
              refine ⟨?_, ?_⟩
              · rw [List.cons_append,
                  tokens_plain c out _ av 0 false false hesc2 hq hcc.1 hz2, hRX]
                simp
              · intro c1 hc1
                simp only [List.head?_cons, Option.some.injEq] at hc1
                subst hc1
                exact ⟨hcc.2, fun h => absurd h hq⟩
          | false =>
            by_cases hl : l = true
            · have := (hWF hl).1 rfl
              simp only [List.head?_cons, Option.some.injEq] at this
              exact absurd this hq
            · have hl2 : l = false := by simpa using hl
              subst hl2
              by_cases hsp : c = ' '
              · subst hsp
                obtain ⟨t, rest, hP, hG⟩ := sim_terminate n ih out
                  (YoriShTrimSpacesFromBeginning cs1) av q
                  (safe_swap _ _ hne (by simp [mkFill])
                    (congrArg FillState.core (step_space_trim out cs1 av 0 q false))
                    (by simp [redirectQuoteStateOK, mkFill]) hA)
                  (trim_head_ne_space cs1)
                  (Or.inl (lt_of_le_of_lt (trim_length_le cs1) hn1))
                refine ⟨t, rest, by rw [tokens_space_trim, hP], ?_⟩
                intro hrest hN
                obtain ⟨ht, hR, _⟩ := hG hrest hN
                subst ht
                refine ⟨by simpa using hR, fun _ => ⟨by simpa using hR,
                  fun c1 hc1 => by simp at hc1, fun _ _ h => absurd rfl h,
                  fun _ _ _ _ h => absurd rfl h, fun _ _ _ _ h => absurd rfl h⟩,
                  fun h => by simp at h⟩
              · by_cases hstart : 0 < av.length ∨ 0 < out.length
                · by_cases hz : (YoriShIsArgumentSeperator (c :: cs1)).CharsToConsume = 0
                  · obtain ⟨t1, rest, hP, hG⟩ := ih (out ++ [c]) cs1 av q false false hn1
                      (safe_next _ _ hne (step_plain c out cs1 av 0 q false hesc2 hq hsp hz)
                        hA)
                      (fun h => by simp at h)
                    refine ⟨c :: t1, rest,
                      by rw [tokens_plain c out cs1 av 0 q false hesc2 hq hsp hz, hP]; simp, ?_⟩
                    intro hrest hN
                    have hN2 : NUL ∉ t1 := fun h => hN (by simp [h])
                    obtain ⟨hR2, hU, _⟩ := hG hrest hN2
                    refine ⟨by simpa using hR2, fun _ => ?_, fun h => by simp at h⟩
                    obtain ⟨hR1, hH1, _, _, _⟩ := hU rfl
                    have hz2 : (YoriShIsArgumentSeperator
                        (c :: (t1 ++ spacedArgs rest))).CharsToConsume = 0 := by
                      apply sep_literal_stable c cs1 _ hz
                      intro hgt
                      rcases head_append_blank t1 _ (spacedArgs_blank rest) '>' hgt with
                        h1 | ⟨_, h1⟩
                      · exact (hH1 '>' h1).1
                      · exact absurd h1 (by decide)
                    refine ⟨?_, ?_, ?_, ?_, ?_⟩
                    · rw [List.cons_append,
                        tokens_plain c out _ av 0 q false hesc2 hq hsp hz2, hR1]
                      simp
                    · intro c1 hc1
                      simp only [List.head?_cons, Option.some.injEq] at hc1
                      subst hc1
                      exact ⟨rfl, fun _ _ => sep_zero_not_op c cs1 hz⟩
                    · intro _ _ _ _
                      exact ⟨by simp, hz2⟩
                    · intro _ _ _ _ _
                      simp
                    · intro _ _ h
                      simp at h
                  · have hpos : 0 < (YoriShIsArgumentSeperator (c :: cs1)).CharsToConsume :=
                      Nat.pos_of_ne_zero hz
                    obtain ⟨t, rest, hP, hG⟩ := sim_terminate n ih out (c :: cs1) av q
                      (safe_swap _ _ hne (by simp [mkFill])
                        (step_glued_space out (c :: cs1) av 0 q false hpos hstart)
                        (by simp [redirectQuoteStateOK, mkFill]) hA)
                      (by simpa using hsp)
                      (Or.inr ⟨hpos, by simp only [List.length_cons] at hn ⊢; omega⟩)
                    refine ⟨t, rest,
                      by rw [tokens_glued_eq_space out (c :: cs1) av 0 q false hpos hstart, hP],
                      ?_⟩
                    intro hrest hN
                    obtain ⟨ht, hR, hE⟩ := hG hrest hN
                    subst ht
                    refine ⟨by simpa using hR, fun _ => ⟨by simpa using hR,
                      fun c1 hc1 => by simp at hc1, fun _ h => absurd h hz,
                      fun _ h1 h2 => ?_, fun _ _ _ _ _ => hE hpos⟩, fun h => by simp at h⟩
                    subst h1 h2
                    simp at hstart
                · have hav : av = [] := by
                    cases av with
                    | nil => rfl
                    | cons a r => exact absurd (Or.inl (by simp)) hstart
                  have hout : out = [] := by
                    cases out with
                    | nil => rfl
                    | cons a r => exact absurd (Or.inr (by simp)) hstart
                  subst hav hout
                  obtain ⟨t1, rest, hP, hG⟩ := ih ([] ++ [c]) cs1 [] q false false hn1
                    (safe_next _ _ hne (step_first_char c cs1 0 q false hesc2 hq hsp) hA)
                    (fun h => by simp at h)
                  refine ⟨c :: t1, rest,
                    by rw [tokens_first_char c cs1 0 q false hesc2 hq hsp]; simpa using hP, ?_⟩
                  intro hrest hN
                  have hN2 : NUL ∉ t1 := fun h => hN (by simp [h])
                  obtain ⟨hR2, hU, _⟩ := hG hrest hN2
                  refine ⟨by simpa using hR2, fun _ => ?_, fun h => by simp at h⟩
                  obtain ⟨hR1, hH1, _, _, _⟩ := hU rfl
                  refine ⟨?_, ?_, ?_, ?_, ?_⟩
                  · rw [List.nil_append, List.cons_append,
                      tokens_first_char c _ 0 q false hesc2 hq hsp]
                    simpa using hR1
                  · intro c1 hc1
                    simp only [List.head?_cons, Option.some.injEq] at hc1
                    subst hc1
                    exact ⟨rfl, fun _ h => by simp at h⟩
                  · intro _ hz _ _
                    refine ⟨by simp, ?_⟩
                    apply sep_literal_stable c cs1 _ hz
                    intro hgt
                    rcases head_append_blank t1 _ (spacedArgs_blank rest) '>' hgt with
                      h1 | ⟨_, h1⟩
                    · exact (hH1 '>' h1).1
                    · exact absurd h1 (by decide)
                  · intro _ _ _ _ _
                    simp
                  · intro _ _ h
                    simp at h

theorem renderArg_no_nul (a : Arg) (h : NUL ∉ a.Text) : NUL ∉ renderArg a := by
  unfold renderArg
  have hq : NUL ≠ '"' := by decide
  split_ifs <;> simp [h, hq]

theorem spacedArgs_no_nul (rest : List Arg) (h : ∀ a ∈ rest, NUL ∉ a.Text) :
    NUL ∉ spacedArgs rest := by
  induction rest with
  | nil => simp [spacedArgs_nil]
  | cons a r ih =>
    rw [spacedArgs_cons]
    have h1 := renderArg_no_nul a (h a (by simp))
    have h2 := ih (fun b hb => h b (by simp [hb]))
    have hs : NUL ≠ ' ' := by decide
    simp [h1, h2, hs]

theorem buildLoop_cons (a : Arg) (rest : List Arg) :
    buildLoop false 0 (a :: rest) = renderArg a ++ spacedArgs rest := by
  rw [buildLoop_zero, List.map_cons, joinSpaces_cons]
  simp [spacedArgs, List.map_map, Function.comp_def]

/-- The arguments of a line are found again when the line built from them
(escapes retained) is tokenized, provided that the fill loop passes the
check `redirectQuoteStateOK` throughout and that every argument is written
by the builder in a form the tokenizer reads back. -/
theorem tokenize_round_trip (s : List Char) (c : Nat) (t : Bool) (c2 : Nat) (t2 : Bool)
    (hA : RedirectQuoteSafe (fillInit s 0 false))
    (hG : argsReadBack (tokenize s c t) = true) :
    tokenize (cString (buildLoop false 0 (tokenize s c t) ++ [NUL])) c2 t2 =
      tokenize s c t := by
  by_cases hT : YoriShTrimSpacesFromBeginning s = []
  · have h0 : tokenize s c t = [] := by simp [tokenize, hT]
    rw [h0]
    have : cString (buildLoop false 0 [] ++ [NUL]) = [] := by
      simp [buildLoop, cString, List.takeWhile]
    rw [this]
    simp [tokenize]
  · have h0 : tokenize s c t =
        tokensFrom (mkFill [] (YoriShTrimSpacesFromBeginning s) [] 0
          (decide ((YoriShTrimSpacesFromBeginning s).head? = some '"')) false
          (decide ((YoriShTrimSpacesFromBeginning s).head? = some '"'))) := by
      unfold tokenize
      simp only [hT, if_false]
      change tokensFrom _ = _
      unfold fillInit
      rw [tokensFrom_mk]
    obtain ⟨t1, rest, hP, hGs⟩ := sim_main ((YoriShTrimSpacesFromBeginning s).length + 1) []
      (YoriShTrimSpacesFromBeginning s) []
      (decide ((YoriShTrimSpacesFromBeginning s).head? = some '"')) false
      (decide ((YoriShTrimSpacesFromBeginning s).head? = some '"')) (Nat.lt_succ_self _)
      (safe_congr _ _ rfl hA)
      (fun hl => ⟨fun _ => by simpa using hl,
        fun hq => by rw [hl] at hq; exact absurd hq (by decide)⟩)
    rw [List.nil_append, List.nil_append] at hP
    rw [h0, hP] at hG ⊢
    obtain ⟨hn1, hq1, hrest⟩ := argsReadBack_cons _ _ hG
    obtain ⟨hR2, hU, _⟩ := hGs hrest hn1
    have hnul : NUL ∉ renderArg
        ⟨t1, decide ((YoriShTrimSpacesFromBeginning s).head? = some '"')⟩ ++
        spacedArgs rest := by
      have h1 := renderArg_no_nul
        ⟨t1, decide ((YoriShTrimSpacesFromBeginning s).head? = some '"')⟩ hn1
      have h2 := spacedArgs_no_nul rest (argsReadBack_no_nul rest hrest)
      simp [h1, h2]
    rw [buildLoop_cons, cString_append_nul _ hnul]
    have hhs := trim_head_ne_space s
    by_cases hqh : (YoriShTrimSpacesFromBeginning s).head? = some '"'
    · have hd1 := hq1 (by simp [hqh])
      simp only [hqh, decide_True, List.nil_append] at hP hR2 ⊢
      have hform : renderArg ⟨t1, true⟩ ++ spacedArgs rest =
          '"' :: (t1 ++ '"' :: spacedArgs rest) := by simp [renderArg_quoted]
      have htrim : YoriShTrimSpacesFromBeginning ('"' :: (t1 ++ '"' :: spacedArgs rest)) =
          '"' :: (t1 ++ '"' :: spacedArgs rest) := trim_cons_of_ne _ _ (by decide)
      rw [hform]
      unfold tokenize
      rw [htrim]
      simp only [reduceCtorEq, if_false]
      change tokensFrom _ = _
      unfold fillInit
      rw [htrim, tokensFrom_mk]
      simp only [List.head?_cons, decide_True]
      rw [tokens_quoted_run t1 _ [] rest.isEmpty hd1 (spacedArgs_isEmpty rest), hR2]
    · obtain ⟨hR1, hH1, _, hF0, _⟩ := hU (by simp [hqh])
      have hne1 : t1 ≠ [] := hF0 rfl rfl rfl hT hhs
      simp only [hqh, decide_False, List.nil_append] at hP hR1 ⊢
      obtain ⟨d, t2r, hd⟩ : ∃ d t2r, t1 = d :: t2r := by
        cases t1 with
        | nil => exact absurd rfl hne1
        | cons d r => exact ⟨d, r, rfl⟩
      have hdh := (hH1 d (by rw [hd]; rfl)).1
      have hds : d ≠ ' ' := by
        rintro rfl
        exact hhs hdh
      have hdq : d ≠ '"' := by
        rintro rfl
        exact hqh hdh
      rw [renderArg_unquoted]
      have htrim : YoriShTrimSpacesFromBeginning (t1 ++ spacedArgs rest) =
          t1 ++ spacedArgs rest := by
        rw [hd]
        exact trim_cons_of_ne _ _ hds
      have hhead : (t1 ++ spacedArgs rest).head? ≠ some '"' := by
        rw [hd]
        simpa using hdq
      have hne2 : t1 ++ spacedArgs rest ≠ [] := by
        rw [hd]
        simp
      unfold tokenize
      rw [htrim]
      simp only [hne2, if_false]
      change tokensFrom _ = _
      unfold fillInit
      rw [htrim, tokensFrom_mk]
      simp only [hhead, decide_False]
      rw [hR1]

/-- Rebuilding the line of a parse and parsing it again gives the same
arguments, for every line on which the fill loop passes the check
`redirectQuoteStateOK` throughout and whose arguments are written by the
builder in a form the tokenizer reads back. -/
theorem round_trip_parse (s : List Char) (off1 off2 : Nat)
    (hA : redirectQuoteRunOK s.length (fillInit s 0 false) = true)
    (hG : ∀ ctx, YoriShParseCmdlineToCmdContext id s off1 = some ctx →
      argsReadBack ctx.ArgV = true) :
    ∃ ctx1 ctx2, YoriShParseCmdlineToCmdContext id s off1 = some ctx1 ∧
      YoriShParseCmdlineToCmdContext id (YoriShBuildCmdlineFromCmdContext ctx1 false) off2 =
        some ctx2 ∧
      ctx2.ArgC = ctx1.ArgC ∧ ctx2.ArgV = ctx1.ArgV := by
  obtain ⟨sz, _, hcnt, hparse⟩ := parse_eq id s off1
  have hmap : ∀ l : List Arg, l.map (fun a => { a with Text := id a.Text }) = l := by
    intro l
    simp
  rw [hmap] at hparse
  have hG1 := hG _ hparse
  simp only at hG1
  have hsafe : RedirectQuoteSafe (fillInit s 0 false) :=
    safe_of_fuel s.length _ (by simpa [fillInit] using trim_length_le s) hA
  have hB : YoriShBuildCmdlineFromCmdContext
      ⟨sz.ArgCount, tokenize s sz.CharsToConsume sz.TerminateNextArg, sz.CurrentArg,
        sz.TrailingChars⟩ false =
      cString (buildLoop false 0 (tokenize s sz.CharsToConsume sz.TerminateNextArg) ++
        [NUL]) := by
    unfold YoriShBuildCmdlineFromCmdContext
    simp only
    rw [hcnt, List.take_length]
  obtain ⟨ctx2, g1, g2, g3⟩ := parse_of_tokenize id
    (cString (buildLoop false 0 (tokenize s sz.CharsToConsume sz.TerminateNextArg) ++ [NUL]))
    off2 (tokenize s sz.CharsToConsume sz.TerminateNextArg)
    (fun c2 t2 => tokenize_round_trip s sz.CharsToConsume sz.TerminateNextArg c2 t2 hsafe hG1)
  refine ⟨_, ctx2, hparse, by rw [hB]; exact g1, ?_, ?_⟩
  · rw [g2]
    exact hcnt.symm
  · rw [g3, hmap]

/-- C4 (amended): building a string (RemoveEscapes = FALSE) from the parsed
arguments of a line and parsing it again gives the same `ArgC` and the same
argument text at every index, for every line `s` that meets two conditions.
First, the fill loop passes `redirectQuoteStateOK` throughout: where a
redirection operator that is recognised as one is directly followed by a
double quote, the characters between that quote and the next double quote
not taken by an escape character hold no space and no `|`, `&`, `>`, `<` or
newline outside an escape pair, and the quote is not directly followed by
two more double quotes.  Second, the parsed arguments pass `argsReadBack`:
no text holds a NUL, and the text of a quoted argument holds no escape
character without a character after it and no double quote outside an escape
pair other than a run of double quotes at its end, of even length unless the
argument is the last. -/
theorem C4_round_trip (s : List Char) (off1 off2 : Nat)
    (hA : redirectQuoteRunOK s.length (fillInit s 0 false) = true)
    (hG : ∀ ctx, YoriShParseCmdlineToCmdContext id s off1 = some ctx →
      argsReadBack ctx.ArgV = true) :
    ∃ ctx1 ctx2, YoriShParseCmdlineToCmdContext id s off1 = some ctx1 ∧
      YoriShParseCmdlineToCmdContext id (YoriShBuildCmdlineFromCmdContext ctx1 false) off2 =
        some ctx2 ∧
      ctx2.ArgC = ctx1.ArgC ∧
      (∀ i : Nat, (ctx2.ArgV.map Arg.Text)[i]? = (ctx1.ArgV.map Arg.Text)[i]?) ∧
      ctx2.ArgV.map Arg.Quoted = ctx1.ArgV.map Arg.Quoted := by
  obtain ⟨ctx1, ctx2, h1, h2, h3, h4⟩ := round_trip_parse s off1 off2 hA hG
  exact ⟨ctx1, ctx2, h1, h2, h3, fun i => by rw [h4], by rw [h4]⟩

/-- C5 (amended): let `r` be the string built (RemoveEscapes = FALSE) from
the parse of a line `s`.  When `r` meets the two conditions of C4 (the fill
loop run on `r` passes `redirectQuoteStateOK` throughout, and the arguments
parsed from `r` pass `argsReadBack`), parsing `r`, building again and
parsing again gives the same `ArgC`, argument texts and quoted flags as
parsing `r` once. -/
theorem C5_idempotent (s : List Char) (off1 off2 off3 : Nat)
    (hA : ∀ ctx1, YoriShParseCmdlineToCmdContext id s off1 = some ctx1 →
      redirectQuoteRunOK (YoriShBuildCmdlineFromCmdContext ctx1 false).length
        (fillInit (YoriShBuildCmdlineFromCmdContext ctx1 false) 0 false) = true)
    (hG : ∀ ctx1 ctx2, YoriShParseCmdlineToCmdContext id s off1 = some ctx1 →
      YoriShParseCmdlineToCmdContext id (YoriShBuildCmdlineFromCmdContext ctx1 false) off2 =
        some ctx2 →
      argsReadBack ctx2.ArgV = true) :
    ∃ ctx1 ctx2 ctx3, YoriShParseCmdlineToCmdContext id s off1 = some ctx1 ∧
      YoriShParseCmdlineToCmdContext id (YoriShBuildCmdlineFromCmdContext ctx1 false) off2 =
        some ctx2 ∧
      YoriShParseCmdlineToCmdContext id (YoriShBuildCmdlineFromCmdContext ctx2 false) off3 =
        some ctx3 ∧
      ctx3.ArgC = ctx2.ArgC ∧
      ctx3.ArgV.map Arg.Text = ctx2.ArgV.map Arg.Text ∧
      ctx3.ArgV.map Arg.Quoted = ctx2.ArgV.map Arg.Quoted := by
  obtain ⟨sz, _, _, hparse⟩ := parse_eq id s off1
  obtain ⟨ctx2, ctx3, h1, h2, h3, h4⟩ := round_trip_parse _ off2 off3 (hA _ hparse)
    (fun ctx h => hG _ ctx hparse h)
  exact ⟨_, ctx2, ctx3, hparse, h1, h2, h3, by rw [h4], by rw [h4]⟩

/-- C4 witness: the line `dir "my docs"|sort >"out" a^&b`, with a quoted
argument, an operator written without spaces, a redirection to a quoted file
name without spaces and an escape pair, meets both conditions; it parses
into six arguments, and the string built from them parses into the same
six. -/
theorem C4_round_trip_witness :
    redirectQuoteRunOK "dir \"my docs\"|sort >\"out\" a^&b".toList.length
      (fillInit "dir \"my docs\"|sort >\"out\" a^&b".toList 0 false) = true ∧
    (∀ ctx, YoriShParseCmdlineToCmdContext id "dir \"my docs\"|sort >\"out\" a^&b".toList 0 =
      some ctx → argsReadBack ctx.ArgV = true) ∧
    (YoriShParseCmdlineToCmdContext id "dir \"my docs\"|sort >\"out\" a^&b".toList 0).map
      (fun ctx => ctx.ArgV) =
      some [⟨"dir".toList, false⟩, ⟨"my docs".toList, true⟩, ⟨"|".toList, false⟩,
        ⟨"sort".toList, false⟩, ⟨">out".toList, false⟩, ⟨"a^&b".toList, false⟩] ∧
    ∃ ctx1 ctx2,
      YoriShParseCmdlineToCmdContext id "dir \"my docs\"|sort >\"out\" a^&b".toList 0 =
        some ctx1 ∧
      YoriShParseCmdlineToCmdContext id (YoriShBuildCmdlineFromCmdContext ctx1 false) 0 =
        some ctx2 ∧
      ctx2.ArgC = ctx1.ArgC ∧
      (∀ i : Nat, (ctx2.ArgV.map Arg.Text)[i]? = (ctx1.ArgV.map Arg.Text)[i]?) ∧
      ctx2.ArgV.map Arg.Quoted = ctx1.ArgV.map Arg.Quoted :=
  have hG : ∀ ctx,
      YoriShParseCmdlineToCmdContext id "dir \"my docs\"|sort >\"out\" a^&b".toList 0 =
        some ctx → argsReadBack ctx.ArgV = true := fun ctx h => by
    have hp : (YoriShParseCmdlineToCmdContext id
        "dir \"my docs\"|sort >\"out\" a^&b".toList 0).map
        (fun c => argsReadBack c.ArgV) = some true := by decide!
    rw [h] at hp
    exact Option.some.inj hp
  ⟨by decide!, hG, by decide!,
    C4_round_trip "dir \"my docs\"|sort >\"out\" a^&b".toList 0 0 (by decide!) hG⟩

/-- C4 counterexample: the line `a >"b c"` parses into the two arguments
`a` and `>b c`; the string built from them is `a >b c`, which parses into
three arguments.  The line `"a""b"` parses into the text `a"b"`; the string
built from it is `"a"b""`, which parses into the text `ab""`.  The line `"a^`
parses into the text `a^`; the string built from it is `"a^"`, which parses
into the text `a^"`.  The first line does not pass the check
`redirectQuoteRunOK`, the arguments of the other two do not pass
`argsReadBack`. -/
theorem C4_counterexample_round_trip :
    (∃ ctx1 ctx2, YoriShParseCmdlineToCmdContext id "a >\"b c\"".toList 0 = some ctx1 ∧
      YoriShBuildCmdlineFromCmdContext ctx1 false = "a >b c".toList ∧
      YoriShParseCmdlineToCmdContext id (YoriShBuildCmdlineFromCmdContext ctx1 false) 0 =
        some ctx2 ∧
      ctx1.ArgC = 2 ∧ ctx2.ArgC = 3 ∧
      redirectQuoteRunOK "a >\"b c\"".toList.length (fillInit "a >\"b c\"".toList 0 false) =
        false) ∧
    (∃ ctx1 ctx2, YoriShParseCmdlineToCmdContext id "\"a\"\"b\"".toList 0 = some ctx1 ∧
      YoriShParseCmdlineToCmdContext id (YoriShBuildCmdlineFromCmdContext ctx1 false) 0 =
        some ctx2 ∧
      ctx1.ArgV.map Arg.Text = ["a\"b\"".toList] ∧
      ctx2.ArgV.map Arg.Text = ["ab\"\"".toList] ∧
      argsReadBack ctx1.ArgV = false) ∧
    (∃ ctx1 ctx2, YoriShParseCmdlineToCmdContext id "\"a^".toList 0 = some ctx1 ∧
      YoriShBuildCmdlineFromCmdContext ctx1 false = "\"a^\"".toList ∧
      YoriShParseCmdlineToCmdContext id (YoriShBuildCmdlineFromCmdContext ctx1 false) 0 =
        some ctx2 ∧
      ctx1.ArgV.map Arg.Text = ["a^".toList] ∧
      ctx2.ArgV.map Arg.Text = ["a^\"".toList] ∧
      argsReadBack ctx1.ArgV = false) :=
  ⟨⟨⟨2, [⟨"a".toList, false⟩, ⟨">b c".toList, false⟩], 0, false⟩,
    ⟨3, [⟨"a".toList, false⟩, ⟨">b".toList, false⟩, ⟨"c".toList, false⟩], 0, false⟩,
    by decide!, by decide!, by decide!, rfl, rfl, by decide!⟩,
   ⟨⟨1, [⟨"a\"b\"".toList, true⟩], 0, false⟩, ⟨1, [⟨"ab\"\"".toList, true⟩], 0, false⟩,
    by decide!, by decide!, by decide!, by decide!, by decide!⟩,
   ⟨⟨1, [⟨"a^".toList, true⟩], 1, false⟩, ⟨1, [⟨"a^\"".toList, true⟩], 1, false⟩,
    by decide!, by decide!, by decide!, by decide!, by decide!, by decide!⟩⟩

/-- C5 witness: for the line `a >"b c"` the built string `r` is `a >b c`,
which meets both conditions; parsing `r` gives three arguments, and building
and parsing again gives the same three. -/
theorem C5_idempotent_witness :
    (∀ ctx1, YoriShParseCmdlineToCmdContext id "a >\"b c\"".toList 0 = some ctx1 →
      redirectQuoteRunOK (YoriShBuildCmdlineFromCmdContext ctx1 false).length
        (fillInit (YoriShBuildCmdlineFromCmdContext ctx1 false) 0 false) = true) ∧
    (∀ ctx1 ctx2, YoriShParseCmdlineToCmdContext id "a >\"b c\"".toList 0 = some ctx1 →
      YoriShParseCmdlineToCmdContext id (YoriShBuildCmdlineFromCmdContext ctx1 false) 0 =
        some ctx2 →
      argsReadBack ctx2.ArgV = true) ∧
    ((YoriShParseCmdlineToCmdContext id "a >\"b c\"".toList 0).map
      (fun ctx1 => YoriShBuildCmdlineFromCmdContext ctx1 false) = some "a >b c".toList) ∧
    ∃ ctx1 ctx2 ctx3, YoriShParseCmdlineToCmdContext id "a >\"b c\"".toList 0 = some ctx1 ∧
      YoriShParseCmdlineToCmdContext id (YoriShBuildCmdlineFromCmdContext ctx1 false) 0 =
        some ctx2 ∧
      YoriShParseCmdlineToCmdContext id (YoriShBuildCmdlineFromCmdContext ctx2 false) 0 =
        some ctx3 ∧
      ctx3.ArgC = ctx2.ArgC ∧
      ctx3.ArgV.map Arg.Text = ctx2.ArgV.map Arg.Text ∧
      ctx3.ArgV.map Arg.Quoted = ctx2.ArgV.map Arg.Quoted :=
  have hp : YoriShParseCmdlineToCmdContext id "a >\"b c\"".toList 0 =
      some ⟨2, [⟨"a".toList, false⟩, ⟨">b c".toList, false⟩], 0, false⟩ := by decide!
  have hA : ∀ ctx1, YoriShParseCmdlineToCmdContext id "a >\"b c\"".toList 0 = some ctx1 →
      redirectQuoteRunOK (YoriShBuildCmdlineFromCmdContext ctx1 false).length
        (fillInit (YoriShBuildCmdlineFromCmdContext ctx1 false) 0 false) = true :=
    fun ctx1 h => by
      rw [hp] at h
      cases h
      decide!
  have hG : ∀ ctx1 ctx2, YoriShParseCmdlineToCmdContext id "a >\"b c\"".toList 0 = some ctx1 →
      YoriShParseCmdlineToCmdContext id (YoriShBuildCmdlineFromCmdContext ctx1 false) 0 =
        some ctx2 →
      argsReadBack ctx2.ArgV = true := fun ctx1 ctx2 h h2 => by
    rw [hp] at h
    cases h
    have hq : (YoriShParseCmdlineToCmdContext id (YoriShBuildCmdlineFromCmdContext
        ⟨2, [⟨"a".toList, false⟩, ⟨">b c".toList, false⟩], 0, false⟩ false) 0).map
        (fun c => argsReadBack c.ArgV) = some true := by decide!
    rw [h2] at hq
    exact Option.some.inj hq
  ⟨hA, hG, by decide!, C5_idempotent "a >\"b c\"".toList 0 0 0 hA hG⟩

/-- C5 counterexample: the line `"a""b"c` parses into the text `a"b"c`, the
string `r` built from it is `"a"b"c"`; parsing `r` gives the text `ab"c"`,
building again gives `"ab"c""`, and parsing that gives the text `abc""`.  The
line `a>"""` followed by a space parses into `a` and `>"` followed by a
space, the string `r` built from them is `a >"` followed by a space; parsing
`r` gives `a` and `>` followed by a space, and building and parsing again
gives `a` and `>`. -/
theorem C5_counterexample_idempotence :
    (∃ ctx1 ctx2 ctx3, YoriShParseCmdlineToCmdContext id "\"a\"\"b\"c".toList 0 = some ctx1 ∧
      YoriShBuildCmdlineFromCmdContext ctx1 false = "\"a\"b\"c\"".toList ∧
      YoriShParseCmdlineToCmdContext id (YoriShBuildCmdlineFromCmdContext ctx1 false) 0 =
        some ctx2 ∧
      YoriShParseCmdlineToCmdContext id (YoriShBuildCmdlineFromCmdContext ctx2 false) 0 =
        some ctx3 ∧
      ctx2.ArgV.map Arg.Text = ["ab\"c\"".toList] ∧
      ctx3.ArgV.map Arg.Text = ["abc\"\"".toList] ∧
      ctx3.ArgV.map Arg.Text ≠ ctx2.ArgV.map Arg.Text) ∧
    (∃ ctx1 ctx2 ctx3, YoriShParseCmdlineToCmdContext id "a>\"\"\" ".toList 0 = some ctx1 ∧
      YoriShBuildCmdlineFromCmdContext ctx1 false = "a >\" ".toList ∧
      YoriShParseCmdlineToCmdContext id (YoriShBuildCmdlineFromCmdContext ctx1 false) 0 =
        some ctx2 ∧
      YoriShParseCmdlineToCmdContext id (YoriShBuildCmdlineFromCmdContext ctx2 false) 0 =
        some ctx3 ∧
      ctx2.ArgV.map Arg.Text = ["a".toList, "> ".toList] ∧
      ctx3.ArgV.map Arg.Text = ["a".toList, ">".toList] ∧
      ctx3.ArgV.map Arg.Text ≠ ctx2.ArgV.map Arg.Text) :=
  ⟨⟨⟨1, [⟨"a\"b\"c".toList, true⟩], 0, false⟩, ⟨1, [⟨"ab\"c\"".toList, true⟩], 0, false⟩,
    ⟨1, [⟨"abc\"\"".toList, true⟩], 0, false⟩,
    by decide!, by decide!, by decide!, by decide!, by decide!, by decide!, by decide!⟩,
   ⟨⟨2, [⟨"a".toList, false⟩, ⟨">\" ".toList, false⟩], 0, false⟩,
    ⟨2, [⟨"a".toList, false⟩, ⟨"> ".toList, false⟩], 0, false⟩,
    ⟨2, [⟨"a".toList, false⟩, ⟨">".toList, false⟩], 0, true⟩,
    by decide!, by decide!, by decide!, by decide!, by decide!, by decide!, by decide!⟩⟩

theorem skipSeperators_all (n : Nat) (l : List Arg) :
    ∀ (c a : Nat), c + l.length = n →
      ∀ j, c ≤ j → j < (skipSeperators n c a l).1 →
        ∃ x, l[j - c]? = some x ∧ YoriShIsArgumentProgramSeperator x.Text false = true := by
  induction l with
  | nil =>
    intro c a _ j h1 h2
    simp only [skipSeperators] at h2
    omega
  | cons b rest ih =>
    intro c a hn j h1 h2
    have hlt : c < n := by
      simp at hn
      omega
    rw [skipSeperators] at h2
    by_cases hb : YoriShIsArgumentProgramSeperator b.Text false = true
    · simp only [hlt, hb, and_self, if_true] at h2
      by_cases hj : j = c
      · subst hj
        exact ⟨b, by simp, hb⟩
      · obtain ⟨x, hx, hs⟩ := ih (c + 1) c (by simp at hn ⊢; omega) j (by omega) h2
        refine ⟨x, ?_, hs⟩
        have : j - c = (j - (c + 1)) + 1 := by omega
        rw [this, List.getElem?_cons_succ]
        exact hx
    · have hcond : ¬ (c < n ∧ YoriShIsArgumentProgramSeperator b.Text false = true) :=
        fun h => hb h.2
      rw [if_neg hcond] at h2
      simp only at h2
      omega

/-- When arguments remain after an iteration of the main loop, the loop
that steps over separators has advanced from the argument that ended the
program: that argument is unquoted, every argument stepped over has the text
of a separator, and `ArgOfLastOperatorIndex` is the index of the last of
them. -/
theorem planStep_advance (Lib : PathLibrary) (ctx : YORI_SH_CMD_CONTEXT) (s s1 : PlanState)
    (hC : ctx.ArgC = ctx.ArgV.length) (hlt : s.CurrentArg < ctx.ArgC)
    (hstep : planStep Lib ctx s = some s1) (hlt1 : s1.CurrentArg < ctx.ArgC) :
    s.CurrentArg + (YoriShParseCmdContextToExecContext Lib ctx s.CurrentArg).1 <
      s1.CurrentArg ∧
    (ctx.arg (s.CurrentArg +
      (YoriShParseCmdContextToExecContext Lib ctx s.CurrentArg).1)).Quoted = false ∧
    (∀ j, s.CurrentArg + (YoriShParseCmdContextToExecContext Lib ctx s.CurrentArg).1 ≤ j →
      j < s1.CurrentArg → SepAt ctx j) ∧
    s1.ArgOfLastOperatorIndex + 1 = s1.CurrentArg := by
  obtain ⟨c0, node, hexec⟩ : ∃ c0 node,
      YoriShParseCmdContextToExecContext Lib ctx s.CurrentArg = (c0, node) := ⟨_, _, rfl⟩
  have hc0 : c0 ≠ 0 := by
    intro h0
    unfold planStep at hstep
    rw [hexec] at hstep
    simp [h0] at hstep
  rw [planStep_eq Lib ctx s c0 node hexec hc0] at hstep
  have hs1 := (Option.some.inj hstep).symm
  have hb : c0 = boundaryLoop ctx.ArgC s.CurrentArg (ctx.ArgV.drop s.CurrentArg) -
      s.CurrentArg := by
    have := congrArg Prod.fst hexec
    simpa [YoriShParseCmdContextToExecContext] using this.symm
  obtain ⟨b1, b2, b3⟩ := boundaryLoop_spec ctx.ArgC (ctx.ArgV.drop s.CurrentArg) s.CurrentArg
    (by rw [List.length_drop]; omega)
  have hbc : s.CurrentArg + c0 =
      boundaryLoop ctx.ArgC s.CurrentArg (ctx.ArgV.drop s.CurrentArg) := by omega
  have hcons := trailingBackground_consumed ctx s.CurrentArg c0 s.Plan node
  have hfire := trailingBackground_fires ctx s.CurrentArg c0 s.Plan node
  obtain ⟨T, hT⟩ : ∃ T, T = (trailingBackground ctx s.CurrentArg s.Plan node c0).2.2 :=
    ⟨_, rfl⟩
  rw [← hT] at hcons hfire hs1
  have hcur : s1.CurrentArg =
      (skipSeperators ctx.ArgC (s.CurrentArg + T) s.ArgOfLastOperatorIndex
        (ctx.ArgV.drop (s.CurrentArg + T))).1 := by rw [hs1]
  have hop : s1.ArgOfLastOperatorIndex =
      (skipSeperators ctx.ArgC (s.CurrentArg + T) s.ArgOfLastOperatorIndex
        (ctx.ArgV.drop (s.CurrentArg + T))).2 := by rw [hs1]
  have hTle : s.CurrentArg + T ≤ ctx.ArgC := by
    rcases hcons with h | ⟨h, h2⟩ <;> rw [h] <;> omega
  obtain ⟨k1, k2, k3, k4⟩ := skipSeperators_spec ctx.ArgC (ctx.ArgV.drop (s.CurrentArg + T))
    (s.CurrentArg + T) s.ArgOfLastOperatorIndex (by rw [List.length_drop]; omega)
  have hall := skipSeperators_all ctx.ArgC (ctx.ArgV.drop (s.CurrentArg + T))
    (s.CurrentArg + T) s.ArgOfLastOperatorIndex (by rw [List.length_drop]; omega)
  rw [← hcur] at k1 k2 k3 k4 hall
  rw [← hop] at k3 k4
  have hT0 : T = c0 := by
    rcases hcons with h | ⟨h, h2⟩
    · exact h
    · omega
  subst hT0
  rw [hexec]
  dsimp only
  have hblt : boundaryLoop ctx.ArgC s.CurrentArg (ctx.ArgV.drop s.CurrentArg) < ctx.ArgC := by
    omega
  obtain ⟨a, ha, haq, has⟩ := b3 hblt
  have harg : ctx.arg (s.CurrentArg + T) = a := by
    have := arg_of_drop ctx _ _ a ha
    rw [← hbc] at this
    rw [← this]
    congr 1
    omega
  have hadv : s.CurrentArg + T < s1.CurrentArg := by
    by_contra hna
    have heq : s1.CurrentArg = s.CurrentArg + T := by omega
    obtain ⟨_, hhead⟩ := k3 heq
    have hx : (ctx.ArgV.drop (s.CurrentArg + T)).head? = some a := by
      rw [List.head?_eq_getElem?, List.getElem?_drop]
      rw [List.getElem?_drop] at ha
      rw [← ha]
      congr 1
      omega
    have hnf := hhead a hx
    have hlast : s.CurrentArg + T = ctx.ArgC - 1 := by
      by_contra hne
      rw [← hbc] at has
      simp only [hne, decide_False] at has
      rw [has] at hnf
      exact absurd hnf (by decide)
    have hend := progSep_end_only a.Text (progSep_mono _ _ has) hnf
    have hf := hfire hlast (by rw [harg]; exact haq) (by rw [harg]; exact hend)
    omega
  refine ⟨hadv, by rw [harg]; exact haq, fun j hj1 hj2 => ?_, (k4 hadv).1⟩
  obtain ⟨x, hx, hsx⟩ := hall j hj1 hj2
  have := arg_of_drop ctx _ _ x hx
  rw [show s.CurrentArg + T + (j - (s.CurrentArg + T)) = j by omega] at this
  exact ⟨by omega, by rw [this]; exact hsx⟩

theorem planStep_edges (Lib : PathLibrary) (ctx : YORI_SH_CMD_CONTEXT) (s s1 : PlanState)
    (hC : ctx.ArgC = ctx.ArgV.length) (hlt : s.CurrentArg < ctx.ArgC)
    (hinv : PlanEdges ctx s) (hstep : planStep Lib ctx s = some s1) : PlanEdges ctx s1 := by
  obtain ⟨runs, hruns, hedges, hpend⟩ := hinv
  have hadvance := planStep_advance Lib ctx s s1 hC hlt hstep
  obtain ⟨c0, node, hexec⟩ : ∃ c0 node,
      YoriShParseCmdContextToExecContext Lib ctx s.CurrentArg = (c0, node) := ⟨_, _, rfl⟩
  rw [hexec] at hadvance
  dsimp only at hadvance
  have hc0 : c0 ≠ 0 := by
    intro h0
    unfold planStep at hstep
    rw [hexec] at hstep
    simp [h0] at hstep
  have hc0eq : c0 = boundaryLoop ctx.ArgC s.CurrentArg (ctx.ArgV.drop s.CurrentArg) -
      s.CurrentArg := by
    rw [← exec_consumed Lib, hexec]
  have hnode : node.CmdToExec =
      programArgs false ((ctx.ArgV.drop s.CurrentArg).take c0) := by
    have h2 : node = (YoriShParseCmdContextToExecContext Lib ctx s.CurrentArg).2 := by
      rw [hexec]
    have h1 : c0 = (YoriShParseCmdContextToExecContext Lib ctx s.CurrentArg).1 := by
      rw [hexec]
    rw [h2, h1]
    unfold YoriShParseCmdContextToExecContext
    dsimp only
    rw [execLoop_programArgs]
    simp [initialExecContext, zeroExecContext]
  have hbl := boundaryLoop_spec ctx.ArgC (ctx.ArgV.drop s.CurrentArg) s.CurrentArg
    (by simp only [List.length_drop]; omega)
  have hrun : s.CurrentArg + c0 ≤ ctx.ArgC := by
    have := hbl.1
    have := hbl.2.1
    omega
  rw [planStep_eq Lib ctx s c0 node hexec hc0] at hstep
  have hs1 := (Option.some.inj hstep).symm
  obtain ⟨htc, _, _⟩ := trailingBackground_cmd ctx s.CurrentArg c0 s.Plan node
  have hchain : s1.Plan.FirstCmd = linkChain s.Plan.FirstCmd
      (ctx.arg s.ArgOfLastOperatorIndex).Text
      (trailingBackground ctx s.CurrentArg s.Plan node c0).2.1 := by
    rw [hs1]
    dsimp only
    rw [trailingBackground_firstCmd]
  have hmap : s1.Plan.FirstCmd.map (fun n => n.CmdToExec) =
      s.Plan.FirstCmd.map (fun n => n.CmdToExec) ++ [node.CmdToExec] := by
    rw [hchain, linkChain_map_cmd, htc]
  have hlen : runs.length = s.Plan.FirstCmd.length := by
    have := hruns.length_eq
    simpa using this.symm
  refine ⟨runs ++ [(s.CurrentArg, c0)], ?_, ?_, ?_⟩
  · rw [hmap]
    exact forall₂_snoc _ _ _ _ _ hruns ⟨by omega, hrun, hnode⟩
  · intro i nd r r1 hi hr hr1
    by_cases h1 : i + 1 < runs.length
    · rw [List.getElem?_append_left (by omega)] at hr
      rw [List.getElem?_append_left h1] at hr1
      have hnd : s.Plan.FirstCmd[i]? = some nd := by
        rw [hchain] at hi
        by_cases hne : s.Plan.FirstCmd = []
        · have h0 : runs.length = 0 := by rw [hlen, hne]; rfl
          omega
        · obtain ⟨front, last, hfl⟩ : ∃ front last, s.Plan.FirstCmd = front ++ [last] :=
            ⟨_, _, (List.dropLast_append_getLast hne).symm⟩
          rw [hfl] at hi hlen ⊢
          simp only [List.length_append, List.length_cons, List.length_nil] at hlen
          have hlc : linkChain (front ++ [last]) (ctx.arg s.ArgOfLastOperatorIndex).Text
              (trailingBackground ctx s.CurrentArg s.Plan node c0).2.1 =
              front ++ [(linkPrograms (ctx.arg s.ArgOfLastOperatorIndex).Text last
                (trailingBackground ctx s.CurrentArg s.Plan node c0).2.1).1,
                (linkPrograms (ctx.arg s.ArgOfLastOperatorIndex).Text last
                (trailingBackground ctx s.CurrentArg s.Plan node c0).2.1).2] := by
            simp [linkChain]
          rw [hlc, List.getElem?_append_left (by omega)] at hi
          rw [List.getElem?_append_left (by omega)]
          exact hi
      exact hedges i nd r r1 hnd hr hr1
    · have hle := (List.getElem?_eq_some_iff.mp hr1).1
      simp only [List.length_append, List.length_cons, List.length_nil] at hle
      have hi1 : i + 1 = runs.length := by omega
      rw [List.getElem?_append_left (by omega)] at hr
      rw [List.getElem?_append_right (by omega)] at hr1
      simp only [hi1, Nat.sub_self, List.getElem?_cons_zero, Option.some.injEq] at hr1
      subst hr1
      have hne : s.Plan.FirstCmd ≠ [] := by
        intro h
        have h0 : runs.length = 0 := by rw [hlen, h]; rfl
        omega
      obtain ⟨front, last, hfl⟩ : ∃ front last, s.Plan.FirstCmd = front ++ [last] :=
        ⟨_, _, (List.dropLast_append_getLast hne).symm⟩
      have hrl : runs.getLast? = some r := by
        rw [List.getLast?_eq_getElem?]
        rw [← hr]
        congr 1
        omega
      obtain ⟨p1, p2, p3, p4⟩ := hpend r hrl hlt
      rw [hchain, hfl] at hi
      rw [hfl] at hlen
      simp only [List.length_append, List.length_cons, List.length_nil] at hlen
      have hlc : linkChain (front ++ [last]) (ctx.arg s.ArgOfLastOperatorIndex).Text
          (trailingBackground ctx s.CurrentArg s.Plan node c0).2.1 =
          front ++ [(linkPrograms (ctx.arg s.ArgOfLastOperatorIndex).Text last
            (trailingBackground ctx s.CurrentArg s.Plan node c0).2.1).1,
            (linkPrograms (ctx.arg s.ArgOfLastOperatorIndex).Text last
            (trailingBackground ctx s.CurrentArg s.Plan node c0).2.1).2] := by
        simp [linkChain]
      rw [hlc, List.getElem?_append_right (by omega)] at hi
      have hz : i - front.length = 0 := by omega
      rw [hz] at hi
      simp only [List.getElem?_cons_zero, Option.some.injEq] at hi
      subst hi
      have hsep := p3 s.ArgOfLastOperatorIndex (by omega) (by omega)
      refine ⟨p1, p2, p3, ?_⟩
      dsimp only
      rw [show s.CurrentArg - 1 = s.ArgOfLastOperatorIndex by omega]
      exact linkPrograms_kind _ _ _ hsep.2
  · intro r hr hlt1
    simp only [List.getLast?_append, List.getLast?_singleton, Option.or_some,
      Option.some.injEq] at hr
    subst hr
    exact hadvance hlt1

theorem planLoop_edges (Lib : PathLibrary) (ctx : YORI_SH_CMD_CONTEXT)
    (hC : ctx.ArgC = ctx.ArgV.length) (fuel : Nat) :
    ∀ s sf : PlanState, PlanEdges ctx s → planLoop Lib ctx fuel s = some (some sf) →
      PlanEdges ctx sf := by
  induction fuel with
  | zero =>
    intro s sf hinv h
    by_cases hlt : s.CurrentArg < ctx.ArgC
    · rw [planLoop.eq_def] at h
      simp [hlt] at h
    · rw [planLoop_done Lib ctx _ s hlt] at h
      simp only [Option.some.injEq] at h
      exact h ▸ hinv
  | succ fuel ih =>
    intro s sf hinv h
    by_cases hlt : s.CurrentArg < ctx.ArgC
    · cases hstep : planStep Lib ctx s with
      | none =>
        rw [planLoop.eq_def] at h
        simp [hlt, hstep] at h
      | some s1 =>
        rw [planLoop_step Lib ctx fuel s s1 hlt hstep] at h
        exact ih s1 sf (planStep_edges Lib ctx s s1 hC hlt hinv hstep) h
    · rw [planLoop_done Lib ctx _ s hlt] at h
      simp only [Option.some.injEq] at h
      exact h ▸ hinv

/-- In every plan built from a command line, the nodes are built from
consumed runs of the command line, and each node with a successor is linked
to it as `EdgeOK` says. -/
theorem plan_edges (Lib : PathLibrary) (ctx : YORI_SH_CMD_CONTEXT)
    (plan : YORI_SH_EXEC_PLAN) (hC : ctx.ArgC = ctx.ArgV.length)
    (h : YoriShParseCmdContextToExecPlan Lib ctx = some (some plan)) :
    ∃ runs : List (Nat × Nat),
      List.Forall₂ (ProgramRun ctx) (plan.FirstCmd.map (fun n => n.CmdToExec)) runs ∧
      ∀ (i : Nat) (node : YORI_SH_SINGLE_EXEC_CONTEXT) (r r1 : Nat × Nat),
        plan.FirstCmd[i]? = some node → runs[i]? = some r → runs[i + 1]? = some r1 →
        EdgeOK ctx node r r1 := by
  unfold YoriShParseCmdContextToExecPlan at h
  simp only at h
  split at h
  · simp at h
  · simp at h
  · rename_i sf hsf
    simp only [Option.some.injEq] at h
    subst h
    obtain ⟨runs, h1, h2, _⟩ := planLoop_edges Lib ctx hC _ _ sf
      ⟨[], List.Forall₂.nil, fun i nd r r1 _ hr => by simp at hr,
        fun r hr => by simp at hr⟩ hsf
    exact ⟨runs, h1, h2⟩

theorem forall₂_right_mem {α β : Type} (R : α → β → Prop) (l : List α) (m : List β)
    (h : List.Forall₂ R l m) : ∀ b ∈ m, ∃ a, R a b := by
  induction h with
  | nil => intro b hb; simp at hb
  | cons hxy _ ih =>
    intro b hb
    rcases List.mem_cons.mp hb with rfl | hb
    · exact ⟨_, hxy⟩
    · exact ih b hb

/-- C8: what the code does for every plan, and where it leaves the claim.
For every command line (`ArgC` being the number of its arguments) and every
plan built from it, the nodes are built from consumed runs of the command
line, and for each node with a successor: at least one argument stands
between the run of the node and the run of the next program; the first of
these arguments is unquoted; each of them has the text `&`, `&&`, newline,
`|` or `||`; and the node carries the transition kind that the claim's table
gives for the text of the last of them.  So when one argument stands between
the two programs, or when the last argument between them is unquoted, the
kind is that of an unquoted separator, as the claim says.  The line
`build && test || echo fail` gives three nodes with the transitions
ExecOnSuccess and ExecOnFailure.  For the command line `a`, `|`, quoted `&&`,
`b` the plan has the two nodes `a` and `b`, and the first node carries
ExecOnSuccess with its output left at the default, where the unquoted
separator `|` gives ExecConcurrently: the loop that steps over separators
(parse.c 1594-1599) does not test the quoted flag. -/
theorem C8_transition_kinds (Lib : PathLibrary) :
    (∀ (ctx : YORI_SH_CMD_CONTEXT) (plan : YORI_SH_EXEC_PLAN),
      ctx.ArgC = ctx.ArgV.length →
      YoriShParseCmdContextToExecPlan Lib ctx = some (some plan) →
      ∃ runs : List (Nat × Nat),
        List.Forall₂ (ProgramRun ctx) (plan.FirstCmd.map (fun n => n.CmdToExec)) runs ∧
        ∀ (i : Nat) (node : YORI_SH_SINGLE_EXEC_CONTEXT) (r r1 : Nat × Nat),
          plan.FirstCmd[i]? = some node → runs[i]? = some r → runs[i + 1]? = some r1 →
          r.1 + r.2 < r1.1 ∧ r1.1 ≤ ctx.ArgC ∧
          (ctx.arg (r.1 + r.2)).Quoted = false ∧
          (∀ j, r.1 + r.2 ≤ j → j < r1.1 →
            (ctx.arg j).Text ∈ [['&'], ['&', '&'], ['\n'], ['|'], ['|', '|']]) ∧
          node.NextProgramType = transitionOf (ctx.arg (r1.1 - 1)).Text ∧
          (r1.1 = r.1 + r.2 + 1 →
            node.NextProgramType = transitionOf (ctx.arg (r.1 + r.2)).Text)) ∧
    (∃ ctx plan n1 n2 n3,
      YoriShParseCmdlineToCmdContext id "build && test || echo fail".toList 0 = some ctx ∧
      YoriShParseCmdContextToExecPlan Lib ctx = some (some plan) ∧
      plan.FirstCmd = [n1, n2, n3] ∧
      n1.NextProgramType = .ExecOnSuccess ∧ n2.NextProgramType = .ExecOnFailure) ∧
    ((YoriShParseCmdlineToCmdContext id "a | \"&&\" b".toList 0).map (fun ctx => ctx.ArgV) =
      some [⟨['a'], false⟩, ⟨['|'], false⟩, ⟨['&', '&'], true⟩, ⟨['b'], false⟩] ∧
     (YoriShParseCmdContextToExecPlan ⟨fun _ => false, fun s => '/' :: s⟩
        ⟨4, [⟨['a'], false⟩, ⟨['|'], false⟩, ⟨['&', '&'], true⟩, ⟨['b'], false⟩], 0,
          false⟩).bind
        (fun r => r.map (fun plan => plan.FirstCmd.map
          (fun n => (n.CmdToExec, n.NextProgramType, n.StdOutType)))) =
      some [([⟨['a'], false⟩], NextProgramType.ExecOnSuccess, StdOutType.Default),
            ([⟨['b'], false⟩], NextProgramType.Zero, StdOutType.Default)] ∧
     transitionOf ['|'] = NextProgramType.ExecConcurrently) := by
  refine ⟨?_, ?_, by decide!, by decide!, by decide⟩
  · intro ctx plan hC hp
    obtain ⟨runs, h1, h2⟩ := plan_edges Lib ctx plan hC hp
    refine ⟨runs, h1, fun i node r r1 hi hr hr1 => ?_⟩
    obtain ⟨e1, e2, e3, e4⟩ := h2 i node r r1 hi hr hr1
    have hmem : r1 ∈ runs := List.mem_iff_getElem?.mpr ⟨i + 1, hr1⟩
    have hle : r1.1 ≤ ctx.ArgC := by
      obtain ⟨x, _, hx2, _⟩ := forall₂_right_mem _ _ _ h1 r1 hmem
      omega
    refine ⟨e1, hle, e2, fun j hj1 hj2 => ?_, e4, fun h1 => ?_⟩
    · have := (e3 j hj1 hj2).2
      rw [progSep_exact] at this
      simpa using this
    · rw [e4, h1, Nat.add_sub_cancel]
  · obtain ⟨ctx, h1, h2, h3⟩ := parse_tokens "build".toList
      ["&&".toList, "test".toList, "||".toList, "echo".toList, "fail".toList] 0
      (by decide) (by decide)
    have hline : "build".toList ++ spaced
        ["&&".toList, "test".toList, "||".toList, "echo".toList, "fail".toList] =
        "build && test || echo fail".toList := by decide
    rw [hline] at h1
    have hC : ctx.ArgC = ctx.ArgV.length := by
      rw [h2, h3]
      rfl
    have hV : ctx.ArgV = segArgs
        [(["build".toList].map (fun t => (⟨t, false⟩ : Arg)), [⟨"&&".toList, false⟩]),
         (["test".toList].map (fun t => (⟨t, false⟩ : Arg)), [⟨"||".toList, false⟩])] ++
        (["echo".toList, "fail".toList].map (fun t => (⟨t, false⟩ : Arg)) ++ []) := by
      rw [h3]
      rfl
    obtain ⟨plan, hp, hlen, hk⟩ := transition_kinds Lib ctx _ _ [] hC hV (Or.inl rfl)
      (by
        intro sg hsg
        simp only [List.mem_cons, List.mem_singleton, List.not_mem_nil, or_false] at hsg
        rcases hsg with rfl | rfl
        · exact ⟨runOK_words _ [] (by decide) (by simp), blockOK_single _ (by decide)⟩
        · exact ⟨runOK_words _ [] (by decide) (by simp), blockOK_single _ (by decide)⟩)
      (runOK_words _ _ (by decide) (by decide))
    obtain ⟨_, nd1, g1, k1⟩ := hk 0 _ rfl
    obtain ⟨_, nd2, g2, k2⟩ := hk 1 _ rfl
    have hl3 : plan.FirstCmd.length = 3 := hlen
    obtain ⟨a, b, c, hfc⟩ := List.length_eq_three.mp hl3
    rw [hfc] at g1 g2
    simp only [List.getElem?_cons_zero, List.getElem?_cons_succ, Option.some.injEq] at g1 g2
    subst g1 g2
    exact ⟨ctx, plan, a, b, c, h1, hp, hfc, k1, k2⟩

/-- C8 witness: the command line `a | b && c` (five arguments) gives three
nodes with the transitions ExecConcurrently and ExecOnSuccess, built from
three runs with one unquoted separator between each two. -/
theorem C8_transition_kinds_witness :
    ∃ (plan : YORI_SH_EXEC_PLAN) (runs : List (Nat × Nat)),
      YoriShParseCmdContextToExecPlan ⟨fun _ => false, fun s => '/' :: s⟩
        ⟨5, [⟨['a'], false⟩, ⟨['|'], false⟩, ⟨['b'], false⟩, ⟨['&', '&'], false⟩,
          ⟨['c'], false⟩], 0, false⟩ = some (some plan) ∧
      plan.FirstCmd.map (fun n => n.NextProgramType) =
        [NextProgramType.ExecConcurrently, NextProgramType.ExecOnSuccess,
          NextProgramType.Zero] ∧
      List.Forall₂ (ProgramRun ⟨5, [⟨['a'], false⟩, ⟨['|'], false⟩, ⟨['b'], false⟩,
          ⟨['&', '&'], false⟩, ⟨['c'], false⟩], 0, false⟩)
        (plan.FirstCmd.map (fun n => n.CmdToExec)) runs ∧
      ∀ (i : Nat) (node : YORI_SH_SINGLE_EXEC_CONTEXT) (r r1 : Nat × Nat),
        plan.FirstCmd[i]? = some node → runs[i]? = some r → runs[i + 1]? = some r1 →
        r.1 + r.2 < r1.1 ∧ r1.1 ≤ 5 ∧
        ((⟨5, [⟨['a'], false⟩, ⟨['|'], false⟩, ⟨['b'], false⟩, ⟨['&', '&'], false⟩,
          ⟨['c'], false⟩], 0, false⟩ : YORI_SH_CMD_CONTEXT).arg (r.1 + r.2)).Quoted = false ∧
        (∀ j, r.1 + r.2 ≤ j → j < r1.1 →
          ((⟨5, [⟨['a'], false⟩, ⟨['|'], false⟩, ⟨['b'], false⟩, ⟨['&', '&'], false⟩,
            ⟨['c'], false⟩], 0, false⟩ : YORI_SH_CMD_CONTEXT).arg j).Text ∈
            [['&'], ['&', '&'], ['\n'], ['|'], ['|', '|']]) ∧
        node.NextProgramType = transitionOf
          ((⟨5, [⟨['a'], false⟩, ⟨['|'], false⟩, ⟨['b'], false⟩, ⟨['&', '&'], false⟩,
            ⟨['c'], false⟩], 0, false⟩ : YORI_SH_CMD_CONTEXT).arg (r1.1 - 1)).Text ∧
        (r1.1 = r.1 + r.2 + 1 →
          node.NextProgramType = transitionOf
            ((⟨5, [⟨['a'], false⟩, ⟨['|'], false⟩, ⟨['b'], false⟩, ⟨['&', '&'], false⟩,
              ⟨['c'], false⟩], 0, false⟩ : YORI_SH_CMD_CONTEXT).arg (r.1 + r.2)).Text) := by
  have hplan : (YoriShParseCmdContextToExecPlan ⟨fun _ => false, fun s => '/' :: s⟩
        ⟨5, [⟨['a'], false⟩, ⟨['|'], false⟩, ⟨['b'], false⟩, ⟨['&', '&'], false⟩,
          ⟨['c'], false⟩], 0, false⟩).bind
        (fun r => r.map (fun plan => plan.FirstCmd.map (fun n => n.NextProgramType))) =
      some [NextProgramType.ExecConcurrently, NextProgramType.ExecOnSuccess,
        NextProgramType.Zero] := by
    decide!
  cases hP : YoriShParseCmdContextToExecPlan ⟨fun _ => false, fun s => '/' :: s⟩
        ⟨5, [⟨['a'], false⟩, ⟨['|'], false⟩, ⟨['b'], false⟩, ⟨['&', '&'], false⟩,
          ⟨['c'], false⟩], 0, false⟩ with
  | none =>
    rw [hP] at hplan
    simp at hplan
  | some r =>
    cases r with
    | none =>
      rw [hP] at hplan
      simp at hplan
    | some plan =>
      rw [hP] at hplan
      obtain ⟨runs, h1, h2⟩ :=
        (C8_transition_kinds ⟨fun _ => false, fun s => '/' :: s⟩).1 _ plan rfl hP
      exact ⟨plan, runs, rfl, by simpa using hplan, h1, h2⟩

end Yori
